import Mathlib

/-!
# bustub: buffer pool, extendible hash index and lock manager

A shallow embedding of the storage and concurrency core of the repository
(`src/buffer`, `src/container/hash`, `src/storage/page`, `src/concurrency`)
together with theorems about it.

Conventions of the embedding.

* `page_id_t` is `Int`; `frame_id_t` is `Nat` (the C++ value `-1` is only used
  as the "no frame" sentinel, which is `none` here).  32-bit wrap-around of
  `next_page_id_` is not modelled.
* `pages_` (the frame array) is a function from frame ids to `Page`; only the
  frame ids below `pool_size` are frames of the pool.
* `page_table_` (a `std::unordered_map`) is an association list with
  first-match lookup.
* The disk manager is a total map from page ids to page bytes.
* Mutexes and latches are not modelled: every public operation runs under one
  lock, so it is a function from state to result and state.
-/


namespace bustub

/-! ## Buffer pool: data model -/

/-- The sentinel `INVALID_PAGE_ID` of `common/config.h`. -/
def INVALID_PAGE_ID : Int := -1

/-- Modelled from the spec: the class `Page` of `storage/page/page.h` is not among the sources.
A frame: its bytes and the metadata the buffer pool keeps (page id, pin count, dirty flag). -/
structure Page where
  data : List Nat
  page_id : Int
  pin_count : Int
  is_dirty : Bool
  deriving DecidableEq

/-- `Page::ResetMemory`: zero the `PAGE_SIZE` bytes of a frame. -/
def ResetMemory (PAGE_SIZE : Nat) : List Nat := List.replicate PAGE_SIZE 0

/-! ## LRU replacer (`buffer/lru_replacer.cpp`) -/

/-- `LRUReplacer`: `lru_list_` is the eviction order (front = next victim).  `lru_map_`
maps each member of the list to its list position, so membership in the map is
membership in the list. -/
structure LRUReplacer where
  lru_list : List Nat
  deriving DecidableEq

/-- `LRUReplacer::Victim`: `none` when the map is empty, else the front of the list, which is removed. -/
def LRUReplacer.Victim (r : LRUReplacer) : Option Nat × LRUReplacer :=
  match r.lru_list with
  | [] => (none, r)
  | f :: rest => (some f, { lru_list := rest })

/-- `LRUReplacer::Pin`: remove the frame when it is present. -/
def LRUReplacer.Pin (r : LRUReplacer) (frame_id : Nat) : LRUReplacer :=
  if frame_id ∈ r.lru_list then { lru_list := r.lru_list.erase frame_id } else r

/-- `LRUReplacer::Unpin`: no-op when the frame is present, else append it at the back. -/
def LRUReplacer.Unpin (r : LRUReplacer) (frame_id : Nat) : LRUReplacer :=
  if frame_id ∈ r.lru_list then r else { lru_list := r.lru_list ++ [frame_id] }

/-- `LRUReplacer::Size`. -/
def LRUReplacer.Size (r : LRUReplacer) : Nat := r.lru_list.length

/-! ## Page table -/

/-- `page_table_.find(page_id)`: the frame recorded for a page id, if any. -/
def ptFind : List (Int × Nat) → Int → Option Nat
  | [], _ => none
  | (q, f) :: rest, p => if q = p then some f else ptFind rest p

/-- `page_table_.erase(page_id)`. -/
def ptErase (pt : List (Int × Nat)) (p : Int) : List (Int × Nat) :=
  pt.filter (fun e => decide (e.1 ≠ p))

/-- `page_table_[page_id] = frame_id`. -/
def ptAssign (pt : List (Int × Nat)) (p : Int) (f : Nat) : List (Int × Nat) :=
  (p, f) :: ptErase pt p

/-! ## Buffer pool manager instance (`buffer/buffer_pool_manager_instance.cpp`) -/

/-- State of a `BufferPoolManagerInstance`, with the disk it writes to.
`PAGE_SIZE` is the constant of `common/config.h`, taken as a parameter.  `next_page_id` is an
unbounded integer where the source has a 32-bit counter (see `AllocatePage`). -/
structure BufferPoolManagerInstance where
  PAGE_SIZE : Nat
  pool_size : Nat
  num_instances : Nat
  instance_index : Nat
  next_page_id : Int
  pages : Nat → Page
  page_table : List (Int × Nat)
  free_list : List Nat
  replacer : LRUReplacer
  disk : Int → List Nat

/-- The constructor: every frame is free, holds no page, is clean and unpinned; the
page table and the replacer are empty; `next_page_id_` starts at `instance_index`. -/
def BufferPoolManagerInstance.new (PAGE_SIZE pool_size num_instances instance_index : Nat)
    (disk : Int → List Nat) : BufferPoolManagerInstance :=
  { PAGE_SIZE := PAGE_SIZE
    pool_size := pool_size
    num_instances := num_instances
    instance_index := instance_index
    next_page_id := (instance_index : Int)
    pages := fun _ =>
      { data := ResetMemory PAGE_SIZE, page_id := INVALID_PAGE_ID, pin_count := 0, is_dirty := false }
    page_table := []
    free_list := List.range pool_size
    replacer := { lru_list := [] }
    disk := disk }

/-- `DiskManager::WritePage`. -/
def WritePage (disk : Int → List Nat) (page_id : Int) (data : List Nat) : Int → List Nat :=
  Function.update disk page_id data

/-- `DiskManager::ReadPage`. -/
def ReadPage (disk : Int → List Nat) (page_id : Int) : List Nat := disk page_id

/-- `ValidatePageId`: the condition of its assertion. -/
def BufferPoolManagerInstance.ValidatePageId (s : BufferPoolManagerInstance) (page_id : Int) : Bool :=
  decide (page_id % (s.num_instances : Int) = (s.instance_index : Int))

/-- The value a 32-bit `page_id_t` holds for the integer `x`: `x` taken modulo 2^32 into the
range from -2^31 to 2^31 - 1. -/
def wrapPageId (x : Int) : Int := (x + 2147483648) % 4294967296 - 2147483648

/-- `AllocatePage`: hand out `next_page_id_` and advance it by `num_instances_`.  The counter
of the source is a 32-bit `std::atomic<page_id_t>`, which wraps around; here it is an unbounded
integer, so the definition follows the source as long as the counter stays at most
2147483647 (2^31 - 1). -/
def BufferPoolManagerInstance.AllocatePage (s : BufferPoolManagerInstance) :
    Int × BufferPoolManagerInstance :=
  (s.next_page_id, { s with next_page_id := s.next_page_id + (s.num_instances : Int) })

/-- `FlushPgImp`. -/
def BufferPoolManagerInstance.FlushPgImp (s : BufferPoolManagerInstance) (page_id : Int) :
    Bool × BufferPoolManagerInstance :=
  match ptFind s.page_table page_id with
  | none => (false, s)
  | some id =>
    let page := s.pages id
    (true, { s with
      pages := Function.update s.pages id { page with is_dirty := false }
      disk := WritePage s.disk page_id page.data })

/-- `FlushAllPgsImp`: write every entry of the page table, whatever its dirty flag. -/
def BufferPoolManagerInstance.FlushAllPgsImp (s : BufferPoolManagerInstance) :
    BufferPoolManagerInstance :=
  { s with
    disk := s.page_table.foldl (fun d e => WritePage d e.1 (s.pages e.2).data) s.disk }

/-- `NewPgImp`: the result is the frame handed out and the page id written to `*page_id`,
or `none` for `nullptr`. -/
def BufferPoolManagerInstance.NewPgImp (s : BufferPoolManagerInstance) :
    Option (Nat × Int) × BufferPoolManagerInstance :=
  let picked : Option (Nat × BufferPoolManagerInstance) :=
    match s.free_list with
    | frameid :: rest => some (frameid, { s with free_list := rest })
    | [] =>
      match s.replacer.Victim with
      | (some frameid, r) =>
        let page := s.pages frameid
        some (frameid, { s with
          replacer := r
          disk := if page.is_dirty then WritePage s.disk page.page_id page.data else s.disk
          page_table := ptErase s.page_table page.page_id })
      | (none, _) => none
  match picked with
  | some (frameid, s1) =>
    let (page_id, s2) := s1.AllocatePage
    (some (frameid, page_id), { s2 with
      pages := Function.update s2.pages frameid
        { data := ResetMemory s2.PAGE_SIZE, page_id := page_id, pin_count := 1, is_dirty := false }
      page_table := ptAssign s2.page_table page_id frameid
      replacer := s2.replacer.Pin frameid })
  | none => (none, s)

/-- `FetchPgImp`: the result is the frame holding the page, or `none` for `nullptr`. -/
def BufferPoolManagerInstance.FetchPgImp (s : BufferPoolManagerInstance) (page_id : Int) :
    Option Nat × BufferPoolManagerInstance :=
  match ptFind s.page_table page_id with
  | some frameid =>
    let page := s.pages frameid
    (some frameid, { s with
      pages := Function.update s.pages frameid { page with pin_count := page.pin_count + 1 }
      replacer := s.replacer.Pin frameid })
  | none =>
    let picked : Option (Nat × BufferPoolManagerInstance) :=
      match s.free_list with
      | frameid :: rest => some (frameid, { s with free_list := rest })
      | [] =>
        match s.replacer.Victim with
        | (some frameid, r) =>
          let page := s.pages frameid
          some (frameid, { s with
            replacer := r
            disk := if page.is_dirty then WritePage s.disk page.page_id page.data else s.disk
            pages := if page.is_dirty
              then Function.update s.pages frameid { page with is_dirty := false } else s.pages
            page_table := ptErase s.page_table page.page_id })
        | (none, _) => none
    match picked with
    | some (frameid, s1) =>
      (some frameid, { s1 with
        pages := Function.update s1.pages frameid
          { data := ReadPage s1.disk page_id, page_id := page_id, pin_count := 1, is_dirty := false }
        page_table := ptAssign s1.page_table page_id frameid
        replacer := s1.replacer.Pin frameid })
    | none => (none, s)

/-- `DeletePgImp` (`DeallocatePage` does nothing). -/
def BufferPoolManagerInstance.DeletePgImp (s : BufferPoolManagerInstance) (page_id : Int) :
    Bool × BufferPoolManagerInstance :=
  match ptFind s.page_table page_id with
  | none => (true, s)
  | some frameid =>
    let page := s.pages frameid
    if page.pin_count > 0 then (false, s)
    else
      (true, { s with
        disk := if page.is_dirty then WritePage s.disk page_id page.data else s.disk
        replacer := s.replacer.Pin frameid
        page_table := ptErase s.page_table page_id
        pages := Function.update s.pages frameid
          { data := ResetMemory s.PAGE_SIZE, page_id := INVALID_PAGE_ID, pin_count := 0,
            is_dirty := false }
        free_list := s.free_list ++ [frameid] })

/-- `UnpinPgImp`. -/
def BufferPoolManagerInstance.UnpinPgImp (s : BufferPoolManagerInstance) (page_id : Int)
    (is_dirty : Bool) : Bool × BufferPoolManagerInstance :=
  match ptFind s.page_table page_id with
  | none => (false, s)
  | some frameid =>
    let page := s.pages frameid
    if page.pin_count ≤ 0 then (false, s)
    else
      let page1 : Page :=
        { page with
          is_dirty := if is_dirty then is_dirty else page.is_dirty
          pin_count := page.pin_count - 1 }
      (true, { s with
        pages := Function.update s.pages frameid page1
        replacer := if page1.pin_count ≤ 0 then s.replacer.Unpin frameid else s.replacer })

/-- A client writes bytes through the `Page*` it got from `NewPage` or `FetchPage`. -/
def BufferPoolManagerInstance.WriteData (s : BufferPoolManagerInstance) (frameid : Nat)
    (bytes : List Nat) : BufferPoolManagerInstance :=
  { s with pages := Function.update s.pages frameid { s.pages frameid with data := bytes } }

/-- States a client can reach from a freshly constructed pool through the public operations,
writing page bytes only into frames it has pinned. -/
inductive Reachable : BufferPoolManagerInstance → Prop
  | init (PAGE_SIZE pool_size num_instances instance_index : Nat) (disk : Int → List Nat)
      (hn : 0 < num_instances) (hi : instance_index < num_instances) :
      Reachable (BufferPoolManagerInstance.new PAGE_SIZE pool_size num_instances instance_index disk)
  | newPage {s} : Reachable s → Reachable s.NewPgImp.2
  | fetchPage {s} (page_id : Int) : Reachable s → Reachable (s.FetchPgImp page_id).2
  | unpinPage {s} (page_id : Int) (is_dirty : Bool) :
      Reachable s → Reachable (s.UnpinPgImp page_id is_dirty).2
  | flushPage {s} (page_id : Int) : Reachable s → Reachable (s.FlushPgImp page_id).2
  | flushAllPages {s} : Reachable s → Reachable s.FlushAllPgsImp
  | deletePage {s} (page_id : Int) : Reachable s → Reachable (s.DeletePgImp page_id).2
  | writeData {s} (frameid : Nat) (bytes : List Nat) :
      0 < (s.pages frameid).pin_count → Reachable s → Reachable (s.WriteData frameid bytes)

/-! ## Buffer pool: invariant, properties asked of it, example states -/

/-- Bookkeeping invariant of the pool, on the components it constrains. -/
structure PoolInv (pool_size : Nat) (pages : Nat → Page) (pt : List (Int × Nat))
    (free : List Nat) (repl : List Nat) : Prop where
  free_nodup : free.Nodup
  repl_nodup : repl.Nodup
  free_lt : ∀ f ∈ free, f < pool_size
  repl_lt : ∀ f ∈ repl, f < pool_size
  pt_lt : ∀ p f, ptFind pt p = some f → f < pool_size
  free_pin : ∀ f ∈ free, (pages f).pin_count = 0
  repl_pin : ∀ f ∈ repl, (pages f).pin_count = 0
  pt_free : ∀ p f, ptFind pt p = some f → f ∉ free
  repl_free : ∀ f ∈ repl, f ∉ free
  pt_pid : ∀ p f, ptFind pt p = some f → (pages f).page_id = p
  pin_nonneg : ∀ f, 0 ≤ (pages f).pin_count
  free_pid : ∀ f ∈ free, (pages f).page_id = INVALID_PAGE_ID

/-- The bookkeeping invariant of a pool state. -/
def Inv (s : BufferPoolManagerInstance) : Prop :=
  PoolInv s.pool_size s.pages s.page_table s.free_list s.replacer.lru_list

/-- The frames behind the first occurrence of `f` in an eviction order. -/
def framesAfter (f : Nat) : List Nat → List Nat
  | [] => []
  | x :: rest => if x = f then rest else framesAfter f rest

/-- Order invariant of the replacer, on the components it constrains: no frame behind the
frame the page table records for page `p` carries page id `p`. -/
def LruOrderC (pages : Nat → Page) (pt : List (Int × Nat)) (repl : List Nat) : Prop :=
  ∀ p f, ptFind pt p = some f → ∀ g ∈ framesAfter f repl, (pages g).page_id ≠ p

/-- The order invariant of a pool state. -/
def LruOrder (s : BufferPoolManagerInstance) : Prop :=
  LruOrderC s.pages s.page_table s.replacer.lru_list

/-- Pool of one frame (pages of 4 bytes, zeroed disk) after one `NewPage`. -/
def poolOneAfterNew : BufferPoolManagerInstance :=
  (BufferPoolManagerInstance.new 4 1 1 0 (fun _ => ResetMemory 4)).NewPgImp.2

/-- What C2 asks of one call taking the pool from `s` to `t`: every frame pinned in `s` keeps
its page id, its bytes and the page-table entry of its page id. -/
def PinnedFramesUntouched (s t : BufferPoolManagerInstance) : Prop :=
  ∀ g, g < s.pool_size → 0 < (s.pages g).pin_count →
    (t.pages g).page_id = (s.pages g).page_id ∧ (t.pages g).data = (s.pages g).data ∧
      ptFind t.page_table (s.pages g).page_id = ptFind s.page_table (s.pages g).page_id

/-- The frame the next eviction takes: the front of the replacer when the free list is empty. -/
def NextVictim (s : BufferPoolManagerInstance) : Option Nat :=
  match s.free_list with
  | _ :: _ => none
  | [] => s.replacer.lru_list.head?

/-- Pool of two frames (pages of 4 bytes, zeroed disk) after `FetchPage(0)` on the fresh pool. -/
def poolTwoAfterFetch : BufferPoolManagerInstance :=
  ((BufferPoolManagerInstance.new 4 2 1 0 (fun _ => ResetMemory 4)).FetchPgImp 0).2

/-- What C10 asks of `NewPage` in state `s`. -/
def NewPagePostcondition (s : BufferPoolManagerInstance) : Prop :=
  (s.free_list ≠ [] ∨ s.replacer.lru_list ≠ []) →
    ∃ f id t, s.NewPgImp = (some (f, id), t) ∧ id = s.next_page_id ∧
      (t.pages f).page_id = id ∧ (t.pages f).pin_count = 1 ∧ (t.pages f).is_dirty = false ∧
      (t.pages f).data = List.replicate s.PAGE_SIZE 0 ∧
      ptFind t.page_table id = some f ∧ f ∉ t.replacer.lru_list ∧
      ((s.pages f).page_id ≠ INVALID_PAGE_ID → ptFind t.page_table (s.pages f).page_id = none)

/-- Pool of one frame after `FetchPage(0)` and `UnpinPage(0, false)` on the fresh pool. -/
def poolOneFetchedUnpinned : BufferPoolManagerInstance :=
  ((((BufferPoolManagerInstance.new 4 1 1 0 (fun _ => ResetMemory 4)).FetchPgImp 0).2).UnpinPgImp
    0 false).2

/-- Pool of one frame after `NewPage` and `UnpinPage(0, true)`. -/
def poolOneNewUnpinned : BufferPoolManagerInstance :=
  (poolOneAfterNew.UnpinPgImp 0 true).2

/-- The pool goes from `s` to `t` by public operations and client writes, none of which is a
successful `FetchPage(p)`. -/
inductive RunsWithoutFetching (p : Int) :
    BufferPoolManagerInstance → BufferPoolManagerInstance → Prop
  | refl (s) : RunsWithoutFetching p s s
  | newPage {s t} : RunsWithoutFetching p s t → RunsWithoutFetching p s t.NewPgImp.2
  | fetchPage {s t} (q : Int) : (q ≠ p ∨ (t.FetchPgImp q).1 = none) →
      RunsWithoutFetching p s t → RunsWithoutFetching p s (t.FetchPgImp q).2
  | unpinPage {s t} (q : Int) (is_dirty : Bool) :
      RunsWithoutFetching p s t → RunsWithoutFetching p s (t.UnpinPgImp q is_dirty).2
  | flushPage {s t} (q : Int) :
      RunsWithoutFetching p s t → RunsWithoutFetching p s (t.FlushPgImp q).2
  | flushAllPages {s t} : RunsWithoutFetching p s t → RunsWithoutFetching p s t.FlushAllPgsImp
  | deletePage {s t} (q : Int) :
      RunsWithoutFetching p s t → RunsWithoutFetching p s (t.DeletePgImp q).2
  | writeData {s t} (frameid : Nat) (bytes : List Nat) : 0 < (t.pages frameid).pin_count →
      RunsWithoutFetching p s t → RunsWithoutFetching p s (t.WriteData frameid bytes)

/-- The frame `f` that holds page `p` in `s` is handed out again by a `NewPage` or by a
`FetchPage` of another page, which leaves the pool in state `t`. -/
def FrameReusedBy (s : BufferPoolManagerInstance) (p : Int) (f : Nat)
    (t : BufferPoolManagerInstance) : Prop :=
  (∃ id, s.NewPgImp = (some (f, id), t)) ∨ ∃ q, q ≠ p ∧ s.FetchPgImp q = (some f, t)

/-- What C3 asks of page `p` in state `s`. -/
def EvictRefetchRoundTrip (s : BufferPoolManagerInstance) (p : Int) : Prop :=
  ∀ f D, ptFind s.page_table p = some f → (s.pages f).pin_count = 0 → (s.pages f).data = D →
    ((s.pages f).is_dirty = true ∨ s.disk p = D) →
    ∀ s1, FrameReusedBy s p f s1 → ∀ s2, RunsWithoutFetching p s1 s2 →
      ∀ g s3, s2.FetchPgImp p = (some g, s3) → (s3.pages g).data = D

/-- Page `p` is not in the pool, no frame of the replacer carries its id, the disk stores `D`
for it and `NewPage` will not issue `p` again. -/
structure Evicted (p : Int) (D : List Nat) (t : BufferPoolManagerInstance) : Prop where
  inv : Inv t
  absent : ptFind t.page_table p = none
  stored : t.disk p = D
  nowhere : ∀ g ∈ t.replacer.lru_list, (t.pages g).page_id ≠ p
  issued : p < t.next_page_id

/-- Pool of one frame after `FetchPage(0)`, a client write of four bytes `0x41` and
`UnpinPage(0, true)`. -/
def poolOneFetchWriteUnpin : BufferPoolManagerInstance :=
  (((((BufferPoolManagerInstance.new 4 1 1 0 (fun _ => ResetMemory 4)).FetchPgImp 0).2).WriteData
    0 [65, 65, 65, 65]).UnpinPgImp 0 true).2

/-- Pool of two frames after `NewPage` (page 0), a client write of four bytes `0x41`,
`UnpinPage(0, true)` and a second `NewPage` (page 1). -/
def poolTwoScenario : BufferPoolManagerInstance :=
  ((((((BufferPoolManagerInstance.new 4 2 1 0 (fun _ => ResetMemory 4)).NewPgImp.2).WriteData
    0 [65, 65, 65, 65]).UnpinPgImp 0 true).2).NewPgImp).2

/-! ## Lock manager (`concurrency/lock_manager.cpp`) -/

/-- Modelled from the spec: `LockMode` of `concurrency/lock_manager.h` is not among the sources. -/
inductive LockMode where
  | SHARED
  | EXCLUSIVE
  deriving DecidableEq

/-- Modelled from the spec: `TransactionState` of `concurrency/transaction.h` is not among the sources. -/
inductive TransactionState where
  | GROWING
  | SHRINKING
  | COMMITTED
  | ABORTED
  deriving DecidableEq

/-- Modelled from the spec: `IsolationLevel` of `concurrency/transaction.h` is not among the sources. -/
inductive IsolationLevel where
  | READ_UNCOMMITTED
  | REPEATABLE_READ
  | READ_COMMITTED
  deriving DecidableEq

/-- Modelled from the spec: `AbortReason` of `concurrency/transaction.h` is not among the sources;
these are the reasons the spec names. -/
inductive AbortReason where
  | LOCK_ON_SHRINKING
  | DEADLOCK
  | LOCKSHARED_ON_READ_UNCOMMITTED
  deriving DecidableEq

/-- Modelled from the spec: `LockRequest` of `concurrency/lock_manager.h` is not among the sources.
A request is a transaction id, a mode and the granted flag (initially false). -/
structure LockRequest where
  txn_id : Nat
  lock_mode : LockMode
  granted : Bool
  deriving DecidableEq

/-- Modelled from the spec: `Transaction` of `concurrency/transaction.h` is not among the sources.
The transaction id is the key under which the transaction is registered; row ids are opaque
and taken as natural numbers; the two lock sets are duplicate-free lists. -/
structure Transaction where
  isolation_level : IsolationLevel
  state : TransactionState
  shared_lock_set : List Nat
  exclusive_lock_set : List Nat
  deriving DecidableEq

/-- `Transaction::SetState`. -/
def Transaction.SetState (t : Transaction) (st : TransactionState) : Transaction :=
  { t with state := st }

/-- `std::unordered_set::emplace` on a lock set. -/
def lockSetEmplace (set : List Nat) (rid : Nat) : List Nat :=
  if rid ∈ set then set else set ++ [rid]

/-- `std::unordered_set::erase` on a lock set. -/
def lockSetErase (set : List Nat) (rid : Nat) : List Nat :=
  set.filter (fun r => decide (r ≠ rid))

/-- State of the `LockManager`: `lock_table_` maps a row id to its request queue (an absent row
has the empty queue, as `operator[]` creates it), and `txns` is the transaction map behind
`TransactionManager::GetTransaction`. -/
structure LockManager where
  lock_table : Nat → List LockRequest
  txns : Nat → Transaction

/-- How a call of a lock function ends: it returns a boolean, throws a
`TransactionAbortException`, or blocks on the queue's condition variable. -/
inductive LockResult where
  | returned (b : Bool)
  | threw (reason : AbortReason)
  | blocked
  deriving DecidableEq

/-- Outcome of the scan of `NeedWait`: the flags `need_wait` and `has_aborted` and the
transaction map with the wounded transactions set to `ABORTED`. -/
structure NeedWaitResult where
  need_wait : Bool
  has_aborted : Bool
  txns : Nat → Transaction

/-- The `for` loop of `NeedWait`: walk the queue from the head until the first request whose
transaction id is the caller. (The C++ loop has no end test; on a queue without a request of the
caller the walk stops here at the end of the queue.) -/
def NeedWaitScan (tid : Nat) (self_mode : LockMode) :
    List LockRequest → NeedWaitResult → NeedWaitResult
  | [], acc => acc
  | iter :: rest, acc =>
    if iter.txn_id = tid then acc
    else if iter.txn_id > tid then
      let situation1 := decide (self_mode = LockMode.SHARED) && decide (iter.lock_mode = LockMode.EXCLUSIVE)
      let situation2 := decide (self_mode = LockMode.EXCLUSIVE)
      if situation1 || situation2 then
        if (acc.txns iter.txn_id).state ≠ TransactionState.ABORTED then
          NeedWaitScan tid self_mode rest
            { acc with
              txns := Function.update acc.txns iter.txn_id
                ((acc.txns iter.txn_id).SetState TransactionState.ABORTED)
              has_aborted := true }
        else NeedWaitScan tid self_mode rest acc
      else NeedWaitScan tid self_mode rest acc
    else
      let need_wait1 := if self_mode = LockMode.EXCLUSIVE then true else acc.need_wait
      let need_wait2 := if iter.lock_mode = LockMode.EXCLUSIVE then true else need_wait1
      NeedWaitScan tid self_mode rest { acc with need_wait := need_wait2 }

/-- `LockManager::NeedWait` for transaction `tid` on a queue; `has_aborted` says whether the
queue's waiters were notified. On the empty queue (where `back()` is undefined) nothing
happens. -/
def NeedWait (txns : Nat → Transaction) (tid : Nat) (queue : List LockRequest) : NeedWaitResult :=
  match queue.getLast?, queue.head? with
  | some self, some first_iter =>
    if self.lock_mode = LockMode.SHARED then
      if first_iter.txn_id = tid ∨ first_iter.lock_mode = LockMode.SHARED then
        { need_wait := false, has_aborted := false, txns := txns }
      else
        NeedWaitScan tid self.lock_mode queue { need_wait := false, has_aborted := false, txns := txns }
    else
      if first_iter.txn_id = tid then
        { need_wait := false, has_aborted := false, txns := txns }
      else
        NeedWaitScan tid self.lock_mode queue { need_wait := false, has_aborted := false, txns := txns }
  | _, _ => { need_wait := false, has_aborted := false, txns := txns }

/-- `LockManager::UpdateWait`: wait unless the first request of the queue is the caller's. -/
def UpdateWait (tid : Nat) (queue : List LockRequest) : Bool :=
  match queue.head? with
  | some first_iter => if first_iter.txn_id = tid then false else true
  | none => true

/-- `LockManager::LockShared`, run until it returns, throws or first blocks.  The loop that
sets `granted_` works on copies of the requests, so it leaves the queue as it is. -/
def LockManager.LockShared (s : LockManager) (tid : Nat) (rid : Nat) : LockResult × LockManager :=
  let txn := s.txns tid
  if txn.state = TransactionState.ABORTED then (LockResult.returned false, s)
  else if txn.isolation_level = IsolationLevel.READ_UNCOMMITTED then
    (LockResult.threw AbortReason.LOCKSHARED_ON_READ_UNCOMMITTED,
      { s with txns := Function.update s.txns tid (txn.SetState TransactionState.ABORTED) })
  else if txn.state = TransactionState.SHRINKING then
    (LockResult.threw AbortReason.LOCK_ON_SHRINKING,
      { s with txns := Function.update s.txns tid (txn.SetState TransactionState.ABORTED) })
  else if rid ∈ txn.shared_lock_set then (LockResult.returned true, s)
  else
    let queue := s.lock_table rid ++ [{ txn_id := tid, lock_mode := LockMode.SHARED, granted := false }]
    let txns1 := Function.update s.txns tid
      { txn with shared_lock_set := lockSetEmplace txn.shared_lock_set rid }
    let r := NeedWait txns1 tid queue
    if r.need_wait then
      (LockResult.blocked, { lock_table := Function.update s.lock_table rid queue, txns := r.txns })
    else
      (LockResult.returned true,
        { lock_table := Function.update s.lock_table rid queue,
          txns := Function.update r.txns tid ((r.txns tid).SetState TransactionState.GROWING) })

/-- `LockManager::LockExclusive`, run until it returns, throws or first blocks. -/
def LockManager.LockExclusive (s : LockManager) (tid : Nat) (rid : Nat) :
    LockResult × LockManager :=
  let txn := s.txns tid
  if txn.state = TransactionState.ABORTED then (LockResult.returned false, s)
  else if txn.state ≠ TransactionState.GROWING then
    (LockResult.threw AbortReason.LOCK_ON_SHRINKING,
      { s with txns := Function.update s.txns tid (txn.SetState TransactionState.ABORTED) })
  else if rid ∈ txn.exclusive_lock_set then (LockResult.returned true, s)
  else
    let queue := s.lock_table rid ++ [{ txn_id := tid, lock_mode := LockMode.EXCLUSIVE, granted := false }]
    let txns1 := Function.update s.txns tid
      { txn with exclusive_lock_set := lockSetEmplace txn.exclusive_lock_set rid }
    let r := NeedWait txns1 tid queue
    if r.need_wait then
      (LockResult.blocked, { lock_table := Function.update s.lock_table rid queue, txns := r.txns })
    else
      (LockResult.returned true,
        { lock_table := Function.update s.lock_table rid queue,
          txns := Function.update r.txns tid ((r.txns tid).SetState TransactionState.GROWING) })

/-- The upgrade loop of `LockUpgrade`: the first `SHARED` request of the caller becomes
`EXCLUSIVE`; the flag says whether one was found. -/
def upgradeFirstShared (tid : Nat) : List LockRequest → Bool × List LockRequest
  | [] => (false, [])
  | e :: rest =>
    if e.txn_id = tid ∧ e.lock_mode = LockMode.SHARED then
      (true, { e with lock_mode := LockMode.EXCLUSIVE } :: rest)
    else
      let (found, rest1) := upgradeFirstShared tid rest
      (found, e :: rest1)

/-- `LockManager::LockUpgrade`, run until it returns or first blocks.  `granted_` is set on a
local copy of the request, so the queue keeps the flag it had. -/
def LockManager.LockUpgrade (s : LockManager) (tid : Nat) (rid : Nat) : LockResult × LockManager :=
  let txn := s.txns tid
  if txn.state = TransactionState.ABORTED then (LockResult.returned false, s)
  else if txn.state ≠ TransactionState.GROWING then (LockResult.returned false, s)
  else if rid ∉ txn.shared_lock_set then (LockResult.returned false, s)
  else
    let (found, queue) := upgradeFirstShared tid (s.lock_table rid)
    let txns1 :=
      if found then
        Function.update s.txns tid
          { txn with
            shared_lock_set := lockSetErase txn.shared_lock_set rid
            exclusive_lock_set := lockSetEmplace txn.exclusive_lock_set rid }
      else s.txns
    let s1 : LockManager := { lock_table := Function.update s.lock_table rid queue, txns := txns1 }
    if UpdateWait tid queue then (LockResult.blocked, s1)
    else (LockResult.returned true, s1)

/-! ## Lock manager: properties asked of it, example states -/

/-- The request of the caller conflicts with request `e`: the caller asks for `EXCLUSIVE`, or
asks for `SHARED` while `e` is `EXCLUSIVE`. -/
def WoundConflict (self_mode : LockMode) (e : LockRequest) : Prop :=
  self_mode = LockMode.EXCLUSIVE ∨
    (self_mode = LockMode.SHARED ∧ e.lock_mode = LockMode.EXCLUSIVE)

/-- The request of the caller has to wait for the older request `e`: the caller asks for
`EXCLUSIVE` or `e` is `EXCLUSIVE`. -/
def WaitConflict (self_mode : LockMode) (e : LockRequest) : Prop :=
  self_mode = LockMode.EXCLUSIVE ∨ e.lock_mode = LockMode.EXCLUSIVE

/-- The no-wait fast paths of `NeedWait`: a `SHARED` request behind a first request that is the
caller's or is `SHARED`, and an `EXCLUSIVE` request whose queue starts with the caller. -/
def NoWaitFastPath (tid : Nat) (self first_iter : LockRequest) : Prop :=
  (self.lock_mode = LockMode.SHARED ∧
      (first_iter.txn_id = tid ∨ first_iter.lock_mode = LockMode.SHARED)) ∨
    (self.lock_mode ≠ LockMode.SHARED ∧ first_iter.txn_id = tid)

/-- The WOUND-WAIT decision for the caller `tid` with request `self`, judged against the
requests `ahead`: exactly the younger conflicting transactions among them end `ABORTED` (all
else about every transaction is as before), and the answer is true exactly when an older one
among them conflicts. -/
def WoundWaitDecision (txns : Nat → Transaction) (tid : Nat) (self : LockRequest)
    (ahead : List LockRequest) (r : NeedWaitResult) : Prop :=
  (∀ t, (∃ e ∈ ahead, e.txn_id = t ∧ tid < t ∧ WoundConflict self.lock_mode e) →
      r.txns t = (txns t).SetState TransactionState.ABORTED) ∧
  (∀ t, (¬ ∃ e ∈ ahead, e.txn_id = t ∧ tid < t ∧ WoundConflict self.lock_mode e) →
      r.txns t = txns t) ∧
  (r.need_wait = true ↔ ∃ e ∈ ahead, e.txn_id < tid ∧ WaitConflict self.lock_mode e)

/-- What C7 asks of `NeedWait` on a queue: the decision is taken against all the requests ahead
of the last one. -/
def NeedWaitJudgesAllAhead (txns : Nat → Transaction) (tid : Nat) (queue : List LockRequest) :
    Prop :=
  ∀ self first_iter, queue.getLast? = some self → queue.head? = some first_iter →
    self.txn_id = tid → ¬ NoWaitFastPath tid self first_iter →
    WoundWaitDecision txns tid self queue.dropLast (NeedWait txns tid queue)

/-- Transaction `tid` has a request in the queue and no request there has a smaller id. -/
def OldestInQueue (tid : Nat) (queue : List LockRequest) : Prop :=
  (∃ e ∈ queue, e.txn_id = tid) ∧ ∀ e ∈ queue, tid ≤ e.txn_id

/-- What C8 asks: neither wait predicate holds the oldest transaction of a queue back. -/
def OldestNeverWaits (txns : Nat → Transaction) (tid : Nat) (queue : List LockRequest) : Prop :=
  OldestInQueue tid queue →
    (NeedWait txns tid queue).need_wait = false ∧ UpdateWait tid queue = false

/-- Transactions of the examples: all `GROWING` under `REPEATABLE_READ`, holding no lock. -/
def growingTxns : Nat → Transaction := fun _ =>
  { isolation_level := IsolationLevel.REPEATABLE_READ, state := TransactionState.GROWING,
    shared_lock_set := [], exclusive_lock_set := [] }

/-- A lock manager with empty lock table over `growingTxns`. -/
def freshLockManager : LockManager := { lock_table := fun _ => [], txns := growingTxns }

/-- Transaction 3 is in its shrinking phase. -/
def shrinkingLockManager : LockManager :=
  { lock_table := fun _ => []
    txns := Function.update growingTxns 3 ((growingTxns 3).SetState TransactionState.SHRINKING) }

/-- Queue of a row after `LockShared` by T3, T1 and T2 and then `LockExclusive` by T1. -/
def queueTwoRequestsOfT1 : List LockRequest :=
  [{ txn_id := 3, lock_mode := LockMode.SHARED, granted := false },
   { txn_id := 1, lock_mode := LockMode.SHARED, granted := false },
   { txn_id := 2, lock_mode := LockMode.SHARED, granted := false },
   { txn_id := 1, lock_mode := LockMode.EXCLUSIVE, granted := false }]

/-- Queue of a row on which T2 holds `EXCLUSIVE` and T1 has just asked for `EXCLUSIVE`. -/
def queueT2ThenT1 : List LockRequest :=
  [{ txn_id := 2, lock_mode := LockMode.EXCLUSIVE, granted := false },
   { txn_id := 1, lock_mode := LockMode.EXCLUSIVE, granted := false }]

/-- Queue of a row on which T2 and T1 hold `SHARED` and T1 has upgraded its request. -/
def queueUpgradeBehindT2 : List LockRequest :=
  [{ txn_id := 2, lock_mode := LockMode.SHARED, granted := false },
   { txn_id := 1, lock_mode := LockMode.EXCLUSIVE, granted := false }]

/-! ## Hash table bucket page (`storage/page/hash_table_bucket_page.cpp`) -/

/-- Modelled from the spec: the class declaration in `storage/page/hash_table_bucket_page.h` is
not among the sources.  A bucket page is the `occupied_` bitmap, the `readable_` bitmap (both
arrays of `(BUCKET_ARRAY_SIZE - 1) / 8 + 1` bytes, a byte being a number below 256) and the
slot array `array_` of `BUCKET_ARRAY_SIZE` pairs.  `BUCKET_ARRAY_SIZE` is passed to the functions
that use it.  The key comparator is equality of keys. -/
structure HashTableBucketPage (K V : Type) where
  occupied_ : List Nat
  readable_ : List Nat
  array_ : List (K × V)
  deriving DecidableEq

section Bucket

variable {K V : Type} [DecidableEq K] [DecidableEq V] [Inhabited K] [Inhabited V]

/-- A zeroed page seen as a bucket page. -/
def HashTableBucketPage.zero (BUCKET_ARRAY_SIZE : Nat) : HashTableBucketPage K V :=
  { occupied_ := List.replicate ((BUCKET_ARRAY_SIZE - 1) / 8 + 1) 0
    readable_ := List.replicate ((BUCKET_ARRAY_SIZE - 1) / 8 + 1) 0
    array_ := List.replicate BUCKET_ARRAY_SIZE default }

/-- `IsOccupied`. -/
def HashTableBucketPage.IsOccupied (b : HashTableBucketPage K V) (bucket_idx : Nat) : Bool :=
  let c := b.occupied_.getD (bucket_idx / 8) 0
  let idx := bucket_idx % 8
  let mask := 1 <<< idx
  decide ((mask &&& c) > 0)

/-- `SetOccupied(bucket_idx, status)`. -/
def HashTableBucketPage.SetOccupied (b : HashTableBucketPage K V) (bucket_idx : Nat)
    (status : Bool) : HashTableBucketPage K V :=
  let ic := b.occupied_.getD (bucket_idx / 8) 0
  let idx := bucket_idx % 8
  let ic1 := if status then ic ||| (1 <<< idx) else ic &&& (255 - (1 <<< idx))
  { b with occupied_ := b.occupied_.set (bucket_idx / 8) ic1 }

/-- `IsReadable`. -/
def HashTableBucketPage.IsReadable (b : HashTableBucketPage K V) (bucket_idx : Nat) : Bool :=
  let c := b.readable_.getD (bucket_idx / 8) 0
  let idx := bucket_idx % 8
  let mask := 1 <<< idx
  decide ((mask &&& c) > 0)

/-- `SetReadable(bucket_idx, status)`. -/
def HashTableBucketPage.SetReadable (b : HashTableBucketPage K V) (bucket_idx : Nat)
    (status : Bool) : HashTableBucketPage K V :=
  let ic := b.readable_.getD (bucket_idx / 8) 0
  let idx := bucket_idx % 8
  let ic1 := if status then ic ||| (1 <<< idx) else ic &&& (255 - (1 <<< idx))
  { b with readable_ := b.readable_.set (bucket_idx / 8) ic1 }

/-- `KeyAt`. -/
def HashTableBucketPage.KeyAt (b : HashTableBucketPage K V) (bucket_idx : Nat) : K :=
  (b.array_.getD bucket_idx default).1

/-- `ValueAt`. -/
def HashTableBucketPage.ValueAt (b : HashTableBucketPage K V) (bucket_idx : Nat) : V :=
  (b.array_.getD bucket_idx default).2

/-- `GetValue`: the flag and the values pushed to `result`, in slot order. -/
def HashTableBucketPage.GetValue (BUCKET_ARRAY_SIZE : Nat) (b : HashTableBucketPage K V)
    (key : K) : Bool × List V :=
  (List.range BUCKET_ARRAY_SIZE).foldl
    (fun (acc : Bool × List V) i =>
      if b.IsReadable i ∧ key = b.KeyAt i then (true, acc.2 ++ [b.ValueAt i]) else acc)
    (false, [])

/-- The loop of `Insert` over the slots still to visit: `none` when it returns false on an equal
pair, else the value of `free_slot` after the loop (`none` for `-1`). -/
def HashTableBucketPage.InsertScan (b : HashTableBucketPage K V) (key : K) (value : V) :
    List Nat → Option Nat → Option (Option Nat)
  | [], free_slot => some free_slot
  | i :: rest, free_slot =>
    if b.IsReadable i then
      if key = b.KeyAt i ∧ value = b.ValueAt i then none
      else b.InsertScan key value rest free_slot
    else if free_slot = none then b.InsertScan key value rest (some i)
    else b.InsertScan key value rest free_slot

/-- `Insert`. -/
def HashTableBucketPage.Insert (BUCKET_ARRAY_SIZE : Nat) (b : HashTableBucketPage K V)
    (key : K) (value : V) : Bool × HashTableBucketPage K V :=
  match b.InsertScan key value (List.range BUCKET_ARRAY_SIZE) none with
  | none => (false, b)
  | some none => (false, b)
  | some (some free_slot) =>
    let b1 := (b.SetOccupied free_slot true).SetReadable free_slot true
    (true, { b1 with array_ := b1.array_.set free_slot (key, value) })

/-- `RemoveAt`. -/
def HashTableBucketPage.RemoveAt (b : HashTableBucketPage K V) (bucket_idx : Nat) :
    HashTableBucketPage K V :=
  (b.SetOccupied bucket_idx true).SetReadable bucket_idx false

/-- The loop of `Remove` over the slots still to visit: the first readable slot holding the pair. -/
def HashTableBucketPage.RemoveScan (b : HashTableBucketPage K V) (key : K) (value : V) :
    List Nat → Option Nat
  | [] => none
  | i :: rest =>
    if b.IsReadable i ∧ key = b.KeyAt i ∧ value = b.ValueAt i then some i
    else b.RemoveScan key value rest

/-- `Remove`. -/
def HashTableBucketPage.Remove (BUCKET_ARRAY_SIZE : Nat) (b : HashTableBucketPage K V)
    (key : K) (value : V) : Bool × HashTableBucketPage K V :=
  match b.RemoveScan key value (List.range BUCKET_ARRAY_SIZE) with
  | some i => (true, b.RemoveAt i)
  | none => (false, b)

/-- The inner loop of `IsFull` on the last byte: the low `n` bits of `ic` are all set. -/
def lowBitsAllSet : Nat → Nat → Bool
  | 0, _ => true
  | n + 1, ic => if ic &&& 1 ≠ 1 then false else lowBitsAllSet n (ic >>> 1)

/-- `IsFull`. -/
def HashTableBucketPage.IsFull (BUCKET_ARRAY_SIZE : Nat) (b : HashTableBucketPage K V) : Bool :=
  let times := BUCKET_ARRAY_SIZE / 8
  if (List.range times).any (fun i => decide ((b.readable_.getD i 0) &&& 255 ≠ 255)) then false
  else
    let remain := BUCKET_ARRAY_SIZE % 8
    if remain > 0 then lowBitsAllSet remain (b.readable_.getD times 0) else true

/-- The bit-counting loop of `NumReadable`: the number of set bits among the low `n` bits. -/
def countLowBits : Nat → Nat → Nat
  | 0, _ => 0
  | n + 1, ic => (if ic &&& 1 > 0 then 1 else 0) + countLowBits n (ic >>> 1)

/-- `NumReadable`. -/
def HashTableBucketPage.NumReadable (BUCKET_ARRAY_SIZE : Nat) (b : HashTableBucketPage K V) :
    Nat :=
  let times := BUCKET_ARRAY_SIZE / 8
  let num := (List.range times).foldl (fun n i => n + countLowBits 8 (b.readable_.getD i 0)) 0
  let remain := BUCKET_ARRAY_SIZE % 8
  if remain > 0 then num + countLowBits remain (b.readable_.getD times 0) else num

/-- `IsEmpty`: no byte of `readable_` has a bit set. -/
def HashTableBucketPage.IsEmpty (BUCKET_ARRAY_SIZE : Nat) (b : HashTableBucketPage K V) : Bool :=
  if (List.range ((BUCKET_ARRAY_SIZE - 1) / 8 + 1)).any
      (fun i => decide ((b.readable_.getD i 0) &&& 255 > 0)) then false
  else true

/-- `GetArrayCopy`: the pairs of the readable slots, in slot order. -/
def HashTableBucketPage.GetArrayCopy (BUCKET_ARRAY_SIZE : Nat) (b : HashTableBucketPage K V) :
    List (K × V) :=
  (List.range BUCKET_ARRAY_SIZE).filterMap
    (fun i => if b.IsReadable i then some (b.array_.getD i default) else none)

/-- `Clear`: both bitmaps are zeroed, the slots stay. -/
def HashTableBucketPage.Clear (BUCKET_ARRAY_SIZE : Nat) (b : HashTableBucketPage K V) :
    HashTableBucketPage K V :=
  { b with
    occupied_ := List.replicate ((BUCKET_ARRAY_SIZE - 1) / 8 + 1) 0
    readable_ := List.replicate ((BUCKET_ARRAY_SIZE - 1) / 8 + 1) 0 }

end Bucket

/-! ## Hash table directory page (`storage/page/hash_table_directory_page.cpp`) -/

/-- Modelled from the spec: the class declaration in `storage/page/hash_table_directory_page.h`
is not among the sources.  A directory page holds its page id, the global depth and, for each of
the `2 ^ MAX_BUCKET_DEPTH` entries, a local depth (one byte) and a bucket page id. -/
structure HashTableDirectoryPage where
  page_id_ : Int
  global_depth_ : Nat
  local_depths_ : List Nat
  bucket_page_ids_ : List Int
  deriving DecidableEq

/-- A zeroed page seen as a directory page. -/
def HashTableDirectoryPage.zero (MAX_BUCKET_DEPTH : Nat) : HashTableDirectoryPage :=
  { page_id_ := 0
    global_depth_ := 0
    local_depths_ := List.replicate (2 ^ MAX_BUCKET_DEPTH) 0
    bucket_page_ids_ := List.replicate (2 ^ MAX_BUCKET_DEPTH) 0 }

/-- `GetPageId`. -/
def HashTableDirectoryPage.GetPageId (d : HashTableDirectoryPage) : Int := d.page_id_

/-- `SetPageId`. -/
def HashTableDirectoryPage.SetPageId (d : HashTableDirectoryPage) (page_id : Int) :
    HashTableDirectoryPage :=
  { d with page_id_ := page_id }

/-- `GetGlobalDepth`. -/
def HashTableDirectoryPage.GetGlobalDepth (d : HashTableDirectoryPage) : Nat := d.global_depth_

/-- `GetGlobalDepthMask`: `(1 << global_depth_) - 1`. -/
def HashTableDirectoryPage.GetGlobalDepthMask (d : HashTableDirectoryPage) : Nat :=
  (1 <<< d.global_depth_) - 1

/-- `GetLocalDepth`. -/
def HashTableDirectoryPage.GetLocalDepth (d : HashTableDirectoryPage) (bucket_idx : Nat) : Nat :=
  d.local_depths_.getD bucket_idx 0

/-- `GetLocalDepthMask`: `(1 << local_depth) - 1`. -/
def HashTableDirectoryPage.GetLocalDepthMask (d : HashTableDirectoryPage) (bucket_idx : Nat) :
    Nat :=
  (1 <<< d.local_depths_.getD bucket_idx 0) - 1

/-- `GetBucketPageId`. -/
def HashTableDirectoryPage.GetBucketPageId (d : HashTableDirectoryPage) (bucket_idx : Nat) :
    Int :=
  d.bucket_page_ids_.getD bucket_idx 0

/-- `SetBucketPageId`. -/
def HashTableDirectoryPage.SetBucketPageId (d : HashTableDirectoryPage) (bucket_idx : Nat)
    (bucket_page_id : Int) : HashTableDirectoryPage :=
  { d with bucket_page_ids_ := d.bucket_page_ids_.set bucket_idx bucket_page_id }

/-- `SetLocalDepth`: the depth is stored in one byte. -/
def HashTableDirectoryPage.SetLocalDepth (d : HashTableDirectoryPage) (bucket_idx : Nat)
    (local_depth : Nat) : HashTableDirectoryPage :=
  { d with local_depths_ := d.local_depths_.set bucket_idx (local_depth % 256) }

/-- `Size`: `1 << global_depth_`. -/
def HashTableDirectoryPage.Size (d : HashTableDirectoryPage) : Nat := 1 <<< d.global_depth_

/-- `IncrGlobalDepth`: copy the live entries into the upper half, then increment the depth. -/
def HashTableDirectoryPage.IncrGlobalDepth (d : HashTableDirectoryPage) : HashTableDirectoryPage :=
  let old := 1 <<< d.global_depth_
  let d1 := (List.range old).foldl
    (fun (acc : HashTableDirectoryPage) i =>
      { acc with
        bucket_page_ids_ := acc.bucket_page_ids_.set (old + i) (acc.bucket_page_ids_.getD i 0)
        local_depths_ := acc.local_depths_.set (old + i) (acc.local_depths_.getD i 0) })
    d
  { d1 with global_depth_ := d1.global_depth_ + 1 }

/-- `DecrGlobalDepth` on the unsigned 32-bit depth. -/
def HashTableDirectoryPage.DecrGlobalDepth (d : HashTableDirectoryPage) : HashTableDirectoryPage :=
  { d with global_depth_ := (d.global_depth_ + (2 ^ 32 - 1)) % 2 ^ 32 }

/-- `CanShrink`: no live entry has local depth equal to the global depth. -/
def HashTableDirectoryPage.CanShrink (d : HashTableDirectoryPage) : Bool :=
  if (List.range d.Size).any (fun i => decide (d.local_depths_.getD i 0 = d.global_depth_))
  then false else true

/-- `IncrLocalDepth` on the one-byte depth (the assertion `local depth <= global depth` that
follows the increment is not part of the state change). -/
def HashTableDirectoryPage.IncrLocalDepth (d : HashTableDirectoryPage) (bucket_idx : Nat) :
    HashTableDirectoryPage :=
  { d with local_depths_ :=
      d.local_depths_.set bucket_idx ((d.local_depths_.getD bucket_idx 0 + 1) % 256) }

/-- `DecrLocalDepth` on the one-byte depth. -/
def HashTableDirectoryPage.DecrLocalDepth (d : HashTableDirectoryPage) (bucket_idx : Nat) :
    HashTableDirectoryPage :=
  { d with local_depths_ :=
      d.local_depths_.set bucket_idx ((d.local_depths_.getD bucket_idx 0 + 255) % 256) }

/-- `GetSplitImageIndex`: `bucket_idx ^ (1 << (local_depth - 1))`.  For local depth 0 the C++
shift count is out of range; the model shifts by 0 there.  For a local depth above 32 the count
is out of range as well and C++ leaves the result undefined; the model shifts by the count as it
is written. -/
def HashTableDirectoryPage.GetSplitImageIndex (d : HashTableDirectoryPage) (bucket_idx : Nat) :
    Nat :=
  bucket_idx ^^^ (1 <<< (d.local_depths_.getD bucket_idx 0 - 1))

/-- The first loop of `VerifyIntegrity` over the directory indices still to visit, on the maps
`page_id_to_count` and `page_id_to_ld`: `none` when one of its assertions fails. -/
def HashTableDirectoryPage.VerifyScan (d : HashTableDirectoryPage) :
    List Nat → List (Int × Nat) × List (Int × Nat) → Option (List (Int × Nat) × List (Int × Nat))
  | [], maps => some maps
  | curr_idx :: rest, (page_id_to_count, page_id_to_ld) =>
    let curr_page_id := d.bucket_page_ids_.getD curr_idx 0
    let curr_ld := d.local_depths_.getD curr_idx 0
    if ¬ curr_ld ≤ d.global_depth_ then none
    else
      let page_id_to_count1 := ptAssign page_id_to_count curr_page_id
        ((ptFind page_id_to_count curr_page_id).getD 0 + 1)
      match ptFind page_id_to_ld curr_page_id with
      | some old_ld =>
        if curr_ld ≠ old_ld then none
        else d.VerifyScan rest (page_id_to_count1, ptAssign page_id_to_ld curr_page_id curr_ld)
      | none => d.VerifyScan rest (page_id_to_count1, ptAssign page_id_to_ld curr_page_id curr_ld)

/-- `VerifyIntegrity`: true when none of its assertions fails. -/
def HashTableDirectoryPage.VerifyIntegrity (d : HashTableDirectoryPage) : Bool :=
  match d.VerifyScan (List.range d.Size) ([], []) with
  | none => false
  | some (page_id_to_count, page_id_to_ld) =>
    page_id_to_count.all (fun it =>
      decide (it.2 = 1 <<< (d.global_depth_ - (ptFind page_id_to_ld it.1).getD 0)))

/-- The three conditions `VerifyIntegrity` asserts, on the live entries: every local depth is
at most the global depth; entries with the same bucket page id have the same local depth; a
bucket of local depth `d` is referenced by exactly `2 ^ (global depth - d)` entries. -/
def HashTableDirectoryPage.Integrity (d : HashTableDirectoryPage) : Prop :=
  (∀ i, i < d.Size → d.GetLocalDepth i ≤ d.global_depth_) ∧
  (∀ i j, i < d.Size → j < d.Size → d.GetBucketPageId i = d.GetBucketPageId j →
    d.GetLocalDepth i = d.GetLocalDepth j) ∧
  (∀ i, i < d.Size →
    ((List.range d.Size).filter
      (fun j => decide (d.GetBucketPageId j = d.GetBucketPageId i))).length
      = 2 ^ (d.global_depth_ - d.GetLocalDepth i))

/-! ## Extendible hash table (`container/hash/extendible_hash_table.cpp`) -/

/-- State of an `ExtendibleHashTable` together with the pages it keeps in the buffer pool.
The buffer pool is taken large enough: `NewPage` always succeeds, hands out `next_page_id`
(one instance, so ids grow by 1) and a zeroed page, and a fetched page has the content it was
left with; pin counts and latches are not part of this state.  `directory` is the content of
the directory page and `buckets` maps a page id to the content of that page seen as a bucket.
`BUCKET_ARRAY_SIZE` and `MAX_BUCKET_DEPTH` are the constants of the missing headers. -/
structure ExtendibleHashTable (K V : Type) where
  BUCKET_ARRAY_SIZE : Nat
  MAX_BUCKET_DEPTH : Nat
  hash_fn : K → Nat
  directory_page_id_ : Int
  next_page_id : Int
  directory : HashTableDirectoryPage
  buckets : Int → HashTableBucketPage K V

section Table

variable {K V : Type} [DecidableEq K] [DecidableEq V] [Inhabited K] [Inhabited V]

/-- A freshly constructed table on an empty buffer pool: no directory page exists yet. -/
def ExtendibleHashTable.new (BUCKET_ARRAY_SIZE MAX_BUCKET_DEPTH : Nat) (hash_fn : K → Nat) :
    ExtendibleHashTable K V :=
  { BUCKET_ARRAY_SIZE := BUCKET_ARRAY_SIZE
    MAX_BUCKET_DEPTH := MAX_BUCKET_DEPTH
    hash_fn := hash_fn
    directory_page_id_ := INVALID_PAGE_ID
    next_page_id := 0
    directory := HashTableDirectoryPage.zero MAX_BUCKET_DEPTH
    buckets := fun _ => HashTableBucketPage.zero BUCKET_ARRAY_SIZE }

/-- `Hash`: the hash of the key cut down to 32 bits. -/
def ExtendibleHashTable.Hash (t : ExtendibleHashTable K V) (key : K) : Nat :=
  t.hash_fn key % 2 ^ 32

/-- `KeyToDirectoryIndex`. -/
def ExtendibleHashTable.KeyToDirectoryIndex (t : ExtendibleHashTable K V) (key : K)
    (dir_page : HashTableDirectoryPage) : Nat :=
  t.Hash key &&& dir_page.GetGlobalDepthMask

/-- `KeyToPageId`. -/
def ExtendibleHashTable.KeyToPageId (t : ExtendibleHashTable K V) (key : K)
    (dir_page : HashTableDirectoryPage) : Int :=
  dir_page.GetBucketPageId (t.KeyToDirectoryIndex key dir_page)

/-- `FetchDirectoryPage`: on first use create the directory page and bucket 0. -/
def ExtendibleHashTable.FetchDirectoryPage (t : ExtendibleHashTable K V) :
    ExtendibleHashTable K V :=
  if t.directory_page_id_ = INVALID_PAGE_ID then
    let pageid := t.next_page_id
    let bucket_pageid := t.next_page_id + 1
    { t with
      directory_page_id_ := pageid
      next_page_id := t.next_page_id + 2
      directory := ((HashTableDirectoryPage.zero t.MAX_BUCKET_DEPTH).SetPageId pageid).SetBucketPageId
        0 bucket_pageid
      buckets := Function.update t.buckets bucket_pageid
        (HashTableBucketPage.zero t.BUCKET_ARRAY_SIZE) }
  else t

/-- `GetValue`: the flag, the values found, and the table (the call may create the directory). -/
def ExtendibleHashTable.GetValue (t : ExtendibleHashTable K V) (key : K) :
    (Bool × List V) × ExtendibleHashTable K V :=
  let t1 := t.FetchDirectoryPage
  let bucket_pageid := t1.KeyToPageId key t1.directory
  ((t1.buckets bucket_pageid).GetValue t1.BUCKET_ARRAY_SIZE key, t1)

/-- The first and third loop of `SplitInsert`: walk down from `i` in steps of `distance` while
`i >= distance`, setting local depth and bucket page id; `fuel` bounds the number of rounds. -/
def splitWalkDown (distance : Nat) (depth_idx : Nat) (page_id : Int) :
    Nat → Nat → HashTableDirectoryPage → HashTableDirectoryPage
  | 0, _, dir => dir
  | fuel + 1, i, dir =>
    if i ≥ distance then
      if i = 2 ^ 32 - distance then dir
      else
        splitWalkDown distance depth_idx page_id fuel (i - distance)
          ((dir.SetLocalDepth i (dir.GetLocalDepth depth_idx)).SetBucketPageId i page_id)
    else dir

/-- The second and fourth loop of `SplitInsert`: walk up from `i` in steps of `distance` while
`i < Size()`, setting bucket page id and local depth; `fuel` bounds the number of rounds. -/
def splitWalkUp (distance : Nat) (depth_idx : Nat) (page_id : Int) :
    Nat → Nat → HashTableDirectoryPage → HashTableDirectoryPage
  | 0, _, dir => dir
  | fuel + 1, i, dir =>
    if i < dir.Size then
      splitWalkUp distance depth_idx page_id fuel (i + distance)
        ((dir.SetBucketPageId i page_id).SetLocalDepth i (dir.GetLocalDepth depth_idx))
    else dir

/-- One run of `SplitInsert` up to its final call of `Insert`: `none` when the bucket of the key
has reached `MAX_BUCKET_DEPTH` (the function returns false), else the table after the split. -/
def ExtendibleHashTable.SplitStep (t0 : ExtendibleHashTable K V) (key : K) :
    Option (ExtendibleHashTable K V) :=
  let t := t0.FetchDirectoryPage
  let dir := t.directory
  let split_bucket_index := t.KeyToDirectoryIndex key dir
  let split_bucket_depth := dir.GetLocalDepth split_bucket_index
  if split_bucket_depth ≥ t.MAX_BUCKET_DEPTH then none
  else
    let dir := if split_bucket_depth = dir.GetGlobalDepth then dir.IncrGlobalDepth else dir
    let split_bucket_page_id := t.KeyToPageId key dir
    let split_bucket := t.buckets split_bucket_page_id
    let origin_array := split_bucket.GetArrayCopy t.BUCKET_ARRAY_SIZE
    let origin_array_size := split_bucket.NumReadable t.BUCKET_ARRAY_SIZE
    let split_bucket := split_bucket.Clear t.BUCKET_ARRAY_SIZE
    let image_bunket_page_id := t.next_page_id
    let image_bucket : HashTableBucketPage K V := HashTableBucketPage.zero t.BUCKET_ARRAY_SIZE
    let dir := dir.IncrLocalDepth split_bucket_index
    let split_image_bucket_index := dir.GetSplitImageIndex split_bucket_index
    let dir := dir.SetLocalDepth split_image_bucket_index (dir.GetLocalDepth split_bucket_index)
    let dir := dir.SetBucketPageId split_image_bucket_index image_bunket_page_id
    let distance := 1 <<< dir.GetLocalDepth split_bucket_index
    let dir := splitWalkDown distance split_bucket_index split_bucket_page_id
      (split_bucket_index + 1) split_bucket_index dir
    let dir := splitWalkUp distance split_bucket_index split_bucket_page_id
      dir.Size split_bucket_index dir
    let dir := splitWalkDown distance split_bucket_index image_bunket_page_id
      (split_image_bucket_index + 1) split_image_bucket_index dir
    let dir := splitWalkUp distance split_image_bucket_index split_bucket_page_id
      dir.Size split_image_bucket_index dir
    let mask := dir.GetLocalDepthMask split_bucket_index
    let (split_bucket, image_bucket) :=
      (origin_array.take origin_array_size).foldl
        (fun (acc : HashTableBucketPage K V × HashTableBucketPage K V) temp =>
          let target_bucket_index := t.Hash temp.1 &&& mask
          let target_bucket_page_id := dir.GetBucketPageId target_bucket_index
          if target_bucket_page_id = split_bucket_page_id then
            ((acc.1.Insert t.BUCKET_ARRAY_SIZE temp.1 temp.2).2, acc.2)
          else (acc.1, (acc.2.Insert t.BUCKET_ARRAY_SIZE temp.1 temp.2).2))
        (split_bucket, image_bucket)
    some { t with
      next_page_id := t.next_page_id + 1
      directory := dir
      buckets := Function.update (Function.update t.buckets image_bunket_page_id image_bucket)
        split_bucket_page_id split_bucket }

/-- `Insert`, with `SplitInsert` unfolded into it: `fuel` bounds the number of times
`SplitInsert` is entered, and the result is `none` when the bound does not suffice. -/
def ExtendibleHashTable.Insert :
    Nat → ExtendibleHashTable K V → K → V → Option (Bool × ExtendibleHashTable K V)
  | fuel, t0, key, value =>
    let t := t0.FetchDirectoryPage
    let bucket_pageid := t.KeyToPageId key t.directory
    let bucket := t.buckets bucket_pageid
    if ¬ bucket.IsFull t.BUCKET_ARRAY_SIZE then
      let (res, bucket1) := bucket.Insert t.BUCKET_ARRAY_SIZE key value
      some (res, { t with buckets := Function.update t.buckets bucket_pageid bucket1 })
    else
      match fuel with
      | 0 => none
      | fuel1 + 1 =>
        match t.SplitStep key with
        | none => some (false, t)
        | some t1 => ExtendibleHashTable.Insert fuel1 t1 key value

/-- `SplitInsert`: split the bucket of the key, then call `Insert` again. -/
def ExtendibleHashTable.SplitInsert (fuel : Nat) (t : ExtendibleHashTable K V) (key : K)
    (value : V) : Option (Bool × ExtendibleHashTable K V) :=
  match t.SplitStep key with
  | none => some (false, t.FetchDirectoryPage)
  | some t1 => ExtendibleHashTable.Insert fuel t1 key value

/-- Call `Insert` for each pair of the list in turn, whatever each call returns. -/
def ExtendibleHashTable.InsertAll (fuel : Nat) :
    ExtendibleHashTable K V → List (K × V) → Option (ExtendibleHashTable K V)
  | t, [] => some t
  | t, (key, value) :: rest =>
    match t.Insert fuel key value with
    | none => none
    | some (_, t1) => ExtendibleHashTable.InsertAll fuel t1 rest

end Table

/-! ## Hash table: properties asked of it, example states -/

section TableSpec

variable {K V : Type} [DecidableEq K] [DecidableEq V] [Inhabited K] [Inhabited V]

/-- Some readable slot of the bucket holds the pair. -/
def HashTableBucketPage.Holds (BUCKET_ARRAY_SIZE : Nat) (b : HashTableBucketPage K V)
    (x : K × V) : Prop :=
  ∃ i, i < BUCKET_ARRAY_SIZE ∧ b.IsReadable i = true ∧ b.array_.getD i default = x

/-- The bucket has its arrays at full length and its readable slots hold exactly the pairs of
the list `p`, each pair in one slot only. -/
structure HashTableBucketPage.HoldsExactly (BUCKET_ARRAY_SIZE : Nat)
    (b : HashTableBucketPage K V) (p : List (K × V)) : Prop where
  len_readable : b.readable_.length = (BUCKET_ARRAY_SIZE - 1) / 8 + 1
  len_array : b.array_.length = BUCKET_ARRAY_SIZE
  inj : ∀ i j, i < BUCKET_ARRAY_SIZE → j < BUCKET_ARRAY_SIZE → b.IsReadable i = true →
    b.IsReadable j = true → b.array_.getD i default = b.array_.getD j default → i = j
  mem : ∀ x, b.Holds BUCKET_ARRAY_SIZE x ↔ x ∈ p

/-- The table has its directory page, of global depth 0, and its one bucket holds exactly the
pairs of `p`. -/
structure ExtendibleHashTable.SingleBucket (t : ExtendibleHashTable K V) (p : List (K × V)) :
    Prop where
  created : t.directory_page_id_ ≠ INVALID_PAGE_ID
  depth : t.directory.global_depth_ = 0
  holds : (t.buckets (t.directory.GetBucketPageId 0)).HoldsExactly t.BUCKET_ARRAY_SIZE p

/-- What GetValue has to answer for `key` after the pairs of `l` were inserted: the flag says
whether a pair with this key was inserted, and the values are those inserted under the key,
each distinct pair once, in any order. -/
def ExtendibleHashTable.Answers (t : ExtendibleHashTable K V) (l : List (K × V)) : Prop :=
  ∀ key : K,
    ((t.GetValue key).1.1 = true ↔ ∃ value, (key, value) ∈ l) ∧
    List.Perm (t.GetValue key).1.2
      (((l.filter (fun e => decide (e.1 = key))).map Prod.snd).dedup)

/-- Call `Insert` for each pair of the list in turn: the table afterwards and, in the order of
the calls, the pairs whose call returned true. -/
def ExtendibleHashTable.InsertEach (fuel : Nat) :
    ExtendibleHashTable K V → List (K × V) → Option (ExtendibleHashTable K V × List (K × V))
  | t, [] => some (t, [])
  | t, (key, value) :: rest =>
    match t.Insert fuel key value with
    | none => none
    | some (res, t1) =>
      (ExtendibleHashTable.InsertEach fuel t1 rest).map
        (fun r => (r.1, if res then (key, value) :: r.2 else r.2))

/-- What C4 asks of the `Insert` calls for the pairs of `l` on the table `t0`: once the calls
have returned, GetValue answers with the pairs that were inserted, which are the pairs whose
call returned true. -/
def ExtendibleHashTable.RoundTrip (t0 : ExtendibleHashTable K V) (l : List (K × V)) : Prop :=
  ∀ fuel t inserted, t0.InsertEach fuel l = some (t, inserted) → t.Answers inserted

end TableSpec

/-- A fresh table with two slots per bucket, maximal depth 9 and a constant hash function. -/
def tableConstantHash : ExtendibleHashTable Nat Nat := ExtendibleHashTable.new 2 9 (fun _ => 0)

/-- A fresh table with two slots per bucket, maximal depth 9 and the identity as hash function. -/
def tableIdentityHash : ExtendibleHashTable Nat Nat := ExtendibleHashTable.new 2 9 (fun k => k)

/-- The pairs `(0, 0)`, `(1, 1)`, `(2, 2)`. -/
def threePairs : List (Nat × Nat) := [(0, 0), (1, 1), (2, 2)]

/-! ## Buffer pool: calls, disk traffic, further properties asked of it -/

/-- A call of the disk manager. -/
inductive DiskCall where
  | WritePage (page_id : Int) (data : List Nat)
  | ReadPage (page_id : Int)
  deriving DecidableEq

/-- The calls of `disk_manager_` that `FetchPgImp` makes, in order. -/
def BufferPoolManagerInstance.FetchPgImpDiskCalls (s : BufferPoolManagerInstance)
    (page_id : Int) : List DiskCall :=
  match ptFind s.page_table page_id with
  | some _ => []
  | none =>
    match s.free_list with
    | _ :: _ => [DiskCall.ReadPage page_id]
    | [] =>
      match s.replacer.Victim with
      | (some frameid, _) =>
        let page := s.pages frameid
        (if page.is_dirty then [DiskCall.WritePage page.page_id page.data] else [])
          ++ [DiskCall.ReadPage page_id]
      | (none, _) => []

/-- A call of a public operation of the pool, or a client write into a frame. -/
inductive PoolCall where
  | NewPage
  | FetchPage (page_id : Int)
  | UnpinPage (page_id : Int) (is_dirty : Bool)
  | FlushPage (page_id : Int)
  | FlushAllPages
  | DeletePage (page_id : Int)
  | WriteData (frameid : Nat) (bytes : List Nat)
  deriving DecidableEq

/-- Run one call.  The second component lists the page id that `AllocatePage` issued during
the call (at most one), with the outcome of the assertion of `ValidatePageId` on it. -/
def BufferPoolManagerInstance.call (s : BufferPoolManagerInstance) :
    PoolCall → BufferPoolManagerInstance × List (Int × Bool)
  | PoolCall.NewPage =>
    match s.NewPgImp with
    | (some (_, page_id), t) => (t, [(page_id, s.ValidatePageId page_id)])
    | (none, t) => (t, [])
  | PoolCall.FetchPage page_id => ((s.FetchPgImp page_id).2, [])
  | PoolCall.UnpinPage page_id is_dirty => ((s.UnpinPgImp page_id is_dirty).2, [])
  | PoolCall.FlushPage page_id => ((s.FlushPgImp page_id).2, [])
  | PoolCall.FlushAllPages => (s.FlushAllPgsImp, [])
  | PoolCall.DeletePage page_id => ((s.DeletePgImp page_id).2, [])
  | PoolCall.WriteData frameid bytes => (s.WriteData frameid bytes, [])

/-- Run the calls in turn, collecting the issued page ids in the order of issue. -/
def BufferPoolManagerInstance.calls :
    BufferPoolManagerInstance → List PoolCall → BufferPoolManagerInstance × List (Int × Bool)
  | s, [] => (s, [])
  | s, c :: cs => ((s.call c).1.calls cs |>.1, (s.call c).2 ++ ((s.call c).1.calls cs).2)

/-- What C16 asks of a pool state: every frame whose page id is `INVALID_PAGE_ID` is in the
free list. -/
def InvalidFramesAreFree (s : BufferPoolManagerInstance) : Prop :=
  ∀ f, f < s.pool_size → (s.pages f).page_id = INVALID_PAGE_ID → f ∈ s.free_list

/-- States a client can reach from a freshly constructed pool through the public operations
when it never calls `FetchPage` with `INVALID_PAGE_ID` and every `NewPage` leaves the page id
counter below 32-bit overflow (at most 2147483647). -/
inductive ReachableFetchingValid : BufferPoolManagerInstance → Prop
  | init (PAGE_SIZE pool_size num_instances instance_index : Nat) (disk : Int → List Nat)
      (hn : 0 < num_instances) (hi : instance_index < num_instances) :
      ReachableFetchingValid
        (BufferPoolManagerInstance.new PAGE_SIZE pool_size num_instances instance_index disk)
  | newPage {s} : s.NewPgImp.2.next_page_id ≤ 2147483647 →
      ReachableFetchingValid s → ReachableFetchingValid s.NewPgImp.2
  | fetchPage {s} (page_id : Int) : page_id ≠ INVALID_PAGE_ID →
      ReachableFetchingValid s → ReachableFetchingValid (s.FetchPgImp page_id).2
  | unpinPage {s} (page_id : Int) (is_dirty : Bool) :
      ReachableFetchingValid s → ReachableFetchingValid (s.UnpinPgImp page_id is_dirty).2
  | flushPage {s} (page_id : Int) :
      ReachableFetchingValid s → ReachableFetchingValid (s.FlushPgImp page_id).2
  | flushAllPages {s} : ReachableFetchingValid s → ReachableFetchingValid s.FlushAllPgsImp
  | deletePage {s} (page_id : Int) :
      ReachableFetchingValid s → ReachableFetchingValid (s.DeletePgImp page_id).2
  | writeData {s} (frameid : Nat) (bytes : List Nat) :
      0 < (s.pages frameid).pin_count → ReachableFetchingValid s →
      ReachableFetchingValid (s.WriteData frameid bytes)

/-- Pool of one frame after `FetchPage(INVALID_PAGE_ID)` on the fresh pool. -/
def poolOneFetchedInvalid : BufferPoolManagerInstance :=
  ((BufferPoolManagerInstance.new 4 1 1 0 (fun _ => ResetMemory 4)).FetchPgImp INVALID_PAGE_ID).2

/-- Pool of two frames after `NewPage` (page 0), `UnpinPage(0, true)` and `DeletePage(0)`. -/
def poolTwoNewUnpinDelete : BufferPoolManagerInstance :=
  (((((BufferPoolManagerInstance.new 4 2 1 0 (fun _ => ResetMemory 4)).NewPgImp.2).UnpinPgImp
    0 true).2).DeletePgImp 0).2

/-- A short run of calls on a pool: three `NewPage` with other calls in between. -/
def sampleCalls : List PoolCall :=
  [PoolCall.NewPage, PoolCall.UnpinPage 1 true, PoolCall.NewPage, PoolCall.FetchPage 5,
    PoolCall.UnpinPage 5 false, PoolCall.NewPage]

/-! ## LRU replacer: calls, admission times -/

/-- A call of `Unpin`, `Pin` or `Victim` on the replacer. -/
inductive LRUCall where
  | Unpin (frame_id : Nat)
  | Pin (frame_id : Nat)
  | Victim
  deriving DecidableEq

/-- The constructor of `LRUReplacer`: nothing is in the list or the map. -/
def LRUReplacer.fresh : LRUReplacer := { lru_list := [] }

/-- Run one call: what `Victim` wrote to `*frame_id` when it returned true (`none` when it
returned false, and for the other calls), and the replacer afterwards. -/
def LRUReplacer.call (r : LRUReplacer) : LRUCall → Option Nat × LRUReplacer
  | LRUCall.Unpin frame_id => (none, r.Unpin frame_id)
  | LRUCall.Pin frame_id => (none, r.Pin frame_id)
  | LRUCall.Victim => r.Victim

/-- The frames that `Victim` hands out when it is called `n` times in a row, stopping at the
first call that returns false. -/
def LRUReplacer.victims : Nat → LRUReplacer → List Nat
  | 0, _ => []
  | n + 1, r =>
    match r.Victim with
    | (some frame_id, r1) => frame_id :: LRUReplacer.victims n r1
    | (none, _) => []

/-- The eviction order: the frames that `Victim` would hand out, one call after the other,
until it returns false. -/
def LRUReplacer.evictionOrder (r : LRUReplacer) : List Nat := LRUReplacer.victims r.Size r

/-- The bookkeeping of the specification, kept beside the replacer: `admitted f = some n` when
frame `f` is present (admitted by an `Unpin` and not removed by `Pin` or `Victim` since) and the
`Unpin` that admitted it was call number `n`; `clock` is the number of calls so far. -/
structure Admissions where
  admitted : Nat → Option Nat
  clock : Nat

/-- No call yet: no frame is present. -/
def Admissions.start : Admissions := { admitted := fun _ => none, clock := 0 }

/-- Record one call, `out` being what `Victim` handed out: `Unpin` admits a frame that is not
present and leaves a present frame as it is, `Pin` removes the frame, `Victim` removes the frame
it handed out. -/
def Admissions.record (a : Admissions) (c : LRUCall) (out : Option Nat) : Admissions :=
  match c with
  | LRUCall.Unpin frame_id =>
    { admitted := if a.admitted frame_id = none
        then Function.update a.admitted frame_id (some a.clock) else a.admitted
      clock := a.clock + 1 }
  | LRUCall.Pin frame_id =>
    { admitted := Function.update a.admitted frame_id none, clock := a.clock + 1 }
  | LRUCall.Victim =>
    { admitted := match out with
        | some frame_id => Function.update a.admitted frame_id none
        | none => a.admitted
      clock := a.clock + 1 }

/-- Run the calls in turn on the replacer, recording each of them. -/
def LRUReplacer.history : LRUReplacer → Admissions → List LRUCall → LRUReplacer × Admissions
  | r, a, [] => (r, a)
  | r, a, c :: cs => LRUReplacer.history (r.call c).2 (a.record c (r.call c).1) cs

/-- The replacer holds exactly the present frames, in the order of their admission, and every
admission lies in the past. -/
structure LRUReplacer.Tracks (r : LRUReplacer) (a : Admissions) : Prop where
  nodup : r.lru_list.Nodup
  mem : ∀ f, f ∈ r.lru_list ↔ a.admitted f ≠ none
  order : r.lru_list.Pairwise
    (fun x y => ∀ n m, a.admitted x = some n → a.admitted y = some m → n < m)
  bound : ∀ f n, a.admitted f = some n → n < a.clock

/-- Some calls on a fresh replacer: frames 1 and 2 are admitted, frame 1 is unpinned again,
frame 3 is pinned, one victim is taken. -/
def sampleLRUCalls : List LRUCall :=
  [LRUCall.Unpin 1, LRUCall.Unpin 2, LRUCall.Unpin 1, LRUCall.Pin 3, LRUCall.Victim]

/-! ## Extendible hash table: removal -/

section TableRemove

variable {K V : Type} [DecidableEq K] [DecidableEq V] [Inhabited K] [Inhabited V]

/-- The first loop of `Merge`: walk down from `i` in steps of `distance` while `i >= distance`,
setting the bucket page id and decrementing the local depth; `fuel` bounds the number of
rounds. -/
def mergeWalkDown (distance : Nat) (page_id : Int) :
    Nat → Nat → HashTableDirectoryPage → HashTableDirectoryPage
  | 0, _, dir => dir
  | fuel + 1, i, dir =>
    if i ≥ distance then
      if i = 2 ^ 32 - distance then dir
      else
        mergeWalkDown distance page_id fuel (i - distance)
          ((dir.SetBucketPageId i page_id).DecrLocalDepth i)
    else dir

/-- The second loop of `Merge`: walk up from `i` in steps of `distance` while `i < Size()`,
setting the bucket page id and decrementing the local depth; `fuel` bounds the number of
rounds. -/
def mergeWalkUp (distance : Nat) (page_id : Int) :
    Nat → Nat → HashTableDirectoryPage → HashTableDirectoryPage
  | 0, _, dir => dir
  | fuel + 1, i, dir =>
    if i < dir.Size then
      mergeWalkUp distance page_id fuel (i + distance)
        ((dir.SetBucketPageId i page_id).DecrLocalDepth i)
    else dir

/-- `Merge`.  `DeletePage` takes the merged page out of the buffer pool; its bytes stay on
the disk. -/
def ExtendibleHashTable.Merge (t0 : ExtendibleHashTable K V) (key : K) :
    ExtendibleHashTable K V :=
  let t := t0.FetchDirectoryPage
  let dir := t.directory
  let merge_bucket_index := t.KeyToDirectoryIndex key dir
  if merge_bucket_index ≥ dir.Size then t
  else
    let merge_bucket_page_id := dir.GetBucketPageId merge_bucket_index
    let image_bucket_index := dir.GetSplitImageIndex merge_bucket_index
    let local_depth := dir.GetLocalDepth merge_bucket_index
    if local_depth = 0 then t
    else if local_depth ≠ dir.GetLocalDepth image_bucket_index then t
    else
      let bucket := t.buckets merge_bucket_page_id
      if ¬ bucket.IsEmpty t.BUCKET_ARRAY_SIZE then t
      else
        let image_bucket_page_id := dir.GetBucketPageId image_bucket_index
        let dir := dir.SetBucketPageId merge_bucket_index image_bucket_page_id
        let dir := dir.DecrLocalDepth merge_bucket_index
        let dir := dir.DecrLocalDepth image_bucket_index
        let distance := 1 <<< (dir.GetLocalDepth merge_bucket_index + 1)
        let dir := mergeWalkDown distance image_bucket_page_id (merge_bucket_index + 1)
          merge_bucket_index dir
        let dir := mergeWalkUp distance image_bucket_page_id dir.Size merge_bucket_index dir
        let dir := if dir.CanShrink then dir.DecrGlobalDepth else dir
        { t with directory := dir }

/-- `Remove`. -/
def ExtendibleHashTable.Remove (t0 : ExtendibleHashTable K V) (key : K) (value : V) :
    Bool × ExtendibleHashTable K V :=
  let t := t0.FetchDirectoryPage
  let bucket_page_id := t.KeyToPageId key t.directory
  let removed := (t.buckets bucket_page_id).Remove t.BUCKET_ARRAY_SIZE key value
  let t1 := { t with buckets := Function.update t.buckets bucket_page_id removed.2 }
  if removed.2.IsEmpty t.BUCKET_ARRAY_SIZE then (removed.1, t1.Merge key) else (removed.1, t1)

end TableRemove

/-! ## Hash table: further properties asked of it, example inputs -/

section TableSpecRemove

variable {K V : Type} [DecidableEq K] [DecidableEq V] [Inhabited K] [Inhabited V]

/-- What C19 asks of a table state `t` and a pair that is not stored in it: when Insert of the
pair returns true, the Remove of the pair that follows returns true and GetValue of the key
then returns the values it returned before the Insert, in any order. -/
def ExtendibleHashTable.InsertRemoveRestores (t : ExtendibleHashTable K V) (key : K)
    (value : V) : Prop :=
  ∀ fuel t1, t.Insert fuel key value = some (true, t1) →
    (t1.Remove key value).1 = true ∧
      List.Perm ((t1.Remove key value).2.GetValue key).1.2 (t.GetValue key).1.2

/-- What C20 asks of a table state `t` and a call of Insert: when the call returns false,
GetValue of every key returns the values it returned before the call, in any order. -/
def ExtendibleHashTable.InsertFailsCleanly (t : ExtendibleHashTable K V) (key : K)
    (value : V) : Prop :=
  ∀ fuel t1, t.Insert fuel key value = some (false, t1) →
    ∀ k : K, List.Perm (t1.GetValue k).1.2 (t.GetValue k).1.2

end TableSpecRemove

/-- A fresh table with two slots per bucket, maximal depth 4 (a directory of 16 entries) and
the identity as hash function. -/
def tableDepthFour : ExtendibleHashTable Nat Nat := ExtendibleHashTable.new 2 4 (fun k => k)

/-- The pairs `(4, 0)`, `(12, 0)`, `(15, 0)`, `(14, 0)`, `(12, 0)`. -/
def fivePairs : List (Nat × Nat) := [(4, 0), (12, 0), (15, 0), (14, 0), (12, 0)]

/-- The pairs `(4, 0)`, `(14, 0)`, `(15, 0)`. -/
def fullBucketPairs : List (Nat × Nat) := [(4, 0), (14, 0), (15, 0)]

/-- The pairs `(4, 0)`, `(12, 0)`, `(15, 0)`, `(14, 0)`. -/
def fourPairs : List (Nat × Nat) := [(4, 0), (12, 0), (15, 0), (14, 0)]

/-! ## Lock manager: release, further properties asked of it -/

/-- The loop of `Unlock` over the queue.  At a request of the caller the loop erases the
request (`request_queue_.erase(iter)`) and then steps on from the iterator that the erase has
invalidated (the `iter++` of the `for`), which C++ leaves undefined: there the scan has no
result.  On a queue without a request of the caller the loop runs to the end, the queue stays as
it is and `mode` keeps the value it had. -/
def unlockScan (tid : Nat) : List LockRequest → LockMode → Option (LockMode × List LockRequest)
  | [], mode => some (mode, [])
  | iter :: rest, mode =>
    if iter.txn_id = tid then none
    else (unlockScan tid rest mode).map (fun r => (r.1, iter :: r.2))

/-- `LockManager::Unlock`.  The result is `none` where the loop over the queue has no result,
which is whenever the caller has a request in the queue of the row.  The local `mode` is
declared without a value: `mode0` stands for what it holds when the loop has not assigned
it. -/
def LockManager.Unlock (s : LockManager) (tid : Nat) (rid : Nat) (mode0 : LockMode) :
    Option (Bool × LockManager) :=
  let txn := s.txns tid
  match unlockScan tid (s.lock_table rid) mode0 with
  | none => none
  | some scanned =>
    let mode := scanned.1
    let txn1 :=
      if ¬ (mode = LockMode.SHARED ∧ txn.isolation_level = IsolationLevel.READ_COMMITTED) ∧
          txn.state = TransactionState.GROWING
      then txn.SetState TransactionState.SHRINKING else txn
    let txn2 : Transaction :=
      { txn1 with
        shared_lock_set := lockSetErase txn1.shared_lock_set rid
        exclusive_lock_set := lockSetErase txn1.exclusive_lock_set rid }
    some (true, { lock_table := Function.update s.lock_table rid scanned.2
                  txns := Function.update s.txns tid txn2 })

/-- What C28 asks of `Unlock` by transaction `tid` on row `rid` in state `s`, where `tid` has a
request in the queue of the row and `m` is the mode of its requests there (the mode released):
the call returns, and afterwards a transaction that was `GROWING` is `SHRINKING` under
`REPEATABLE_READ`, is `GROWING` under `READ_COMMITTED` when `m` is `SHARED` and `SHRINKING` when
`m` is `EXCLUSIVE`, and is `SHRINKING` under `READ_UNCOMMITTED` when `m` is `EXCLUSIVE`; a
transaction that was not `GROWING` has the state it had. -/
def ReleaseSetsState (s : LockManager) (tid rid : Nat) (m : LockMode) : Prop :=
  (∃ e ∈ s.lock_table rid, e.txn_id = tid) →
  (∀ e ∈ s.lock_table rid, e.txn_id = tid → e.lock_mode = m) →
  ∀ mode0, ∃ b s1, s.Unlock tid rid mode0 = some (b, s1) ∧
    ((s.txns tid).state = TransactionState.GROWING →
      ((s.txns tid).isolation_level = IsolationLevel.REPEATABLE_READ →
        (s1.txns tid).state = TransactionState.SHRINKING) ∧
      ((s.txns tid).isolation_level = IsolationLevel.READ_COMMITTED →
        m = LockMode.SHARED → (s1.txns tid).state = TransactionState.GROWING) ∧
      ((s.txns tid).isolation_level = IsolationLevel.READ_COMMITTED →
        m = LockMode.EXCLUSIVE → (s1.txns tid).state = TransactionState.SHRINKING) ∧
      ((s.txns tid).isolation_level = IsolationLevel.READ_UNCOMMITTED →
        m = LockMode.EXCLUSIVE → (s1.txns tid).state = TransactionState.SHRINKING)) ∧
    ((s.txns tid).state ≠ TransactionState.GROWING →
      (s1.txns tid).state = (s.txns tid).state)

/-- What C27 asks of `LockShared` for a transaction in state `SHRINKING`: the state becomes
`ABORTED` and the call fails with `LOCK_ON_SHRINKING`. -/
def LockSharedFailsOnShrinking (s : LockManager) (tid rid : Nat) : Prop :=
  (s.txns tid).state = TransactionState.SHRINKING →
    (s.LockShared tid rid).1 = LockResult.threw AbortReason.LOCK_ON_SHRINKING ∧
      ((s.LockShared tid rid).2.txns tid).state = TransactionState.ABORTED

/-- A call changed nothing but the state of transaction `tid`: every queue, the lock sets and
the isolation level of `tid`, and every other transaction are as before. -/
def OnlyStateChanged (s s1 : LockManager) (tid : Nat) : Prop :=
  s1.lock_table = s.lock_table ∧
    (s1.txns tid).shared_lock_set = (s.txns tid).shared_lock_set ∧
    (s1.txns tid).exclusive_lock_set = (s.txns tid).exclusive_lock_set ∧
    (s1.txns tid).isolation_level = (s.txns tid).isolation_level ∧
    ∀ t, t ≠ tid → s1.txns t = s.txns t

/-- What C30 asks of `LockUpgrade` by `t1` on row `rid`: the call is not granted while the
queue of the row holds the request of another transaction that is not aborted. -/
def UpgradeWaitsForOthers (s : LockManager) (t1 rid : Nat) : Prop :=
  (∃ e ∈ s.lock_table rid, e.txn_id ≠ t1 ∧
      (s.txns e.txn_id).state ≠ TransactionState.ABORTED) →
    (s.LockUpgrade t1 rid).1 ≠ LockResult.returned true

/-- Transaction 3 is in its shrinking phase under `READ_UNCOMMITTED`. -/
def shrinkingReadUncommitted : LockManager :=
  { lock_table := fun _ => []
    txns := Function.update growingTxns 3
      { isolation_level := IsolationLevel.READ_UNCOMMITTED, state := TransactionState.SHRINKING,
        shared_lock_set := [], exclusive_lock_set := [] } }

/-- Transactions of the release example: all `GROWING` under `READ_COMMITTED`, holding no
lock. -/
def readCommittedTxns : Nat → Transaction := fun _ =>
  { isolation_level := IsolationLevel.READ_COMMITTED, state := TransactionState.GROWING,
    shared_lock_set := [], exclusive_lock_set := [] }

/-- A lock manager with empty lock table over `readCommittedTxns`, after `LockShared` by T1 on
row 7. -/
def readCommittedShared : LockManager :=
  (LockManager.LockShared { lock_table := fun _ => [], txns := readCommittedTxns } 1 7).2

/-- The fresh lock manager after `LockShared` on row 7 by T1 and then by T2. -/
def sharedByT1ThenT2 : LockManager :=
  ((freshLockManager.LockShared 1 7).2.LockShared 2 7).2

/-- The fresh lock manager after `LockShared` on row 7 by T2 and then by T1. -/
def sharedByT2ThenT1 : LockManager :=
  ((freshLockManager.LockShared 2 7).2.LockShared 1 7).2

/-! ## Bucket page: reachable pages, properties asked of them -/

section BucketSpec

variable {K V : Type} [DecidableEq K] [DecidableEq V] [Inhabited K] [Inhabited V]

/-- The three arrays of the bucket page have the lengths the class declares for
`BUCKET_ARRAY_SIZE` slots. -/
structure HashTableBucketPage.Sized (BUCKET_ARRAY_SIZE : Nat) (b : HashTableBucketPage K V) :
    Prop where
  len_occupied : b.occupied_.length = (BUCKET_ARRAY_SIZE - 1) / 8 + 1
  len_readable : b.readable_.length = (BUCKET_ARRAY_SIZE - 1) / 8 + 1
  len_array : b.array_.length = BUCKET_ARRAY_SIZE

/-- Bucket pages reachable from an all-zero page through `Insert`, `Remove`, `RemoveAt` on a
slot of the page, and `Clear`. -/
inductive HashTableBucketPage.ReachablePage (BUCKET_ARRAY_SIZE : Nat) :
    HashTableBucketPage K V → Prop
  | zero : ReachablePage BUCKET_ARRAY_SIZE (HashTableBucketPage.zero BUCKET_ARRAY_SIZE)
  | insert {b} (key : K) (value : V) : ReachablePage BUCKET_ARRAY_SIZE b →
      ReachablePage BUCKET_ARRAY_SIZE (b.Insert BUCKET_ARRAY_SIZE key value).2
  | remove {b} (key : K) (value : V) : ReachablePage BUCKET_ARRAY_SIZE b →
      ReachablePage BUCKET_ARRAY_SIZE (b.Remove BUCKET_ARRAY_SIZE key value).2
  | removeAt {b} (bucket_idx : Nat) : bucket_idx < BUCKET_ARRAY_SIZE →
      ReachablePage BUCKET_ARRAY_SIZE b → ReachablePage BUCKET_ARRAY_SIZE (b.RemoveAt bucket_idx)
  | clear {b} : ReachablePage BUCKET_ARRAY_SIZE b →
      ReachablePage BUCKET_ARRAY_SIZE (b.Clear BUCKET_ARRAY_SIZE)

/-- What C26 asks of a bucket page: every readable slot is occupied, and no two readable slots
hold the same pair. -/
def HashTableBucketPage.BitmapInvariant (BUCKET_ARRAY_SIZE : Nat)
    (b : HashTableBucketPage K V) : Prop :=
  (∀ i, i < BUCKET_ARRAY_SIZE → b.IsReadable i = true → b.IsOccupied i = true) ∧
    ∀ i j, i < BUCKET_ARRAY_SIZE → j < BUCKET_ARRAY_SIZE → b.IsReadable i = true →
      b.IsReadable j = true → b.array_.getD i default = b.array_.getD j default → i = j

end BucketSpec

/-- A bucket page of four slots after Insert of (1, 10), (2, 20), (1, 11). -/
def bucketThreePairs : HashTableBucketPage Nat Nat :=
  (((((HashTableBucketPage.zero 4).Insert 4 1 10).2).Insert 4 2 20).2.Insert 4 1 11).2

/-! ## Hash table: sequences of calls, directory depth, duplicate inserts -/

/-- A call of `Insert` or of `Remove` on a hash table. -/
inductive TableCall (K V : Type) where
  | insert (key : K) (value : V)
  | remove (key : K) (value : V)

section TableSpecDepth

variable {K V : Type} [DecidableEq K] [DecidableEq V] [Inhabited K] [Inhabited V]

/-- The calls of the list in turn, whatever each call returns: the flags returned, in call order,
and the table reached; `none` when `fuel` does not suffice for one of the inserts. -/
def ExtendibleHashTable.calls (fuel : Nat) :
    ExtendibleHashTable K V → List (TableCall K V) → Option (List Bool × ExtendibleHashTable K V)
  | t, [] => some ([], t)
  | t, TableCall.insert key value :: rest =>
    match t.Insert fuel key value with
    | none => none
    | some (res, t1) =>
      (ExtendibleHashTable.calls fuel t1 rest).map (fun r => (res :: r.1, r.2))
  | t, TableCall.remove key value :: rest =>
    (ExtendibleHashTable.calls fuel (t.Remove key value).2 rest).map
      (fun r => ((t.Remove key value).1 :: r.1, r.2))

/-- The directory index whose local depth `Merge` reads in its test
`local_depth != dir->GetLocalDepth(image_bucket_index)`; `none` when `Merge` returns before that
test. -/
def ExtendibleHashTable.MergeImageRead (t0 : ExtendibleHashTable K V) (key : K) : Option Nat :=
  let t := t0.FetchDirectoryPage
  let dir := t.directory
  let merge_bucket_index := t.KeyToDirectoryIndex key dir
  if merge_bucket_index ≥ dir.Size then none
  else
    let image_bucket_index := dir.GetSplitImageIndex merge_bucket_index
    let local_depth := dir.GetLocalDepth merge_bucket_index
    if local_depth = 0 then none else some image_bucket_index

/-- The directory index whose local depth is read by the `Merge` that `Remove` calls; `none` when
`Remove` does not call `Merge` or `Merge` returns before the read. -/
def ExtendibleHashTable.RemoveImageRead (t0 : ExtendibleHashTable K V) (key : K) (value : V) :
    Option Nat :=
  let t := t0.FetchDirectoryPage
  let bucket_page_id := t.KeyToPageId key t.directory
  let removed := (t.buckets bucket_page_id).Remove t.BUCKET_ARRAY_SIZE key value
  let t1 := { t with buckets := Function.update t.buckets bucket_page_id removed.2 }
  if removed.2.IsEmpty t.BUCKET_ARRAY_SIZE then t1.MergeImageRead key else none

/-- What C21 asks of a table state: the global depth is at most `MAX_BUCKET_DEPTH`, and the
directory index a `Remove` reads in `Merge` is below the directory array size
`2 ^ MAX_BUCKET_DEPTH`. -/
def ExtendibleHashTable.DepthInRange (t : ExtendibleHashTable K V) : Prop :=
  t.directory.global_depth_ ≤ t.MAX_BUCKET_DEPTH ∧
    ∀ key value i, t.RemoveImageRead key value = some i → i < 2 ^ t.MAX_BUCKET_DEPTH

/-- What C22 asks of a table state `t`, a call of Insert and the removes that follow it: when the
Insert raises the global depth and the removes leave the bucket that was split empty, the global
depth is again what it was before the Insert. -/
def ExtendibleHashTable.SplitMergeRestoresDepth (t : ExtendibleHashTable K V) (key : K)
    (value : V) (removes : List (K × V)) : Prop :=
  ∀ fuel res t1, t.Insert fuel key value = some (res, t1) →
    t.directory.global_depth_ < t1.directory.global_depth_ →
    ∀ flags t2, t1.calls fuel (removes.map (fun p => TableCall.remove p.1 p.2))
        = some (flags, t2) →
      (t2.buckets (t.KeyToPageId key t.directory)).IsEmpty t.BUCKET_ARRAY_SIZE = true →
      t2.directory.global_depth_ = t.directory.global_depth_

/-- What C23 asks of a table state `t` in which the bucket of `key` holds the pair: Insert of the
pair returns false, and the bucket and the directory are the same after the call as before. -/
def ExtendibleHashTable.DuplicateInsertHarmless (t : ExtendibleHashTable K V) (key : K)
    (value : V) : Prop :=
  (t.buckets (t.KeyToPageId key t.directory)).Holds t.BUCKET_ARRAY_SIZE (key, value) →
    ∀ fuel res t1, t.Insert fuel key value = some (res, t1) →
      res = false ∧ t1.directory = t.directory ∧
        t1.buckets (t.KeyToPageId key t.directory) = t.buckets (t.KeyToPageId key t.directory)

end TableSpecDepth

/-- The calls Insert(15, 0), Insert(7, 0), Insert(7, 0), Remove(15, 0), Remove(7, 0),
Remove(7, 0). -/
def depthWrapCalls : List (TableCall Nat Nat) :=
  [TableCall.insert 15 0, TableCall.insert 7 0, TableCall.insert 7 0, TableCall.remove 15 0,
    TableCall.remove 7 0, TableCall.remove 7 0]

/-- The table with two slots per bucket, maximal depth 4 and the identity as hash function, after
Insert(0, 0). -/
def tableOnePair : ExtendibleHashTable Nat Nat :=
  ((tableDepthFour.Insert 0 0 0).getD (false, tableDepthFour)).2

/-! ## Hash table: one split step, one merge -/

section TableSpecSplit

variable {K V : Type} [DecidableEq K] [DecidableEq V] [Inhabited K] [Inhabited V]

/-- What C31 asks of one split step on the table `t` for `key`, where `idx` is the directory
index of the key, `d` the local depth of that entry before the step and `image_idx` is
`idx XOR 2 ^ d`: afterwards every live entry whose low `d + 1` bits are those of `idx` holds the
page id the entry `idx` held and has local depth `d + 1`, every live entry whose low `d + 1` bits
are those of `image_idx` holds the page id the step allocated and has local depth `d + 1`, and
the two page ids differ. -/
def ExtendibleHashTable.SplitRepoints (t : ExtendibleHashTable K V) (key : K) : Prop :=
  ∀ t1, t.SplitStep key = some t1 →
    let idx := t.FetchDirectoryPage.KeyToDirectoryIndex key t.FetchDirectoryPage.directory
    let d := t.FetchDirectoryPage.directory.GetLocalDepth idx
    let image_idx := idx ^^^ 2 ^ d
    let old_page := t.FetchDirectoryPage.directory.GetBucketPageId idx
    let new_page := t.FetchDirectoryPage.next_page_id
    (∀ i, i < t1.directory.Size → i % 2 ^ (d + 1) = idx % 2 ^ (d + 1) →
        t1.directory.GetBucketPageId i = old_page ∧ t1.directory.GetLocalDepth i = d + 1) ∧
      (∀ i, i < t1.directory.Size → i % 2 ^ (d + 1) = image_idx % 2 ^ (d + 1) →
        t1.directory.GetBucketPageId i = new_page ∧ t1.directory.GetLocalDepth i = d + 1) ∧
      old_page ≠ new_page

/-- The directory `Merge` has produced when it reaches its test of `CanShrink`, after the two
re-pointing loops; `none` when `Merge` returns before (the merge is skipped). -/
def ExtendibleHashTable.MergeRepoint (t0 : ExtendibleHashTable K V) (key : K) :
    Option HashTableDirectoryPage :=
  let t := t0.FetchDirectoryPage
  let dir := t.directory
  let merge_bucket_index := t.KeyToDirectoryIndex key dir
  if merge_bucket_index ≥ dir.Size then none
  else
    let merge_bucket_page_id := dir.GetBucketPageId merge_bucket_index
    let image_bucket_index := dir.GetSplitImageIndex merge_bucket_index
    let local_depth := dir.GetLocalDepth merge_bucket_index
    if local_depth = 0 then none
    else if local_depth ≠ dir.GetLocalDepth image_bucket_index then none
    else
      let bucket := t.buckets merge_bucket_page_id
      if ¬ bucket.IsEmpty t.BUCKET_ARRAY_SIZE then none
      else
        let image_bucket_page_id := dir.GetBucketPageId image_bucket_index
        let dir := dir.SetBucketPageId merge_bucket_index image_bucket_page_id
        let dir := dir.DecrLocalDepth merge_bucket_index
        let dir := dir.DecrLocalDepth image_bucket_index
        let distance := 1 <<< (dir.GetLocalDepth merge_bucket_index + 1)
        let dir := mergeWalkDown distance image_bucket_page_id (merge_bucket_index + 1)
          merge_bucket_index dir
        let dir := mergeWalkUp distance image_bucket_page_id dir.Size merge_bucket_index dir
        some dir

/-- The directory reached before the shrink test by the `Merge` that `Remove` calls; `none` when
`Remove` does not call `Merge` or the merge is skipped. -/
def ExtendibleHashTable.RemoveMergeRepoint (t0 : ExtendibleHashTable K V) (key : K)
    (value : V) : Option HashTableDirectoryPage :=
  let t := t0.FetchDirectoryPage
  let bucket_page_id := t.KeyToPageId key t.directory
  let removed := (t.buckets bucket_page_id).Remove t.BUCKET_ARRAY_SIZE key value
  let t1 := { t with buckets := Function.update t.buckets bucket_page_id removed.2 }
  if removed.2.IsEmpty t.BUCKET_ARRAY_SIZE then t1.MergeRepoint key else none

/-- What C32 asks of the `Merge` that `Remove(key, value)` calls on the table `t`, where `idx` is
the directory index of the key, `d` the local depth of that entry before the call and
`image_idx` its split image: when the merge is not skipped, then before any shrink every live
entry whose low `d` bits are those of `idx` holds the page id the entry `image_idx` held, and
the entries `idx` and `image_idx` have local depth `d - 1`. -/
def ExtendibleHashTable.MergePostcondition (t : ExtendibleHashTable K V) (key : K) (value : V) :
    Prop :=
  ∀ dir, t.RemoveMergeRepoint key value = some dir →
    let idx := t.FetchDirectoryPage.KeyToDirectoryIndex key t.FetchDirectoryPage.directory
    let d := t.FetchDirectoryPage.directory.GetLocalDepth idx
    let image_idx := t.FetchDirectoryPage.directory.GetSplitImageIndex idx
    let image_page := t.FetchDirectoryPage.directory.GetBucketPageId image_idx
    (∀ i, i < dir.Size → i % 2 ^ d = idx % 2 ^ d → dir.GetBucketPageId i = image_page) ∧
      dir.GetLocalDepth idx = d - 1 ∧ dir.GetLocalDepth image_idx = d - 1

end TableSpecSplit

/-- The calls Insert(0, 0), Insert(1, 1), Insert(2, 2), Remove(0, 0), Remove(1, 1). -/
def splitThenRemoveCalls : List (TableCall Nat Nat) :=
  [TableCall.insert 0 0, TableCall.insert 1 1, TableCall.insert 2 2, TableCall.remove 0 0,
    TableCall.remove 1 1]

/-! ## Lock manager: the granted flag, requests behind the caller -/

/-- What C35 asks of `LockShared` by `tid` on row `rid` in state `s`: when the call returns true
after enqueuing a request, the queue of the row holds a request of `tid` whose granted flag is
set, and `tid` is `GROWING`. -/
def GrantRecordedShared (s : LockManager) (tid rid : Nat) : Prop :=
  rid ∉ (s.txns tid).shared_lock_set →
    (s.LockShared tid rid).1 = LockResult.returned true →
    (∃ e ∈ (s.LockShared tid rid).2.lock_table rid, e.txn_id = tid ∧ e.granted = true) ∧
      ((s.LockShared tid rid).2.txns tid).state = TransactionState.GROWING

/-- What C40 asks of `NeedWait` for `tid` on a queue that ends with the one request of `tid`,
and requests `behind` of other transactions: with `behind` appended, `NeedWait` returns the same
value and leaves the same transactions wounded. -/
def NeedWaitIgnoresBehind (txns : Nat → Transaction) (tid : Nat)
    (queue behind : List LockRequest) : Prop :=
  (queue.filter (fun e => decide (e.txn_id = tid))).length = 1 →
    (∃ self, queue.getLast? = some self ∧ self.txn_id = tid) →
    (∀ e ∈ behind, e.txn_id ≠ tid) →
    (NeedWait txns tid (queue ++ behind)).need_wait = (NeedWait txns tid queue).need_wait ∧
      ∀ t, ((NeedWait txns tid (queue ++ behind)).txns t).state
        = ((NeedWait txns tid queue).txns t).state

/-- Queue of a row on which T1 holds `SHARED` and T2 waits for `EXCLUSIVE`. -/
def queueT2WaitsForT1 : List LockRequest :=
  [{ txn_id := 1, lock_mode := LockMode.SHARED, granted := false },
   { txn_id := 2, lock_mode := LockMode.EXCLUSIVE, granted := false }]

/-! ## Buffer pool: the bookkeeping the page table, the free list and the replacer keep -/

/-- What C37 asks of a pool state: the page table is injective and maps only to frames below
`pool_size`; a frame is in the replacer if and only if it is the image of a resident page and
its pin count is 0; no frame in the free list is the image of a resident page; the free list and
the replacer contain no frame twice. -/
def BookkeepingInvariant (s : BufferPoolManagerInstance) : Prop :=
  (∀ p q f, ptFind s.page_table p = some f → ptFind s.page_table q = some f → p = q) ∧
    (∀ p f, ptFind s.page_table p = some f → f < s.pool_size) ∧
    (∀ f, f ∈ s.replacer.lru_list ↔
      (∃ p, ptFind s.page_table p = some f) ∧ (s.pages f).pin_count = 0) ∧
    (∀ p f, ptFind s.page_table p = some f → f ∉ s.free_list) ∧
    s.free_list.Nodup ∧ s.replacer.lru_list.Nodup

/-- The bookkeeping invariant with the replacer described from both sides separately: every frame
in the replacer has pin count 0, and every frame that is the image of a resident page and has
pin count 0 is in the replacer. -/
def BookkeepingInvariantOneSided (s : BufferPoolManagerInstance) : Prop :=
  (∀ p q f, ptFind s.page_table p = some f → ptFind s.page_table q = some f → p = q) ∧
    (∀ p f, ptFind s.page_table p = some f → f < s.pool_size) ∧
    (∀ f, f ∈ s.replacer.lru_list → (s.pages f).pin_count = 0) ∧
    (∀ p f, ptFind s.page_table p = some f → (s.pages f).pin_count = 0 →
      f ∈ s.replacer.lru_list) ∧
    (∀ p f, ptFind s.page_table p = some f → f ∉ s.free_list) ∧
    s.free_list.Nodup ∧ s.replacer.lru_list.Nodup

/-- Every frame that is the image of a resident page and has pin count 0 is in the replacer. -/
def UnpinnedInReplacer (s : BufferPoolManagerInstance) : Prop :=
  ∀ p f, ptFind s.page_table p = some f → (s.pages f).pin_count = 0 → f ∈ s.replacer.lru_list

/-- Pool of two frames after `FetchPage(0)`, `UnpinPage(0, false)` and `NewPage` on the fresh
pool. -/
def poolTwoFetchUnpinNew : BufferPoolManagerInstance :=
  ((poolTwoAfterFetch.UnpinPgImp 0 false).2.NewPgImp).2

/-! ## Hash table: the parts of one split step -/

section TableSplitParts

variable {K V : Type} [DecidableEq K] [DecidableEq V] [Inhabited K] [Inhabited V]

/-- The directory in `SplitInsert` after the test of the global depth: grown when the local depth
of the entry of the key equals the global depth. -/
def ExtendibleHashTable.SplitGrownDirectory (t0 : ExtendibleHashTable K V) (key : K) :
    HashTableDirectoryPage :=
  let t := t0.FetchDirectoryPage
  let dir := t.directory
  let split_bucket_index := t.KeyToDirectoryIndex key dir
  let split_bucket_depth := dir.GetLocalDepth split_bucket_index
  if split_bucket_depth = dir.GetGlobalDepth then dir.IncrGlobalDepth else dir

/-- The page id `split_bucket_page_id` of `SplitInsert`: the page of the bucket that is split. -/
def ExtendibleHashTable.SplitBucketPageId (t0 : ExtendibleHashTable K V) (key : K) : Int :=
  t0.FetchDirectoryPage.KeyToPageId key (t0.SplitGrownDirectory key)

/-- The directory `SplitInsert` has produced when its four re-pointing loops are done. -/
def ExtendibleHashTable.SplitDirectory (t0 : ExtendibleHashTable K V) (key : K) :
    HashTableDirectoryPage :=
  let t := t0.FetchDirectoryPage
  let split_bucket_index := t.KeyToDirectoryIndex key t.directory
  let dir := t0.SplitGrownDirectory key
  let split_bucket_page_id := t0.SplitBucketPageId key
  let image_bunket_page_id := t.next_page_id
  let dir := dir.IncrLocalDepth split_bucket_index
  let split_image_bucket_index := dir.GetSplitImageIndex split_bucket_index
  let dir := dir.SetLocalDepth split_image_bucket_index (dir.GetLocalDepth split_bucket_index)
  let dir := dir.SetBucketPageId split_image_bucket_index image_bunket_page_id
  let distance := 1 <<< dir.GetLocalDepth split_bucket_index
  let dir := splitWalkDown distance split_bucket_index split_bucket_page_id
    (split_bucket_index + 1) split_bucket_index dir
  let dir := splitWalkUp distance split_bucket_index split_bucket_page_id
    dir.Size split_bucket_index dir
  let dir := splitWalkDown distance split_bucket_index image_bunket_page_id
    (split_image_bucket_index + 1) split_image_bucket_index dir
  splitWalkUp distance split_image_bucket_index split_bucket_page_id
    dir.Size split_image_bucket_index dir

/-- The split bucket and the image bucket `SplitInsert` has produced when its rehash loop is
done. -/
def ExtendibleHashTable.SplitBuckets (t0 : ExtendibleHashTable K V) (key : K) :
    HashTableBucketPage K V × HashTableBucketPage K V :=
  let t := t0.FetchDirectoryPage
  let split_bucket_index := t.KeyToDirectoryIndex key t.directory
  let split_bucket_page_id := t0.SplitBucketPageId key
  let split_bucket := t.buckets split_bucket_page_id
  let origin_array := split_bucket.GetArrayCopy t.BUCKET_ARRAY_SIZE
  let origin_array_size := split_bucket.NumReadable t.BUCKET_ARRAY_SIZE
  let dir := t0.SplitDirectory key
  let mask := dir.GetLocalDepthMask split_bucket_index
  (origin_array.take origin_array_size).foldl
    (fun (acc : HashTableBucketPage K V × HashTableBucketPage K V) temp =>
      let target_bucket_index := t.Hash temp.1 &&& mask
      let target_bucket_page_id := dir.GetBucketPageId target_bucket_index
      if target_bucket_page_id = split_bucket_page_id then
        ((acc.1.Insert t.BUCKET_ARRAY_SIZE temp.1 temp.2).2, acc.2)
      else (acc.1, (acc.2.Insert t.BUCKET_ARRAY_SIZE temp.1 temp.2).2))
    (split_bucket.Clear t.BUCKET_ARRAY_SIZE, HashTableBucketPage.zero t.BUCKET_ARRAY_SIZE)

/-- The directory of the table lies within its arrays: both arrays have `2 ^ MAX_BUCKET_DEPTH`
entries, the global depth is at most `MAX_BUCKET_DEPTH`, and `MAX_BUCKET_DEPTH` fits the byte
that stores a local depth. -/
structure ExtendibleHashTable.DirectoryFits (t : ExtendibleHashTable K V) : Prop where
  len_depths : t.directory.local_depths_.length = 2 ^ t.MAX_BUCKET_DEPTH
  len_ids : t.directory.bucket_page_ids_.length = 2 ^ t.MAX_BUCKET_DEPTH
  depth_le : t.directory.global_depth_ ≤ t.MAX_BUCKET_DEPTH
  max_byte : t.MAX_BUCKET_DEPTH < 256

end TableSplitParts

/-- The table with two slots per bucket, maximal depth 4 and the identity as hash function, after
Insert(0, 0) and Insert(1, 1): its one bucket is full. -/
def tableTwoPairs : ExtendibleHashTable Nat Nat :=
  ((tableOnePair.Insert 0 1 1).getD (false, tableOnePair)).2

/-- The directory has `n` entries in both arrays, global depth `g`, and local depth `v` at the
entries `a` and `b`. -/
structure DepthsSet (n g a b v : Nat) (dir : HashTableDirectoryPage) : Prop where
  len_depths : dir.local_depths_.length = n
  len_ids : dir.bucket_page_ids_.length = n
  depth : dir.global_depth_ = g
  at_a : dir.GetLocalDepth a = v
  at_b : dir.GetLocalDepth b = v

/-! ## Lock manager: sequences of calls that do not block, mutual exclusion -/

/-- What C36 asks of a lock manager state: there are no two distinct transactions, neither in
state `ABORTED`, such that one has a row in its exclusive lock set and the other has that row in
its shared or exclusive lock set. -/
def MutualExclusion (s : LockManager) : Prop :=
  ∀ t u rid, t ≠ u → (s.txns t).state ≠ TransactionState.ABORTED →
    (s.txns u).state ≠ TransactionState.ABORTED →
    rid ∈ (s.txns t).exclusive_lock_set →
    rid ∉ (s.txns u).shared_lock_set ∧ rid ∉ (s.txns u).exclusive_lock_set

/-- No row has a request and no transaction holds a lock. -/
def LockManager.Idle (s : LockManager) : Prop :=
  (∀ rid, s.lock_table rid = []) ∧
    ∀ t, (s.txns t).shared_lock_set = [] ∧ (s.txns t).exclusive_lock_set = []

/-- States reached from an idle lock manager by calls of `LockShared`, `LockExclusive` and
`Unlock` none of which blocks; a call of `Unlock` in such a sequence is one that returns. -/
inductive ReachedWithoutBlocking : LockManager → Prop
  | init (s : LockManager) : s.Idle → ReachedWithoutBlocking s
  | lockShared {s} (tid rid : Nat) : ReachedWithoutBlocking s →
      (s.LockShared tid rid).1 ≠ LockResult.blocked →
      ReachedWithoutBlocking (s.LockShared tid rid).2
  | lockExclusive {s} (tid rid : Nat) : ReachedWithoutBlocking s →
      (s.LockExclusive tid rid).1 ≠ LockResult.blocked →
      ReachedWithoutBlocking (s.LockExclusive tid rid).2
  | unlock {s s1} (tid rid : Nat) (mode0 : LockMode) (b : Bool) : ReachedWithoutBlocking s →
      s.Unlock tid rid mode0 = some (b, s1) → ReachedWithoutBlocking s1

/-- The first request of the queue of row `rid` is a `SHARED` request of a transaction in state
`ABORTED`. -/
def LockManager.AbortedReaderAtHead (s : LockManager) (rid : Nat) : Prop :=
  ∃ first, (s.lock_table rid).head? = some first ∧ first.lock_mode = LockMode.SHARED ∧
    (s.txns first.txn_id).state = TransactionState.ABORTED

/-- What holds of every state reached cleanly: a row is in the shared (exclusive) lock set of a
transaction exactly when the queue of the row has a `SHARED` (`EXCLUSIVE`) request of it; when
the queue of a row has an `EXCLUSIVE` request of a transaction that is not `ABORTED`, every
request in that queue of a transaction that is not `ABORTED` is of the same transaction; and
the first request in a queue of a transaction that has an `EXCLUSIVE` request there is
`EXCLUSIVE`. -/
structure ExclusionInvariant (s : LockManager) : Prop where
  shared_iff : ∀ t rid, rid ∈ (s.txns t).shared_lock_set ↔
    ∃ e ∈ s.lock_table rid, e.txn_id = t ∧ e.lock_mode = LockMode.SHARED
  exclusive_iff : ∀ t rid, rid ∈ (s.txns t).exclusive_lock_set ↔
    ∃ e ∈ s.lock_table rid, e.txn_id = t ∧ e.lock_mode = LockMode.EXCLUSIVE
  writer_alone : ∀ rid e, e ∈ s.lock_table rid → e.lock_mode = LockMode.EXCLUSIVE →
    (s.txns e.txn_id).state ≠ TransactionState.ABORTED →
    ∀ e2 ∈ s.lock_table rid, (s.txns e2.txn_id).state ≠ TransactionState.ABORTED →
      e2.txn_id = e.txn_id
  writer_first : ∀ rid e, e ∈ s.lock_table rid → e.lock_mode = LockMode.EXCLUSIVE →
    ∃ f, (s.lock_table rid).find? (fun x => decide (x.txn_id = e.txn_id)) = some f ∧
      f.lock_mode = LockMode.EXCLUSIVE

/-- The fresh lock manager after `LockShared` on row 7 by T1, `LockExclusive` on row 7 by T1 and
`LockShared` on row 7 by T2. -/
def sharedBehindOwnExclusive : LockManager :=
  (((freshLockManager.LockShared 1 7).2.LockExclusive 1 7).2.LockShared 2 7).2

/-! ## Hash table: the buffer pool calls of each operation and the pin counts -/

/-- A call of the buffer pool by the hash table, as far as pin counts go: `NewPage` with the page
id it hands out, `FetchPage`, and `UnpinPage` and `DeletePage`, which the hash table calls inside
`assert`. -/
inductive PinCall where
  | newPage (page_id : Int)
  | fetchPage (page_id : Int)
  | unpinPage (page_id : Int)
  | deletePage (page_id : Int)
  deriving DecidableEq

/-- The pin count of every page id after a call of the buffer pool, where a page that is not in
the pool counts as 0; `none` when the `assert` around the call fails.  `NewPgImp` sets
`pin_count_ = 1`; `FetchPgImp` increments the count of a page in the pool and sets it to 1 for a
page it brings in; `UnpinPgImp` returns false for a page that is not in the pool or has pin count
0 and decrements the count otherwise; `DeletePgImp` returns false for a pinned page and else
leaves no such page in the pool.  As in `ExtendibleHashTable` the pool is taken large enough:
`NewPage` and `FetchPage` find a frame in the free list, so they return a page and evict
none. -/
def PinCall.run (pins : Int → Nat) : PinCall → Option (Int → Nat)
  | PinCall.newPage p => some (Function.update pins p 1)
  | PinCall.fetchPage p => some (Function.update pins p (pins p + 1))
  | PinCall.unpinPage p => if pins p = 0 then none else some (Function.update pins p (pins p - 1))
  | PinCall.deletePage p => if pins p > 0 then none else some pins

/-- The pin counts after a sequence of calls, `none` when an `assert` fails on the way. -/
def runPins (pins : Int → Nat) : List PinCall → Option (Int → Nat)
  | [] => some pins
  | c :: rest => (c.run pins).bind (fun pins1 => runPins pins1 rest)

/-- The page ids a sequence of calls has got from `NewPage`. -/
def createdPages : List PinCall → List Int
  | [] => []
  | PinCall.newPage p :: rest => p :: createdPages rest
  | _ :: rest => createdPages rest

/-- What C38 asks of the pin counts before and after a sequence of calls: a page created by the
sequence has pin count 0 and every other page has the pin count it had. -/
def PinsRestored (pins pins1 : Int → Nat) (calls : List PinCall) : Prop :=
  ∀ p, pins1 p = if p ∈ createdPages calls then 0 else pins p

/-- Every entry of the directory, and the 0 an index beyond its arrays reads, is a page id
below `n`. -/
def HashTableDirectoryPage.IdsBelow (d : HashTableDirectoryPage) (n : Int) : Prop :=
  ∀ i, d.GetBucketPageId i < n

section TablePins

variable {K V : Type} [DecidableEq K] [DecidableEq V] [Inhabited K] [Inhabited V]

/-- The buffer pool calls of `FetchDirectoryPage`: on first use `NewPage` for the directory and
for bucket 0 and `UnpinPage` of both, then `FetchPage` of the directory page. -/
def ExtendibleHashTable.FetchDirectoryPagePins (t : ExtendibleHashTable K V) : List PinCall :=
  (if t.directory_page_id_ = INVALID_PAGE_ID then
    [PinCall.newPage t.next_page_id, PinCall.newPage (t.next_page_id + 1),
      PinCall.unpinPage (t.next_page_id + 1), PinCall.unpinPage t.next_page_id]
  else []) ++ [PinCall.fetchPage t.FetchDirectoryPage.directory_page_id_]

/-- The buffer pool calls of `GetValue`. -/
def ExtendibleHashTable.GetValuePins (t : ExtendibleHashTable K V) (key : K) : List PinCall :=
  let t1 := t.FetchDirectoryPage
  let bucket_pageid := t1.KeyToPageId key t1.directory
  t.FetchDirectoryPagePins ++
    [PinCall.fetchPage bucket_pageid, PinCall.unpinPage bucket_pageid,
      PinCall.unpinPage t1.directory.GetPageId]

/-- The buffer pool calls of one run of `SplitInsert` up to its final call of `Insert`. -/
def ExtendibleHashTable.SplitStepPins (t0 : ExtendibleHashTable K V) (key : K) : List PinCall :=
  let t := t0.FetchDirectoryPage
  let dir := t.directory
  let split_bucket_index := t.KeyToDirectoryIndex key dir
  let split_bucket_depth := dir.GetLocalDepth split_bucket_index
  if split_bucket_depth ≥ t.MAX_BUCKET_DEPTH then
    t0.FetchDirectoryPagePins ++ [PinCall.unpinPage dir.GetPageId]
  else
    let split_bucket_page_id := t0.SplitBucketPageId key
    let image_bunket_page_id := t.next_page_id
    t0.FetchDirectoryPagePins ++
      [PinCall.fetchPage split_bucket_page_id, PinCall.newPage image_bunket_page_id,
        PinCall.unpinPage (t0.SplitDirectory key).GetPageId,
        PinCall.unpinPage split_bucket_page_id, PinCall.unpinPage image_bunket_page_id]

/-- The buffer pool calls of `Insert`, with `SplitInsert` unfolded into it as in
`ExtendibleHashTable.Insert`: `none` when the bound on the number of splits does not suffice. -/
def ExtendibleHashTable.InsertPins :
    Nat → ExtendibleHashTable K V → K → V → Option (List PinCall)
  | fuel, t0, key, value =>
    let t := t0.FetchDirectoryPage
    let bucket_pageid := t.KeyToPageId key t.directory
    let bucket := t.buckets bucket_pageid
    let calls := t0.FetchDirectoryPagePins ++
      [PinCall.fetchPage bucket_pageid, PinCall.unpinPage bucket_pageid,
        PinCall.unpinPage t.directory.GetPageId]
    if ¬ bucket.IsFull t.BUCKET_ARRAY_SIZE then some calls
    else
      match fuel with
      | 0 => none
      | fuel1 + 1 =>
        match t.SplitStep key with
        | none => some (calls ++ t.SplitStepPins key)
        | some t1 =>
          (ExtendibleHashTable.InsertPins fuel1 t1 key value).map
            (fun rest => calls ++ t.SplitStepPins key ++ rest)

/-- The buffer pool calls of `Merge`. -/
def ExtendibleHashTable.MergePins (t0 : ExtendibleHashTable K V) (key : K) : List PinCall :=
  let t := t0.FetchDirectoryPage
  let dir := t.directory
  let merge_bucket_index := t.KeyToDirectoryIndex key dir
  if merge_bucket_index ≥ dir.Size then t0.FetchDirectoryPagePins
  else
    let merge_bucket_page_id := dir.GetBucketPageId merge_bucket_index
    let image_bucket_index := dir.GetSplitImageIndex merge_bucket_index
    let local_depth := dir.GetLocalDepth merge_bucket_index
    if local_depth = 0 then t0.FetchDirectoryPagePins ++ [PinCall.unpinPage dir.GetPageId]
    else if local_depth ≠ dir.GetLocalDepth image_bucket_index then
      t0.FetchDirectoryPagePins ++ [PinCall.unpinPage dir.GetPageId]
    else
      let bucket := t.buckets merge_bucket_page_id
      if ¬ bucket.IsEmpty t.BUCKET_ARRAY_SIZE then
        t0.FetchDirectoryPagePins ++
          [PinCall.fetchPage merge_bucket_page_id, PinCall.unpinPage dir.GetPageId,
            PinCall.unpinPage merge_bucket_page_id]
      else
        t0.FetchDirectoryPagePins ++
          [PinCall.fetchPage merge_bucket_page_id, PinCall.unpinPage merge_bucket_page_id,
            PinCall.deletePage merge_bucket_page_id,
            PinCall.unpinPage (t0.Merge key).directory.GetPageId]

/-- The buffer pool calls of `Remove`. -/
def ExtendibleHashTable.RemovePins (t0 : ExtendibleHashTable K V) (key : K) (value : V) :
    List PinCall :=
  let t := t0.FetchDirectoryPage
  let bucket_page_id := t.KeyToPageId key t.directory
  let removed := (t.buckets bucket_page_id).Remove t.BUCKET_ARRAY_SIZE key value
  let t1 := { t with buckets := Function.update t.buckets bucket_page_id removed.2 }
  let calls := t0.FetchDirectoryPagePins ++
    [PinCall.fetchPage bucket_page_id, PinCall.unpinPage bucket_page_id,
      PinCall.unpinPage t.directory.GetPageId]
  if removed.2.IsEmpty t.BUCKET_ARRAY_SIZE then calls ++ t1.MergePins key else calls

/-- The directory page of the table, once created, carries the page id the table keeps, and
the page id the table keeps after `FetchDirectoryPage` is not `INVALID_PAGE_ID` (which
`FetchDirectoryPage` asserts). -/
structure ExtendibleHashTable.DirectoryIdKept (t : ExtendibleHashTable K V) : Prop where
  fetched_valid : t.FetchDirectoryPage.directory_page_id_ ≠ INVALID_PAGE_ID
  page_id_eq : t.directory_page_id_ ≠ INVALID_PAGE_ID →
    t.directory.page_id_ = t.directory_page_id_

/-- Every page id of the table has been handed out: no page id is negative or reaches
`next_page_id`, neither that of the directory page, once created, nor that of a directory
entry. -/
structure ExtendibleHashTable.Allocated (t : ExtendibleHashTable K V) : Prop where
  next_nonneg : 0 ≤ t.next_page_id
  dir_lt : t.directory_page_id_ ≠ INVALID_PAGE_ID → t.directory_page_id_ < t.next_page_id
  ids_lt : t.directory_page_id_ ≠ INVALID_PAGE_ID → t.directory.IdsBelow t.next_page_id

end TablePins

/-- The pin count the buffer pool keeps for a page id: that of the frame the page table records
for it, and 0 for a page that is not in the pool. -/
def BufferPoolManagerInstance.pinCountOf (s : BufferPoolManagerInstance) (p : Int) : Nat :=
  match ptFind s.page_table p with
  | some f => (s.pages f).pin_count.toNat
  | none => 0

/-! # Theorems -/

open BufferPoolManagerInstance

/-! ## Buffer pool: lemmas -/

theorem ptFind_erase_self (pt : List (Int × Nat)) (p : Int) : ptFind (ptErase pt p) p = none := by
  induction pt with
  | nil => rfl
  | cons e t ih =>
    obtain ⟨q, f⟩ := e
    by_cases h : q = p
    · simpa [ptErase, List.filter_cons, h] using ih
    · simpa [ptErase, List.filter_cons, h, ptFind] using ih

theorem ptFind_erase_ne (pt : List (Int × Nat)) {p q : Int} (h : q ≠ p) :
    ptFind (ptErase pt p) q = ptFind pt q := by
  induction pt with
  | nil => rfl
  | cons e t ih =>
    obtain ⟨r, f⟩ := e
    by_cases hr : r = p
    · subst hr
      have : ¬ r = q := fun e => h e.symm
      simpa [ptErase, List.filter_cons, ptFind, this] using ih
    · by_cases hq : r = q
      · subst hq
        simp [ptErase, List.filter_cons, ptFind, hr]
      · simpa [ptErase, List.filter_cons, ptFind, hr, hq] using ih

theorem ptFind_erase_some {pt : List (Int × Nat)} {p q : Int} {f : Nat}
    (h : ptFind (ptErase pt p) q = some f) : q ≠ p ∧ ptFind pt q = some f := by
  by_cases hq : q = p
  · subst hq; rw [ptFind_erase_self] at h; cases h
  · exact ⟨hq, by rwa [ptFind_erase_ne pt hq] at h⟩

theorem ptFind_assign_self (pt : List (Int × Nat)) (p : Int) (f : Nat) :
    ptFind (ptAssign pt p f) p = some f := by
  simp [ptAssign, ptFind]

theorem ptFind_assign_ne (pt : List (Int × Nat)) {p q : Int} (f : Nat) (h : q ≠ p) :
    ptFind (ptAssign pt p f) q = ptFind pt q := by
  have : ¬ p = q := fun e => h e.symm
  simp [ptAssign, ptFind, this, ptFind_erase_ne pt h]

theorem NewPgImp_free {s : BufferPoolManagerInstance} {f : Nat} {rest : List Nat}
    (h : s.free_list = f :: rest) :
    s.NewPgImp = (some (f, s.next_page_id), { s with
      free_list := rest
      next_page_id := s.next_page_id + (s.num_instances : Int)
      pages := Function.update s.pages f
        { data := ResetMemory s.PAGE_SIZE, page_id := s.next_page_id, pin_count := 1, is_dirty := false }
      page_table := ptAssign s.page_table s.next_page_id f
      replacer := s.replacer.Pin f }) := by
  simp [NewPgImp, h, AllocatePage]

theorem NewPgImp_victim {s : BufferPoolManagerInstance} {f : Nat} {rest : List Nat}
    (h : s.free_list = []) (hv : s.replacer.lru_list = f :: rest) :
    s.NewPgImp = (some (f, s.next_page_id), { s with
      next_page_id := s.next_page_id + (s.num_instances : Int)
      disk := if (s.pages f).is_dirty then WritePage s.disk (s.pages f).page_id (s.pages f).data
        else s.disk
      pages := Function.update s.pages f
        { data := ResetMemory s.PAGE_SIZE, page_id := s.next_page_id, pin_count := 1, is_dirty := false }
      page_table := ptAssign (ptErase s.page_table (s.pages f).page_id) s.next_page_id f
      replacer := (LRUReplacer.mk rest).Pin f }) := by
  simp [NewPgImp, h, hv, AllocatePage, LRUReplacer.Victim]

theorem NewPgImp_none {s : BufferPoolManagerInstance}
    (h : s.free_list = []) (hv : s.replacer.lru_list = []) : s.NewPgImp = (none, s) := by
  simp [NewPgImp, h, hv, LRUReplacer.Victim]

theorem mem_Pin {r : LRUReplacer} (hnd : r.lru_list.Nodup) {f g : Nat} :
    g ∈ (r.Pin f).lru_list ↔ g ∈ r.lru_list ∧ g ≠ f := by
  unfold LRUReplacer.Pin
  split
  · simp [hnd.mem_erase_iff, and_comm]
  · constructor
    · intro h; exact ⟨h, fun e => by subst e; contradiction⟩
    · exact fun h => h.1

theorem nodup_Pin {r : LRUReplacer} (hnd : r.lru_list.Nodup) (f : Nat) :
    (r.Pin f).lru_list.Nodup := by
  unfold LRUReplacer.Pin
  split
  · exact hnd.erase f
  · exact hnd

theorem mem_Unpin {r : LRUReplacer} {f g : Nat} :
    g ∈ (r.Unpin f).lru_list ↔ g ∈ r.lru_list ∨ g = f := by
  unfold LRUReplacer.Unpin
  split
  · constructor
    · exact Or.inl
    · rintro (h | rfl) <;> assumption
  · simp

theorem nodup_Unpin {r : LRUReplacer} (hnd : r.lru_list.Nodup) (f : Nat) :
    (r.Unpin f).lru_list.Nodup := by
  unfold LRUReplacer.Unpin
  split
  · exact hnd
  · rename_i h
    exact List.Nodup.append hnd (List.nodup_singleton f) (by simpa using h)

/-- Taking the front frame off the free list keeps the invariant and leaves the frame detached. -/
theorem PoolInv.pick_free {n : Nat} {pages : Nat → Page} {pt : List (Int × Nat)}
    {f : Nat} {rest repl : List Nat} (h : PoolInv n pages pt (f :: rest) repl) :
    PoolInv n pages pt rest repl ∧ f ∉ rest ∧ f ∉ repl ∧ (∀ p, ptFind pt p ≠ some f) ∧ f < n := by
  have hnd := List.nodup_cons.mp h.free_nodup
  refine ⟨⟨hnd.2, h.repl_nodup, fun g hg => h.free_lt g (List.mem_cons_of_mem _ hg), h.repl_lt,
    h.pt_lt, fun g hg => h.free_pin g (List.mem_cons_of_mem _ hg), h.repl_pin,
    fun p g hp hg => h.pt_free p g hp (List.mem_cons_of_mem _ hg),
    fun g hg hg2 => h.repl_free g hg (List.mem_cons_of_mem _ hg2), h.pt_pid, h.pin_nonneg,
    fun g hg => h.free_pid g (List.mem_cons_of_mem _ hg)⟩, hnd.1, ?_, ?_, ?_⟩
  · exact fun hf => h.repl_free f hf (List.mem_cons_self _ _)
  · exact fun p hp => h.pt_free p f hp (List.mem_cons_self _ _)
  · exact h.free_lt f (List.mem_cons_self _ _)

/-- Taking the victim off the replacer and erasing its page id keeps the invariant and leaves
the frame detached. -/
theorem PoolInv.pick_victim {n : Nat} {pages : Nat → Page} {pt : List (Int × Nat)}
    {f : Nat} {rest free : List Nat} (h : PoolInv n pages pt free (f :: rest)) :
    PoolInv n pages (ptErase pt (pages f).page_id) free rest ∧ f ∉ free ∧ f ∉ rest ∧
      (∀ p, ptFind (ptErase pt (pages f).page_id) p ≠ some f) ∧ f < n := by
  have hnd := List.nodup_cons.mp h.repl_nodup
  refine ⟨⟨h.free_nodup, hnd.2, h.free_lt, fun g hg => h.repl_lt g (List.mem_cons_of_mem _ hg),
    fun p g hp => h.pt_lt p g (ptFind_erase_some hp).2, h.free_pin,
    fun g hg => h.repl_pin g (List.mem_cons_of_mem _ hg),
    fun p g hp => h.pt_free p g (ptFind_erase_some hp).2,
    fun g hg => h.repl_free g (List.mem_cons_of_mem _ hg),
    fun p g hp => h.pt_pid p g (ptFind_erase_some hp).2, h.pin_nonneg, h.free_pid⟩,
    h.repl_free f (List.mem_cons_self _ _), hnd.1, ?_, h.repl_lt f (List.mem_cons_self _ _)⟩
  intro p hp
  obtain ⟨hne, hp2⟩ := ptFind_erase_some hp
  exact hne (h.pt_pid p f hp2).symm

/-- Installing a page in a detached frame (pin count 1) keeps the invariant. -/
theorem PoolInv.attach {n : Nat} {pages : Nat → Page} {pt : List (Int × Nat)}
    {f : Nat} {free repl : List Nat} (h : PoolInv n pages pt free repl)
    (hfree : f ∉ free) (hpt : ∀ p, ptFind pt p ≠ some f) (hlt : f < n)
    (data : List Nat) (id : Int) (dirty : Bool) :
    PoolInv n (Function.update pages f
        { data := data, page_id := id, pin_count := 1, is_dirty := dirty })
      (ptAssign pt id f) free (LRUReplacer.Pin ⟨repl⟩ f).lru_list := by
  have hmem : ∀ g, g ∈ (LRUReplacer.Pin ⟨repl⟩ f).lru_list ↔ g ∈ repl ∧ g ≠ f :=
    fun g => mem_Pin (r := ⟨repl⟩) h.repl_nodup
  have hfind : ∀ p g, ptFind (ptAssign pt id f) p = some g →
      (p = id ∧ g = f) ∨ (p ≠ id ∧ g ≠ f ∧ ptFind pt p = some g) := by
    intro p g hp
    by_cases hpid : p = id
    · subst hpid
      rw [ptFind_assign_self] at hp
      exact Or.inl ⟨rfl, (Option.some.inj hp).symm⟩
    · rw [ptFind_assign_ne pt f hpid] at hp
      exact Or.inr ⟨hpid, fun e => hpt p (e ▸ hp), hp⟩
  constructor
  · exact h.free_nodup
  · exact nodup_Pin (r := ⟨repl⟩) h.repl_nodup f
  · exact h.free_lt
  · exact fun g hg => h.repl_lt g ((hmem g).mp hg).1
  · intro p g hp
    rcases hfind p g hp with ⟨_, rfl⟩ | ⟨_, _, hp2⟩
    · exact hlt
    · exact h.pt_lt p g hp2
  · intro g hg
    have : g ≠ f := fun e => hfree (e ▸ hg)
    simpa [Function.update_apply, this] using h.free_pin g hg
  · intro g hg
    obtain ⟨hg1, hg2⟩ := (hmem g).mp hg
    simpa [Function.update_apply, hg2] using h.repl_pin g hg1
  · intro p g hp
    rcases hfind p g hp with ⟨_, rfl⟩ | ⟨_, _, hp2⟩
    · exact hfree
    · exact h.pt_free p g hp2
  · exact fun g hg => h.repl_free g ((hmem g).mp hg).1
  · intro p g hp
    rcases hfind p g hp with ⟨rfl, rfl⟩ | ⟨_, hgf, hp2⟩
    · simp
    · simpa [Function.update_apply, hgf] using h.pt_pid p g hp2
  · intro g
    by_cases hg : g = f
    · subst hg; simp
    · simpa [Function.update_apply, hg] using h.pin_nonneg g
  · intro g hg
    have : g ≠ f := fun e => hfree (e ▸ hg)
    simpa [Function.update_apply, this] using h.free_pid g hg

theorem FetchPgImp_hit {s : BufferPoolManagerInstance} {p : Int} {f : Nat}
    (h : ptFind s.page_table p = some f) :
    s.FetchPgImp p = (some f, { s with
      pages := Function.update s.pages f { s.pages f with pin_count := (s.pages f).pin_count + 1 }
      replacer := s.replacer.Pin f }) := by
  simp [FetchPgImp, h]

theorem FetchPgImp_free {s : BufferPoolManagerInstance} {p : Int} {f : Nat} {rest : List Nat}
    (hp : ptFind s.page_table p = none) (h : s.free_list = f :: rest) :
    s.FetchPgImp p = (some f, { s with
      free_list := rest
      pages := Function.update s.pages f
        { data := ReadPage s.disk p, page_id := p, pin_count := 1, is_dirty := false }
      page_table := ptAssign s.page_table p f
      replacer := s.replacer.Pin f }) := by
  simp [FetchPgImp, hp, h]

theorem FetchPgImp_victim {s : BufferPoolManagerInstance} {p : Int} {f : Nat} {rest : List Nat}
    (hp : ptFind s.page_table p = none) (h : s.free_list = [])
    (hv : s.replacer.lru_list = f :: rest) :
    s.FetchPgImp p = (some f, { s with
      disk := if (s.pages f).is_dirty then WritePage s.disk (s.pages f).page_id (s.pages f).data
        else s.disk
      pages := Function.update s.pages f
        { data := ReadPage (if (s.pages f).is_dirty
            then WritePage s.disk (s.pages f).page_id (s.pages f).data else s.disk) p,
          page_id := p, pin_count := 1, is_dirty := false }
      page_table := ptAssign (ptErase s.page_table (s.pages f).page_id) p f
      replacer := (LRUReplacer.mk rest).Pin f }) := by
  by_cases hd : (s.pages f).is_dirty = true <;>
    simp [FetchPgImp, hp, h, hv, LRUReplacer.Victim, hd]

theorem FetchPgImp_none {s : BufferPoolManagerInstance} {p : Int}
    (hp : ptFind s.page_table p = none) (h : s.free_list = [])
    (hv : s.replacer.lru_list = []) : s.FetchPgImp p = (none, s) := by
  simp [FetchPgImp, hp, h, hv, LRUReplacer.Victim]

theorem Inv_new (PAGE_SIZE pool_size num_instances instance_index : Nat) (disk : Int → List Nat) :
    Inv (BufferPoolManagerInstance.new PAGE_SIZE pool_size num_instances instance_index disk) := by
  constructor <;> simp [BufferPoolManagerInstance.new, ptFind, List.nodup_range]

theorem Inv_NewPgImp {s : BufferPoolManagerInstance} (h : Inv s) : Inv s.NewPgImp.2 := by
  cases hfl : s.free_list with
  | cons f rest =>
    rw [NewPgImp_free hfl]
    have h1 : PoolInv s.pool_size s.pages s.page_table (f :: rest) s.replacer.lru_list := hfl ▸ h
    obtain ⟨h2, hf, _, hpt, hlt⟩ := h1.pick_free
    exact h2.attach hf hpt hlt _ _ _
  | nil =>
    cases hv : s.replacer.lru_list with
    | nil => rw [NewPgImp_none hfl hv]; exact h
    | cons f rest =>
      rw [NewPgImp_victim hfl hv]
      have h1 : PoolInv s.pool_size s.pages s.page_table s.free_list (f :: rest) := hv ▸ h
      obtain ⟨h2, hf, _, hpt, hlt⟩ := h1.pick_victim
      exact h2.attach hf hpt hlt _ _ _

theorem Inv_FetchPgImp {s : BufferPoolManagerInstance} (h : Inv s) (p : Int) :
    Inv (s.FetchPgImp p).2 := by
  cases hp : ptFind s.page_table p with
  | some f =>
    rw [FetchPgImp_hit hp]
    have hmem : ∀ g, g ∈ (s.replacer.Pin f).lru_list ↔ g ∈ s.replacer.lru_list ∧ g ≠ f :=
      fun g => mem_Pin h.repl_nodup
    have hff : f ∉ s.free_list := h.pt_free p f hp
    constructor
    · exact h.free_nodup
    · exact nodup_Pin h.repl_nodup f
    · exact h.free_lt
    · exact fun g hg => h.repl_lt g ((hmem g).mp hg).1
    · exact h.pt_lt
    · intro g hg
      have : g ≠ f := fun e => hff (e ▸ hg)
      simpa [Function.update_apply, this] using h.free_pin g hg
    · intro g hg
      obtain ⟨hg1, hg2⟩ := (hmem g).mp hg
      simpa [Function.update_apply, hg2] using h.repl_pin g hg1
    · exact h.pt_free
    · exact fun g hg => h.repl_free g ((hmem g).mp hg).1
    · intro q g hq
      by_cases hg : g = f
      · subst hg; simpa using h.pt_pid q g hq
      · simpa [Function.update_apply, hg] using h.pt_pid q g hq
    · intro g
      by_cases hg : g = f
      · subst hg
        have := h.pin_nonneg g
        simp only [Function.update_same]
        omega
      · simpa [Function.update_apply, hg] using h.pin_nonneg g
    · intro g hg
      have : g ≠ f := fun e => hff (e ▸ hg)
      simpa [Function.update_apply, this] using h.free_pid g hg
  | none =>
    cases hfl : s.free_list with
    | cons f rest =>
      rw [FetchPgImp_free hp hfl]
      have h1 : PoolInv s.pool_size s.pages s.page_table (f :: rest) s.replacer.lru_list := hfl ▸ h
      obtain ⟨h2, hf, _, hpt, hlt⟩ := h1.pick_free
      exact h2.attach hf hpt hlt _ _ _
    | nil =>
      cases hv : s.replacer.lru_list with
      | nil => rw [FetchPgImp_none hp hfl hv]; exact h
      | cons f rest =>
        rw [FetchPgImp_victim hp hfl hv]
        have h1 : PoolInv s.pool_size s.pages s.page_table s.free_list (f :: rest) := hv ▸ h
        obtain ⟨h2, hf, _, hpt, hlt⟩ := h1.pick_victim
        exact h2.attach hf hpt hlt _ _ _

theorem UnpinPgImp_none {s : BufferPoolManagerInstance} {p : Int} (d : Bool)
    (hp : ptFind s.page_table p = none) : s.UnpinPgImp p d = (false, s) := by
  simp [UnpinPgImp, hp]

theorem UnpinPgImp_zero {s : BufferPoolManagerInstance} {p : Int} {f : Nat} (d : Bool)
    (hp : ptFind s.page_table p = some f) (h0 : (s.pages f).pin_count ≤ 0) :
    s.UnpinPgImp p d = (false, s) := by
  simp [UnpinPgImp, hp, h0]

theorem UnpinPgImp_pos {s : BufferPoolManagerInstance} {p : Int} {f : Nat} (d : Bool)
    (hp : ptFind s.page_table p = some f) (h0 : 0 < (s.pages f).pin_count) :
    s.UnpinPgImp p d = (true, { s with
      pages := Function.update s.pages f
        { s.pages f with
          is_dirty := if d then d else (s.pages f).is_dirty
          pin_count := (s.pages f).pin_count - 1 }
      replacer := if (s.pages f).pin_count - 1 ≤ 0 then s.replacer.Unpin f else s.replacer }) := by
  have : ¬ (s.pages f).pin_count ≤ 0 := by omega
  simp [UnpinPgImp, hp, this]

theorem Inv_UnpinPgImp {s : BufferPoolManagerInstance} (h : Inv s) (p : Int) (d : Bool) :
    Inv (s.UnpinPgImp p d).2 := by
  cases hp : ptFind s.page_table p with
  | none => rw [UnpinPgImp_none d hp]; exact h
  | some f =>
    by_cases h0 : (s.pages f).pin_count ≤ 0
    · rw [UnpinPgImp_zero d hp h0]; exact h
    · have hpos : 0 < (s.pages f).pin_count := by omega
      rw [UnpinPgImp_pos d hp hpos]
      have hff : f ∉ s.free_list := h.pt_free p f hp
      have hfr : f ∉ s.replacer.lru_list := fun hm => by
        have := h.repl_pin f hm
        omega
      have hmem : ∀ g, g ∈ (if (s.pages f).pin_count - 1 ≤ 0 then s.replacer.Unpin f
          else s.replacer).lru_list → g ∈ s.replacer.lru_list ∨
            (g = f ∧ (s.pages f).pin_count - 1 ≤ 0) := by
        intro g hg
        split at hg
        · rcases mem_Unpin.mp hg with hg | hg
          · exact Or.inl hg
          · exact Or.inr ⟨hg, by assumption⟩
        · exact Or.inl hg
      constructor
      · exact h.free_nodup
      · show (if (s.pages f).pin_count - 1 ≤ 0 then s.replacer.Unpin f
          else s.replacer).lru_list.Nodup
        split
        · exact nodup_Unpin h.repl_nodup f
        · exact h.repl_nodup
      · exact h.free_lt
      · intro g hg
        rcases hmem g hg with hg | ⟨rfl, _⟩
        · exact h.repl_lt g hg
        · exact h.pt_lt p g hp
      · exact h.pt_lt
      · intro g hg
        have : g ≠ f := fun e => hff (e ▸ hg)
        simpa [Function.update_apply, this] using h.free_pin g hg
      · intro g hg
        rcases hmem g hg with hg | ⟨rfl, hle⟩
        · have : g ≠ f := fun e => hfr (e ▸ hg)
          simpa [Function.update_apply, this] using h.repl_pin g hg
        · simp only [Function.update_same]
          omega
      · exact h.pt_free
      · intro g hg
        rcases hmem g hg with hg | ⟨rfl, _⟩
        · exact h.repl_free g hg
        · exact hff
      · intro q g hq
        by_cases hg : g = f
        · subst hg; simpa using h.pt_pid q g hq
        · simpa [Function.update_apply, hg] using h.pt_pid q g hq
      · intro g
        by_cases hg : g = f
        · subst hg
          simp only [Function.update_same]
          omega
        · simpa [Function.update_apply, hg] using h.pin_nonneg g
      · intro g hg
        have : g ≠ f := fun e => hff (e ▸ hg)
        simpa [Function.update_apply, this] using h.free_pid g hg

theorem Inv_FlushPgImp {s : BufferPoolManagerInstance} (h : Inv s) (p : Int) :
    Inv (s.FlushPgImp p).2 := by
  cases hp : ptFind s.page_table p with
  | none => simpa [FlushPgImp, hp] using h
  | some f =>
    simp only [FlushPgImp, hp]
    constructor
    · exact h.free_nodup
    · exact h.repl_nodup
    · exact h.free_lt
    · exact h.repl_lt
    · exact h.pt_lt
    · intro g hg
      by_cases hgf : g = f
      · subst hgf; simpa using h.free_pin g hg
      · simpa [Function.update_apply, hgf] using h.free_pin g hg
    · intro g hg
      by_cases hgf : g = f
      · subst hgf; simpa using h.repl_pin g hg
      · simpa [Function.update_apply, hgf] using h.repl_pin g hg
    · exact h.pt_free
    · exact h.repl_free
    · intro q g hq
      by_cases hgf : g = f
      · subst hgf; simpa using h.pt_pid q g hq
      · simpa [Function.update_apply, hgf] using h.pt_pid q g hq
    · intro g
      by_cases hgf : g = f
      · subst hgf; simpa using h.pin_nonneg g
      · simpa [Function.update_apply, hgf] using h.pin_nonneg g
    · intro g hg
      by_cases hgf : g = f
      · subst hgf; simpa using h.free_pid g hg
      · simpa [Function.update_apply, hgf] using h.free_pid g hg

theorem Inv_FlushAllPgsImp {s : BufferPoolManagerInstance} (h : Inv s) : Inv s.FlushAllPgsImp := h

theorem Inv_WriteData {s : BufferPoolManagerInstance} (h : Inv s) (f : Nat) (bytes : List Nat) :
    Inv (s.WriteData f bytes) := by
  simp only [WriteData]
  constructor
  · exact h.free_nodup
  · exact h.repl_nodup
  · exact h.free_lt
  · exact h.repl_lt
  · exact h.pt_lt
  · intro g hg
    by_cases hgf : g = f
    · subst hgf; simpa using h.free_pin g hg
    · simpa [Function.update_apply, hgf] using h.free_pin g hg
  · intro g hg
    by_cases hgf : g = f
    · subst hgf; simpa using h.repl_pin g hg
    · simpa [Function.update_apply, hgf] using h.repl_pin g hg
  · exact h.pt_free
  · exact h.repl_free
  · intro q g hq
    by_cases hgf : g = f
    · subst hgf; simpa using h.pt_pid q g hq
    · simpa [Function.update_apply, hgf] using h.pt_pid q g hq
  · intro g
    by_cases hgf : g = f
    · subst hgf; simpa using h.pin_nonneg g
    · simpa [Function.update_apply, hgf] using h.pin_nonneg g
  · intro g hg
    by_cases hgf : g = f
    · subst hgf; simpa using h.free_pid g hg
    · simpa [Function.update_apply, hgf] using h.free_pid g hg

theorem DeletePgImp_none {s : BufferPoolManagerInstance} {p : Int}
    (hp : ptFind s.page_table p = none) : s.DeletePgImp p = (true, s) := by
  simp [DeletePgImp, hp]

theorem DeletePgImp_pinned {s : BufferPoolManagerInstance} {p : Int} {f : Nat}
    (hp : ptFind s.page_table p = some f) (h0 : 0 < (s.pages f).pin_count) :
    s.DeletePgImp p = (false, s) := by
  simp [DeletePgImp, hp, h0]

theorem DeletePgImp_free {s : BufferPoolManagerInstance} {p : Int} {f : Nat}
    (hp : ptFind s.page_table p = some f) (h0 : ¬ 0 < (s.pages f).pin_count) :
    s.DeletePgImp p = (true, { s with
        disk := if (s.pages f).is_dirty then WritePage s.disk p (s.pages f).data else s.disk
        replacer := s.replacer.Pin f
        page_table := ptErase s.page_table p
        pages := Function.update s.pages f
          { data := ResetMemory s.PAGE_SIZE, page_id := INVALID_PAGE_ID, pin_count := 0,
            is_dirty := false }
        free_list := s.free_list ++ [f] }) := by
  simp [DeletePgImp, hp, h0]

theorem Inv_DeletePgImp {s : BufferPoolManagerInstance} (h : Inv s) (p : Int) :
    Inv (s.DeletePgImp p).2 := by
  cases hp : ptFind s.page_table p with
  | none => rw [DeletePgImp_none hp]; exact h
  | some f =>
    by_cases h0 : 0 < (s.pages f).pin_count
    · rw [DeletePgImp_pinned hp h0]; exact h
    · rw [DeletePgImp_free hp h0]
      have hff : f ∉ s.free_list := h.pt_free p f hp
      have hmem : ∀ g, g ∈ (s.replacer.Pin f).lru_list ↔ g ∈ s.replacer.lru_list ∧ g ≠ f :=
        fun g => mem_Pin h.repl_nodup
      have hpt : ∀ q g, ptFind (ptErase s.page_table p) q = some g →
          ptFind s.page_table q = some g ∧ g ≠ f := by
        intro q g hq
        obtain ⟨hne, hq2⟩ := ptFind_erase_some hq
        refine ⟨hq2, fun e => hne ?_⟩
        subst e
        rw [← h.pt_pid q g hq2, ← h.pt_pid p g hp]
      constructor
      · exact List.Nodup.append h.free_nodup (List.nodup_singleton f) (by simpa using hff)
      · exact nodup_Pin h.repl_nodup f
      · intro g hg
        rcases List.mem_append.mp hg with hg | hg
        · exact h.free_lt g hg
        · rw [List.mem_singleton.mp hg]; exact h.pt_lt p f hp
      · exact fun g hg => h.repl_lt g ((hmem g).mp hg).1
      · exact fun q g hq => h.pt_lt q g (hpt q g hq).1
      · intro g hg
        by_cases hgf : g = f
        · subst hgf; simp
        · rcases List.mem_append.mp hg with hg | hg
          · simpa [Function.update_apply, hgf] using h.free_pin g hg
          · exact absurd (List.mem_singleton.mp hg) hgf
      · intro g hg
        obtain ⟨hg1, hg2⟩ := (hmem g).mp hg
        simpa [Function.update_apply, hg2] using h.repl_pin g hg1
      · intro q g hq hg
        obtain ⟨hq1, hq2⟩ := hpt q g hq
        rcases List.mem_append.mp hg with hg | hg
        · exact h.pt_free q g hq1 hg
        · exact hq2 (List.mem_singleton.mp hg)
      · intro g hg hg2
        obtain ⟨hg1, hgf⟩ := (hmem g).mp hg
        rcases List.mem_append.mp hg2 with hg2 | hg2
        · exact h.repl_free g hg1 hg2
        · exact hgf (List.mem_singleton.mp hg2)
      · intro q g hq
        obtain ⟨hq1, hq2⟩ := hpt q g hq
        simpa [Function.update_apply, hq2] using h.pt_pid q g hq1
      · intro g
        by_cases hgf : g = f
        · subst hgf; simp
        · simpa [Function.update_apply, hgf] using h.pin_nonneg g
      · intro g hg
        by_cases hgf : g = f
        · subst hgf; simp
        · rcases List.mem_append.mp hg with hg | hg
          · simpa [Function.update_apply, hgf] using h.free_pid g hg
          · exact absurd (List.mem_singleton.mp hg) hgf

/-- Every reachable pool state satisfies the bookkeeping invariant. -/
theorem Reachable.inv {s : BufferPoolManagerInstance} (h : Reachable s) : Inv s := by
  induction h with
  | init PAGE_SIZE pool_size num_instances instance_index disk _ _ => exact Inv_new _ _ _ _ _
  | newPage _ ih => exact Inv_NewPgImp ih
  | fetchPage p _ ih => exact Inv_FetchPgImp ih p
  | unpinPage p d _ ih => exact Inv_UnpinPgImp ih p d
  | flushPage p _ ih => exact Inv_FlushPgImp ih p
  | flushAllPages _ ih => exact Inv_FlushAllPgsImp ih
  | deletePage p _ ih => exact Inv_DeletePgImp ih p
  | writeData f bytes _ _ ih => exact Inv_WriteData ih f bytes

theorem framesAfter_subset (f : Nat) : ∀ l : List Nat, framesAfter f l ⊆ l
  | [] => by simp [framesAfter]
  | x :: rest => by
    unfold framesAfter
    split
    · exact List.subset_cons_self _ _
    · exact fun g hg => List.mem_cons_of_mem _ (framesAfter_subset f rest hg)

theorem framesAfter_of_not_mem {f : Nat} : ∀ {l : List Nat}, f ∉ l → framesAfter f l = []
  | [], _ => rfl
  | x :: rest, h => by
    have hx : x ≠ f := fun e => h (e ▸ List.mem_cons_self _ _)
    have hr : f ∉ rest := fun hm => h (List.mem_cons_of_mem _ hm)
    simp only [framesAfter, hx, if_false]
    exact framesAfter_of_not_mem hr

theorem framesAfter_tail (f v : Nat) (rest : List Nat) :
    framesAfter f rest ⊆ framesAfter f (v :: rest) := by
  show framesAfter f rest ⊆ (if v = f then rest else framesAfter f rest)
  split
  · exact framesAfter_subset f rest
  · exact fun g hg => hg

theorem framesAfter_erase (f a : Nat) : ∀ l : List Nat,
    framesAfter f (l.erase a) ⊆ framesAfter f l
  | [] => by simp
  | x :: rest => by
    by_cases hxa : x = a
    · subst hxa
      rw [List.erase_cons_head]
      exact framesAfter_tail f x rest
    · rw [List.erase_cons_tail (by simpa using hxa)]
      by_cases hxf : x = f
      · simp only [framesAfter, hxf, if_true]
        exact (List.erase_sublist a rest).subset
      · simp only [framesAfter, hxf, if_false]
        exact framesAfter_erase f a rest

theorem framesAfter_Pin (f a : Nat) (r : LRUReplacer) :
    framesAfter f (r.Pin a).lru_list ⊆ framesAfter f r.lru_list := by
  unfold LRUReplacer.Pin
  split
  · exact framesAfter_erase f a r.lru_list
  · exact fun g hg => hg

theorem framesAfter_append_singleton (f x : Nat) : ∀ (l : List Nat) (g : Nat),
    g ∈ framesAfter f (l ++ [x]) → g ∈ framesAfter f l ∨ (g = x ∧ f ∈ l)
  | [], g, h => by
    simp only [List.nil_append, framesAfter] at h
    split at h <;> cases h
  | y :: rest, g, h => by
    rw [List.cons_append] at h
    by_cases hy : y = f
    · simp only [framesAfter, hy, if_true] at h ⊢
      rcases List.mem_append.mp h with h | h
      · exact Or.inl h
      · exact Or.inr ⟨List.mem_singleton.mp h, List.mem_cons_self _ _⟩
    · simp only [framesAfter, hy, if_false] at h ⊢
      rcases framesAfter_append_singleton f x rest g h with h | ⟨h1, h2⟩
      · exact Or.inl h
      · exact Or.inr ⟨h1, List.mem_cons_of_mem _ h2⟩

theorem LruOrderC.order_pick_victim {pages : Nat → Page} {pt : List (Int × Nat)} {v : Nat}
    {rest : List Nat} (h : LruOrderC pages pt (v :: rest)) (q : Int) :
    LruOrderC pages (ptErase pt q) rest :=
  fun p f hp g hg => h p f (ptFind_erase_some hp).2 g (framesAfter_tail f v rest hg)

theorem LruOrderC.order_attach {pages : Nat → Page} {pt : List (Int × Nat)} {f0 : Nat}
    {repl : List Nat} (h : LruOrderC pages pt repl) (hrepl : f0 ∉ repl)
    (page : Page) (id : Int) :
    LruOrderC (Function.update pages f0 page) (ptAssign pt id f0)
      (LRUReplacer.Pin ⟨repl⟩ f0).lru_list := by
  intro p f hp g hg
  have hg1 := framesAfter_Pin f f0 ⟨repl⟩ hg
  have hg0 : g ≠ f0 := fun e => hrepl (e ▸ framesAfter_subset f repl hg1)
  rw [Function.update_noteq hg0]
  by_cases hpid : p = id
  · subst hpid
    rw [ptFind_assign_self] at hp
    cases Option.some.inj hp
    rw [framesAfter_of_not_mem hrepl] at hg1
    cases hg1
  · rw [ptFind_assign_ne pt f0 hpid] at hp
    exact h p f hp g hg1

theorem LruOrder_new (PAGE_SIZE pool_size num_instances instance_index : Nat)
    (disk : Int → List Nat) :
    LruOrder (BufferPoolManagerInstance.new PAGE_SIZE pool_size num_instances instance_index
      disk) := by
  intro p f hp
  simp [BufferPoolManagerInstance.new, ptFind] at hp

theorem LruOrder_NewPgImp {s : BufferPoolManagerInstance} (hI : Inv s) (h : LruOrder s) :
    LruOrder s.NewPgImp.2 := by
  cases hfl : s.free_list with
  | cons f rest =>
    rw [NewPgImp_free hfl]
    have h1 : PoolInv s.pool_size s.pages s.page_table (f :: rest) s.replacer.lru_list := hfl ▸ hI
    obtain ⟨_, _, hr, _, _⟩ := h1.pick_free
    exact LruOrderC.order_attach h hr _ _
  | nil =>
    cases hv : s.replacer.lru_list with
    | nil => rw [NewPgImp_none hfl hv]; exact h
    | cons f rest =>
      rw [NewPgImp_victim hfl hv]
      have h1 : PoolInv s.pool_size s.pages s.page_table s.free_list (f :: rest) := hv ▸ hI
      obtain ⟨_, _, hr, _, _⟩ := h1.pick_victim
      have h2 : LruOrderC s.pages s.page_table (f :: rest) := hv ▸ h
      exact LruOrderC.order_attach (h2.order_pick_victim _) hr _ _

theorem LruOrder_FetchPgImp {s : BufferPoolManagerInstance} (hI : Inv s) (h : LruOrder s)
    (q : Int) : LruOrder (s.FetchPgImp q).2 := by
  cases hp : ptFind s.page_table q with
  | some f0 =>
    rw [FetchPgImp_hit hp]
    intro p f hpf g hg
    have hg1 := framesAfter_Pin f f0 s.replacer hg
    have := h p f hpf g hg1
    by_cases hg0 : g = f0
    · subst hg0; simpa using this
    · simpa [Function.update_apply, hg0] using this
  | none =>
    cases hfl : s.free_list with
    | cons f rest =>
      rw [FetchPgImp_free hp hfl]
      have h1 : PoolInv s.pool_size s.pages s.page_table (f :: rest) s.replacer.lru_list :=
        hfl ▸ hI
      obtain ⟨_, _, hr, _, _⟩ := h1.pick_free
      exact LruOrderC.order_attach h hr _ _
    | nil =>
      cases hv : s.replacer.lru_list with
      | nil => rw [FetchPgImp_none hp hfl hv]; exact h
      | cons f rest =>
        rw [FetchPgImp_victim hp hfl hv]
        have h1 : PoolInv s.pool_size s.pages s.page_table s.free_list (f :: rest) := hv ▸ hI
        obtain ⟨_, _, hr, _, _⟩ := h1.pick_victim
        have h2 : LruOrderC s.pages s.page_table (f :: rest) := hv ▸ h
        exact LruOrderC.order_attach (h2.order_pick_victim _) hr _ _

theorem LruOrder_UnpinPgImp {s : BufferPoolManagerInstance} (hI : Inv s) (h : LruOrder s)
    (q : Int) (d : Bool) : LruOrder (s.UnpinPgImp q d).2 := by
  cases hp : ptFind s.page_table q with
  | none => rw [UnpinPgImp_none d hp]; exact h
  | some f0 =>
    by_cases h0 : (s.pages f0).pin_count ≤ 0
    · rw [UnpinPgImp_zero d hp h0]; exact h
    · rw [UnpinPgImp_pos d hp (by omega)]
      have hfr : f0 ∉ s.replacer.lru_list := fun hm => by
        have := hI.repl_pin f0 hm
        omega
      intro p f hpf g hg
      have hpage : ∀ g, ((Function.update s.pages f0
          { s.pages f0 with
            is_dirty := if d then d else (s.pages f0).is_dirty
            pin_count := (s.pages f0).pin_count - 1 }) g).page_id = (s.pages g).page_id := by
        intro g
        by_cases hg0 : g = f0
        · subst hg0; simp
        · simp [Function.update_apply, hg0]
      show ((Function.update s.pages f0 _) g).page_id ≠ p
      rw [hpage]
      have hg2 : g ∈ framesAfter f s.replacer.lru_list ∨ (g = f0 ∧ f ∈ s.replacer.lru_list) := by
        have hg1 : g ∈ framesAfter f (if (s.pages f0).pin_count - 1 ≤ 0
            then s.replacer.Unpin f0 else s.replacer).lru_list := hg
        split at hg1
        · unfold LRUReplacer.Unpin at hg1
          rw [if_neg hfr] at hg1
          exact framesAfter_append_singleton f f0 _ g hg1
        · exact Or.inl hg1
      rcases hg2 with hg2 | ⟨rfl, hf⟩
      · exact h p f hpf g hg2
      · rw [hI.pt_pid q g hp]
        intro e
        subst e
        rw [hp] at hpf
        cases Option.some.inj hpf
        exact hfr hf

theorem LruOrder_FlushPgImp {s : BufferPoolManagerInstance} (h : LruOrder s) (q : Int) :
    LruOrder (s.FlushPgImp q).2 := by
  cases hp : ptFind s.page_table q with
  | none => simpa [BufferPoolManagerInstance.FlushPgImp, hp] using h
  | some f0 =>
    simp only [BufferPoolManagerInstance.FlushPgImp, hp]
    intro p f hpf g hg
    have := h p f hpf g hg
    by_cases hg0 : g = f0
    · subst hg0; simpa using this
    · simpa [Function.update_apply, hg0] using this

theorem LruOrder_WriteData {s : BufferPoolManagerInstance} (h : LruOrder s) (f0 : Nat)
    (bytes : List Nat) : LruOrder (s.WriteData f0 bytes) := by
  intro p f hpf g hg
  have := h p f hpf g hg
  by_cases hg0 : g = f0
  · subst hg0; simpa [BufferPoolManagerInstance.WriteData] using this
  · simpa [BufferPoolManagerInstance.WriteData, Function.update_apply, hg0] using this

theorem LruOrder_DeletePgImp {s : BufferPoolManagerInstance} (hI : Inv s) (h : LruOrder s)
    (q : Int) : LruOrder (s.DeletePgImp q).2 := by
  cases hp : ptFind s.page_table q with
  | none => rw [DeletePgImp_none hp]; exact h
  | some f0 =>
    by_cases h0 : 0 < (s.pages f0).pin_count
    · rw [DeletePgImp_pinned hp h0]; exact h
    · rw [DeletePgImp_free hp h0]
      intro p f hpf g hg
      have hg1 : g ∈ framesAfter f (s.replacer.Pin f0).lru_list := hg
      have hg2 := framesAfter_subset f _ hg1
      have hg0 : g ≠ f0 := ((mem_Pin hI.repl_nodup).mp hg2).2
      show ((Function.update s.pages f0 _) g).page_id ≠ p
      rw [Function.update_noteq hg0]
      exact h p f (ptFind_erase_some hpf).2 g (framesAfter_Pin f f0 s.replacer hg1)

/-- Every reachable pool state satisfies the order invariant of the replacer. -/
theorem Reachable.lruOrder {s : BufferPoolManagerInstance} (h : Reachable s) : LruOrder s := by
  induction h with
  | init PAGE_SIZE pool_size num_instances instance_index disk _ _ => exact LruOrder_new _ _ _ _ _
  | newPage hr ih => exact LruOrder_NewPgImp hr.inv ih
  | fetchPage p hr ih => exact LruOrder_FetchPgImp hr.inv ih p
  | unpinPage p d hr ih => exact LruOrder_UnpinPgImp hr.inv ih p d
  | flushPage p _ ih => exact LruOrder_FlushPgImp ih p
  | flushAllPages _ ih => exact ih
  | deletePage p hr ih => exact LruOrder_DeletePgImp hr.inv ih p
  | writeData f bytes _ _ ih => exact LruOrder_WriteData ih f bytes

theorem ptFind_none_key_ne {pt : List (Int × Nat)} {p : Int} (h : ptFind pt p = none) :
    ∀ e ∈ pt, e.1 ≠ p := by
  induction pt with
  | nil => simp
  | cons e t ih =>
    obtain ⟨q, f⟩ := e
    by_cases hq : q = p
    · simp [ptFind, hq] at h
    · simp only [ptFind, hq, if_false] at h
      intro e he
      rcases List.mem_cons.mp he with rfl | he
      · exact hq
      · exact ih h e he

theorem foldl_WritePage_ne (pages : Nat → Page) {p : Int} (pt : List (Int × Nat))
    (disk : Int → List Nat) (h : ∀ e ∈ pt, e.1 ≠ p) :
    (pt.foldl (fun d e => WritePage d e.1 (pages e.2).data) disk) p = disk p := by
  induction pt generalizing disk with
  | nil => rfl
  | cons e t ih =>
    rw [List.foldl_cons, ih _ (fun x hx => h x (List.mem_cons_of_mem _ hx))]
    have : p ≠ e.1 := fun e1 => h e (List.mem_cons_self _ _) e1.symm
    simp [WritePage, Function.update_apply, this]

/-- Installing a page other than `p` in a frame taken from the free list keeps `p` evicted. -/
theorem Evicted.install_free {p : Int} {D : List Nat} {t : BufferPoolManagerInstance}
    (h : Evicted p D t) {f : Nat} (page : Page) (id : Int) (hid : p ≠ id)
    {u : BufferPoolManagerInstance} (hI : Inv u) (hpages : u.pages = Function.update t.pages f page)
    (hpt : u.page_table = ptAssign t.page_table id f)
    (hrepl : u.replacer = t.replacer.Pin f) (hdisk : u.disk = t.disk)
    (hnext : p < u.next_page_id) : Evicted p D u := by
  refine ⟨hI, ?_, ?_, ?_, hnext⟩
  · rw [hpt, ptFind_assign_ne _ _ hid]; exact h.absent
  · rw [hdisk]; exact h.stored
  · intro g hg
    rw [hrepl] at hg
    obtain ⟨hg1, hg2⟩ := (mem_Pin h.inv.repl_nodup).mp hg
    rw [hpages, Function.update_noteq hg2]
    exact h.nowhere g hg1

/-- Installing a page other than `p` in the victim frame keeps `p` evicted. -/
theorem Evicted.install_victim {p : Int} {D : List Nat} {t : BufferPoolManagerInstance}
    (h : Evicted p D t) {f : Nat} {rest : List Nat} (hv : t.replacer.lru_list = f :: rest)
    (page : Page) (id : Int) (hid : p ≠ id)
    {u : BufferPoolManagerInstance} (hI : Inv u) (hpages : u.pages = Function.update t.pages f page)
    (hpt : u.page_table = ptAssign (ptErase t.page_table (t.pages f).page_id) id f)
    (hrepl : u.replacer = (LRUReplacer.mk rest).Pin f)
    (hdisk : u.disk = if (t.pages f).is_dirty
      then WritePage t.disk (t.pages f).page_id (t.pages f).data else t.disk)
    (hnext : p < u.next_page_id) : Evicted p D u := by
  have hfm : f ∈ t.replacer.lru_list := hv ▸ List.mem_cons_self f rest
  have hfp : (t.pages f).page_id ≠ p := h.nowhere f hfm
  have hnd : (f :: rest).Nodup := hv ▸ h.inv.repl_nodup
  refine ⟨hI, ?_, ?_, ?_, hnext⟩
  · rw [hpt, ptFind_assign_ne _ _ hid, ptFind_erase_ne _ (Ne.symm hfp)]; exact h.absent
  · rw [hdisk]
    split
    · simpa [WritePage, Function.update_apply, Ne.symm hfp] using h.stored
    · exact h.stored
  · intro g hg
    rw [hrepl] at hg
    obtain ⟨hg1, hg2⟩ := (mem_Pin (r := ⟨rest⟩) (List.nodup_cons.mp hnd).2).mp hg
    rw [hpages, Function.update_noteq hg2]
    exact h.nowhere g (hv ▸ List.mem_cons_of_mem _ hg1)

theorem Evicted.NewPgImp {p : Int} {D : List Nat} {t : BufferPoolManagerInstance}
    (h : Evicted p D t) : Evicted p D t.NewPgImp.2 := by
  have hI := Inv_NewPgImp h.inv
  have hne : p ≠ t.next_page_id := ne_of_lt h.issued
  have hnext : p < t.next_page_id + (t.num_instances : Int) := by
    have := h.issued
    have : (0 : Int) ≤ (t.num_instances : Int) := Int.natCast_nonneg _
    omega
  cases hfl : t.free_list with
  | cons f rest =>
    rw [NewPgImp_free hfl] at hI ⊢
    exact h.install_free _ _ hne hI rfl rfl rfl rfl hnext
  | nil =>
    cases hv : t.replacer.lru_list with
    | nil => rw [NewPgImp_none hfl hv]; exact h
    | cons f rest =>
      rw [NewPgImp_victim hfl hv] at hI ⊢
      exact h.install_victim hv _ _ hne hI rfl rfl rfl rfl hnext

theorem Evicted.FetchPgImp {p : Int} {D : List Nat} {t : BufferPoolManagerInstance}
    (h : Evicted p D t) (q : Int) (hq : q ≠ p ∨ (t.FetchPgImp q).1 = none) :
    Evicted p D (t.FetchPgImp q).2 := by
  have hI := Inv_FetchPgImp h.inv q
  cases hp : ptFind t.page_table q with
  | some f =>
    rw [FetchPgImp_hit hp] at hI ⊢
    refine ⟨hI, h.absent, h.stored, ?_, h.issued⟩
    intro g hg
    have hg1 : g ∈ t.replacer.lru_list := ((mem_Pin h.inv.repl_nodup).mp hg).1
    by_cases hgf : g = f
    · subst hgf; simpa using h.nowhere g hg1
    · simpa [Function.update_apply, hgf] using h.nowhere g hg1
  | none =>
    cases hfl : t.free_list with
    | cons f rest =>
      have hqp : q ≠ p := by
        rcases hq with hq | hq
        · exact hq
        · rw [FetchPgImp_free hp hfl] at hq; cases hq
      rw [FetchPgImp_free hp hfl] at hI ⊢
      exact h.install_free _ _ (Ne.symm hqp) hI rfl rfl rfl rfl h.issued
    | nil =>
      cases hv : t.replacer.lru_list with
      | nil => rw [FetchPgImp_none hp hfl hv]; exact h
      | cons f rest =>
        have hqp : q ≠ p := by
          rcases hq with hq | hq
          · exact hq
          · rw [FetchPgImp_victim hp hfl hv] at hq; cases hq
        rw [FetchPgImp_victim hp hfl hv] at hI ⊢
        exact h.install_victim hv _ _ (Ne.symm hqp) hI rfl rfl rfl rfl h.issued

theorem Evicted.UnpinPgImp {p : Int} {D : List Nat} {t : BufferPoolManagerInstance}
    (h : Evicted p D t) (q : Int) (d : Bool) : Evicted p D (t.UnpinPgImp q d).2 := by
  have hI := Inv_UnpinPgImp h.inv q d
  cases hp : ptFind t.page_table q with
  | none => rw [UnpinPgImp_none d hp]; exact h
  | some f =>
    by_cases h0 : (t.pages f).pin_count ≤ 0
    · rw [UnpinPgImp_zero d hp h0]; exact h
    · rw [UnpinPgImp_pos d hp (by omega)] at hI ⊢
      have hqp : q ≠ p := fun e => by
        subst e
        rw [h.absent] at hp
        cases hp
      refine ⟨hI, h.absent, h.stored, ?_, h.issued⟩
      intro g hg
      have hg1 : g ∈ (if (t.pages f).pin_count - 1 ≤ 0 then t.replacer.Unpin f
          else t.replacer).lru_list := hg
      have hg2 : g ∈ t.replacer.lru_list ∨ g = f := by
        split at hg1
        · exact mem_Unpin.mp hg1
        · exact Or.inl hg1
      by_cases hgf : g = f
      · subst hgf
        simp only [Function.update_same]
        rw [h.inv.pt_pid q g hp]
        exact hqp
      · rcases hg2 with hg2 | hg2
        · simpa [Function.update_apply, hgf] using h.nowhere g hg2
        · exact absurd hg2 hgf

theorem Evicted.FlushPgImp {p : Int} {D : List Nat} {t : BufferPoolManagerInstance}
    (h : Evicted p D t) (q : Int) : Evicted p D (t.FlushPgImp q).2 := by
  have hI := Inv_FlushPgImp h.inv q
  cases hp : ptFind t.page_table q with
  | none => simpa [BufferPoolManagerInstance.FlushPgImp, hp] using h
  | some f =>
    have hqp : p ≠ q := fun e => by
      subst e
      rw [h.absent] at hp
      cases hp
    simp only [BufferPoolManagerInstance.FlushPgImp, hp] at hI ⊢
    refine ⟨hI, h.absent, ?_, ?_, h.issued⟩
    · simpa [WritePage, Function.update_apply, hqp] using h.stored
    · intro g hg
      by_cases hgf : g = f
      · subst hgf; simpa using h.nowhere g hg
      · simpa [Function.update_apply, hgf] using h.nowhere g hg

theorem Evicted.FlushAllPgsImp {p : Int} {D : List Nat} {t : BufferPoolManagerInstance}
    (h : Evicted p D t) : Evicted p D t.FlushAllPgsImp := by
  refine ⟨Inv_FlushAllPgsImp h.inv, h.absent, ?_, h.nowhere, h.issued⟩
  show (t.page_table.foldl _ t.disk) p = D
  rw [foldl_WritePage_ne t.pages t.page_table t.disk (ptFind_none_key_ne h.absent)]
  exact h.stored

theorem Evicted.DeletePgImp {p : Int} {D : List Nat} {t : BufferPoolManagerInstance}
    (h : Evicted p D t) (q : Int) : Evicted p D (t.DeletePgImp q).2 := by
  have hI := Inv_DeletePgImp h.inv q
  cases hp : ptFind t.page_table q with
  | none => rw [DeletePgImp_none hp]; exact h
  | some f =>
    by_cases h0 : 0 < (t.pages f).pin_count
    · rw [DeletePgImp_pinned hp h0]; exact h
    · have hqp : p ≠ q := fun e => by
        subst e
        rw [h.absent] at hp
        cases hp
      rw [DeletePgImp_free hp h0] at hI ⊢
      refine ⟨hI, ?_, ?_, ?_, h.issued⟩
      · show ptFind (ptErase _ _) _ = _
        rw [ptFind_erase_ne _ hqp]; exact h.absent
      · show (ite _ _ _ : Int → List Nat) p = D
        split
        · simpa [WritePage, Function.update_apply, hqp] using h.stored
        · exact h.stored
      · intro g hg
        obtain ⟨hg1, hg2⟩ := (mem_Pin h.inv.repl_nodup).mp hg
        show ((Function.update t.pages f _) g).page_id ≠ p
        rw [Function.update_noteq hg2]
        exact h.nowhere g hg1

theorem Evicted.WriteData {p : Int} {D : List Nat} {t : BufferPoolManagerInstance}
    (h : Evicted p D t) (f : Nat) (bytes : List Nat) : Evicted p D (t.WriteData f bytes) := by
  refine ⟨Inv_WriteData h.inv f bytes, h.absent, h.stored, ?_, h.issued⟩
  intro g hg
  by_cases hgf : g = f
  · subst hgf; simpa [BufferPoolManagerInstance.WriteData] using h.nowhere g hg
  · simpa [BufferPoolManagerInstance.WriteData, Function.update_apply, hgf] using h.nowhere g hg

theorem Evicted.run {p : Int} {D : List Nat} {s t : BufferPoolManagerInstance}
    (h : Evicted p D s) (hrun : RunsWithoutFetching p s t) : Evicted p D t := by
  induction hrun with
  | refl => exact h
  | newPage _ ih => exact ih.NewPgImp
  | fetchPage q hq _ ih => exact ih.FetchPgImp q hq
  | unpinPage q d _ ih => exact ih.UnpinPgImp q d
  | flushPage q _ ih => exact ih.FlushPgImp q
  | flushAllPages _ ih => exact ih.FlushAllPgsImp
  | deletePage q _ ih => exact ih.DeletePgImp q
  | writeData f bytes _ _ ih => exact ih.WriteData f bytes

/-- Fetching an evicted page reads the bytes the disk stores for it. -/
theorem Evicted.fetch {p : Int} {D : List Nat} {t : BufferPoolManagerInstance}
    (h : Evicted p D t) {g : Nat} {u : BufferPoolManagerInstance}
    (hf : t.FetchPgImp p = (some g, u)) : (u.pages g).data = D := by
  cases hfl : t.free_list with
  | cons f rest =>
    rw [FetchPgImp_free h.absent hfl] at hf
    obtain ⟨hg, hu⟩ := Prod.mk.inj hf
    cases Option.some.inj hg
    subst hu
    simpa [ReadPage] using h.stored
  | nil =>
    cases hv : t.replacer.lru_list with
    | nil => rw [FetchPgImp_none h.absent hfl hv] at hf; cases hf
    | cons f rest =>
      have hfp : (t.pages f).page_id ≠ p := h.nowhere f (hv ▸ List.mem_cons_self f rest)
      rw [FetchPgImp_victim h.absent hfl hv] at hf
      obtain ⟨hg, hu⟩ := Prod.mk.inj hf
      cases Option.some.inj hg
      subst hu
      simp only [Function.update_same, ReadPage]
      split
      · simpa [WritePage, Function.update_apply, Ne.symm hfp] using h.stored
      · exact h.stored

/-- Reusing the frame of an unpinned page whose bytes are dirty or already on disk evicts it. -/
theorem Evicted.of_reuse {s : BufferPoolManagerInstance} (hI : Inv s) (hL : LruOrder s)
    {p : Int} {f : Nat} {D : List Nat} (hp : ptFind s.page_table p = some f)
    (hD : (s.pages f).data = D)
    (hdirty : (s.pages f).is_dirty = true ∨ s.disk p = D)
    (hissued : p < s.next_page_id)
    {s1 : BufferPoolManagerInstance} (hreuse : FrameReusedBy s p f s1) : Evicted p D s1 := by
  have hpid : (s.pages f).page_id = p := hI.pt_pid p f hp
  have hff : f ∉ s.free_list := hI.pt_free p f hp
  have hdisk : (if (s.pages f).is_dirty then WritePage s.disk (s.pages f).page_id (s.pages f).data
      else s.disk) p = D := by
    split
    · rw [hpid, hD]; simp [WritePage]
    · rename_i hnd
      rcases hdirty with hd | hd
      · exact absurd hd hnd
      · exact hd
  have hbehind : ∀ rest, s.replacer.lru_list = f :: rest →
      ∀ g ∈ (LRUReplacer.Pin ⟨rest⟩ f).lru_list, (s.pages g).page_id ≠ p := by
    intro rest hv g hg
    have hnd : (f :: rest).Nodup := hv ▸ hI.repl_nodup
    have hg1 := ((mem_Pin (r := ⟨rest⟩) (List.nodup_cons.mp hnd).2).mp hg).1
    apply hL p f hp g
    rw [hv]
    simpa [framesAfter] using hg1
  rcases hreuse with ⟨id, hnew⟩ | ⟨q, hqp, hfetch⟩
  · have hI1 := Inv_NewPgImp hI
    have hne : p ≠ s.next_page_id := ne_of_lt hissued
    have hnext : p < s.next_page_id + (s.num_instances : Int) := by
      have : (0 : Int) ≤ (s.num_instances : Int) := Int.natCast_nonneg _
      omega
    cases hfl : s.free_list with
    | cons f2 rest =>
      rw [NewPgImp_free hfl] at hnew
      have := congrArg Prod.fst (Option.some.inj (Prod.mk.inj hnew).1)
      simp only at this
      subst this
      exact absurd (hfl ▸ List.mem_cons_self f2 rest) hff
    | nil =>
      cases hv : s.replacer.lru_list with
      | nil => rw [NewPgImp_none hfl hv] at hnew; cases hnew
      | cons f2 rest =>
        rw [NewPgImp_victim hfl hv] at hI1 hnew
        have := congrArg Prod.fst (Option.some.inj (Prod.mk.inj hnew).1)
        simp only at this
        subst this
        rw [← (Prod.mk.inj hnew).2]
        refine ⟨hI1, ?_, hdisk, ?_, hnext⟩
        · show ptFind (ptAssign _ _ _) _ = _
          rw [ptFind_assign_ne _ _ hne, hpid, ptFind_erase_self]
        · intro g hg
          have hgf : g ≠ f2 := by
            have hnd : (f2 :: rest).Nodup := hv ▸ hI.repl_nodup
            exact ((mem_Pin (r := ⟨rest⟩) (List.nodup_cons.mp hnd).2).mp hg).2
          show ((Function.update s.pages f2 _) g).page_id ≠ p
          rw [Function.update_noteq hgf]
          exact hbehind rest hv g hg
  · have hI1 := Inv_FetchPgImp hI q
    cases hq : ptFind s.page_table q with
    | some f2 =>
      rw [FetchPgImp_hit hq] at hfetch
      have := Option.some.inj (Prod.mk.inj hfetch).1
      subst this
      exact absurd ((hI.pt_pid q f2 hq).symm.trans hpid) hqp
    | none =>
      cases hfl : s.free_list with
      | cons f2 rest =>
        rw [FetchPgImp_free hq hfl] at hfetch
        have := Option.some.inj (Prod.mk.inj hfetch).1
        subst this
        exact absurd (hfl ▸ List.mem_cons_self f2 rest) hff
      | nil =>
        cases hv : s.replacer.lru_list with
        | nil => rw [FetchPgImp_none hq hfl hv] at hfetch; cases hfetch
        | cons f2 rest =>
          rw [FetchPgImp_victim hq hfl hv] at hI1 hfetch
          have := Option.some.inj (Prod.mk.inj hfetch).1
          subst this
          rw [← (Prod.mk.inj hfetch).2]
          refine ⟨hI1, ?_, hdisk, ?_, hissued⟩
          · show ptFind (ptAssign _ _ _) _ = _
            rw [ptFind_assign_ne _ _ (Ne.symm hqp), hpid, ptFind_erase_self]
          · intro g hg
            have hgf : g ≠ f2 := by
              have hnd : (f2 :: rest).Nodup := hv ▸ hI.repl_nodup
              exact ((mem_Pin (r := ⟨rest⟩) (List.nodup_cons.mp hnd).2).mp hg).2
            show ((Function.update s.pages f2 _) g).page_id ≠ p
            rw [Function.update_noteq hgf]
            exact hbehind rest hv g hg

/-! ## Buffer pool: theorems -/

/-- C1. In every buffer-pool state reachable from a freshly constructed pool through NewPage,
FetchPage, UnpinPage, FlushPage, FlushAllPages and DeletePage (and client writes into pinned
frames): if every frame has pin count above 0, then NewPage returns null and FetchPage of any
page id that is not resident returns null. -/
theorem all_pinned_returns_null (s : BufferPoolManagerInstance) (h : Reachable s)
    (hpin : ∀ f, f < s.pool_size → 0 < (s.pages f).pin_count) :
    s.NewPgImp.1 = none ∧
      ∀ page_id, ptFind s.page_table page_id = none → (s.FetchPgImp page_id).1 = none := by
  have hI := h.inv
  have hfl : s.free_list = [] := by
    cases hfl : s.free_list with
    | nil => rfl
    | cons f rest =>
      have hf : f ∈ s.free_list := hfl ▸ List.mem_cons_self f rest
      have h1 := hI.free_pin f hf
      have h2 := hpin f (hI.free_lt f hf)
      omega
  have hv : s.replacer.lru_list = [] := by
    cases hv : s.replacer.lru_list with
    | nil => rfl
    | cons f rest =>
      have hf : f ∈ s.replacer.lru_list := hv ▸ List.mem_cons_self f rest
      have h1 := hI.repl_pin f hf
      have h2 := hpin f (hI.repl_lt f hf)
      omega
  refine ⟨by rw [NewPgImp_none hfl hv], fun p hp => by rw [FetchPgImp_none hp hfl hv]⟩

/-- Witness of C1: pool size 1; after one NewPage every frame is pinned and a second NewPage
returns null. -/
theorem all_pinned_returns_null_witness :
    Reachable poolOneAfterNew ∧
      (∀ f, f < poolOneAfterNew.pool_size → 0 < (poolOneAfterNew.pages f).pin_count) ∧
      poolOneAfterNew.NewPgImp.1 = none :=
  have hr : Reachable poolOneAfterNew := Reachable.newPage (Reachable.init 4 1 1 0 _ (by decide) (by decide))
  have hp : ∀ f, f < poolOneAfterNew.pool_size → 0 < (poolOneAfterNew.pages f).pin_count := by
    intro f hf
    have : f = 0 := by
      have : poolOneAfterNew.pool_size = 1 := rfl
      omega
    subst this
    decide
  ⟨hr, hp, (all_pinned_returns_null poolOneAfterNew hr hp).1⟩

/-- C9. Pin count non-negativity: in every reachable pool state every frame's pin count is at
least 0; UnpinPage returns false and leaves the pool unchanged when the page id is not resident
or its frame's pin count is 0; and when UnpinPage returns true the pin count of the page's frame
has gone down by exactly 1. -/
theorem unpin_keeps_pin_count_nonneg (s : BufferPoolManagerInstance) (h : Reachable s) :
    (∀ f, 0 ≤ (s.pages f).pin_count) ∧
      ∀ (page_id : Int) (is_dirty : Bool),
        ((ptFind s.page_table page_id = none ∨
            ∃ f, ptFind s.page_table page_id = some f ∧ (s.pages f).pin_count = 0) →
          s.UnpinPgImp page_id is_dirty = (false, s)) ∧
        ((s.UnpinPgImp page_id is_dirty).1 = true →
          ∃ f, ptFind s.page_table page_id = some f ∧
            ((s.UnpinPgImp page_id is_dirty).2.pages f).pin_count = (s.pages f).pin_count - 1) := by
  refine ⟨h.inv.pin_nonneg, fun p d => ⟨?_, ?_⟩⟩
  · rintro (hp | ⟨f, hp, h0⟩)
    · exact UnpinPgImp_none d hp
    · exact UnpinPgImp_zero d hp (le_of_eq h0)
  · intro hres
    cases hp : ptFind s.page_table p with
    | none => rw [UnpinPgImp_none d hp] at hres; cases hres
    | some f =>
      by_cases h0 : (s.pages f).pin_count ≤ 0
      · rw [UnpinPgImp_zero d hp h0] at hres; cases hres
      · refine ⟨f, rfl, ?_⟩
        rw [UnpinPgImp_pos d hp (by omega)]
        simp

/-- Witness of C9: pool size 1 after one NewPage; UnpinPage(0, true) succeeds and takes the pin
count of the frame of page 0 down by 1. -/
theorem unpin_keeps_pin_count_nonneg_witness :
    Reachable poolOneAfterNew ∧ (poolOneAfterNew.UnpinPgImp 0 true).1 = true ∧
      ∃ f, ptFind poolOneAfterNew.page_table 0 = some f ∧
        ((poolOneAfterNew.UnpinPgImp 0 true).2.pages f).pin_count
          = (poolOneAfterNew.pages f).pin_count - 1 :=
  have hr : Reachable poolOneAfterNew :=
    Reachable.newPage (Reachable.init 4 1 1 0 _ (by decide) (by decide))
  ⟨hr, by decide,
    ((unpin_keeps_pin_count_nonneg poolOneAfterNew hr).2 0 true).2 (by decide)⟩

/-- C2, counterexample. Pool size 2, FetchPage(0) on the fresh pool: frame 0 is pinned and holds
page id 0 while next_page_id is still 0. The next NewPage issues page id 0 for frame 1 and the
page-table entry of page id 0 changes from frame 0 to frame 1, although frame 0 is pinned. -/
theorem pinned_frame_entry_changes :
    Reachable poolTwoAfterFetch ∧
      ¬ PinnedFramesUntouched poolTwoAfterFetch poolTwoAfterFetch.NewPgImp.2 := by
  refine ⟨Reachable.fetchPage 0 (Reachable.init 4 2 1 0 _ (by decide) (by decide)), fun h => ?_⟩
  have h0 := (h 0 (by decide) (by decide)).2.2
  revert h0
  decide

/-- C2, amended. In every reachable pool state, for every call to NewPage or FetchPage, each
frame whose pin count is above 0 before the call holds the same page id and the same bytes after
the call; the page-table entry of its page id is unchanged provided the call does not install
that page id anew (NewPage issuing it as next_page_id, FetchPage missing on it) and the frame the
call evicts does not carry that page id. -/
theorem pinned_frame_not_evicted (s : BufferPoolManagerInstance) (h : Reachable s) (g : Nat)
    (hpin : 0 < (s.pages g).pin_count) :
    ((s.NewPgImp.2.pages g).page_id = (s.pages g).page_id ∧
      (s.NewPgImp.2.pages g).data = (s.pages g).data ∧
      ((s.pages g).page_id ≠ s.next_page_id →
        (∀ v, NextVictim s = some v → (s.pages v).page_id ≠ (s.pages g).page_id) →
        ptFind s.NewPgImp.2.page_table (s.pages g).page_id
          = ptFind s.page_table (s.pages g).page_id)) ∧
    ∀ page_id,
      ((s.FetchPgImp page_id).2.pages g).page_id = (s.pages g).page_id ∧
      ((s.FetchPgImp page_id).2.pages g).data = (s.pages g).data ∧
      ((ptFind s.page_table page_id = none → (s.pages g).page_id ≠ page_id) →
        (∀ v, NextVictim s = some v → (s.pages v).page_id ≠ (s.pages g).page_id) →
        ptFind (s.FetchPgImp page_id).2.page_table (s.pages g).page_id
          = ptFind s.page_table (s.pages g).page_id) := by
  have hI := h.inv
  have hfree : ∀ f rest, s.free_list = f :: rest → g ≠ f := by
    intro f rest hfl e
    subst e
    have := hI.free_pin g (hfl ▸ List.mem_cons_self g rest)
    omega
  have hrepl : ∀ f rest, s.replacer.lru_list = f :: rest → g ≠ f := by
    intro f rest hv e
    subst e
    have := hI.repl_pin g (hv ▸ List.mem_cons_self g rest)
    omega
  constructor
  · cases hfl : s.free_list with
    | cons f rest =>
      have hgf := hfree f rest hfl
      rw [NewPgImp_free hfl]
      refine ⟨by simp [Function.update_apply, hgf], by simp [Function.update_apply, hgf], ?_⟩
      intro hne _
      exact ptFind_assign_ne _ _ hne
    | nil =>
      cases hv : s.replacer.lru_list with
      | nil => rw [NewPgImp_none hfl hv]; simp
      | cons f rest =>
        have hgf := hrepl f rest hv
        rw [NewPgImp_victim hfl hv]
        refine ⟨by simp [Function.update_apply, hgf], by simp [Function.update_apply, hgf], ?_⟩
        intro hne hvic
        have hvf : (s.pages f).page_id ≠ (s.pages g).page_id :=
          hvic f (by simp [NextVictim, hfl, hv])
        show ptFind (ptAssign _ _ _) _ = _
        rw [ptFind_assign_ne _ _ hne, ptFind_erase_ne _ (Ne.symm hvf)]
  · intro p
    cases hp : ptFind s.page_table p with
    | some f =>
      rw [FetchPgImp_hit hp]
      by_cases hgf : g = f
      · subst hgf; simp
      · simp [Function.update_apply, hgf]
    | none =>
      cases hfl : s.free_list with
      | cons f rest =>
        have hgf := hfree f rest hfl
        rw [FetchPgImp_free hp hfl]
        refine ⟨by simp [Function.update_apply, hgf], by simp [Function.update_apply, hgf], ?_⟩
        intro hne _
        exact ptFind_assign_ne _ _ (hne rfl)
      | nil =>
        cases hv : s.replacer.lru_list with
        | nil => rw [FetchPgImp_none hp hfl hv]; simp
        | cons f rest =>
          have hgf := hrepl f rest hv
          rw [FetchPgImp_victim hp hfl hv]
          refine ⟨by simp [Function.update_apply, hgf], by simp [Function.update_apply, hgf], ?_⟩
          intro hne hvic
          have hvf : (s.pages f).page_id ≠ (s.pages g).page_id :=
            hvic f (by simp [NextVictim, hfl, hv])
          show ptFind (ptAssign _ _ _) _ = _
          rw [ptFind_assign_ne _ _ (hne rfl), ptFind_erase_ne _ (Ne.symm hvf)]

/-- Witness of C2 (amended): pool size 2 after FetchPage(0); the pinned frame 0 keeps its page id
and its bytes over a NewPage. -/
theorem pinned_frame_not_evicted_witness :
    Reachable poolTwoAfterFetch ∧ 0 < (poolTwoAfterFetch.pages 0).pin_count ∧
      (poolTwoAfterFetch.NewPgImp.2.pages 0).page_id = (poolTwoAfterFetch.pages 0).page_id ∧
      (poolTwoAfterFetch.NewPgImp.2.pages 0).data = (poolTwoAfterFetch.pages 0).data :=
  have hr : Reachable poolTwoAfterFetch :=
    Reachable.fetchPage 0 (Reachable.init 4 2 1 0 _ (by decide) (by decide))
  have hp : 0 < (poolTwoAfterFetch.pages 0).pin_count := by decide
  ⟨hr, hp, (pinned_frame_not_evicted poolTwoAfterFetch hr 0 hp).1.1,
    (pinned_frame_not_evicted poolTwoAfterFetch hr 0 hp).1.2.1⟩

/-- C10, counterexample. Pool size 1, FetchPage(0) then UnpinPage(0, false) on the fresh pool:
frame 0 holds page id 0, is unpinned, and next_page_id is still 0. NewPage evicts frame 0 and
issues page id 0 again, so the page id previously held by the frame is still mapped after the
call. -/
theorem new_page_keeps_old_mapping :
    Reachable poolOneFetchedUnpinned ∧ ¬ NewPagePostcondition poolOneFetchedUnpinned := by
  refine ⟨Reachable.unpinPage 0 false
    (Reachable.fetchPage 0 (Reachable.init 4 1 1 0 _ (by decide) (by decide))), fun h => ?_⟩
  obtain ⟨f, id, t, heq, _, _, _, _, _, _, _, hold⟩ := h (Or.inr (by decide))
  have h1 : poolOneFetchedUnpinned.NewPgImp.1 = some (f, id) := by rw [heq]
  have hf : f = 0 := by
    have h2 : poolOneFetchedUnpinned.NewPgImp.1 = some (0, 0) := by decide
    rw [h2] at h1
    exact (congrArg Prod.fst (Option.some.inj h1)).symm
  have ht : t = poolOneFetchedUnpinned.NewPgImp.2 := by rw [heq]
  subst hf ht
  revert hold
  decide

/-- C10, amended. In every reachable pool state in which the free list is non-empty or the
replacer holds a victim, NewPage returns a frame and a page id such that the id is the value of
next_page_id before the call, the frame's page id is that id, its pin count is 1, its dirty flag
is false, every byte of the frame is zero, the page table maps the id to that frame, the frame
is not in the replacer, and the mapping of the page previously held by that frame (if any, and
if it is not the id just issued) has been removed. -/
theorem new_page_postcondition (s : BufferPoolManagerInstance) (h : Reachable s)
    (hav : s.free_list ≠ [] ∨ s.replacer.lru_list ≠ []) :
    ∃ f id t, s.NewPgImp = (some (f, id), t) ∧ id = s.next_page_id ∧
      (t.pages f).page_id = id ∧ (t.pages f).pin_count = 1 ∧ (t.pages f).is_dirty = false ∧
      (t.pages f).data = List.replicate s.PAGE_SIZE 0 ∧
      ptFind t.page_table id = some f ∧ f ∉ t.replacer.lru_list ∧
      ((s.pages f).page_id ≠ INVALID_PAGE_ID → (s.pages f).page_id ≠ s.next_page_id →
        ptFind t.page_table (s.pages f).page_id = none) := by
  have hI := h.inv
  cases hfl : s.free_list with
  | cons f rest =>
    refine ⟨f, s.next_page_id, _, NewPgImp_free hfl, rfl, by simp, by simp, by simp,
      by simp [ResetMemory], ptFind_assign_self _ _ _, ?_, ?_⟩
    · exact fun hm => ((mem_Pin hI.repl_nodup).mp hm).2 rfl
    · intro hinv _
      exact absurd (hI.free_pid f (hfl ▸ List.mem_cons_self f rest)) hinv
  | nil =>
    cases hv : s.replacer.lru_list with
    | nil => rcases hav with hav | hav <;> contradiction
    | cons f rest =>
      have hnd : (f :: rest).Nodup := hv ▸ hI.repl_nodup
      refine ⟨f, s.next_page_id, _, NewPgImp_victim hfl hv, rfl, by simp, by simp, by simp,
        by simp [ResetMemory], ptFind_assign_self _ _ _, ?_, ?_⟩
      · exact fun hm => ((mem_Pin (r := ⟨rest⟩) (List.nodup_cons.mp hnd).2).mp hm).2 rfl
      · intro _ hne
        show ptFind (ptAssign _ _ _) _ = _
        rw [ptFind_assign_ne _ _ hne, ptFind_erase_self]

/-- Witness of C10 (amended): pool size 1 after NewPage and UnpinPage(0, true); the replacer holds
frame 0 and the next NewPage reuses it. -/
theorem new_page_postcondition_witness :
    Reachable poolOneNewUnpinned ∧
      (poolOneNewUnpinned.free_list ≠ [] ∨ poolOneNewUnpinned.replacer.lru_list ≠ []) ∧
      ∃ f id t, poolOneNewUnpinned.NewPgImp = (some (f, id), t) ∧
        id = poolOneNewUnpinned.next_page_id ∧
        (t.pages f).page_id = id ∧ (t.pages f).pin_count = 1 ∧ (t.pages f).is_dirty = false ∧
        (t.pages f).data = List.replicate poolOneNewUnpinned.PAGE_SIZE 0 ∧
        ptFind t.page_table id = some f ∧ f ∉ t.replacer.lru_list ∧
        ((poolOneNewUnpinned.pages f).page_id ≠ INVALID_PAGE_ID →
          (poolOneNewUnpinned.pages f).page_id ≠ poolOneNewUnpinned.next_page_id →
          ptFind t.page_table (poolOneNewUnpinned.pages f).page_id = none) :=
  have hr : Reachable poolOneNewUnpinned :=
    Reachable.unpinPage 0 true (Reachable.newPage (Reachable.init 4 1 1 0 _ (by decide) (by decide)))
  have hav : poolOneNewUnpinned.free_list ≠ [] ∨ poolOneNewUnpinned.replacer.lru_list ≠ [] :=
    Or.inr (by decide)
  ⟨hr, hav, new_page_postcondition poolOneNewUnpinned hr hav⟩

/-- C3, counterexample. Pool size 1: FetchPage(0) on the fresh pool, the client fills the frame
with bytes 0x41, UnpinPage(0, true). Page 0 is resident, unpinned and dirty. NewPage reuses its
frame (writing the bytes out) but issues page id 0 again for the zeroed frame, so the following
FetchPage(0) succeeds as a hit and shows zero bytes, not the bytes 0x41. -/
theorem refetch_sees_zeroed_page :
    Reachable poolOneFetchWriteUnpin ∧ ¬ EvictRefetchRoundTrip poolOneFetchWriteUnpin 0 := by
  refine ⟨Reachable.unpinPage 0 true (Reachable.writeData 0 _ (by decide)
    (Reachable.fetchPage 0 (Reachable.init 4 1 1 0 _ (by decide) (by decide)))), fun h => ?_⟩
  have h1 := h 0 [65, 65, 65, 65] (by decide) (by decide) (by decide) (Or.inl (by decide))
    poolOneFetchWriteUnpin.NewPgImp.2 (Or.inl ⟨0, Prod.ext (by decide) rfl⟩)
    poolOneFetchWriteUnpin.NewPgImp.2 (RunsWithoutFetching.refl _)
    0 (poolOneFetchWriteUnpin.NewPgImp.2.FetchPgImp 0).2 (Prod.ext (by decide) rfl)
  revert h1
  decide

/-- C3, amended. Eviction and refetch round trip, the disk being a map from page ids to page
bytes: if in a reachable pool state page p is resident with pin count 0 holding bytes D, its
dirty flag is set or the disk already stores D for p, and p is below next_page_id (so NewPage
will not issue p again), then after p's frame is reused by a NewPage or by a FetchPage of
another page, and after any further operations other than a successful FetchPage(p), a
successful FetchPage(p) returns a frame whose bytes are exactly D, provided the page id counter
has stayed below 32-bit overflow: next_page_id is at most 2147483647 at the end, and so it was
all the way, since it never decreases. -/
theorem evict_refetch_round_trip (s : BufferPoolManagerInstance) (h : Reachable s) (p : Int)
    (hissued : p < s.next_page_id) (f : Nat) (D : List Nat)
    (hp : ptFind s.page_table p = some f) (_hpin : (s.pages f).pin_count = 0)
    (hD : (s.pages f).data = D)
    (hdirty : (s.pages f).is_dirty = true ∨ s.disk p = D)
    (s1 : BufferPoolManagerInstance) (hreuse : FrameReusedBy s p f s1)
    (s2 : BufferPoolManagerInstance) (hrun : RunsWithoutFetching p s1 s2)
    (g : Nat) (s3 : BufferPoolManagerInstance) (hfetch : s2.FetchPgImp p = (some g, s3))
    (_hbound : s3.next_page_id ≤ 2147483647) :
    (s3.pages g).data = D :=
  ((Evicted.of_reuse h.inv h.lruOrder hp hD hdirty hissued hreuse).run hrun).fetch hfetch

/-- Witness of C3 (amended): pool size 2; page 0 is created, filled with bytes 0x41 and unpinned
dirty; a second NewPage takes the free frame and a third one evicts page 0; after
UnpinPage(1, false), FetchPage(0) returns frame 1 holding the bytes 0x41; next_page_id is 3 at
the end. -/
theorem evict_refetch_round_trip_witness :
    Reachable poolTwoScenario ∧ (0 : Int) < poolTwoScenario.next_page_id ∧
      ptFind poolTwoScenario.page_table 0 = some 0 ∧
      (poolTwoScenario.pages 0).pin_count = 0 ∧
      (poolTwoScenario.pages 0).data = [65, 65, 65, 65] ∧
      (poolTwoScenario.pages 0).is_dirty = true ∧
      ((poolTwoScenario.NewPgImp.2.UnpinPgImp 1 false).2.FetchPgImp 0).2.next_page_id
        ≤ 2147483647 ∧
      (((poolTwoScenario.NewPgImp.2.UnpinPgImp 1 false).2.FetchPgImp 0).2.pages 1).data
        = [65, 65, 65, 65] :=
  have hr : Reachable poolTwoScenario :=
    Reachable.newPage (Reachable.unpinPage 0 true (Reachable.writeData 0 _ (by decide)
      (Reachable.newPage (Reachable.init 4 2 1 0 _ (by decide) (by decide)))))
  ⟨hr, by decide, by decide, by decide, by decide, by decide, by decide,
    evict_refetch_round_trip poolTwoScenario hr 0 (by decide) 0 [65, 65, 65, 65] (by decide)
      (by decide) (by decide) (Or.inl (by decide))
      poolTwoScenario.NewPgImp.2 (Or.inl ⟨2, Prod.ext (by decide) rfl⟩)
      (poolTwoScenario.NewPgImp.2.UnpinPgImp 1 false).2
      (RunsWithoutFetching.unpinPage 1 false (RunsWithoutFetching.refl _))
      1 ((poolTwoScenario.NewPgImp.2.UnpinPgImp 1 false).2.FetchPgImp 0).2
      (Prod.ext (by decide) rfl) (by decide)⟩

/-! ## Lock manager: theorems -/

/-- C6. Two-phase locking: for every transaction whose state is SHRINKING, every row id and
every isolation level, none of LockShared, LockExclusive and LockUpgrade returns true;
LockShared and LockExclusive leave the transaction in state ABORTED and LockUpgrade returns
false. -/
theorem shrinking_never_acquires (s : LockManager) (tid rid : Nat)
    (h : (s.txns tid).state = TransactionState.SHRINKING) :
    (s.LockShared tid rid).1 ≠ LockResult.returned true ∧
    (s.LockExclusive tid rid).1 ≠ LockResult.returned true ∧
    (s.LockUpgrade tid rid).1 ≠ LockResult.returned true ∧
    ((s.LockShared tid rid).2.txns tid).state = TransactionState.ABORTED ∧
    ((s.LockExclusive tid rid).2.txns tid).state = TransactionState.ABORTED ∧
    (s.LockUpgrade tid rid).1 = LockResult.returned false := by
  refine ⟨?_, ?_, ?_, ?_, ?_, ?_⟩
  · unfold LockManager.LockShared
    by_cases hi : (s.txns tid).isolation_level = IsolationLevel.READ_UNCOMMITTED <;> simp [h, hi]
  · simp [LockManager.LockExclusive, h]
  · simp [LockManager.LockUpgrade, h]
  · unfold LockManager.LockShared
    by_cases hi : (s.txns tid).isolation_level = IsolationLevel.READ_UNCOMMITTED <;>
      simp [h, hi, Transaction.SetState]
  · simp [LockManager.LockExclusive, h, Transaction.SetState]
  · simp [LockManager.LockUpgrade, h]

/-- Witness of C6: transaction 3 is SHRINKING under REPEATABLE_READ and asks for row 7. -/
theorem shrinking_never_acquires_witness :
    (shrinkingLockManager.txns 3).state = TransactionState.SHRINKING ∧
    (shrinkingLockManager.LockShared 3 7).1 ≠ LockResult.returned true ∧
    (shrinkingLockManager.LockExclusive 3 7).1 ≠ LockResult.returned true ∧
    (shrinkingLockManager.LockUpgrade 3 7).1 ≠ LockResult.returned true ∧
    ((shrinkingLockManager.LockShared 3 7).2.txns 3).state = TransactionState.ABORTED ∧
    ((shrinkingLockManager.LockExclusive 3 7).2.txns 3).state = TransactionState.ABORTED ∧
    (shrinkingLockManager.LockUpgrade 3 7).1 = LockResult.returned false :=
  ⟨by decide, shrinking_never_acquires shrinkingLockManager 3 7 (by decide)⟩

theorem SetState_idem (t : Transaction) (st : TransactionState) :
    (t.SetState st).SetState st = t.SetState st := rfl

theorem SetState_of_state {t : Transaction} {st : TransactionState} (h : t.state = st) :
    t.SetState st = t := by
  cases t
  simp only [Transaction.SetState] at h ⊢
  subst h
  rfl

theorem situation_iff (self_mode : LockMode) (e : LockRequest) :
    ((decide (self_mode = LockMode.SHARED) && decide (e.lock_mode = LockMode.EXCLUSIVE)
      || decide (self_mode = LockMode.EXCLUSIVE)) = true) ↔ WoundConflict self_mode e := by
  unfold WoundConflict
  cases self_mode <;> simp

/-- The scan of `NeedWait` takes the WOUND-WAIT decision against the requests in front of the
first request of the caller. -/
theorem NeedWaitScan_spec (tid : Nat) (mode : LockMode) (l : List LockRequest)
    (acc : NeedWaitResult) :
    (∀ t, (∃ e ∈ l.takeWhile (fun e => decide (e.txn_id ≠ tid)),
          e.txn_id = t ∧ tid < t ∧ WoundConflict mode e) →
        (NeedWaitScan tid mode l acc).txns t = (acc.txns t).SetState TransactionState.ABORTED) ∧
    (∀ t, (¬ ∃ e ∈ l.takeWhile (fun e => decide (e.txn_id ≠ tid)),
          e.txn_id = t ∧ tid < t ∧ WoundConflict mode e) →
        (NeedWaitScan tid mode l acc).txns t = acc.txns t) ∧
    ((NeedWaitScan tid mode l acc).need_wait = true ↔
      (acc.need_wait = true ∨ ∃ e ∈ l.takeWhile (fun e => decide (e.txn_id ≠ tid)),
          e.txn_id < tid ∧ WaitConflict mode e)) := by
  induction l generalizing acc with
  | nil => simp [NeedWaitScan]
  | cons e rest ih =>
    by_cases hself : e.txn_id = tid
    · simp [NeedWaitScan, hself, List.takeWhile_cons]
    · have htw : (e :: rest).takeWhile (fun e => decide (e.txn_id ≠ tid))
          = e :: rest.takeWhile (fun e => decide (e.txn_id ≠ tid)) := by
        simp [List.takeWhile_cons, hself]
      rw [htw]
      by_cases hyoung : e.txn_id > tid
      · have hnold : ¬ e.txn_id < tid := by omega
        by_cases hconf : WoundConflict mode e
        · have hsit := (situation_iff mode e).mpr hconf
          by_cases hab : (acc.txns e.txn_id).state = TransactionState.ABORTED
          · have hstep : NeedWaitScan tid mode (e :: rest) acc = NeedWaitScan tid mode rest acc := by
              simp only [NeedWaitScan, hself, if_false, hyoung, if_true, hsit, hab, ne_eq,
                not_true_eq_false]
            rw [hstep]
            obtain ⟨ih1, ih2, ih3⟩ := ih acc
            refine ⟨?_, ?_, ?_⟩
            · intro t ht
              by_cases hw : ∃ e ∈ rest.takeWhile (fun e => decide (e.txn_id ≠ tid)),
                  e.txn_id = t ∧ tid < t ∧ WoundConflict mode e
              · exact ih1 t hw
              · rw [ih2 t hw]
                obtain ⟨e2, he2, h1, h2, h3⟩ := ht
                rcases List.mem_cons.mp he2 with rfl | he2
                · subst h1; exact (SetState_of_state hab).symm
                · exact absurd ⟨e2, he2, h1, h2, h3⟩ hw
            · intro t ht
              exact ih2 t (fun ⟨e2, he2, h⟩ => ht ⟨e2, List.mem_cons_of_mem _ he2, h⟩)
            · rw [ih3]
              constructor
              · rintro (h | ⟨e2, he2, h⟩)
                · exact Or.inl h
                · exact Or.inr ⟨e2, List.mem_cons_of_mem _ he2, h⟩
              · rintro (h | ⟨e2, he2, h1, h2⟩)
                · exact Or.inl h
                · rcases List.mem_cons.mp he2 with rfl | he2
                  · exact absurd h1 hnold
                  · exact Or.inr ⟨e2, he2, h1, h2⟩
          · have hstep : NeedWaitScan tid mode (e :: rest) acc = NeedWaitScan tid mode rest
                { acc with
                  txns := Function.update acc.txns e.txn_id
                    ((acc.txns e.txn_id).SetState TransactionState.ABORTED)
                  has_aborted := true } := by
              simp only [NeedWaitScan, hself, if_false, hyoung, if_true, hsit, hab, ne_eq,
                not_false_eq_true]
            rw [hstep]
            obtain ⟨ih1, ih2, ih3⟩ := ih { acc with
                  txns := Function.update acc.txns e.txn_id
                    ((acc.txns e.txn_id).SetState TransactionState.ABORTED)
                  has_aborted := true }
            have hupd : ∀ t, (Function.update acc.txns e.txn_id
                ((acc.txns e.txn_id).SetState TransactionState.ABORTED) t).SetState
                  TransactionState.ABORTED = (acc.txns t).SetState TransactionState.ABORTED := by
              intro t
              by_cases ht : t = e.txn_id
              · subst ht; simp [SetState_idem]
              · simp [Function.update_apply, ht]
            refine ⟨?_, ?_, ?_⟩
            · intro t ht
              by_cases hw : ∃ e ∈ rest.takeWhile (fun e => decide (e.txn_id ≠ tid)),
                  e.txn_id = t ∧ tid < t ∧ WoundConflict mode e
              · rw [ih1 t hw]; exact hupd t
              · rw [ih2 t hw]
                obtain ⟨e2, he2, h1, h2, h3⟩ := ht
                rcases List.mem_cons.mp he2 with rfl | he2
                · subst h1; simp
                · exact absurd ⟨e2, he2, h1, h2, h3⟩ hw
            · intro t ht
              rw [ih2 t (fun ⟨e2, he2, h⟩ => ht ⟨e2, List.mem_cons_of_mem _ he2, h⟩)]
              have hne : t ≠ e.txn_id := fun h =>
                ht ⟨e, List.mem_cons_self _ _, h.symm, h ▸ hyoung, hconf⟩
              simp [Function.update_apply, hne]
            · rw [ih3]
              constructor
              · rintro (h | ⟨e2, he2, h⟩)
                · exact Or.inl h
                · exact Or.inr ⟨e2, List.mem_cons_of_mem _ he2, h⟩
              · rintro (h | ⟨e2, he2, h1, h2⟩)
                · exact Or.inl h
                · rcases List.mem_cons.mp he2 with rfl | he2
                  · exact absurd h1 hnold
                  · exact Or.inr ⟨e2, he2, h1, h2⟩
        · have hsit : ¬ ((decide (mode = LockMode.SHARED) &&
              decide (e.lock_mode = LockMode.EXCLUSIVE) || decide (mode = LockMode.EXCLUSIVE))
                = true) := fun h => hconf ((situation_iff mode e).mp h)
          have hstep : NeedWaitScan tid mode (e :: rest) acc = NeedWaitScan tid mode rest acc := by
            simp only [NeedWaitScan, hself, if_false, hyoung, if_true, hsit]
            simp
          rw [hstep]
          obtain ⟨ih1, ih2, ih3⟩ := ih acc
          refine ⟨?_, ?_, ?_⟩
          · rintro t ⟨e2, he2, h1, h2, h3⟩
            rcases List.mem_cons.mp he2 with rfl | he2
            · exact absurd h3 hconf
            · exact ih1 t ⟨e2, he2, h1, h2, h3⟩
          · intro t ht
            exact ih2 t (fun ⟨e2, he2, h⟩ => ht ⟨e2, List.mem_cons_of_mem _ he2, h⟩)
          · rw [ih3]
            constructor
            · rintro (h | ⟨e2, he2, h⟩)
              · exact Or.inl h
              · exact Or.inr ⟨e2, List.mem_cons_of_mem _ he2, h⟩
            · rintro (h | ⟨e2, he2, h1, h2⟩)
              · exact Or.inl h
              · rcases List.mem_cons.mp he2 with rfl | he2
                · exact absurd h1 hnold
                · exact Or.inr ⟨e2, he2, h1, h2⟩
      · have hold : e.txn_id < tid := by omega
        have hstep : NeedWaitScan tid mode (e :: rest) acc = NeedWaitScan tid mode rest
            { acc with need_wait :=
                if e.lock_mode = LockMode.EXCLUSIVE then true
                else (if mode = LockMode.EXCLUSIVE then true else acc.need_wait) } := by
          simp only [NeedWaitScan, hself, if_false, hyoung]
        rw [hstep]
        obtain ⟨ih1, ih2, ih3⟩ := ih { acc with need_wait :=
                if e.lock_mode = LockMode.EXCLUSIVE then true
                else (if mode = LockMode.EXCLUSIVE then true else acc.need_wait) }
        refine ⟨?_, ?_, ?_⟩
        · rintro t ⟨e2, he2, h1, h2, h3⟩
          rcases List.mem_cons.mp he2 with rfl | he2
          · omega
          · exact ih1 t ⟨e2, he2, h1, h2, h3⟩
        · intro t ht
          exact ih2 t (fun ⟨e2, he2, h⟩ => ht ⟨e2, List.mem_cons_of_mem _ he2, h⟩)
        · rw [ih3]
          have hnw : (if e.lock_mode = LockMode.EXCLUSIVE then true
                else (if mode = LockMode.EXCLUSIVE then true else acc.need_wait)) = true ↔
              (acc.need_wait = true ∨ WaitConflict mode e) := by
            unfold WaitConflict
            by_cases h1 : e.lock_mode = LockMode.EXCLUSIVE <;>
              by_cases h2 : mode = LockMode.EXCLUSIVE <;> simp [h1, h2]
          constructor
          · rintro (h | ⟨e2, he2, h⟩)
            · rcases hnw.mp h with h | h
              · exact Or.inl h
              · exact Or.inr ⟨e, List.mem_cons_self _ _, hold, h⟩
            · exact Or.inr ⟨e2, List.mem_cons_of_mem _ he2, h⟩
          · rintro (h | ⟨e2, he2, h1, h2⟩)
            · exact Or.inl (hnw.mpr (Or.inl h))
            · rcases List.mem_cons.mp he2 with rfl | he2
              · exact Or.inl (hnw.mpr (Or.inr h2))
              · exact Or.inr ⟨e2, he2, h1, h2⟩

theorem NeedWait_slow {txns : Nat → Transaction} {tid : Nat} {queue : List LockRequest}
    {self first_iter : LockRequest} (hlast : queue.getLast? = some self)
    (hhead : queue.head? = some first_iter) (hfast : ¬ NoWaitFastPath tid self first_iter) :
    NeedWait txns tid queue = NeedWaitScan tid self.lock_mode queue
      { need_wait := false, has_aborted := false, txns := txns } := by
  unfold NoWaitFastPath at hfast
  simp only [NeedWait, hlast, hhead]
  by_cases hm : self.lock_mode = LockMode.SHARED
  · have h1 : ¬ (first_iter.txn_id = tid ∨ first_iter.lock_mode = LockMode.SHARED) :=
      fun h => hfast (Or.inl ⟨hm, h⟩)
    simp only [hm, if_true, h1, if_false]
  · have h1 : ¬ first_iter.txn_id = tid := fun h => hfast (Or.inr ⟨hm, h⟩)
    simp only [hm, if_false, h1]

theorem NeedWait_need_wait_older {txns : Nat → Transaction} {tid : Nat}
    {queue : List LockRequest} (h : (NeedWait txns tid queue).need_wait = true) :
    ∃ e ∈ queue, e.txn_id < tid := by
  have hscan : ∀ mode, (NeedWaitScan tid mode queue
      { need_wait := false, has_aborted := false, txns := txns }).need_wait = true →
      ∃ e ∈ queue, e.txn_id < tid := by
    intro mode hm
    rcases (NeedWaitScan_spec tid mode queue _).2.2.mp hm with h1 | ⟨e, he, h1, _⟩
    · cases h1
    · exact ⟨e, List.takeWhile_subset _ he, h1⟩
  unfold NeedWait at h
  split at h
  · split at h
    · split at h
      · cases h
      · exact hscan _ h
    · split at h
      · cases h
      · exact hscan _ h
  · cases h

theorem NeedWait_oldest {txns : Nat → Transaction} {tid : Nat} {queue : List LockRequest}
    (h : ∀ e ∈ queue, tid ≤ e.txn_id) : (NeedWait txns tid queue).need_wait = false := by
  cases hnw : (NeedWait txns tid queue).need_wait with
  | false => rfl
  | true =>
    obtain ⟨e, he, hlt⟩ := NeedWait_need_wait_older hnw
    have := h e he
    omega

/-- C7, counterexample. T3, T1 and T2 hold SHARED on a row and T1 then calls LockExclusive on
it, so the queue is T3 S, T1 S, T2 S, T1 X. NeedWait scans up to T1's first request only: T2 is
ahead of T1's last request, younger and in conflict with it, yet stays GROWING. -/
theorem need_wait_skips_requests_behind_own :
    ¬ NeedWaitJudgesAllAhead growingTxns 1 queueTwoRequestsOfT1 := by
  intro h
  have h1 := (h { txn_id := 1, lock_mode := LockMode.EXCLUSIVE, granted := false }
    { txn_id := 3, lock_mode := LockMode.SHARED, granted := false } rfl rfl rfl
    (by simp [NoWaitFastPath])).1 2
    ⟨{ txn_id := 2, lock_mode := LockMode.SHARED, granted := false }, by decide, rfl,
      by decide, Or.inl rfl⟩
  have h2 : ((NeedWait growingTxns 1 queueTwoRequestsOfT1).txns 2).state
      = TransactionState.GROWING := by decide
  rw [h1] at h2
  cases h2

/-- C7, amended. WOUND-WAIT decision of NeedWait: for every queue whose last request self
belongs to txn and that is not covered by the no-wait fast paths, NeedWait sets to ABORTED
exactly the transactions that are ahead of the first request of txn in the queue, are younger
(larger id) and conflict with self (self is EXCLUSIVE, or self is SHARED and their request is
EXCLUSIVE), and it returns true if and only if some older (smaller id) transaction ahead of the
first request of txn conflicts (self is EXCLUSIVE or its request is EXCLUSIVE). -/
theorem need_wait_decision (txns : Nat → Transaction) (tid : Nat) (queue : List LockRequest)
    (self first_iter : LockRequest) (hlast : queue.getLast? = some self)
    (hhead : queue.head? = some first_iter) (_hself : self.txn_id = tid)
    (hfast : ¬ NoWaitFastPath tid self first_iter) :
    WoundWaitDecision txns tid self (queue.takeWhile (fun e => decide (e.txn_id ≠ tid)))
      (NeedWait txns tid queue) := by
  rw [NeedWait_slow hlast hhead hfast]
  obtain ⟨h1, h2, h3⟩ := NeedWaitScan_spec tid self.lock_mode queue
    { need_wait := false, has_aborted := false, txns := txns }
  refine ⟨h1, h2, ?_⟩
  rw [h3]
  simp

/-- Witness of C7 (amended): T2 (id 2) holds EXCLUSIVE on row 0 and T1 (id 1) calls
LockExclusive on it; T2 becomes ABORTED and the call of T1 returns true. -/
theorem need_wait_decision_witness :
    queueT2ThenT1.getLast? = some { txn_id := 1, lock_mode := LockMode.EXCLUSIVE, granted := false } ∧
    queueT2ThenT1.head? = some { txn_id := 2, lock_mode := LockMode.EXCLUSIVE, granted := false } ∧
    WoundWaitDecision growingTxns 1
      { txn_id := 1, lock_mode := LockMode.EXCLUSIVE, granted := false }
      (queueT2ThenT1.takeWhile (fun e => decide (e.txn_id ≠ 1)))
      (NeedWait growingTxns 1 queueT2ThenT1) ∧
    ((freshLockManager.LockExclusive 2 0).2.LockExclusive 1 0).1 = LockResult.returned true ∧
    (((freshLockManager.LockExclusive 2 0).2.LockExclusive 1 0).2.txns 2).state
      = TransactionState.ABORTED :=
  ⟨rfl, rfl,
    need_wait_decision growingTxns 1 queueT2ThenT1 _ _ rfl rfl rfl (by simp [NoWaitFastPath]),
    by decide, by decide⟩

/-- C8, counterexample. T2 and then T1 hold SHARED on a row and T1 upgrades: the queue is
T2 S, T1 X. T1 has the smallest id in the queue, yet UpdateWait returns true for it. -/
theorem oldest_waits_in_upgrade : ¬ OldestNeverWaits growingTxns 1 queueUpgradeBehindT2 := by
  intro h
  have h1 := (h ⟨⟨{ txn_id := 1, lock_mode := LockMode.EXCLUSIVE, granted := false },
    by decide, rfl⟩, by decide⟩).2
  revert h1
  decide

/-- C8, amended. WOUND-WAIT progress for the oldest transaction: for every row queue, the
transaction with the smallest id among the transactions in that queue does not have to wait in
LockShared or LockExclusive: NeedWait returns false for it, so its LockExclusive, and its
LockShared outside READ_UNCOMMITTED, return true when it is GROWING; UpdateWait, the wait
predicate of LockUpgrade, returns false for it exactly when its request is at the head of the
queue. -/
theorem oldest_never_waits_in_need_wait (tid : Nat) :
    (∀ (txns : Nat → Transaction) (queue : List LockRequest), OldestInQueue tid queue →
      (NeedWait txns tid queue).need_wait = false ∧
      (UpdateWait tid queue = false ↔
        ∃ first_iter, queue.head? = some first_iter ∧ first_iter.txn_id = tid)) ∧
    (∀ (s : LockManager) (rid : Nat), (s.txns tid).state = TransactionState.GROWING →
      (∀ e ∈ s.lock_table rid, tid ≤ e.txn_id) →
      ((s.txns tid).isolation_level ≠ IsolationLevel.READ_UNCOMMITTED →
        (s.LockShared tid rid).1 = LockResult.returned true) ∧
      (s.LockExclusive tid rid).1 = LockResult.returned true) := by
  constructor
  · intro txns queue h
    refine ⟨NeedWait_oldest h.2, ?_⟩
    unfold UpdateWait
    cases hq : queue.head? with
    | none => simp
    | some first_iter =>
      by_cases hf : first_iter.txn_id = tid <;> simp [hf]
  · intro s rid hst hq
    have hq2 : ∀ (m : LockMode), ∀ e ∈ s.lock_table rid ++
        [{ txn_id := tid, lock_mode := m, granted := false }], tid ≤ e.txn_id := by
      intro m e he
      rcases List.mem_append.mp he with he | he
      · exact hq e he
      · rw [List.mem_singleton.mp he]
    constructor
    · intro hiso
      unfold LockManager.LockShared
      by_cases hmem : rid ∈ (s.txns tid).shared_lock_set
      · simp [hst, hiso, hmem]
      · simp [hst, hiso, hmem, NeedWait_oldest (hq2 LockMode.SHARED)]
    · unfold LockManager.LockExclusive
      by_cases hmem : rid ∈ (s.txns tid).exclusive_lock_set
      · simp [hst, hmem]
      · simp [hst, hmem, NeedWait_oldest (hq2 LockMode.EXCLUSIVE)]

/-- Witness of C8 (amended): T2 holds EXCLUSIVE on row 0; T1, the oldest in the queue, calls
LockExclusive, does not wait and gets true. -/
theorem oldest_never_waits_in_need_wait_witness :
    OldestInQueue 1 queueT2ThenT1 ∧
    (NeedWait growingTxns 1 queueT2ThenT1).need_wait = false ∧
    ((freshLockManager.LockExclusive 2 0).2.LockExclusive 1 0).1 = LockResult.returned true :=
  have ho : OldestInQueue 1 queueT2ThenT1 :=
    ⟨⟨{ txn_id := 1, lock_mode := LockMode.EXCLUSIVE, granted := false }, by decide, rfl⟩,
      by decide⟩
  ⟨ho, ((oldest_never_waits_in_need_wait 1).1 growingTxns queueT2ThenT1 ho).1,
    ((oldest_never_waits_in_need_wait 1).2 (freshLockManager.LockExclusive 2 0).2 0
      (by decide) (by decide)).2⟩

/-! ## Hash table: lemmas and theorems -/

section BucketLemmas

variable {K V : Type}

theorem mask_and_pos_iff (c m : Nat) : 0 < (1 <<< m) &&& c ↔ c.testBit m = true := by
  rw [Nat.one_shiftLeft]
  constructor
  · intro h
    by_contra hc
    have hz : 2 ^ m &&& c = 0 := by
      apply Nat.eq_of_testBit_eq
      intro i
      rw [Nat.testBit_and, Nat.testBit_two_pow, Nat.zero_testBit]
      by_cases hmi : m = i
      · subst hmi; simpa using hc
      · simp [hmi]
    omega
  · intro h
    have h1 : (2 ^ m &&& c).testBit m = true := by
      rw [Nat.testBit_and, Nat.testBit_two_pow_self, h]; rfl
    by_contra hc
    have hz : 2 ^ m &&& c = 0 := by omega
    rw [hz, Nat.zero_testBit] at h1
    cases h1

theorem IsReadable_eq_testBit (b : HashTableBucketPage K V) (i : Nat) :
    b.IsReadable i = (b.readable_.getD (i / 8) 0).testBit (i % 8) := by
  unfold HashTableBucketPage.IsReadable
  by_cases h : (b.readable_.getD (i / 8) 0).testBit (i % 8) = true
  · rw [h]; exact decide_eq_true ((mask_and_pos_iff _ _).mpr h)
  · have h2 : (b.readable_.getD (i / 8) 0).testBit (i % 8) = false := by simpa using h
    rw [h2]
    exact decide_eq_false (fun hp => h ((mask_and_pos_iff _ _).mp hp))

theorem getD_set_self {α : Type} (l : List α) (i : Nat) (a d : α) (h : i < l.length) :
    (l.set i a).getD i d = a := by
  simp [List.getD_eq_getElem?_getD, List.getElem?_set, h]

theorem getD_set_ne {α : Type} (l : List α) {i j : Nat} (a d : α) (h : i ≠ j) :
    (l.set i a).getD j d = l.getD j d := by
  simp [List.getD_eq_getElem?_getD, List.getElem?_set_ne h]

theorem IsReadable_SetReadable_true (b : HashTableBucketPage K V) {i : Nat}
    (h : i / 8 < b.readable_.length) (j : Nat) :
    (b.SetReadable i true).IsReadable j = (decide (j = i) || b.IsReadable j) := by
  rw [IsReadable_eq_testBit, IsReadable_eq_testBit]
  simp only [HashTableBucketPage.SetReadable, if_true]
  by_cases hq : i / 8 = j / 8
  · rw [hq, getD_set_self _ _ _ _ (hq ▸ h), Nat.testBit_or, Nat.one_shiftLeft,
      Nat.testBit_two_pow]
    by_cases hr : i % 8 = j % 8
    · have : j = i := by omega
      simp [hr, this]
    · have : j ≠ i := fun e => hr (by rw [e])
      simp [hr, this]
  · rw [getD_set_ne _ _ _ hq]
    have : j ≠ i := fun e => hq (by rw [e])
    simp [this]

theorem IsReadable_SetOccupied (b : HashTableBucketPage K V) (i : Nat) (st : Bool) (j : Nat) :
    (b.SetOccupied i st).IsReadable j = b.IsReadable j := rfl

theorem lowBitsAllSet_testBit : ∀ (n c : Nat), lowBitsAllSet n c = true →
    ∀ m, m < n → c.testBit m = true
  | 0, _, _, m, hm => by omega
  | n + 1, c, h, m, hm => by
    unfold lowBitsAllSet at h
    by_cases hc : c &&& 1 ≠ 1
    · rw [if_pos hc] at h; cases h
    · rw [if_neg hc] at h
      cases m with
      | zero =>
        rw [Nat.testBit_zero]
        rw [Nat.and_one_is_mod] at hc
        simpa using hc
      | succ m =>
        have := lowBitsAllSet_testBit n (c >>> 1) h m (by omega)
        rw [Nat.testBit_shiftRight] at this
        rwa [Nat.add_comm] at this

/-- `IsFull` answers true only when every slot is readable. -/
theorem IsFull_readable (N : Nat) (b : HashTableBucketPage K V)
    (h : b.IsFull N = true) (i : Nat) (hi : i < N) : b.IsReadable i = true := by
  rw [IsReadable_eq_testBit]
  unfold HashTableBucketPage.IsFull at h
  by_cases hany : (List.range (N / 8)).any
      (fun i => decide ((b.readable_.getD i 0) &&& 255 ≠ 255)) = true
  · rw [if_pos hany] at h; cases h
  · rw [if_neg hany] at h
    by_cases hq : i / 8 < N / 8
    · have h1 : (b.readable_.getD (i / 8) 0) &&& 255 = 255 := by
        by_contra hne
        apply hany
        rw [List.any_eq_true]
        exact ⟨i / 8, List.mem_range.mpr hq, decide_eq_true hne⟩
      have h2 : ((b.readable_.getD (i / 8) 0) &&& 255).testBit (i % 8) = true := by
        rw [h1]
        have : i % 8 < 8 := Nat.mod_lt _ (by decide)
        interval_cases (i % 8) <;> rfl
      rw [Nat.testBit_and] at h2
      exact (Bool.and_eq_true _ _ ▸ h2).1
    · have hq2 : i / 8 = N / 8 := by omega
      have hr : i % 8 < N % 8 := by omega
      have hpos : N % 8 > 0 := by omega
      simp only [hpos, if_true] at h
      rw [hq2]
      exact lowBitsAllSet_testBit _ _ h _ hr

end BucketLemmas

section BucketLemmas2

variable {K V : Type} [DecidableEq K] [DecidableEq V] [Inhabited K] [Inhabited V]

theorem InsertScan_dup (b : HashTableBucketPage K V) (key : K) (value : V) :
    ∀ (l : List Nat) (fs : Option Nat),
      (∃ i ∈ l, b.IsReadable i = true ∧ key = b.KeyAt i ∧ value = b.ValueAt i) →
      b.InsertScan key value l fs = none
  | [], _, h => by obtain ⟨i, hi, _⟩ := h; cases hi
  | i :: rest, fs, h => by
    unfold HashTableBucketPage.InsertScan
    by_cases hr : b.IsReadable i = true
    · rw [if_pos hr]
      by_cases he : key = b.KeyAt i ∧ value = b.ValueAt i
      · rw [if_pos he]
      · rw [if_neg he]
        apply InsertScan_dup b key value rest fs
        obtain ⟨j, hj, h1, h2⟩ := h
        rcases List.mem_cons.mp hj with rfl | hj
        · exact absurd h2 he
        · exact ⟨j, hj, h1, h2⟩
    · rw [if_neg hr]
      have h2 : ∃ i ∈ rest, b.IsReadable i = true ∧ key = b.KeyAt i ∧ value = b.ValueAt i := by
        obtain ⟨j, hj, h1, h2⟩ := h
        rcases List.mem_cons.mp hj with rfl | hj
        · exact absurd h1 hr
        · exact ⟨j, hj, h1, h2⟩
      split
      · exact InsertScan_dup b key value rest _ h2
      · exact InsertScan_dup b key value rest _ h2

theorem InsertScan_fresh (b : HashTableBucketPage K V) (key : K) (value : V) :
    ∀ (l : List Nat) (fs : Option Nat),
      (∀ i ∈ l, b.IsReadable i = true → ¬ (key = b.KeyAt i ∧ value = b.ValueAt i)) →
      b.InsertScan key value l fs
        = some (match fs with
          | some f => some f
          | none => l.find? (fun i => !b.IsReadable i))
  | [], fs, _ => by cases fs <;> rfl
  | i :: rest, fs, h => by
    have hrest : ∀ j ∈ rest, b.IsReadable j = true →
        ¬ (key = b.KeyAt j ∧ value = b.ValueAt j) :=
      fun j hj => h j (List.mem_cons_of_mem _ hj)
    unfold HashTableBucketPage.InsertScan
    by_cases hr : b.IsReadable i = true
    · rw [if_pos hr, if_neg (h i (List.mem_cons_self _ _) hr),
        InsertScan_fresh b key value rest fs hrest]
      cases fs with
      | some f => rfl
      | none => simp [List.find?_cons, hr]
    · rw [if_neg hr]
      cases fs with
      | some f =>
        rw [if_neg (by simp), InsertScan_fresh b key value rest _ hrest]
      | none =>
        rw [if_pos rfl, InsertScan_fresh b key value rest _ hrest]
        simp [List.find?_cons, hr]

theorem Insert_dup (N : Nat) (b : HashTableBucketPage K V) (key : K) (value : V)
    (h : b.Holds N (key, value)) : b.Insert N key value = (false, b) := by
  obtain ⟨i, hi, hr, ha⟩ := h
  unfold HashTableBucketPage.Insert
  rw [InsertScan_dup b key value _ _ ⟨i, List.mem_range.mpr hi, hr, by
    simp only [HashTableBucketPage.KeyAt, HashTableBucketPage.ValueAt, ha, and_self]⟩]

theorem Insert_fresh (N : Nat) (b : HashTableBucketPage K V) (key : K) (value : V)
    (h : ¬ b.Holds N (key, value)) (hfree : ∃ i, i < N ∧ b.IsReadable i = false) :
    ∃ i0, i0 < N ∧ b.IsReadable i0 = false ∧
      b.Insert N key value = (true,
        { (b.SetOccupied i0 true).SetReadable i0 true with
          array_ := ((b.SetOccupied i0 true).SetReadable i0 true).array_.set i0 (key, value) }) := by
  have hscan := InsertScan_fresh b key value (List.range N) none (by
    intro i hi hr he
    apply h
    refine ⟨i, List.mem_range.mp hi, hr, ?_⟩
    simp only [HashTableBucketPage.KeyAt, HashTableBucketPage.ValueAt] at he
    exact Prod.ext he.1.symm he.2.symm)
  simp only at hscan
  cases hf : (List.range N).find? (fun i => !b.IsReadable i) with
  | none =>
    obtain ⟨i, hi, hr⟩ := hfree
    have := List.find?_eq_none.mp hf i (List.mem_range.mpr hi)
    simp [hr] at this
  | some i0 =>
    have h1 := List.find?_some hf
    have h2 := List.mem_range.mp (List.mem_of_find?_eq_some hf)
    refine ⟨i0, h2, by simpa using h1, ?_⟩
    unfold HashTableBucketPage.Insert
    rw [hscan, hf]

omit [DecidableEq K] [DecidableEq V] [Inhabited K] [Inhabited V] in
theorem foldl_collect (p : Nat → Bool) (val : Nat → V) :
    ∀ (l : List Nat) (acc : Bool × List V),
      l.foldl (fun (acc : Bool × List V) i =>
          if p i = true then (true, acc.2 ++ [val i]) else acc) acc
        = (acc.1 || (l.filter p).any (fun _ => true), acc.2 ++ (l.filter p).map val)
  | [], acc => by simp
  | i :: rest, acc => by
    rw [List.foldl_cons, foldl_collect p val rest]
    by_cases h : p i = true
    · rw [if_pos h, List.filter_cons_of_pos h]
      simp
    · rw [if_neg h, List.filter_cons_of_neg h]

omit [DecidableEq V] in
/-- `GetValue` returns the values of the readable slots holding the key, in slot order, and
the flag says whether there is one. -/
theorem GetValue_eq (N : Nat) (b : HashTableBucketPage K V) (key : K) :
    b.GetValue N key
      = (((List.range N).filter (fun i => b.IsReadable i && decide (key = b.KeyAt i))).any
            (fun _ => true),
         ((List.range N).filter (fun i => b.IsReadable i && decide (key = b.KeyAt i))).map
            b.ValueAt) := by
  unfold HashTableBucketPage.GetValue
  have hf : (fun (acc : Bool × List V) i =>
        if b.IsReadable i = true ∧ key = b.KeyAt i then (true, acc.2 ++ [b.ValueAt i]) else acc)
      = (fun (acc : Bool × List V) i =>
        if (b.IsReadable i && decide (key = b.KeyAt i)) = true
          then (true, acc.2 ++ [b.ValueAt i]) else acc) := by
    funext acc i
    simp only [Bool.and_eq_true, decide_eq_true_eq]
  rw [hf, foldl_collect (fun i => b.IsReadable i && decide (key = b.KeyAt i)) b.ValueAt]
  simp

end BucketLemmas2

section BucketLemmas3

variable {K V : Type} [DecidableEq K] [DecidableEq V] [Inhabited K] [Inhabited V]

theorem dedup_length_le_of_subset {α : Type} [DecidableEq α] {a b : List α} (h : a ⊆ b) :
    a.dedup.length ≤ b.dedup.length :=
  ((List.nodup_dedup a).subperm
    (fun _ hx => List.mem_dedup.mpr (h (List.mem_dedup.mp hx)))).length_le

omit [DecidableEq K] [DecidableEq V] in
theorem IsReadable_zero (N i : Nat) :
    (HashTableBucketPage.zero N : HashTableBucketPage K V).IsReadable i = false := by
  rw [IsReadable_eq_testBit]
  have : (List.replicate ((N - 1) / 8 + 1) 0).getD (i / 8) 0 = 0 := by
    rw [List.getD_eq_getElem?_getD]
    cases h : (List.replicate ((N - 1) / 8 + 1) 0)[i / 8]? with
    | none => rfl
    | some x =>
      have := List.getElem?_mem h
      rw [List.mem_replicate] at this
      simp [this.2]
  simp only [HashTableBucketPage.zero, this, Nat.zero_testBit]

omit [DecidableEq K] [DecidableEq V] in
theorem HoldsExactly_zero (N : Nat) :
    (HashTableBucketPage.zero N : HashTableBucketPage K V).HoldsExactly N [] := by
  refine ⟨by simp [HashTableBucketPage.zero], by simp [HashTableBucketPage.zero], ?_, ?_⟩
  · intro i j _ _ hi
    rw [IsReadable_zero] at hi
    cases hi
  · intro x
    constructor
    · rintro ⟨i, _, hi, _⟩
      rw [IsReadable_zero] at hi
      cases hi
    · intro h; cases h

/-- A bucket that holds fewer distinct pairs than it has slots has a slot that is not readable. -/
theorem HashTableBucketPage.HoldsExactly.free_slot {N : Nat} {b : HashTableBucketPage K V} {p : List (K × V)}
    (h : b.HoldsExactly N p) (hc : p.dedup.length < N) :
    ∃ i, i < N ∧ b.IsReadable i = false := by
  by_contra hno
  have hall : ∀ i, i < N → b.IsReadable i = true := by
    intro i hi
    by_contra hr
    exact hno ⟨i, hi, by simpa using hr⟩
  have hnd : ((List.range N).map (fun i => b.array_.getD i default)).Nodup := by
    apply List.Nodup.map_on _ (List.nodup_range N)
    intro i hi j hj hij
    exact h.inj i j (List.mem_range.mp hi) (List.mem_range.mp hj)
      (hall i (List.mem_range.mp hi)) (hall j (List.mem_range.mp hj)) hij
  have hsub : (List.range N).map (fun i => b.array_.getD i default) ⊆ p.dedup := by
    intro x hx
    obtain ⟨i, hi, rfl⟩ := List.mem_map.mp hx
    exact List.mem_dedup.mpr ((h.mem _).mp ⟨i, List.mem_range.mp hi,
      hall i (List.mem_range.mp hi), rfl⟩)
  have := (hnd.subperm hsub).length_le
  simp at this
  omega

theorem HashTableBucketPage.HoldsExactly.insert {N : Nat} {b : HashTableBucketPage K V} {p : List (K × V)}
    (h : b.HoldsExactly N p) (hc : p.dedup.length < N) (key : K) (value : V) :
    (b.Insert N key value).2.HoldsExactly N (p ++ [(key, value)]) := by
  by_cases hh : b.Holds N (key, value)
  · rw [Insert_dup N b key value hh]
    refine ⟨h.len_readable, h.len_array, h.inj, fun x => ?_⟩
    rw [List.mem_append, List.mem_singleton, h.mem]
    constructor
    · exact Or.inl
    · rintro (hx | rfl)
      · exact hx
      · exact (h.mem _).mp hh
  · obtain ⟨i0, hi0, hr0, heq⟩ := Insert_fresh N b key value hh (h.free_slot hc)
    rw [heq]
    have hlen : i0 / 8 < (b.SetOccupied i0 true).readable_.length := by
      show i0 / 8 < b.readable_.length
      rw [h.len_readable]
      omega
    have hR : ∀ j, (HashTableBucketPage.IsReadable
        { (b.SetOccupied i0 true).SetReadable i0 true with
          array_ := ((b.SetOccupied i0 true).SetReadable i0 true).array_.set i0 (key, value) } j)
        = (decide (j = i0) || b.IsReadable j) := by
      intro j
      have := IsReadable_SetReadable_true (b.SetOccupied i0 true) hlen j
      rw [IsReadable_SetOccupied] at this
      exact this
    have hA : ∀ j, (((b.SetOccupied i0 true).SetReadable i0 true).array_.set i0
        (key, value)).getD j default = if j = i0 then (key, value) else b.array_.getD j default := by
      intro j
      show (b.array_.set i0 (key, value)).getD j default = _
      by_cases hj : j = i0
      · subst hj
        rw [if_pos rfl, getD_set_self _ _ _ _ (by rw [h.len_array]; exact hi0)]
      · rw [if_neg hj, getD_set_ne _ _ _ (Ne.symm hj)]
    refine ⟨?_, ?_, ?_, ?_⟩
    · show (b.readable_.set _ _).length = _
      rw [List.length_set, h.len_readable]
    · show (b.array_.set _ _).length = _
      rw [List.length_set, h.len_array]
    · intro i j hi hj hri hrj hij
      rw [hR] at hri hrj
      simp only [hA] at hij
      by_cases hi0' : i = i0
      · by_cases hj0 : j = i0
        · rw [hi0', hj0]
        · exfalso
          rw [if_pos hi0', if_neg hj0] at hij
          have hrj' : b.IsReadable j = true := by simpa [hj0] using hrj
          exact hh ⟨j, hj, hrj', hij.symm⟩
      · by_cases hj0 : j = i0
        · exfalso
          rw [if_neg hi0', if_pos hj0] at hij
          have hri' : b.IsReadable i = true := by simpa [hi0'] using hri
          exact hh ⟨i, hi, hri', hij⟩
        · rw [if_neg hi0', if_neg hj0] at hij
          have hri' : b.IsReadable i = true := by simpa [hi0'] using hri
          have hrj' : b.IsReadable j = true := by simpa [hj0] using hrj
          exact h.inj i j hi hj hri' hrj' hij
    · intro x
      rw [List.mem_append, List.mem_singleton, ← h.mem]
      constructor
      · rintro ⟨j, hj, hrj, hx⟩
        rw [hR] at hrj
        simp only [hA] at hx
        by_cases hj0 : j = i0
        · rw [if_pos hj0] at hx
          exact Or.inr hx.symm
        · rw [if_neg hj0] at hx
          exact Or.inl ⟨j, hj, by simpa [hj0] using hrj, hx⟩
      · rintro (⟨j, hj, hrj, hx⟩ | rfl)
        · have hj0 : j ≠ i0 := fun e => by
            rw [e, hr0] at hrj
            cases hrj
          refine ⟨j, hj, ?_, ?_⟩
          · rw [hR]; simp [hrj]
          · simp only [hA]; rw [if_neg hj0]; exact hx
        · refine ⟨i0, hi0, ?_, ?_⟩
          · rw [hR]; simp
          · simp only [hA, if_true]

/-- On a bucket that holds exactly the pairs of `p`, `GetValue` answers with the values
inserted under the key. -/
theorem HashTableBucketPage.HoldsExactly.getValue {N : Nat} {b : HashTableBucketPage K V} {p : List (K × V)}
    (h : b.HoldsExactly N p) (key : K) :
    ((b.GetValue N key).1 = true ↔ ∃ value, (key, value) ∈ p) ∧
    List.Perm (b.GetValue N key).2
      (((p.filter (fun e => decide (e.1 = key))).map Prod.snd).dedup) := by
  rw [GetValue_eq]
  have hmemf : ∀ i, i ∈ (List.range N).filter
      (fun i => b.IsReadable i && decide (key = b.KeyAt i)) ↔
      i < N ∧ b.IsReadable i = true ∧ key = b.KeyAt i := by
    intro i
    rw [List.mem_filter, List.mem_range, Bool.and_eq_true, decide_eq_true_eq]
  have hmem : ∀ v, v ∈ ((List.range N).filter
      (fun i => b.IsReadable i && decide (key = b.KeyAt i))).map b.ValueAt ↔ (key, v) ∈ p := by
    intro v
    rw [List.mem_map, ← h.mem]
    constructor
    · rintro ⟨i, hi, rfl⟩
      obtain ⟨h1, h2, h3⟩ := (hmemf i).mp hi
      exact ⟨i, h1, h2, Prod.ext h3.symm rfl⟩
    · rintro ⟨i, h1, h2, h3⟩
      refine ⟨i, (hmemf i).mpr ⟨h1, h2, ?_⟩, ?_⟩
      · simp only [HashTableBucketPage.KeyAt, h3]
      · simp only [HashTableBucketPage.ValueAt, h3]
  constructor
  · simp only
    rw [List.any_eq_true]
    constructor
    · rintro ⟨i, hi, _⟩
      exact ⟨b.ValueAt i, (hmem _).mp (List.mem_map_of_mem _ hi)⟩
    · rintro ⟨v, hv⟩
      obtain ⟨i, hi, _⟩ := List.mem_map.mp ((hmem v).mpr hv)
      exact ⟨i, hi, rfl⟩
  · simp only
    apply (List.perm_ext_iff_of_nodup _ (List.nodup_dedup _)).mpr
    · intro v
      rw [hmem, List.mem_dedup, List.mem_map]
      constructor
      · intro hv
        exact ⟨(key, v), List.mem_filter.mpr ⟨hv, by simp⟩, rfl⟩
      · rintro ⟨e, he, rfl⟩
        obtain ⟨he1, he2⟩ := List.mem_filter.mp he
        have : e.1 = key := by simpa using he2
        rw [← this]
        exact he1
    · apply List.Nodup.map_on _ ((List.nodup_range N).filter _)
      intro i hi j hj hij
      obtain ⟨h1, h2, h3⟩ := (hmemf i).mp hi
      obtain ⟨h4, h5, h6⟩ := (hmemf j).mp hj
      apply h.inj i j h1 h4 h2 h5
      apply Prod.ext
      · exact (h3.symm.trans h6)
      · exact hij

end BucketLemmas3

section TableLemmas

variable {K V : Type} [DecidableEq K] [DecidableEq V] [Inhabited K] [Inhabited V]

omit [DecidableEq K] [DecidableEq V] in
theorem FetchDirectoryPage_created {t : ExtendibleHashTable K V}
    (h : t.directory_page_id_ ≠ INVALID_PAGE_ID) : t.FetchDirectoryPage = t := by
  unfold ExtendibleHashTable.FetchDirectoryPage
  rw [if_neg h]

omit [DecidableEq K] [DecidableEq V] in
theorem FetchDirectoryPage_size (t : ExtendibleHashTable K V) :
    t.FetchDirectoryPage.BUCKET_ARRAY_SIZE = t.BUCKET_ARRAY_SIZE := by
  unfold ExtendibleHashTable.FetchDirectoryPage
  split <;> rfl

omit [DecidableEq K] [DecidableEq V] in
/-- A fresh table gets a directory of depth 0 and one empty bucket on first use. -/
theorem SingleBucket_new (N D : Nat) (hash_fn : K → Nat) :
    (ExtendibleHashTable.new N D hash_fn : ExtendibleHashTable K V).FetchDirectoryPage.SingleBucket
      [] := by
  have hpos : 0 < (List.replicate (2 ^ D) (0 : Int)).length := by
    rw [List.length_replicate]; exact Nat.two_pow_pos D
  have hid : (((HashTableDirectoryPage.zero D).SetPageId 0).SetBucketPageId 0
      (0 + 1)).GetBucketPageId 0 = 0 + 1 := by
    simp only [HashTableDirectoryPage.GetBucketPageId, HashTableDirectoryPage.SetBucketPageId,
      HashTableDirectoryPage.SetPageId, HashTableDirectoryPage.zero]
    exact getD_set_self _ _ _ _ hpos
  refine ⟨?_, ?_, ?_⟩
  · simp [ExtendibleHashTable.FetchDirectoryPage, ExtendibleHashTable.new, INVALID_PAGE_ID]
  · simp [ExtendibleHashTable.FetchDirectoryPage, ExtendibleHashTable.new,
      HashTableDirectoryPage.SetBucketPageId, HashTableDirectoryPage.SetPageId,
      HashTableDirectoryPage.zero]
  · simp only [ExtendibleHashTable.FetchDirectoryPage, ExtendibleHashTable.new, if_true, hid,
      Function.update_same]
    exact HoldsExactly_zero N

omit [DecidableEq K] [DecidableEq V] [Inhabited K] [Inhabited V] in
theorem KeyToPageId_depth_zero (t : ExtendibleHashTable K V) (key : K)
    (h : t.directory.global_depth_ = 0) :
    t.KeyToPageId key t.directory = t.directory.GetBucketPageId 0 := by
  simp [ExtendibleHashTable.KeyToPageId, ExtendibleHashTable.KeyToDirectoryIndex,
    HashTableDirectoryPage.GetGlobalDepthMask, h]

/-- While its one bucket holds fewer distinct pairs than it has slots, `Insert` goes into that
bucket, whatever the bound on the number of splits. -/
theorem SingleBucket_Insert {t : ExtendibleHashTable K V} {p : List (K × V)}
    (h : t.FetchDirectoryPage.SingleBucket p) (hc : p.dedup.length < t.BUCKET_ARRAY_SIZE)
    (fuel : Nat) (key : K) (value : V) :
    ∃ res t1, t.Insert fuel key value = some (res, t1) ∧
      t1.FetchDirectoryPage.SingleBucket (p ++ [(key, value)]) ∧
      t1.BUCKET_ARRAY_SIZE = t.BUCKET_ARRAY_SIZE := by
  have hN := FetchDirectoryPage_size t
  have hc2 : p.dedup.length < t.FetchDirectoryPage.BUCKET_ARRAY_SIZE := by rw [hN]; exact hc
  have hkey := KeyToPageId_depth_zero t.FetchDirectoryPage key h.depth
  obtain ⟨i, hi, hr⟩ := h.holds.free_slot hc2
  have hfull : ¬ (t.FetchDirectoryPage.buckets
      (t.FetchDirectoryPage.KeyToPageId key t.FetchDirectoryPage.directory)).IsFull
        t.FetchDirectoryPage.BUCKET_ARRAY_SIZE = true := by
    rw [hkey]
    intro hf
    rw [IsFull_readable _ _ hf i hi] at hr
    cases hr
  have hins := h.holds.insert hc2 key value
  have hcr : ({ t.FetchDirectoryPage with
      buckets := Function.update t.FetchDirectoryPage.buckets
        (t.FetchDirectoryPage.KeyToPageId key t.FetchDirectoryPage.directory)
        ((t.FetchDirectoryPage.buckets
          (t.FetchDirectoryPage.KeyToPageId key t.FetchDirectoryPage.directory)).Insert
            t.FetchDirectoryPage.BUCKET_ARRAY_SIZE key value).2 } :
        ExtendibleHashTable K V).directory_page_id_ ≠ INVALID_PAGE_ID := h.created
  refine ⟨((t.FetchDirectoryPage.buckets
      (t.FetchDirectoryPage.KeyToPageId key t.FetchDirectoryPage.directory)).Insert
        t.FetchDirectoryPage.BUCKET_ARRAY_SIZE key value).1,
    { t.FetchDirectoryPage with
      buckets := Function.update t.FetchDirectoryPage.buckets
        (t.FetchDirectoryPage.KeyToPageId key t.FetchDirectoryPage.directory)
        ((t.FetchDirectoryPage.buckets
          (t.FetchDirectoryPage.KeyToPageId key t.FetchDirectoryPage.directory)).Insert
            t.FetchDirectoryPage.BUCKET_ARRAY_SIZE key value).2 }, ?_, ?_, ?_⟩
  · unfold ExtendibleHashTable.Insert
    simp only [hfull, Bool.false_eq_true, not_false_eq_true, if_true]
  · rw [FetchDirectoryPage_created hcr]
    refine ⟨h.created, h.depth, ?_⟩
    show HashTableBucketPage.HoldsExactly _ (Function.update t.FetchDirectoryPage.buckets
      (t.FetchDirectoryPage.KeyToPageId key t.FetchDirectoryPage.directory) _
      (t.FetchDirectoryPage.directory.GetBucketPageId 0)) _
    rw [hkey, Function.update_same]
    exact hins
  · exact hN

theorem SingleBucket_InsertAll (fuel : Nat) :
    ∀ (q : List (K × V)) (t : ExtendibleHashTable K V) (p : List (K × V)),
      t.FetchDirectoryPage.SingleBucket p →
      (p ++ q).dropLast.dedup.length < t.BUCKET_ARRAY_SIZE →
      ∃ t1, t.InsertAll fuel q = some t1 ∧ t1.FetchDirectoryPage.SingleBucket (p ++ q)
  | [], t, p, h, _ => ⟨t, rfl, by simpa using h⟩
  | (key, value) :: rest, t, p, h, hc => by
    have hp : p.dedup.length < t.BUCKET_ARRAY_SIZE := by
      have hsub : p ⊆ (p ++ (key, value) :: rest).dropLast := by
        rw [List.dropLast_append_of_ne_nil _ (List.cons_ne_nil _ _)]
        exact List.subset_append_left _ _
      exact lt_of_le_of_lt (dedup_length_le_of_subset hsub) hc
    obtain ⟨res, t1, h1, h2, h3⟩ := SingleBucket_Insert h hp fuel key value
    have hc1 : ((p ++ [(key, value)]) ++ rest).dropLast.dedup.length < t1.BUCKET_ARRAY_SIZE := by
      rw [h3]
      simpa using hc
    obtain ⟨t2, h4, h5⟩ := SingleBucket_InsertAll fuel rest t1 (p ++ [(key, value)]) h2 hc1
    refine ⟨t2, ?_, by simpa using h5⟩
    simp only [ExtendibleHashTable.InsertAll, h1]
    exact h4

theorem SingleBucket_Answers {t : ExtendibleHashTable K V} {l : List (K × V)}
    (h : t.FetchDirectoryPage.SingleBucket l) : t.Answers l := by
  intro key
  have hkey := KeyToPageId_depth_zero t.FetchDirectoryPage key h.depth
  simp only [ExtendibleHashTable.GetValue, hkey]
  exact h.holds.getValue key

theorem Insert_fuel_succ : ∀ (fuel : Nat) (t : ExtendibleHashTable K V) (key : K) (value : V)
    (r : Bool × ExtendibleHashTable K V),
    t.Insert fuel key value = some r → t.Insert (fuel + 1) key value = some r
  | fuel, t, key, value, r, h => by
    unfold ExtendibleHashTable.Insert at h ⊢
    by_cases hfull : ¬ (t.FetchDirectoryPage.buckets
        (t.FetchDirectoryPage.KeyToPageId key t.FetchDirectoryPage.directory)).IsFull
          t.FetchDirectoryPage.BUCKET_ARRAY_SIZE = true
    · simp only [hfull, not_false_eq_true, if_true] at h ⊢
      exact h
    · simp only [hfull, if_false] at h ⊢
      cases fuel with
      | zero => cases h
      | succ f =>
        simp only at h ⊢
        cases hs : t.FetchDirectoryPage.SplitStep key with
        | none => rw [hs] at h; exact h
        | some t1 =>
          rw [hs] at h
          exact Insert_fuel_succ f t1 key value r h

theorem InsertAll_fuel_succ (fuel : Nat) : ∀ (l : List (K × V)) (t t1 : ExtendibleHashTable K V),
    t.InsertAll fuel l = some t1 → t.InsertAll (fuel + 1) l = some t1
  | [], t, t1, h => h
  | (key, value) :: rest, t, t1, h => by
    simp only [ExtendibleHashTable.InsertAll] at h ⊢
    cases hi : t.Insert fuel key value with
    | none => rw [hi] at h; cases h
    | some r =>
      rw [hi] at h
      rw [Insert_fuel_succ fuel t key value r hi]
      exact InsertAll_fuel_succ fuel rest r.2 t1 h

theorem InsertAll_fuel_le {fuel1 fuel2 : Nat} (hle : fuel1 ≤ fuel2) (l : List (K × V))
    (t t1 : ExtendibleHashTable K V) (h : t.InsertAll fuel1 l = some t1) :
    t.InsertAll fuel2 l = some t1 := by
  induction hle with
  | refl => exact h
  | step _ ih => exact InsertAll_fuel_succ _ l t t1 ih

end TableLemmas

/-- With a constant hash function the third pair does not get into a table of two-slot
buckets: `GetValue(2)` finds nothing after the three inserts. -/
theorem constantHash_three_inserts :
    (tableConstantHash.InsertAll 10 threePairs).map (fun t => (t.GetValue 2).1)
      = some (false, []) := by
  decide!

/-- With the identity as hash function, after the three inserts the directory has global
depth 9, its entries 0 and 1 hold the same bucket page id with local depths 2 and 1, and an
assertion of `VerifyIntegrity` fails. -/
theorem identityHash_three_inserts :
    (tableIdentityHash.InsertAll 10 threePairs).map (fun t =>
        (t.directory.global_depth_, t.directory.GetLocalDepth 0, t.directory.GetLocalDepth 1,
          t.directory.GetBucketPageId 0, t.directory.GetBucketPageId 1,
          t.directory.VerifyIntegrity))
      = some (9, 2, 1, 1, 1, false) := by
  decide!

/-- With the identity as hash function, two-slot buckets and maximal depth 4, the inserts of
`fourPairs` on the fresh table: the calls for (4, 0), (12, 0) and (14, 0) return true and the
call for (15, 0) returns false; afterwards GetValue(4) and GetValue(12) return false with no
value and GetValue(14) returns the value 0. -/
theorem depthFour_four_inserts :
    (tableDepthFour.InsertEach 10 fourPairs).map (fun r =>
        (r.2, (r.1.GetValue 4).1, (r.1.GetValue 12).1, (r.1.GetValue 14).1))
      = some ([(4, 0), (12, 0), (14, 0)], (false, []), (false, []), (true, [0])) := by
  decide!

/-- C4, the code at the failing input. BUCKET_ARRAY_SIZE 2, MAX_BUCKET_DEPTH 4, identity hash,
fresh table, Insert of (4, 0), (12, 0), (15, 0), (14, 0): the calls return, those for (4, 0),
(12, 0) and (14, 0) with true, so these three pairs were inserted; afterwards GetValue(4) and
GetValue(12) return false with no value: the splits inside Insert(14, 0) moved the pairs (4, 0)
and (12, 0) to a page that no directory entry refers to. So GetValue does not return the values
inserted under the keys 4 and 12. -/
theorem inserted_values_are_lost :
    ∃ t, tableDepthFour.InsertEach 10 fourPairs = some (t, [(4, 0), (12, 0), (14, 0)]) ∧
      (t.GetValue 4).1 = (false, []) ∧ (t.GetValue 12).1 = (false, []) ∧
      (t.GetValue 14).1 = (true, [0]) ∧ ¬ tableDepthFour.RoundTrip fourPairs := by
  obtain ⟨r, h1, h2⟩ := Option.map_eq_some'.mp depthFour_four_inserts
  obtain ⟨hins, h4, h12, h14⟩ : r.2 = [(4, 0), (12, 0), (14, 0)] ∧
      (r.1.GetValue 4).1 = (false, []) ∧ (r.1.GetValue 12).1 = (false, []) ∧
      (r.1.GetValue 14).1 = (true, [0]) := by
    simp only [Prod.mk.injEq] at h2
    exact h2
  have h5 : tableDepthFour.InsertEach 10 fourPairs = some (r.1, [(4, 0), (12, 0), (14, 0)]) := by
    rw [h1, ← hins]
  refine ⟨r.1, h5, h4, h12, h14, fun hC => ?_⟩
  have hA := ((hC 10 r.1 _ h5) 4).1.mpr ⟨0, by decide⟩
  rw [h4] at hA
  cases hA

/-- Inserts that never find the bucket full: for every hash function and every sequence of
Insert calls on a fresh table such that before each call fewer than BUCKET_ARRAY_SIZE distinct
pairs have been inserted, the calls return whatever the bound on the number of splits, and
afterwards, for every key k, GetValue(k) returns exactly the values inserted under k (each
distinct pair once), and returns false with no values when nothing was inserted under k. -/
theorem insert_get_round_trip {K V : Type} [DecidableEq K] [DecidableEq V] [Inhabited K]
    [Inhabited V] (BUCKET_ARRAY_SIZE MAX_BUCKET_DEPTH : Nat) (hash_fn : K → Nat)
    (l : List (K × V)) (hc : l.dropLast.dedup.length < BUCKET_ARRAY_SIZE) (fuel : Nat) :
    ∃ t, (ExtendibleHashTable.new BUCKET_ARRAY_SIZE MAX_BUCKET_DEPTH hash_fn).InsertAll fuel l
        = some t ∧ t.Answers l := by
  obtain ⟨t, h1, h2⟩ := SingleBucket_InsertAll fuel l
    (ExtendibleHashTable.new BUCKET_ARRAY_SIZE MAX_BUCKET_DEPTH hash_fn) []
    (SingleBucket_new BUCKET_ARRAY_SIZE MAX_BUCKET_DEPTH hash_fn) (by simpa using hc)
  exact ⟨t, h1, SingleBucket_Answers (by simpa using h2)⟩

/-- An example of inserts that never find the bucket full: BUCKET_ARRAY_SIZE 2, Insert of
(0, 0), (0, 0), (1, 1). -/
theorem insert_get_round_trip_witness :
    ([(0, 0), (0, 0), (1, 1)] : List (Nat × Nat)).dropLast.dedup.length < 2 ∧
      ∃ t, tableConstantHash.InsertAll 0 [(0, 0), (0, 0), (1, 1)] = some t ∧
        t.Answers [(0, 0), (0, 0), (1, 1)] :=
  ⟨by decide, insert_get_round_trip 2 9 (fun _ => 0) [(0, 0), (0, 0), (1, 1)] (by decide) 0⟩

/-- C5, the code at the failing input. BUCKET_ARRAY_SIZE 2, MAX_BUCKET_DEPTH 9, identity hash,
fresh table, Insert of (0, 0), (1, 1), (2, 2): the calls return, and afterwards an assertion of
VerifyIntegrity fails and the directory violates the integrity conditions (entries 0 and 1 hold
the same bucket page id with local depths 2 and 1). -/
theorem three_inserts_break_directory_integrity :
    ∃ t, tableIdentityHash.InsertAll 10 threePairs = some t ∧
      t.directory.VerifyIntegrity = false ∧ ¬ t.directory.Integrity := by
  obtain ⟨t, h1, h2⟩ := Option.map_eq_some'.mp identityHash_three_inserts
  obtain ⟨hgd, hl0, hl1, hp0, hp1, hv⟩ : t.directory.global_depth_ = 9 ∧
      t.directory.GetLocalDepth 0 = 2 ∧ t.directory.GetLocalDepth 1 = 1 ∧
      t.directory.GetBucketPageId 0 = 1 ∧ t.directory.GetBucketPageId 1 = 1 ∧
      t.directory.VerifyIntegrity = false := by
    simp only [Prod.mk.injEq] at h2
    exact h2
  refine ⟨t, h1, hv, fun hI => ?_⟩
  have hsize : t.directory.Size = 512 := by
    simp [HashTableDirectoryPage.Size, hgd]
  have := hI.2.1 0 1 (by rw [hsize]; decide) (by rw [hsize]; decide) (by rw [hp0, hp1])
  rw [hl0, hl1] at this
  cases this

/-! ## Buffer pool: single calls -/

/-- C11. FetchPage hit: in every reachable pool state, when the page id is in the page table,
FetchPage returns its frame, the pin count of that frame goes up by exactly 1, the frame is no
longer in the replacer (whose other frames keep their order), no call of the disk manager is
made and the disk is unchanged, and the page table, the free list, the bytes and the dirty flag
of the frame and every other frame are unchanged. -/
theorem fetch_page_hit (s : BufferPoolManagerInstance) (h : Reachable s) (page_id : Int)
    (f : Nat) (hp : ptFind s.page_table page_id = some f) :
    ∃ t, s.FetchPgImp page_id = (some f, t) ∧
      (t.pages f).pin_count = (s.pages f).pin_count + 1 ∧
      f ∉ t.replacer.lru_list ∧ t.replacer.lru_list = s.replacer.lru_list.erase f ∧
      s.FetchPgImpDiskCalls page_id = [] ∧ t.disk = s.disk ∧
      t.page_table = s.page_table ∧ t.free_list = s.free_list ∧
      (t.pages f).data = (s.pages f).data ∧ (t.pages f).is_dirty = (s.pages f).is_dirty ∧
      (t.pages f).page_id = (s.pages f).page_id ∧ ∀ g, g ≠ f → t.pages g = s.pages g := by
  refine ⟨_, FetchPgImp_hit hp, ?_, ?_, ?_, ?_, rfl, rfl, rfl, ?_, ?_, ?_, ?_⟩
  · simp
  · exact fun hm => ((mem_Pin h.inv.repl_nodup).mp hm).2 rfl
  · show (s.replacer.Pin f).lru_list = _
    unfold LRUReplacer.Pin
    split
    · rfl
    · rename_i hn
      exact (List.erase_of_not_mem hn).symm
  · simp [BufferPoolManagerInstance.FetchPgImpDiskCalls, hp]
  · simp
  · simp
  · simp
  · intro g hg
    simp [Function.update_noteq hg]

/-- Witness of C11: pool size 1 after NewPage and UnpinPage(0, true); page 0 is resident in
frame 0, which is in the replacer, and FetchPage(0) is a hit. -/
theorem fetch_page_hit_witness :
    Reachable poolOneNewUnpinned ∧ ptFind poolOneNewUnpinned.page_table 0 = some 0 ∧
      ∃ t, poolOneNewUnpinned.FetchPgImp 0 = (some 0, t) ∧
        (t.pages 0).pin_count = (poolOneNewUnpinned.pages 0).pin_count + 1 ∧
        0 ∉ t.replacer.lru_list :=
  have hr : Reachable poolOneNewUnpinned :=
    Reachable.unpinPage 0 true (Reachable.newPage (Reachable.init 4 1 1 0 _ (by decide) (by decide)))
  ⟨hr, by decide,
    (fetch_page_hit poolOneNewUnpinned hr 0 0 (by decide)).imp
      (fun _ ht => ⟨ht.1, ht.2.1, ht.2.2.1⟩)⟩

/-- C12. The dirty flag is sticky under unpin: for every page resident in a frame with pin count
above 0 and every boolean d, UnpinPage(id, d) returns true and afterwards the dirty flag of the
frame is the old flag OR d; in particular UnpinPage(id, false) leaves a set flag set. -/
theorem unpin_dirty_flag_sticky (s : BufferPoolManagerInstance) (page_id : Int) (f : Nat)
    (d : Bool) (hp : ptFind s.page_table page_id = some f) (hpin : 0 < (s.pages f).pin_count) :
    (s.UnpinPgImp page_id d).1 = true ∧
      ((s.UnpinPgImp page_id d).2.pages f).is_dirty = ((s.pages f).is_dirty || d) ∧
      ((s.pages f).is_dirty = true → ((s.UnpinPgImp page_id false).2.pages f).is_dirty = true) := by
  refine ⟨?_, ?_, ?_⟩
  · rw [UnpinPgImp_pos d hp hpin]
  · rw [UnpinPgImp_pos d hp hpin]
    cases d <;> simp
  · intro hd
    rw [UnpinPgImp_pos false hp hpin]
    simpa using hd

/-- Witness of C12: pool size 2 after NewPage, a client write, UnpinPage(0, true) and a second
NewPage; page 1 is pinned in frame 1 and clean, and UnpinPage(1, true) sets its dirty flag. -/
theorem unpin_dirty_flag_sticky_witness :
    ptFind poolTwoScenario.page_table 1 = some 1 ∧ 0 < (poolTwoScenario.pages 1).pin_count ∧
      ((poolTwoScenario.UnpinPgImp 1 true).2.pages 1).is_dirty
        = ((poolTwoScenario.pages 1).is_dirty || true) :=
  ⟨by decide, by decide,
    (unpin_dirty_flag_sticky poolTwoScenario 1 1 true (by decide) (by decide)).2.1⟩

theorem FlushPgImp_some {s : BufferPoolManagerInstance} {p : Int} {f : Nat}
    (hp : ptFind s.page_table p = some f) :
    s.FlushPgImp p = (true, { s with
      pages := Function.update s.pages f { s.pages f with is_dirty := false }
      disk := WritePage s.disk p (s.pages f).data }) := by
  simp [BufferPoolManagerInstance.FlushPgImp, hp]

/-- C13. FlushPage(id) returns false and changes nothing when id is not resident; otherwise it
returns true, the disk then stores the bytes of the frame for id (and what it stored for other
ids is unchanged), the dirty flag of the frame is false, and the page stays resident: page
table, free list and replacer are unchanged, and every frame keeps its page id, pin count and
bytes, every other frame also its dirty flag. -/
theorem flush_page_effect (s : BufferPoolManagerInstance) (page_id : Int) :
    (ptFind s.page_table page_id = none → s.FlushPgImp page_id = (false, s)) ∧
      ∀ f, ptFind s.page_table page_id = some f →
        ∃ t, s.FlushPgImp page_id = (true, t) ∧ t.disk page_id = (s.pages f).data ∧
          (∀ q, q ≠ page_id → t.disk q = s.disk q) ∧ (t.pages f).is_dirty = false ∧
          t.page_table = s.page_table ∧ t.free_list = s.free_list ∧ t.replacer = s.replacer ∧
          t.next_page_id = s.next_page_id ∧
          (∀ g, (t.pages g).page_id = (s.pages g).page_id ∧
            (t.pages g).pin_count = (s.pages g).pin_count ∧ (t.pages g).data = (s.pages g).data) ∧
          ∀ g, g ≠ f → t.pages g = s.pages g := by
  refine ⟨fun hp => by simp [BufferPoolManagerInstance.FlushPgImp, hp], fun f hp => ?_⟩
  refine ⟨_, FlushPgImp_some hp, ?_, ?_, ?_, rfl, rfl, rfl, rfl, ?_, ?_⟩
  · simp [WritePage]
  · intro q hq
    simp [WritePage, Function.update_noteq hq]
  · simp
  · intro g
    by_cases hg : g = f
    · subst hg; simp
    · simp [Function.update_noteq hg]
  · intro g hg
    simp [Function.update_noteq hg]

/-- Witness of C13: pool size 1 after FetchPage(0), a client write of four bytes 0x41 and
UnpinPage(0, true); FlushPage(0) returns true and the disk then stores the four bytes for
page 0. -/
theorem flush_page_effect_witness :
    ptFind poolOneFetchWriteUnpin.page_table 0 = some 0 ∧
      ∃ t, poolOneFetchWriteUnpin.FlushPgImp 0 = (true, t) ∧ t.disk 0 = [65, 65, 65, 65] ∧
        (t.pages 0).is_dirty = false :=
  ⟨by decide,
    ((flush_page_effect poolOneFetchWriteUnpin 0).2 0 (by decide)).imp
      (fun _ ht => ⟨ht.1, ht.2.1.trans (by decide), ht.2.2.2.1⟩)⟩

/-- C14. DeletePage(id) in a reachable pool state returns false exactly when id is resident in
a frame with pin count above 0, and then leaves the pool unchanged; otherwise it returns true
and afterwards id is not resident (a call on an id that was not resident changes nothing); if id
was resident with pin count 0, its bytes were written to the disk when the frame was dirty and
the disk is unchanged when it was clean, and the frame now has page id INVALID_PAGE_ID, pin
count 0, a clear dirty flag and zeroed memory, is not in the replacer and is in the free
list. -/
theorem delete_page_effect (s : BufferPoolManagerInstance) (h : Reachable s) (page_id : Int) :
    ((s.DeletePgImp page_id).1 = false ↔
        ∃ f, ptFind s.page_table page_id = some f ∧ 0 < (s.pages f).pin_count) ∧
      ((s.DeletePgImp page_id).1 = false → (s.DeletePgImp page_id).2 = s) ∧
      ((s.DeletePgImp page_id).1 = true →
        ptFind (s.DeletePgImp page_id).2.page_table page_id = none) ∧
      (ptFind s.page_table page_id = none → s.DeletePgImp page_id = (true, s)) ∧
      ∀ f, ptFind s.page_table page_id = some f → (s.pages f).pin_count = 0 →
        ((s.pages f).is_dirty = true →
          (s.DeletePgImp page_id).2.disk = WritePage s.disk page_id (s.pages f).data) ∧
        ((s.pages f).is_dirty = false → (s.DeletePgImp page_id).2.disk = s.disk) ∧
        (s.DeletePgImp page_id).2.pages f =
          { data := List.replicate s.PAGE_SIZE 0, page_id := INVALID_PAGE_ID, pin_count := 0,
            is_dirty := false } ∧
        f ∉ (s.DeletePgImp page_id).2.replacer.lru_list ∧
        f ∈ (s.DeletePgImp page_id).2.free_list := by
  cases hp : ptFind s.page_table page_id with
  | none =>
    rw [DeletePgImp_none hp]
    simp [hp]
  | some f =>
    by_cases h0 : 0 < (s.pages f).pin_count
    · rw [DeletePgImp_pinned hp h0]
      refine ⟨by simp [h0], by simp, by simp, by simp, ?_⟩
      intro g hg hz
      cases Option.some.inj hg
      omega
    · rw [DeletePgImp_free hp h0]
      refine ⟨by simp [h0], by simp, fun _ => ptFind_erase_self _ _, by simp, ?_⟩
      intro g hg hz
      cases Option.some.inj hg
      refine ⟨fun hd => by simp [hd], fun hd => by simp [hd], by simp [ResetMemory], ?_, by simp⟩
      exact fun hm => ((mem_Pin h.inv.repl_nodup).mp hm).2 rfl

/-- Witness of C14: pool size 2 after NewPage, a client write, UnpinPage(0, true) and a second
NewPage; page 0 is resident in frame 0 with pin count 0 and dirty, and DeletePage(0) writes its
bytes to the disk and puts frame 0 in the free list. -/
theorem delete_page_effect_witness :
    Reachable poolTwoScenario ∧ ptFind poolTwoScenario.page_table 0 = some 0 ∧
      (poolTwoScenario.pages 0).pin_count = 0 ∧ (poolTwoScenario.pages 0).is_dirty = true ∧
      (poolTwoScenario.DeletePgImp 0).2.disk
        = WritePage poolTwoScenario.disk 0 (poolTwoScenario.pages 0).data ∧
      0 ∈ (poolTwoScenario.DeletePgImp 0).2.free_list :=
  have hr : Reachable poolTwoScenario :=
    Reachable.newPage (Reachable.unpinPage 0 true (Reachable.writeData 0 _ (by decide)
      (Reachable.newPage (Reachable.init 4 2 1 0 _ (by decide) (by decide)))))
  have hw := (delete_page_effect poolTwoScenario hr 0).2.2.2.2 0 (by decide) (by decide)
  ⟨hr, by decide, by decide, by decide, hw.1 (by decide), hw.2.2.2.2⟩

/-! ## Buffer pool: page id allocation -/

/-- Below 32-bit overflow the counter that `AllocatePage` leaves is the one the source computes
in its 32-bit arithmetic. -/
theorem AllocatePage_below_overflow (s : BufferPoolManagerInstance) (h0 : 0 ≤ s.next_page_id)
    (h1 : s.AllocatePage.2.next_page_id ≤ 2147483647) :
    s.AllocatePage.2.next_page_id = wrapPageId (s.next_page_id + (s.num_instances : Int)) := by
  unfold BufferPoolManagerInstance.AllocatePage at h1 ⊢
  unfold wrapPageId
  dsimp only at h1 ⊢
  omega

/-- The fields `AllocatePage` reads stay put under a call other than `NewPage`. -/
theorem call_other_fields (s : BufferPoolManagerInstance) (c : PoolCall)
    (hc : c ≠ PoolCall.NewPage) :
    (s.call c).1.num_instances = s.num_instances ∧
      (s.call c).1.instance_index = s.instance_index ∧
      (s.call c).1.next_page_id = s.next_page_id ∧ (s.call c).2 = [] := by
  cases c with
  | NewPage => exact absurd rfl hc
  | FetchPage p =>
    show (s.FetchPgImp p).2.num_instances = _ ∧ (s.FetchPgImp p).2.instance_index = _ ∧
      (s.FetchPgImp p).2.next_page_id = _ ∧ _
    cases hp : ptFind s.page_table p with
    | some f => rw [FetchPgImp_hit hp]; exact ⟨rfl, rfl, rfl, rfl⟩
    | none =>
      cases hfl : s.free_list with
      | cons f rest => rw [FetchPgImp_free hp hfl]; exact ⟨rfl, rfl, rfl, rfl⟩
      | nil =>
        cases hv : s.replacer.lru_list with
        | nil => rw [FetchPgImp_none hp hfl hv]; exact ⟨rfl, rfl, rfl, rfl⟩
        | cons f rest => rw [FetchPgImp_victim hp hfl hv]; exact ⟨rfl, rfl, rfl, rfl⟩
  | UnpinPage p d =>
    show (s.UnpinPgImp p d).2.num_instances = _ ∧ (s.UnpinPgImp p d).2.instance_index = _ ∧
      (s.UnpinPgImp p d).2.next_page_id = _ ∧ _
    cases hp : ptFind s.page_table p with
    | none => rw [UnpinPgImp_none d hp]; exact ⟨rfl, rfl, rfl, rfl⟩
    | some f =>
      by_cases h0 : (s.pages f).pin_count ≤ 0
      · rw [UnpinPgImp_zero d hp h0]; exact ⟨rfl, rfl, rfl, rfl⟩
      · rw [UnpinPgImp_pos d hp (by omega)]; exact ⟨rfl, rfl, rfl, rfl⟩
  | FlushPage p =>
    show (s.FlushPgImp p).2.num_instances = _ ∧ (s.FlushPgImp p).2.instance_index = _ ∧
      (s.FlushPgImp p).2.next_page_id = _ ∧ _
    cases hp : ptFind s.page_table p with
    | none =>
      have : s.FlushPgImp p = (false, s) := by simp [BufferPoolManagerInstance.FlushPgImp, hp]
      rw [this]; exact ⟨rfl, rfl, rfl, rfl⟩
    | some f => rw [FlushPgImp_some hp]; exact ⟨rfl, rfl, rfl, rfl⟩
  | FlushAllPages => exact ⟨rfl, rfl, rfl, rfl⟩
  | DeletePage p =>
    show (s.DeletePgImp p).2.num_instances = _ ∧ (s.DeletePgImp p).2.instance_index = _ ∧
      (s.DeletePgImp p).2.next_page_id = _ ∧ _
    cases hp : ptFind s.page_table p with
    | none => rw [DeletePgImp_none hp]; exact ⟨rfl, rfl, rfl, rfl⟩
    | some f =>
      by_cases h0 : 0 < (s.pages f).pin_count
      · rw [DeletePgImp_pinned hp h0]; exact ⟨rfl, rfl, rfl, rfl⟩
      · rw [DeletePgImp_free hp h0]; exact ⟨rfl, rfl, rfl, rfl⟩
  | WriteData f bytes => exact ⟨rfl, rfl, rfl, rfl⟩

/-- A `NewPage` call issues nothing and keeps `next_page_id_`, or issues `next_page_id_` and
moves it on by `num_instances_`. -/
theorem call_NewPage_fields (s : BufferPoolManagerInstance) :
    (s.call PoolCall.NewPage).1.num_instances = s.num_instances ∧
      (s.call PoolCall.NewPage).1.instance_index = s.instance_index ∧
      (((s.call PoolCall.NewPage).1.next_page_id = s.next_page_id ∧
          (s.call PoolCall.NewPage).2 = []) ∨
        ((s.call PoolCall.NewPage).1.next_page_id = s.next_page_id + (s.num_instances : Int) ∧
          (s.call PoolCall.NewPage).2 = [(s.next_page_id, s.ValidatePageId s.next_page_id)])) := by
  unfold BufferPoolManagerInstance.call
  cases hfl : s.free_list with
  | cons f rest => rw [NewPgImp_free hfl]; exact ⟨rfl, rfl, Or.inr ⟨rfl, rfl⟩⟩
  | nil =>
    cases hv : s.replacer.lru_list with
    | nil => rw [NewPgImp_none hfl hv]; exact ⟨rfl, rfl, Or.inl ⟨rfl, rfl⟩⟩
    | cons f rest => rw [NewPgImp_victim hfl hv]; exact ⟨rfl, rfl, Or.inr ⟨rfl, rfl⟩⟩

/-- The ids issued during a run of calls, from a state whose `next_page_id_` is
`instance_index_ + k0 * num_instances_`. -/
theorem calls_issued (n idx : Nat) (hi : idx < n) (cs : List PoolCall) :
    ∀ (s : BufferPoolManagerInstance) (k0 : Nat), s.num_instances = n → s.instance_index = idx →
      s.next_page_id = (idx : Int) + (k0 : Int) * (n : Int) →
      (s.calls cs).2 = (List.range (s.calls cs).2.length).map
        (fun (k : Nat) => ((idx : Int) + ((k0 + k : Nat) : Int) * (n : Int), true)) := by
  induction cs with
  | nil => intro s k0 _ _ _; rfl
  | cons c cs ih =>
    intro s k0 h1 h2 h3
    have key : ((s.call c).1.num_instances = n ∧ (s.call c).1.instance_index = idx) ∧
        (((s.call c).1.next_page_id = (idx : Int) + (k0 : Int) * (n : Int) ∧ (s.call c).2 = []) ∨
          ((s.call c).1.next_page_id = (idx : Int) + ((k0 + 1 : Nat) : Int) * (n : Int) ∧
            (s.call c).2 = [((idx : Int) + (k0 : Int) * (n : Int), true)])) := by
      by_cases hc : c = PoolCall.NewPage
      · subst hc
        obtain ⟨a, b, hcase⟩ := call_NewPage_fields s
        refine ⟨⟨a.trans h1, b.trans h2⟩, ?_⟩
        rcases hcase with ⟨e1, e2⟩ | ⟨e1, e2⟩
        · exact Or.inl ⟨e1.trans h3, e2⟩
        · refine Or.inr ⟨?_, ?_⟩
          · rw [e1, h3, h1]; push_cast; ring
          · rw [e2, h3]
            have hv : s.ValidatePageId ((idx : Int) + (k0 : Int) * (n : Int)) = true := by
              unfold BufferPoolManagerInstance.ValidatePageId
              rw [h1, h2, decide_eq_true_eq, Int.add_mul_emod_self]
              exact Int.emod_eq_of_lt (Int.natCast_nonneg _) (by exact_mod_cast hi)
            rw [hv]
      · obtain ⟨a, b, e1, e2⟩ := call_other_fields s c hc
        exact ⟨⟨a.trans h1, b.trans h2⟩, Or.inl ⟨e1.trans h3, e2⟩⟩
    obtain ⟨⟨a, b⟩, hcase⟩ := key
    show (s.call c).2 ++ ((s.call c).1.calls cs).2 = List.map _
      (List.range ((s.call c).2 ++ ((s.call c).1.calls cs).2).length)
    rcases hcase with ⟨e1, e2⟩ | ⟨e1, e2⟩
    · rw [e2, List.nil_append]
      exact ih _ k0 a b e1
    · have hrec := ih _ (k0 + 1) a b e1
      rw [e2, List.length_append, List.length_singleton, Nat.add_comm, List.range_succ_eq_map,
        List.map_cons, List.map_map]
      simp only [List.singleton_append, Nat.add_zero]
      congr 1
      rw [hrec]
      simp only [List.length_map, List.length_range]
      apply List.map_congr_left
      intro k _
      simp only [Function.comp, Nat.succ_eq_add_one]
      congr 3
      omega

/-- C15. Page id allocation: for an instance constructed with num_instances above 0 and
instance_index below num_instances, and for every run of calls on it, the k-th page id issued by
AllocatePage in NewPage (k = 0, 1, 2, ...) is instance_index + k * num_instances (ids are
unbounded integers here), every issued id is congruent to instance_index modulo num_instances,
the assertion of ValidatePageId holds at every issue, and the issued ids are pairwise
distinct. -/
theorem allocated_page_ids (PAGE_SIZE pool_size num_instances instance_index : Nat)
    (disk : Int → List Nat) (hn : 0 < num_instances) (hi : instance_index < num_instances)
    (cs : List PoolCall) :
    (((BufferPoolManagerInstance.new PAGE_SIZE pool_size num_instances instance_index disk).calls
        cs).2.map Prod.fst
      = (List.range ((BufferPoolManagerInstance.new PAGE_SIZE pool_size num_instances
          instance_index disk).calls cs).2.length).map
          (fun (k : Nat) => (instance_index : Int) + (k : Int) * (num_instances : Int))) ∧
      (∀ e ∈ ((BufferPoolManagerInstance.new PAGE_SIZE pool_size num_instances instance_index
          disk).calls cs).2,
        e.1 % (num_instances : Int) = (instance_index : Int) ∧ e.2 = true) ∧
      (((BufferPoolManagerInstance.new PAGE_SIZE pool_size num_instances instance_index
          disk).calls cs).2.map Prod.fst).Nodup := by
  have h := calls_issued num_instances instance_index hi cs
    (BufferPoolManagerInstance.new PAGE_SIZE pool_size num_instances instance_index disk) 0
    rfl rfl (by simp [BufferPoolManagerInstance.new])
  simp only [Nat.zero_add] at h
  generalize ((BufferPoolManagerInstance.new PAGE_SIZE pool_size num_instances instance_index
    disk).calls cs).2 = ids at h
  have hfst : ids.map Prod.fst = (List.range ids.length).map
      (fun (k : Nat) => (instance_index : Int) + (k : Int) * (num_instances : Int)) := by
    conv_lhs => rw [h]
    rw [List.map_map]
    rfl
  refine ⟨hfst, ?_, ?_⟩
  · intro e he
    rw [h] at he
    obtain ⟨k, _, rfl⟩ := List.mem_map.mp he
    refine ⟨?_, rfl⟩
    show ((instance_index : Int) + (k : Int) * (num_instances : Int)) % (num_instances : Int) = _
    rw [Int.add_mul_emod_self]
    exact Int.emod_eq_of_lt (Int.natCast_nonneg _) (by exact_mod_cast hi)
  · rw [hfst]
    refine (List.nodup_range _).map ?_
    intro a b hab
    have hab1 : (a : Int) * (num_instances : Int) = (b : Int) * (num_instances : Int) := by
      simpa using hab
    have hn0 : (num_instances : Int) ≠ 0 := by exact_mod_cast (Nat.pos_iff_ne_zero.mp hn)
    exact_mod_cast mul_right_cancel₀ hn0 hab1

/-- Witness of C15: instance 1 of 3 with a pool of two frames; the three NewPage calls of the
sample run issue the page ids 1, 4 and 7. -/
theorem allocated_page_ids_witness :
    0 < 3 ∧ 1 < 3 ∧
      (((BufferPoolManagerInstance.new 4 2 3 1 (fun _ => ResetMemory 4)).calls sampleCalls).2.map
        Prod.fst = [1, 4, 7]) :=
  ⟨by decide, by decide,
    (allocated_page_ids 4 2 3 1 (fun _ => ResetMemory 4) (by decide) (by decide)
      sampleCalls).1.trans (by decide)⟩

/-! ## Buffer pool: frames without a page -/

theorem ReachableFetchingValid.reachable {s : BufferPoolManagerInstance}
    (h : ReachableFetchingValid s) : Reachable s := by
  induction h with
  | init P n k i d hn hi => exact Reachable.init P n k i d hn hi
  | newPage _ _ ih => exact Reachable.newPage ih
  | fetchPage p _ _ ih => exact Reachable.fetchPage p ih
  | unpinPage p d _ ih => exact Reachable.unpinPage p d ih
  | flushPage p _ ih => exact Reachable.flushPage p ih
  | flushAllPages _ ih => exact Reachable.flushAllPages ih
  | deletePage p _ ih => exact Reachable.deletePage p ih
  | writeData f b hpin _ ih => exact Reachable.writeData f b hpin ih

/-- Handing out frame `f` with a page id other than `INVALID_PAGE_ID`, the free list losing at
most `f`, keeps the frames without a page in the free list. -/
theorem InvalidFramesAreFree.install {s t : BufferPoolManagerInstance}
    (h : InvalidFramesAreFree s) (f : Nat) (page : Page) (hid : page.page_id ≠ INVALID_PAGE_ID)
    (hsize : t.pool_size = s.pool_size) (hpages : t.pages = Function.update s.pages f page)
    (hfree : ∀ g, g ≠ f → g ∈ s.free_list → g ∈ t.free_list) : InvalidFramesAreFree t := by
  intro g hg hinv
  rw [hpages] at hinv
  by_cases hgf : g = f
  · subst hgf
    rw [Function.update_same] at hinv
    exact absurd hinv hid
  · rw [Function.update_noteq hgf] at hinv
    exact hfree g hgf (h g (hsize ▸ hg) hinv)

theorem ReachableFetchingValid.invalid_free {s : BufferPoolManagerInstance}
    (h : ReachableFetchingValid s) : InvalidFramesAreFree s ∧ 0 ≤ s.next_page_id := by
  induction h with
  | init P n k i d hn hi =>
    refine ⟨fun f hf _ => ?_, Int.natCast_nonneg _⟩
    exact List.mem_range.mpr hf
  | @newPage s _ _ ih =>
    obtain ⟨hF, hN⟩ := ih
    have hne : s.next_page_id ≠ INVALID_PAGE_ID := by
      unfold INVALID_PAGE_ID; omega
    have hN1 : 0 ≤ s.next_page_id + (s.num_instances : Int) := by
      have : (0 : Int) ≤ (s.num_instances : Int) := Int.natCast_nonneg _
      omega
    cases hfl : s.free_list with
    | cons f rest =>
      rw [NewPgImp_free hfl]
      refine ⟨hF.install f ⟨_, s.next_page_id, 1, false⟩ hne rfl rfl ?_, hN1⟩
      intro g hgf hg
      rw [hfl] at hg
      exact (List.mem_cons.mp hg).resolve_left hgf
    | nil =>
      cases hv : s.replacer.lru_list with
      | nil => rw [NewPgImp_none hfl hv]; exact ⟨hF, hN⟩
      | cons f rest =>
        rw [NewPgImp_victim hfl hv]
        exact ⟨hF.install f ⟨_, s.next_page_id, 1, false⟩ hne rfl rfl
          (fun g _ hg => hg), hN1⟩
  | @fetchPage s p hp _ ih =>
    obtain ⟨hF, hN⟩ := ih
    cases hpt : ptFind s.page_table p with
    | some f =>
      rw [FetchPgImp_hit hpt]
      refine ⟨?_, hN⟩
      intro g hg hinv
      apply hF g hg
      by_cases hgf : g = f
      · subst hgf; simpa using hinv
      · simpa [Function.update_noteq hgf] using hinv
    | none =>
      cases hfl : s.free_list with
      | cons f rest =>
        rw [FetchPgImp_free hpt hfl]
        refine ⟨hF.install f ⟨_, p, 1, false⟩ hp rfl rfl ?_, hN⟩
        intro g hgf hg
        rw [hfl] at hg
        exact (List.mem_cons.mp hg).resolve_left hgf
      | nil =>
        cases hv : s.replacer.lru_list with
        | nil => rw [FetchPgImp_none hpt hfl hv]; exact ⟨hF, hN⟩
        | cons f rest =>
          rw [FetchPgImp_victim hpt hfl hv]
          exact ⟨hF.install f ⟨_, p, 1, false⟩ hp rfl rfl
            (fun g _ hg => hg), hN⟩
  | @unpinPage s p d _ ih =>
    obtain ⟨hF, hN⟩ := ih
    cases hpt : ptFind s.page_table p with
    | none => rw [UnpinPgImp_none d hpt]; exact ⟨hF, hN⟩
    | some f =>
      by_cases h0 : (s.pages f).pin_count ≤ 0
      · rw [UnpinPgImp_zero d hpt h0]; exact ⟨hF, hN⟩
      · rw [UnpinPgImp_pos d hpt (by omega)]
        refine ⟨?_, hN⟩
        intro g hg hinv
        apply hF g hg
        by_cases hgf : g = f
        · subst hgf; simpa using hinv
        · simpa [Function.update_noteq hgf] using hinv
  | @flushPage s p _ ih =>
    obtain ⟨hF, hN⟩ := ih
    cases hpt : ptFind s.page_table p with
    | none =>
      have : s.FlushPgImp p = (false, s) := by simp [BufferPoolManagerInstance.FlushPgImp, hpt]
      rw [this]; exact ⟨hF, hN⟩
    | some f =>
      rw [FlushPgImp_some hpt]
      refine ⟨?_, hN⟩
      intro g hg hinv
      apply hF g hg
      by_cases hgf : g = f
      · subst hgf; simpa using hinv
      · simpa [Function.update_noteq hgf] using hinv
  | flushAllPages _ ih => exact ih
  | @deletePage s p _ ih =>
    obtain ⟨hF, hN⟩ := ih
    cases hpt : ptFind s.page_table p with
    | none => rw [DeletePgImp_none hpt]; exact ⟨hF, hN⟩
    | some f =>
      by_cases h0 : 0 < (s.pages f).pin_count
      · rw [DeletePgImp_pinned hpt h0]; exact ⟨hF, hN⟩
      · rw [DeletePgImp_free hpt h0]
        refine ⟨?_, hN⟩
        intro g hg hinv
        show g ∈ s.free_list ++ [f]
        by_cases hgf : g = f
        · subst hgf; simp
        · have hinv1 : (s.pages g).page_id = INVALID_PAGE_ID := by
            simpa [Function.update_noteq hgf] using hinv
          exact List.mem_append_left _ (hF g hg hinv1)
  | @writeData s f b _ _ ih =>
    obtain ⟨hF, hN⟩ := ih
    refine ⟨?_, hN⟩
    intro g hg hinv
    apply hF g hg
    by_cases hgf : g = f
    · subst hgf; simpa [BufferPoolManagerInstance.WriteData] using hinv
    · simpa [BufferPoolManagerInstance.WriteData, Function.update_noteq hgf] using hinv

/-- C16, counterexample. Pool size 1, FetchPage(INVALID_PAGE_ID) on the fresh pool: the call
takes frame 0 from the free list and gives it the page id it was asked for, so frame 0 has page
id INVALID_PAGE_ID (and pin count 1) and is not in the free list. -/
theorem fetch_invalid_id_leaves_free_list :
    Reachable poolOneFetchedInvalid ∧ ¬ InvalidFramesAreFree poolOneFetchedInvalid := by
  refine ⟨Reachable.fetchPage _ (Reachable.init 4 1 1 0 _ (by decide) (by decide)), fun h => ?_⟩
  have h0 := h 0 (by decide) (by decide)
  revert h0
  decide

/-- C16, amended. In every buffer-pool state reachable from a freshly constructed pool through
the public operations (NewPage as long as the page id counter stays below 32-bit overflow, that
is next_page_id is at most 2147483647 after the call, FetchPage with any page id other than
INVALID_PAGE_ID, UnpinPage, FlushPage, FlushAllPages, DeletePage) and client writes into pinned
frames, every frame whose page id is INVALID_PAGE_ID is in the free list. -/
theorem invalid_frames_in_free_list (s : BufferPoolManagerInstance)
    (h : ReachableFetchingValid s) : InvalidFramesAreFree s :=
  h.invalid_free.1

/-- Witness of C16 (amended): pool size 2 after NewPage (which leaves next_page_id at 1),
UnpinPage(0, true) and DeletePage(0); both frames have page id INVALID_PAGE_ID and both are in
the free list. -/
theorem invalid_frames_in_free_list_witness :
    ReachableFetchingValid poolTwoNewUnpinDelete ∧
      (poolTwoNewUnpinDelete.pages 0).page_id = INVALID_PAGE_ID ∧
      0 ∈ poolTwoNewUnpinDelete.free_list :=
  have hr : ReachableFetchingValid poolTwoNewUnpinDelete :=
    ReachableFetchingValid.deletePage 0 (ReachableFetchingValid.unpinPage 0 true
      (ReachableFetchingValid.newPage (by decide)
        (ReachableFetchingValid.init 4 2 1 0 _ (by decide) (by decide))))
  ⟨hr, by decide, invalid_frames_in_free_list poolTwoNewUnpinDelete hr 0 (by decide) (by decide)⟩

/-! ## LRU replacer: theorems -/

theorem LRUReplacer.Tracks.start : LRUReplacer.fresh.Tracks Admissions.start :=
  ⟨List.nodup_nil, fun f => by simp [LRUReplacer.fresh, Admissions.start], List.Pairwise.nil,
    fun f n h => by simp [Admissions.start] at h⟩

/-- Removing a frame from the replacer and from the record keeps them in step. -/
theorem LRUReplacer.Tracks.remove {r : LRUReplacer} {a : Admissions} (h : r.Tracks a)
    (f : Nat) (r1 : LRUReplacer) (hr1 : r1.lru_list = r.lru_list.erase f) :
    r1.Tracks { admitted := Function.update a.admitted f none, clock := a.clock + 1 } := by
  refine ⟨hr1 ▸ h.nodup.erase f, fun g => ?_, ?_, fun g n hg => ?_⟩
  · rw [hr1, h.nodup.mem_erase_iff]
    by_cases hgf : g = f
    · subst hgf; simp
    · simp [Function.update_noteq hgf, hgf, h.mem g]
  · rw [hr1]
    refine ((h.order.sublist (List.erase_sublist f r.lru_list)).imp_of_mem ?_)
    intro x y hx hy hxy n m hn hm
    have hxf : x ≠ f := ((h.nodup.mem_erase_iff).mp hx).1
    have hyf : y ≠ f := ((h.nodup.mem_erase_iff).mp hy).1
    simp only [Function.update_noteq hxf] at hn
    simp only [Function.update_noteq hyf] at hm
    exact hxy n m hn hm
  · by_cases hgf : g = f
    · subst hgf; simp at hg
    · simp only [Function.update_noteq hgf] at hg
      exact Nat.lt_succ_of_lt (h.bound g n hg)

/-- Leaving the replacer and the admissions as they are, with the clock moved on. -/
theorem LRUReplacer.Tracks.tick {r : LRUReplacer} {a : Admissions} (h : r.Tracks a) :
    r.Tracks { admitted := a.admitted, clock := a.clock + 1 } :=
  ⟨h.nodup, h.mem, h.order, fun f n hf => Nat.lt_succ_of_lt (h.bound f n hf)⟩

theorem LRUReplacer.Tracks.call {r : LRUReplacer} {a : Admissions} (h : r.Tracks a)
    (c : LRUCall) : (r.call c).2.Tracks (a.record c (r.call c).1) := by
  cases c with
  | Unpin f =>
    show (r.Unpin f).Tracks
      { admitted := if a.admitted f = none then Function.update a.admitted f (some a.clock)
          else a.admitted
        clock := a.clock + 1 }
    by_cases hf : f ∈ r.lru_list
    · have hne : a.admitted f ≠ none := (h.mem f).mp hf
      have hU : r.Unpin f = r := by simp [LRUReplacer.Unpin, hf]
      rw [hU, if_neg hne]
      exact h.tick
    · have hnone : a.admitted f = none := by
        by_contra hne
        exact hf ((h.mem f).mpr hne)
      have hU : (r.Unpin f).lru_list = r.lru_list ++ [f] := by simp [LRUReplacer.Unpin, hf]
      rw [if_pos hnone]
      refine ⟨?_, fun g => ?_, ?_, fun g n hg => ?_⟩
      · rw [hU]
        exact List.Nodup.append h.nodup (List.nodup_singleton f) (by simpa using hf)
      · rw [hU, List.mem_append, List.mem_singleton]
        by_cases hgf : g = f
        · subst hgf; simp
        · simp [Function.update_noteq hgf, hgf, h.mem g]
      · rw [hU, List.pairwise_append]
        refine ⟨h.order.imp_of_mem ?_, List.pairwise_singleton _ _, ?_⟩
        · intro x y hx hy hxy n m hn hm
          have hxf : x ≠ f := fun e => hf (e ▸ hx)
          have hyf : y ≠ f := fun e => hf (e ▸ hy)
          simp only [Function.update_noteq hxf] at hn
          simp only [Function.update_noteq hyf] at hm
          exact hxy n m hn hm
        · intro x hx y hy n m hn hm
          have hyf : y = f := List.mem_singleton.mp hy
          subst hyf
          have hxf : x ≠ y := fun e => hf (e ▸ hx)
          simp only [Function.update_noteq hxf] at hn
          simp only [Function.update_same, Option.some.injEq] at hm
          subst hm
          exact h.bound x n hn
      · by_cases hgf : g = f
        · subst hgf
          simp only [Function.update_same, Option.some.injEq] at hg
          subst hg
          exact Nat.lt_succ_self _
        · simp only [Function.update_noteq hgf] at hg
          exact Nat.lt_succ_of_lt (h.bound g n hg)
  | Pin f =>
    show (r.Pin f).Tracks { admitted := Function.update a.admitted f none, clock := a.clock + 1 }
    apply h.remove f
    unfold LRUReplacer.Pin
    split
    · rfl
    · rename_i hn
      exact (List.erase_of_not_mem hn).symm
  | Victim =>
    show r.Victim.2.Tracks
      { admitted := match r.Victim.1 with
          | some frame_id => Function.update a.admitted frame_id none
          | none => a.admitted
        clock := a.clock + 1 }
    cases hv : r.lru_list with
    | nil =>
      have hV : r.Victim = (none, r) := by simp [LRUReplacer.Victim, hv]
      rw [hV]
      exact h.tick
    | cons v rest =>
      have hV : r.Victim = (some v, { lru_list := rest }) := by simp [LRUReplacer.Victim, hv]
      rw [hV]
      apply h.remove v
      rw [hv]
      simp

theorem LRUReplacer.Tracks.history (cs : List LRUCall) :
    ∀ {r : LRUReplacer} {a : Admissions}, r.Tracks a →
      (LRUReplacer.history r a cs).1.Tracks (LRUReplacer.history r a cs).2 := by
  induction cs with
  | nil => exact fun h => h
  | cons c cs ih => exact fun h => ih (h.call c)

theorem victims_eq_take (n : Nat) :
    ∀ r : LRUReplacer, LRUReplacer.victims n r = r.lru_list.take n := by
  induction n with
  | zero => intro r; rfl
  | succ n ih =>
    intro r
    cases hv : r.lru_list with
    | nil => simp [LRUReplacer.victims, LRUReplacer.Victim, hv]
    | cons v rest => simp [LRUReplacer.victims, LRUReplacer.Victim, hv, ih]

theorem evictionOrder_eq (r : LRUReplacer) : r.evictionOrder = r.lru_list := by
  simp [LRUReplacer.evictionOrder, victims_eq_take, LRUReplacer.Size]

/-- C17. LRU victim order: after every sequence of Unpin, Pin and Victim calls on a fresh
LRUReplacer, the replacer holds exactly the frames that are present (admitted by an Unpin and
not removed by Pin or Victim since), each once; when no frame is present Victim returns false
and leaves the replacer unchanged; otherwise Victim returns true with a present frame whose
admission is earlier than that of every other present frame, removes exactly that frame, and
Size goes down by 1. -/
theorem victim_takes_earliest_admitted (cs : List LRUCall) (r : LRUReplacer) (a : Admissions)
    (hrun : LRUReplacer.history LRUReplacer.fresh Admissions.start cs = (r, a)) :
    (r.lru_list.Nodup ∧ ∀ f, f ∈ r.lru_list ↔ a.admitted f ≠ none) ∧
      ((∀ f, a.admitted f = none) → r.Victim = (none, r)) ∧
      ((∃ f, a.admitted f ≠ none) →
        ∃ v n r1, r.Victim = (some v, r1) ∧ a.admitted v = some n ∧
          (∀ g m, g ≠ v → a.admitted g = some m → n < m) ∧
          r1.lru_list = r.lru_list.erase v ∧
          (∀ g, g ∈ r1.lru_list ↔ g ∈ r.lru_list ∧ g ≠ v) ∧ r1.Size + 1 = r.Size) := by
  have hT : r.Tracks a := by
    have := LRUReplacer.Tracks.history cs LRUReplacer.Tracks.start
    rwa [hrun] at this
  refine ⟨⟨hT.nodup, hT.mem⟩, ?_, ?_⟩
  · intro hnone
    cases hv : r.lru_list with
    | nil => simp [LRUReplacer.Victim, hv]
    | cons v rest =>
      exact absurd (hnone v) ((hT.mem v).mp (hv ▸ List.mem_cons_self v rest))
  · rintro ⟨f, hf⟩
    cases hv : r.lru_list with
    | nil =>
      have := (hT.mem f).mpr hf
      rw [hv] at this
      cases this
    | cons v rest =>
      have hvm : v ∈ r.lru_list := hv ▸ List.mem_cons_self v rest
      obtain ⟨n, hn⟩ := Option.ne_none_iff_exists'.mp ((hT.mem v).mp hvm)
      have hnd : (v :: rest).Nodup := hv ▸ hT.nodup
      have hord := hv ▸ hT.order
      refine ⟨v, n, { lru_list := rest }, by simp [LRUReplacer.Victim, hv], hn, ?_, by simp,
        fun g => ?_, by simp [LRUReplacer.Size, hv]⟩
      · intro g m hgv hg
        have hgm : g ∈ r.lru_list := (hT.mem g).mpr (by rw [hg]; simp)
        rw [hv] at hgm
        have hgr : g ∈ rest := (List.mem_cons.mp hgm).resolve_left hgv
        exact (List.pairwise_cons.mp hord).1 g hgr n m hn hg
      · constructor
        · intro hg
          exact ⟨List.mem_cons_of_mem _ hg, fun e => (List.nodup_cons.mp hnd).1 (e ▸ hg)⟩
        · rintro ⟨hg, hgv⟩
          exact (List.mem_cons.mp hg).resolve_left hgv

/-- Witness of C17: after Unpin(1), Unpin(2), Unpin(1), Pin(3) and one Victim on a fresh
replacer, frame 2 is present and the next Victim hands it out. -/
theorem victim_takes_earliest_admitted_witness :
    ∃ v n r1, (LRUReplacer.history LRUReplacer.fresh Admissions.start sampleLRUCalls).1.Victim
        = (some v, r1) ∧
      (LRUReplacer.history LRUReplacer.fresh Admissions.start sampleLRUCalls).2.admitted v
        = some n ∧ v = 2 ∧ n = 1 :=
  have h := (victim_takes_earliest_admitted sampleLRUCalls _ _ rfl).2.2 ⟨2, by decide⟩
  h.elim fun v hv => hv.elim fun n hn => hn.elim fun r1 hr1 =>
    have hv2 : v = 2 := by
      have h1 := congrArg Prod.fst hr1.1
      have h2 : (LRUReplacer.history LRUReplacer.fresh Admissions.start sampleLRUCalls).1.Victim.1
          = some 2 := by decide
      exact Option.some.inj (h1.symm.trans h2)
    ⟨v, n, r1, hr1.1, hr1.2.1, hv2, by
      have h3 := hr1.2.1
      rw [hv2] at h3
      have h4 : (LRUReplacer.history LRUReplacer.fresh Admissions.start sampleLRUCalls).2.admitted 2
          = some 1 := by decide
      exact Option.some.inj (h3.symm.trans h4)⟩

/-- C18. Unpin(f) is idempotent and does not refresh recency: on a replacer that contains f it
changes nothing (the eviction order and Size stay as they are); on a replacer that does not
contain f it appends f at the back of the eviction order, so that f is the last frame Victim
would hand out, and Size grows by exactly 1; a second Unpin(f) changes nothing. -/
theorem unpin_appends_once (r : LRUReplacer) (f : Nat) :
    (f ∈ r.lru_list → r.Unpin f = r) ∧
      (f ∉ r.lru_list →
        (r.Unpin f).evictionOrder = r.evictionOrder ++ [f] ∧ (r.Unpin f).Size = r.Size + 1) ∧
      (r.Unpin f).Unpin f = r.Unpin f := by
  refine ⟨fun hf => by simp [LRUReplacer.Unpin, hf], fun hf => ?_, ?_⟩
  · rw [evictionOrder_eq, evictionOrder_eq]
    simp [LRUReplacer.Unpin, hf, LRUReplacer.Size]
  · by_cases hf : f ∈ r.lru_list
    · simp [LRUReplacer.Unpin, hf]
    · simp [LRUReplacer.Unpin, hf]

/-- Witness of C18: on the replacer holding frames 1 and 2, Unpin(3) makes the eviction order
1, 2, 3. -/
theorem unpin_appends_once_witness :
    3 ∉ (LRUReplacer.mk [1, 2]).lru_list ∧
      ((LRUReplacer.mk [1, 2]).Unpin 3).evictionOrder = [1, 2, 3] :=
  ⟨by decide, ((unpin_appends_once (LRUReplacer.mk [1, 2]) 3).2.1 (by decide)).1.trans (by decide)⟩

/-! ## Hash table: Insert and Remove on a damaged directory -/

/-- With the identity as hash function, two-slot buckets and maximal depth 4, after the inserts
of `fivePairs`:
GetValue(12) returns the value 0; Insert(12, 1) returns true; the Remove(12, 1) that follows
returns true; and GetValue(12) then returns nothing. -/
theorem depthFour_insert_remove :
    (tableDepthFour.InsertAll 10 fivePairs).bind (fun t =>
        (t.Insert 10 12 1).map (fun r =>
          ((t.GetValue 12).1.2, r.1, (r.2.Remove 12 1).1,
            ((r.2.Remove 12 1).2.GetValue 12).1.2)))
      = some ([0], true, true, []) := by
  decide!

/-- With the identity as hash function, two-slot buckets and maximal depth 4, after the inserts
of `fullBucketPairs`: GetValue(4) returns the value 0 and GetValue(14) the value 0; Insert(14, 0)
returns false; and GetValue(4) then returns nothing. -/
theorem depthFour_failed_insert :
    (tableDepthFour.InsertAll 10 fullBucketPairs).bind (fun t =>
        (t.Insert 10 14 0).map (fun r =>
          ((t.GetValue 4).1.2, (t.GetValue 14).1.2, r.1, (r.2.GetValue 4).1.2)))
      = some ([0], [0], false, []) := by
  decide!

/-- C19, the code at the failing input. BUCKET_ARRAY_SIZE 2, MAX_BUCKET_DEPTH 4, identity hash,
fresh table, Insert of (4, 0), (12, 0), (15, 0), (14, 0), (12, 0): in the table reached the pair
(12, 1) is not stored and GetValue(12) returns the value 0; Insert(12, 1) returns true and the
following Remove(12, 1) returns true, but afterwards GetValue(12) returns no value: the split
inside Insert(12, 1) moved the pair (12, 0) to a page that no directory entry refers to. -/
theorem insert_remove_loses_stored_value :
    ∃ t, tableDepthFour.InsertAll 10 fivePairs = some t ∧ (t.GetValue 12).1.2 = [0] ∧
      (∃ t1, t.Insert 10 12 1 = some (true, t1) ∧ (t1.Remove 12 1).1 = true ∧
        ((t1.Remove 12 1).2.GetValue 12).1.2 = []) ∧
      ¬ t.InsertRemoveRestores 12 1 := by
  obtain ⟨t, h1, h2⟩ := Option.bind_eq_some.mp depthFour_insert_remove
  obtain ⟨r, h3, h4⟩ := Option.map_eq_some'.mp h2
  obtain ⟨hb, hr, hrem, ha⟩ : (t.GetValue 12).1.2 = [0] ∧ r.1 = true ∧
      (r.2.Remove 12 1).1 = true ∧ ((r.2.Remove 12 1).2.GetValue 12).1.2 = [] := by
    simp only [Prod.mk.injEq] at h4
    exact h4
  have h5 : t.Insert 10 12 1 = some (true, r.2) := by
    rw [h3, ← hr]
  refine ⟨t, h1, hb, ⟨r.2, h5, hrem, ha⟩, fun hC => ?_⟩
  have hp := (hC 10 r.2 h5).2
  rw [ha, hb] at hp
  exact absurd hp.length_eq (by decide)

/-- C20, the code at the failing input. BUCKET_ARRAY_SIZE 2, MAX_BUCKET_DEPTH 4, identity hash,
fresh table, Insert of (4, 0), (14, 0), (15, 0): in the table reached GetValue(4) returns the
value 0 and the pair (14, 0) is stored; Insert(14, 0) returns false, but afterwards GetValue(4)
returns no value: the splits inside the call moved the pair (4, 0) to a page that no directory
entry refers to. -/
theorem failed_insert_loses_stored_value :
    ∃ t, tableDepthFour.InsertAll 10 fullBucketPairs = some t ∧
      (t.GetValue 4).1.2 = [0] ∧ (t.GetValue 14).1.2 = [0] ∧
      (∃ t1, t.Insert 10 14 0 = some (false, t1) ∧ (t1.GetValue 4).1.2 = []) ∧
      ¬ t.InsertFailsCleanly 14 0 := by
  obtain ⟨t, h1, h2⟩ := Option.bind_eq_some.mp depthFour_failed_insert
  obtain ⟨r, h3, h4⟩ := Option.map_eq_some'.mp h2
  obtain ⟨hb, hs, hr, ha⟩ : (t.GetValue 4).1.2 = [0] ∧ (t.GetValue 14).1.2 = [0] ∧
      r.1 = false ∧ (r.2.GetValue 4).1.2 = [] := by
    simp only [Prod.mk.injEq] at h4
    exact h4
  have h5 : t.Insert 10 14 0 = some (false, r.2) := by
    rw [h3, ← hr]
  refine ⟨t, h1, hb, hs, ⟨r.2, h5, ha⟩, fun hC => ?_⟩
  have hp := hC 10 r.2 h5 4
  rw [ha, hb] at hp
  exact absurd hp.length_eq (by decide)

/-! ## Lock manager: protocol violations, release, upgrade -/

/-- C27, counterexample. Transaction 3 is in state SHRINKING under READ_UNCOMMITTED: LockShared
tests the isolation level before the state, so the call fails with
LOCKSHARED_ON_READ_UNCOMMITTED and not with LOCK_ON_SHRINKING. -/
theorem lock_shared_reports_isolation_first :
    (shrinkingReadUncommitted.txns 3).state ≠ TransactionState.ABORTED ∧
      (shrinkingReadUncommitted.LockShared 3 7).1
        = LockResult.threw AbortReason.LOCKSHARED_ON_READ_UNCOMMITTED ∧
      ¬ LockSharedFailsOnShrinking shrinkingReadUncommitted 3 7 := by
  refine ⟨by decide, by decide, fun h => ?_⟩
  have h1 := (h (by decide)).1
  revert h1
  decide

/-- C27, amended. Protocol violations abort with a named reason: for every transaction that is
not ABORTED, LockShared under isolation READ_UNCOMMITTED sets its state to ABORTED and fails
with LOCKSHARED_ON_READ_UNCOMMITTED; LockShared in state SHRINKING under another isolation
level, and LockExclusive in state SHRINKING, set its state to ABORTED and fail with
LOCK_ON_SHRINKING; in each case every request queue, the lock sets of the transaction and all
other transactions are unchanged. -/
theorem protocol_violations_abort (s : LockManager) (tid rid : Nat)
    (hna : (s.txns tid).state ≠ TransactionState.ABORTED) :
    ((s.txns tid).isolation_level = IsolationLevel.READ_UNCOMMITTED →
        (s.LockShared tid rid).1 = LockResult.threw AbortReason.LOCKSHARED_ON_READ_UNCOMMITTED ∧
        ((s.LockShared tid rid).2.txns tid).state = TransactionState.ABORTED ∧
        OnlyStateChanged s (s.LockShared tid rid).2 tid) ∧
      ((s.txns tid).state = TransactionState.SHRINKING →
        (s.txns tid).isolation_level ≠ IsolationLevel.READ_UNCOMMITTED →
        (s.LockShared tid rid).1 = LockResult.threw AbortReason.LOCK_ON_SHRINKING ∧
        ((s.LockShared tid rid).2.txns tid).state = TransactionState.ABORTED ∧
        OnlyStateChanged s (s.LockShared tid rid).2 tid) ∧
      ((s.txns tid).state = TransactionState.SHRINKING →
        (s.LockExclusive tid rid).1 = LockResult.threw AbortReason.LOCK_ON_SHRINKING ∧
        ((s.LockExclusive tid rid).2.txns tid).state = TransactionState.ABORTED ∧
        OnlyStateChanged s (s.LockExclusive tid rid).2 tid) := by
  have hupd : ∀ t, t ≠ tid →
      Function.update s.txns tid ((s.txns tid).SetState TransactionState.ABORTED) t = s.txns t :=
    fun t ht => Function.update_noteq ht _ _
  refine ⟨fun hi => ?_, fun hs hi => ?_, fun hs => ?_⟩
  · have : s.LockShared tid rid = (LockResult.threw AbortReason.LOCKSHARED_ON_READ_UNCOMMITTED,
        ⟨s.lock_table,
          Function.update s.txns tid ((s.txns tid).SetState TransactionState.ABORTED)⟩) := by
      simp [LockManager.LockShared, hna, hi]
    rw [this]
    exact ⟨rfl, by simp [Transaction.SetState],
      rfl, by simp [Transaction.SetState], by simp [Transaction.SetState],
      by simp [Transaction.SetState], hupd⟩
  · have : s.LockShared tid rid = (LockResult.threw AbortReason.LOCK_ON_SHRINKING,
        ⟨s.lock_table,
          Function.update s.txns tid ((s.txns tid).SetState TransactionState.ABORTED)⟩) := by
      simp [LockManager.LockShared, hs, hi]
    rw [this]
    exact ⟨rfl, by simp [Transaction.SetState],
      rfl, by simp [Transaction.SetState], by simp [Transaction.SetState],
      by simp [Transaction.SetState], hupd⟩
  · have : s.LockExclusive tid rid = (LockResult.threw AbortReason.LOCK_ON_SHRINKING,
        ⟨s.lock_table,
          Function.update s.txns tid ((s.txns tid).SetState TransactionState.ABORTED)⟩) := by
      simp [LockManager.LockExclusive, hs]
    rw [this]
    exact ⟨rfl, by simp [Transaction.SetState],
      rfl, by simp [Transaction.SetState], by simp [Transaction.SetState],
      by simp [Transaction.SetState], hupd⟩

/-- Witness of C27 (amended): transaction 3 is SHRINKING under REPEATABLE_READ and asks for an
exclusive lock on row 7; the call fails with LOCK_ON_SHRINKING and leaves it ABORTED. -/
theorem protocol_violations_abort_witness :
    (shrinkingLockManager.txns 3).state ≠ TransactionState.ABORTED ∧
      (shrinkingLockManager.txns 3).state = TransactionState.SHRINKING ∧
      (shrinkingLockManager.LockExclusive 3 7).1
        = LockResult.threw AbortReason.LOCK_ON_SHRINKING ∧
      ((shrinkingLockManager.LockExclusive 3 7).2.txns 3).state = TransactionState.ABORTED :=
  have h := (protocol_violations_abort shrinkingLockManager 3 7 (by decide)).2.2 (by decide)
  ⟨by decide, by decide, h.1, h.2.1⟩

/-- The scan of `Unlock` on a queue without a request of the caller leaves the queue and `mode`
as they are. -/
theorem unlockScan_eq_some (tid : Nat) :
    ∀ (queue : List LockRequest) (mode : LockMode),
      (∀ e ∈ queue, e.txn_id ≠ tid) → unlockScan tid queue mode = some (mode, queue)
  | [], _, _ => rfl
  | iter :: rest, mode, h => by
    unfold unlockScan
    rw [if_neg (h iter (List.mem_cons_self _ _)),
      unlockScan_eq_some tid rest mode (fun e he => h e (List.mem_cons_of_mem _ he))]
    rfl

/-- The scan of `Unlock` on a queue with a request of the caller has no result. -/
theorem unlockScan_eq_none (tid : Nat) :
    ∀ (queue : List LockRequest) (mode : LockMode),
      (∃ e ∈ queue, e.txn_id = tid) → unlockScan tid queue mode = none
  | [], _, h => by
    obtain ⟨e, he, _⟩ := h
    cases he
  | iter :: rest, mode, h => by
    unfold unlockScan
    by_cases hi : iter.txn_id = tid
    · rw [if_pos hi]
    · have hrest : ∃ e ∈ rest, e.txn_id = tid := by
        obtain ⟨e, he, het⟩ := h
        rcases List.mem_cons.mp he with heq | he
        · rw [heq] at het
          exact absurd het hi
        · exact ⟨e, he, het⟩
      rw [if_neg hi, unlockScan_eq_none tid rest mode hrest]
      rfl

/-- `Unlock` has no result when the caller has a request in the queue of the row. -/
theorem Unlock_eq_none (s : LockManager) (tid rid : Nat) (mode0 : LockMode)
    (h : ∃ e ∈ s.lock_table rid, e.txn_id = tid) : s.Unlock tid rid mode0 = none := by
  unfold LockManager.Unlock
  rw [unlockScan_eq_none tid _ mode0 h]

/-- When `Unlock` returns, the caller had no request in the queue of the row; the queues and the
other transactions are as before, the row is erased from the lock sets of the caller, and the
caller is `ABORTED` afterwards exactly when it was before. -/
theorem Unlock_returns {s s1 : LockManager} {tid rid : Nat} {mode0 : LockMode} {b : Bool}
    (h : s.Unlock tid rid mode0 = some (b, s1)) :
    (∀ e ∈ s.lock_table rid, e.txn_id ≠ tid) ∧ b = true ∧ s1.lock_table = s.lock_table ∧
      (∀ t, t ≠ tid → s1.txns t = s.txns t) ∧
      (s1.txns tid).shared_lock_set = lockSetErase (s.txns tid).shared_lock_set rid ∧
      (s1.txns tid).exclusive_lock_set = lockSetErase (s.txns tid).exclusive_lock_set rid ∧
      ((s1.txns tid).state = TransactionState.ABORTED ↔
        (s.txns tid).state = TransactionState.ABORTED) := by
  have hnone : ∀ e ∈ s.lock_table rid, e.txn_id ≠ tid := by
    intro e he het
    rw [Unlock_eq_none s tid rid mode0 ⟨e, he, het⟩] at h
    cases h
  unfold LockManager.Unlock at h
  rw [unlockScan_eq_some tid _ mode0 hnone] at h
  simp only [Option.some.injEq, Prod.mk.injEq] at h
  obtain ⟨hb, hs1⟩ := h
  subst hs1
  refine ⟨hnone, hb.symm, ?_, fun t ht => ?_, ?_, ?_, ?_⟩
  · exact Function.update_eq_self rid s.lock_table
  · exact Function.update_noteq ht _ _
  · simp only [Function.update_same]
    split <;> rfl
  · simp only [Function.update_same]
    split <;> rfl
  · simp only [Function.update_same]
    split
    · rename_i hc
      constructor
      · intro h1
        cases h1
      · intro h1
        rw [hc.2] at h1
        cases h1
    · exact Iff.rfl

/-- C28, the code at the failing input. READ_COMMITTED, T1 is GROWING and LockShared(T1, row 7)
has returned true, so the queue of row 7 holds the SHARED request of T1. Unlock(T1, row 7)
erases that request and then steps on from the invalidated iterator: the call has no result,
whatever the local variable mode held, where the claim asks that it returns and leaves T1
GROWING. The same holds in every state for every transaction with a request in the queue of the
row, which is what the claim supposes of the caller. -/
theorem unlock_steps_on_from_erased_request :
    (LockManager.LockShared ⟨fun _ => [], readCommittedTxns⟩ 1 7).1 = LockResult.returned true ∧
      (readCommittedShared.txns 1).state = TransactionState.GROWING ∧
      (readCommittedShared.txns 1).isolation_level = IsolationLevel.READ_COMMITTED ∧
      readCommittedShared.lock_table 7 = [⟨1, LockMode.SHARED, false⟩] ∧
      (∀ mode0, readCommittedShared.Unlock 1 7 mode0 = none) ∧
      ¬ ReleaseSetsState readCommittedShared 1 7 LockMode.SHARED ∧
      ∀ (s : LockManager) (tid rid : Nat) (mode0 : LockMode),
        (∃ e ∈ s.lock_table rid, e.txn_id = tid) → s.Unlock tid rid mode0 = none := by
  have hreq : ∃ e ∈ readCommittedShared.lock_table 7, e.txn_id = 1 :=
    ⟨⟨1, LockMode.SHARED, false⟩, by decide, rfl⟩
  refine ⟨by decide, by decide, by decide, by decide,
    fun mode0 => Unlock_eq_none _ 1 7 mode0 hreq, fun h => ?_,
    fun s tid rid mode0 h => Unlock_eq_none s tid rid mode0 h⟩
  obtain ⟨b, s1, h1, _⟩ := h hreq (by decide) LockMode.SHARED
  rw [Unlock_eq_none _ 1 7 LockMode.SHARED hreq] at h1
  cases h1

/-! ## Lock manager: upgrade -/

theorem upgradeFirstShared_cons_neg (tid : Nat) (x : LockRequest) (l : List LockRequest)
    (h : ¬ (x.txn_id = tid ∧ x.lock_mode = LockMode.SHARED)) :
    upgradeFirstShared tid (x :: l)
      = ((upgradeFirstShared tid l).1, x :: (upgradeFirstShared tid l).2) := by
  rw [upgradeFirstShared, if_neg h]

/-- The upgrade loop passes over requests that are not a `SHARED` request of the caller. -/
theorem upgradeFirstShared_append (tid : Nat) (l : List LockRequest) :
    ∀ ahead : List LockRequest,
      (∀ x ∈ ahead, ¬ (x.txn_id = tid ∧ x.lock_mode = LockMode.SHARED)) →
      upgradeFirstShared tid (ahead ++ l)
        = ((upgradeFirstShared tid l).1, ahead ++ (upgradeFirstShared tid l).2)
  | [], _ => rfl
  | x :: ahead, h => by
    have hx := h x (List.mem_cons_self _ _)
    have ih := upgradeFirstShared_append tid l ahead
      (fun y hy => h y (List.mem_cons_of_mem _ hy))
    rw [List.cons_append, upgradeFirstShared_cons_neg tid x _ hx, ih]
    rfl

/-- The upgrade loop turns the first `SHARED` request of the caller into an `EXCLUSIVE` one and
leaves the queue as it is otherwise. -/
theorem upgradeFirstShared_found (tid : Nat) (ahead : List LockRequest) (e : LockRequest)
    (behind : List LockRequest)
    (hahead : ∀ x ∈ ahead, ¬ (x.txn_id = tid ∧ x.lock_mode = LockMode.SHARED))
    (he : e.txn_id = tid) (hm : e.lock_mode = LockMode.SHARED) :
    upgradeFirstShared tid (ahead ++ e :: behind)
      = (true, ahead ++ { e with lock_mode := LockMode.EXCLUSIVE } :: behind) := by
  rw [upgradeFirstShared_append tid _ ahead hahead]
  have : upgradeFirstShared tid (e :: behind)
      = (true, { e with lock_mode := LockMode.EXCLUSIVE } :: behind) := by
    unfold upgradeFirstShared
    rw [if_pos ⟨he, hm⟩]
  rw [this]

/-- The upgrade loop does not change the transaction id of any request. -/
theorem upgradeFirstShared_txn_ids (tid : Nat) :
    ∀ queue : List LockRequest,
      (upgradeFirstShared tid queue).2.map LockRequest.txn_id = queue.map LockRequest.txn_id
  | [] => rfl
  | e :: rest => by
    unfold upgradeFirstShared
    by_cases h : e.txn_id = tid ∧ e.lock_mode = LockMode.SHARED
    · rw [if_pos h]; rfl
    · rw [if_neg h]
      show e.txn_id :: (upgradeFirstShared tid rest).2.map LockRequest.txn_id = _
      rw [upgradeFirstShared_txn_ids tid rest]
      rfl

/-- `UpdateWait` looks at the transaction id of the first request only. -/
theorem UpdateWait_eq (tid : Nat) (queue : List LockRequest) :
    UpdateWait tid queue
      = match (queue.map LockRequest.txn_id).head? with
        | some first => if first = tid then false else true
        | none => true := by
  cases queue <;> rfl

theorem mem_lockSetErase {set : List Nat} {rid r : Nat} :
    r ∈ lockSetErase set rid ↔ r ∈ set ∧ r ≠ rid := by
  simp [lockSetErase]

theorem mem_lockSetEmplace {set : List Nat} {rid r : Nat} :
    r ∈ lockSetEmplace set rid ↔ r ∈ set ∨ r = rid := by
  unfold lockSetEmplace
  split
  · constructor
    · exact Or.inl
    · rintro (h | rfl)
      · exact h
      · assumption
  · simp

/-- `LockUpgrade` past its three tests: the result and the queue of the row. -/
theorem LockUpgrade_slow (s : LockManager) (tid rid : Nat)
    (hg : (s.txns tid).state = TransactionState.GROWING)
    (hs : rid ∈ (s.txns tid).shared_lock_set) :
    (s.LockUpgrade tid rid).1
        = (if UpdateWait tid (upgradeFirstShared tid (s.lock_table rid)).2
          then LockResult.blocked else LockResult.returned true) ∧
      (s.LockUpgrade tid rid).2.lock_table rid = (upgradeFirstShared tid (s.lock_table rid)).2 := by
  have hna : (s.txns tid).state ≠ TransactionState.ABORTED := by rw [hg]; decide
  unfold LockManager.LockUpgrade
  simp only [if_neg hna, if_neg (not_not.mpr hg), if_neg (not_not.mpr hs)]
  rcases hup : upgradeFirstShared tid (s.lock_table rid) with ⟨found, queue⟩
  simp only
  split <;> simp

/-- `LockUpgrade` on a transaction that is `GROWING` and has the row in its shared lock set,
when the queue of the row holds a `SHARED` request of it. -/
theorem LockUpgrade_found (s : LockManager) (tid rid : Nat)
    (hg : (s.txns tid).state = TransactionState.GROWING)
    (hs : rid ∈ (s.txns tid).shared_lock_set)
    (ahead : List LockRequest) (e : LockRequest) (behind : List LockRequest)
    (hq : s.lock_table rid = ahead ++ e :: behind)
    (hahead : ∀ x ∈ ahead, ¬ (x.txn_id = tid ∧ x.lock_mode = LockMode.SHARED))
    (he : e.txn_id = tid) (hm : e.lock_mode = LockMode.SHARED) :
    s.LockUpgrade tid rid =
      (if UpdateWait tid (ahead ++ { e with lock_mode := LockMode.EXCLUSIVE } :: behind)
        then LockResult.blocked else LockResult.returned true,
       ⟨Function.update s.lock_table rid
          (ahead ++ { e with lock_mode := LockMode.EXCLUSIVE } :: behind),
        Function.update s.txns tid
          ⟨(s.txns tid).isolation_level, (s.txns tid).state,
            lockSetErase (s.txns tid).shared_lock_set rid,
            lockSetEmplace (s.txns tid).exclusive_lock_set rid⟩⟩) := by
  have hna : (s.txns tid).state ≠ TransactionState.ABORTED := by rw [hg]; decide
  have hup := upgradeFirstShared_found tid ahead e behind hahead he hm
  rw [← hq] at hup
  unfold LockManager.LockUpgrade
  simp only [if_neg hna, if_neg (not_not.mpr hg), if_neg (not_not.mpr hs), hup, if_true]
  rw [hg]
  split <;> rfl

/-- C29. LockUpgrade(txn, rid) returns false and changes no state when txn is ABORTED, is not in
state GROWING, or does not have rid in its shared lock set; otherwise, its first SHARED request
in the queue of rid becomes EXCLUSIVE while every other request and the order of the queue stay
as they are, rid leaves the shared lock set of txn and is in its exclusive lock set (the other
rows of both sets, the state of txn, the other queues and the other transactions are
unchanged), and the call returns true when the first request of the queue is a request of txn
and else blocks on the wait predicate, which is false exactly when the first request is one of
txn. -/
theorem lock_upgrade_effect (s : LockManager) (tid rid : Nat) :
    (((s.txns tid).state = TransactionState.ABORTED ∨
        (s.txns tid).state ≠ TransactionState.GROWING ∨
        rid ∉ (s.txns tid).shared_lock_set) →
      s.LockUpgrade tid rid = (LockResult.returned false, s)) ∧
    ((s.txns tid).state = TransactionState.GROWING → rid ∈ (s.txns tid).shared_lock_set →
      ∀ (ahead : List LockRequest) (e : LockRequest) (behind : List LockRequest),
        s.lock_table rid = ahead ++ e :: behind →
        (∀ x ∈ ahead, ¬ (x.txn_id = tid ∧ x.lock_mode = LockMode.SHARED)) →
        e.txn_id = tid → e.lock_mode = LockMode.SHARED →
        (s.LockUpgrade tid rid).2.lock_table rid
            = ahead ++ { e with lock_mode := LockMode.EXCLUSIVE } :: behind ∧
          (∀ r, r ≠ rid → (s.LockUpgrade tid rid).2.lock_table r = s.lock_table r) ∧
          rid ∉ ((s.LockUpgrade tid rid).2.txns tid).shared_lock_set ∧
          rid ∈ ((s.LockUpgrade tid rid).2.txns tid).exclusive_lock_set ∧
          (∀ r, r ≠ rid →
            (r ∈ ((s.LockUpgrade tid rid).2.txns tid).shared_lock_set ↔
              r ∈ (s.txns tid).shared_lock_set) ∧
            (r ∈ ((s.LockUpgrade tid rid).2.txns tid).exclusive_lock_set ↔
              r ∈ (s.txns tid).exclusive_lock_set)) ∧
          ((s.LockUpgrade tid rid).2.txns tid).state = TransactionState.GROWING ∧
          (∀ t, t ≠ tid → (s.LockUpgrade tid rid).2.txns t = s.txns t) ∧
          ((∃ first, ((s.LockUpgrade tid rid).2.lock_table rid).head? = some first ∧
              first.txn_id = tid) →
            (s.LockUpgrade tid rid).1 = LockResult.returned true) ∧
          ((¬ ∃ first, ((s.LockUpgrade tid rid).2.lock_table rid).head? = some first ∧
              first.txn_id = tid) →
            (s.LockUpgrade tid rid).1 = LockResult.blocked ∧
              UpdateWait tid ((s.LockUpgrade tid rid).2.lock_table rid) = true)) := by
  refine ⟨?_, ?_⟩
  · rintro (h | h | h)
    · simp [LockManager.LockUpgrade, h]
    · unfold LockManager.LockUpgrade
      by_cases ha : (s.txns tid).state = TransactionState.ABORTED
      · simp [ha]
      · simp [ha, h]
    · unfold LockManager.LockUpgrade
      by_cases ha : (s.txns tid).state = TransactionState.ABORTED
      · simp [ha]
      · by_cases hg : (s.txns tid).state = TransactionState.GROWING
        · simp [hg, h]
        · simp [ha, hg]
  · intro hg hs ahead e behind hq hahead he hm
    rw [LockUpgrade_found s tid rid hg hs ahead e behind hq hahead he hm]
    refine ⟨by simp, fun r hr => by simp [Function.update_noteq hr], ?_, ?_, fun r hr => ?_, ?_,
      fun t ht => by simp [Function.update_noteq ht], ?_, ?_⟩
    · simp only [Function.update_same]
      exact fun hmem => (mem_lockSetErase.mp hmem).2 rfl
    · simp only [Function.update_same]
      exact mem_lockSetEmplace.mpr (Or.inr rfl)
    · simp only [Function.update_same]
      constructor
      · rw [mem_lockSetErase]
        exact ⟨fun h => h.1, fun h => ⟨h, hr⟩⟩
      · rw [mem_lockSetEmplace]
        exact ⟨fun h => h.resolve_right hr, Or.inl⟩
    · simp only [Function.update_same]
      exact hg
    · simp only [Function.update_same]
      rintro ⟨first, hf, hft⟩
      have : UpdateWait tid (ahead ++ { e with lock_mode := LockMode.EXCLUSIVE } :: behind)
          = false := by
        unfold UpdateWait
        rw [hf]
        simp [hft]
      rw [this]
      rfl
    · simp only [Function.update_same]
      intro hno
      have : UpdateWait tid (ahead ++ { e with lock_mode := LockMode.EXCLUSIVE } :: behind)
          = true := by
        unfold UpdateWait
        cases hf : (ahead ++ { e with lock_mode := LockMode.EXCLUSIVE } :: behind).head? with
        | none => rfl
        | some first =>
          have hft : first.txn_id ≠ tid := fun h => hno ⟨first, hf, h⟩
          simp [hft]
      rw [this]
      exact ⟨rfl, rfl⟩

/-- Witness of C29: T2 and then T1 hold SHARED on row 7; LockUpgrade by T1 makes its request
EXCLUSIVE behind the request of T2, moves row 7 from its shared to its exclusive lock set, and
blocks because the first request of the queue is the one of T2. -/
theorem lock_upgrade_effect_witness :
    (sharedByT2ThenT1.txns 1).state = TransactionState.GROWING ∧
      7 ∈ (sharedByT2ThenT1.txns 1).shared_lock_set ∧
      (sharedByT2ThenT1.LockUpgrade 1 7).2.lock_table 7
        = [⟨2, LockMode.SHARED, false⟩, ⟨1, LockMode.EXCLUSIVE, false⟩] ∧
      7 ∉ ((sharedByT2ThenT1.LockUpgrade 1 7).2.txns 1).shared_lock_set ∧
      7 ∈ ((sharedByT2ThenT1.LockUpgrade 1 7).2.txns 1).exclusive_lock_set :=
  have h := (lock_upgrade_effect sharedByT2ThenT1 1 7).2 (by decide) (by decide)
    [⟨2, LockMode.SHARED, false⟩] ⟨1, LockMode.SHARED, false⟩ [] (by decide) (by decide) rfl rfl
  ⟨by decide, by decide, h.1, h.2.2.1, h.2.2.2.1⟩

/-- C30, counterexample. T1 and then T2 are granted SHARED on row 7, both GROWING.
LockUpgrade(T1, 7) turns the first request of the queue, which is the one of T1, into EXCLUSIVE
and returns true at once, although the request of T2 is still in the queue: the wait predicate
only asks whether the first request is the caller's. -/
theorem upgrade_granted_beside_reader :
    sharedByT1ThenT2.lock_table 7
        = [⟨1, LockMode.SHARED, false⟩, ⟨2, LockMode.SHARED, false⟩] ∧
      (sharedByT1ThenT2.txns 2).state = TransactionState.GROWING ∧
      (sharedByT1ThenT2.LockUpgrade 1 7).1 = LockResult.returned true ∧
      ¬ UpgradeWaitsForOthers sharedByT1ThenT2 1 7 := by
  refine ⟨by decide, by decide, by decide, fun h => ?_⟩
  exact h ⟨⟨2, LockMode.SHARED, false⟩, by decide, by decide, by decide⟩ (by decide)

/-- C30, amended. Upgrade waits for the head of the queue: if T2 and then T1 (T1 GROWING, with R
in its shared lock set) have requests on row R, the requests ahead of the first request of T1
being requests of T2, then LockUpgrade(T1, R) is not granted while a request of T2 is ahead of
the request of T1: the wait predicate of the upgrade is true for every queue whose first
request belongs to another transaction (or that is empty) and false for every queue whose first
request is the caller's, the call blocks, and the predicate is true on the queue it leaves. -/
theorem upgrade_waits_for_queue_head (s : LockManager) (t1 t2 rid : Nat)
    (hne : t1 ≠ t2) (hg : (s.txns t1).state = TransactionState.GROWING)
    (hs : rid ∈ (s.txns t1).shared_lock_set)
    (ahead : List LockRequest) (e : LockRequest) (behind : List LockRequest)
    (hq : s.lock_table rid = ahead ++ e :: behind) (hne0 : ahead ≠ [])
    (hahead : ∀ x ∈ ahead, x.txn_id = t2) (he : e.txn_id = t1) :
    (∀ queue, UpdateWait t1 queue = true ↔ ∀ first, queue.head? = some first →
        first.txn_id ≠ t1) ∧
      (s.LockUpgrade t1 rid).1 = LockResult.blocked ∧
      UpdateWait t1 ((s.LockUpgrade t1 rid).2.lock_table rid) = true := by
  have hids : ((upgradeFirstShared t1 (s.lock_table rid)).2).map LockRequest.txn_id
      = ahead.map LockRequest.txn_id ++ t1 :: behind.map LockRequest.txn_id := by
    rw [upgradeFirstShared_txn_ids, hq, List.map_append, List.map_cons, he]
  have hwait : UpdateWait t1 (upgradeFirstShared t1 (s.lock_table rid)).2 = true := by
    rw [UpdateWait_eq, hids]
    cases ahead with
    | nil => exact absurd rfl hne0
    | cons x rest =>
      have hx : x.txn_id = t2 := hahead x (List.mem_cons_self _ _)
      simp [hx, Ne.symm hne]
  have hq1 : (s.LockUpgrade t1 rid).2.lock_table rid
      = (upgradeFirstShared t1 (s.lock_table rid)).2 := (LockUpgrade_slow s t1 rid hg hs).2
  have hres : (s.LockUpgrade t1 rid).1 = LockResult.blocked := by
    rw [(LockUpgrade_slow s t1 rid hg hs).1, hwait]
    rfl
  refine ⟨fun queue => ?_, hres, by rw [hq1]; exact hwait⟩
  cases queue with
  | nil => simp [UpdateWait]
  | cons first rest =>
    by_cases hf : first.txn_id = t1 <;> simp [UpdateWait, hf]

/-- Witness of C30 (amended): T2 and then T1 hold SHARED on row 7; LockUpgrade by T1 blocks and
leaves the queue [T2 SHARED, T1 EXCLUSIVE], on which the wait predicate of T1 is true. -/
theorem upgrade_waits_for_queue_head_witness :
    (sharedByT2ThenT1.txns 1).state = TransactionState.GROWING ∧
      7 ∈ (sharedByT2ThenT1.txns 1).shared_lock_set ∧
      (sharedByT2ThenT1.LockUpgrade 1 7).1 = LockResult.blocked ∧
      UpdateWait 1 ((sharedByT2ThenT1.LockUpgrade 1 7).2.lock_table 7) = true :=
  have h := upgrade_waits_for_queue_head sharedByT2ThenT1 1 2 7 (by decide)
    (by decide) (by decide) [⟨2, LockMode.SHARED, false⟩] ⟨1, LockMode.SHARED, false⟩ []
    (by decide) (by decide) (by decide) rfl
  ⟨by decide, by decide, h.2.1, h.2.2⟩

/-! ## Bucket page: bitmaps -/

section BucketBits

variable {K V : Type}

theorem IsOccupied_eq_testBit (b : HashTableBucketPage K V) (i : Nat) :
    b.IsOccupied i = (b.occupied_.getD (i / 8) 0).testBit (i % 8) := by
  unfold HashTableBucketPage.IsOccupied
  by_cases h : (b.occupied_.getD (i / 8) 0).testBit (i % 8) = true
  · rw [h]; exact decide_eq_true ((mask_and_pos_iff _ _).mpr h)
  · have h2 : (b.occupied_.getD (i / 8) 0).testBit (i % 8) = false := by simpa using h
    rw [h2]
    exact decide_eq_false (fun hp => h ((mask_and_pos_iff _ _).mp hp))

theorem IsOccupied_SetReadable (b : HashTableBucketPage K V) (i : Nat) (st : Bool) (j : Nat) :
    (b.SetReadable i st).IsOccupied j = b.IsOccupied j := rfl

theorem IsOccupied_SetOccupied_true (b : HashTableBucketPage K V) {i : Nat}
    (h : i / 8 < b.occupied_.length) (j : Nat) :
    (b.SetOccupied i true).IsOccupied j = (decide (j = i) || b.IsOccupied j) := by
  rw [IsOccupied_eq_testBit, IsOccupied_eq_testBit]
  simp only [HashTableBucketPage.SetOccupied, if_true]
  by_cases hq : i / 8 = j / 8
  · rw [hq, getD_set_self _ _ _ _ (hq ▸ h), Nat.testBit_or, Nat.one_shiftLeft,
      Nat.testBit_two_pow]
    by_cases hr : i % 8 = j % 8
    · have : j = i := by omega
      simp [hr, this]
    · have : j ≠ i := fun e => hr (by rw [e])
      simp [hr, this]
  · rw [getD_set_ne _ _ _ hq]
    have : j ≠ i := fun e => hq (by rw [e])
    simp [this]

/-- Bit `m` of the byte mask that `SetReadable(idx, false)` and `SetOccupied(idx, false)` use. -/
theorem clear_mask_testBit (idx m : Nat) (hidx : idx < 8) (hm : m < 8) :
    (255 - 1 <<< idx).testBit m = decide (m ≠ idx) := by
  interval_cases idx <;> interval_cases m <;> rfl

theorem IsReadable_SetReadable_false (b : HashTableBucketPage K V) {i : Nat}
    (h : i / 8 < b.readable_.length) (j : Nat) :
    (b.SetReadable i false).IsReadable j = (decide (j ≠ i) && b.IsReadable j) := by
  rw [IsReadable_eq_testBit, IsReadable_eq_testBit]
  simp only [HashTableBucketPage.SetReadable, Bool.false_eq_true, if_false]
  by_cases hq : i / 8 = j / 8
  · rw [hq, getD_set_self _ _ _ _ (hq ▸ h), Nat.testBit_and,
      clear_mask_testBit _ _ (Nat.mod_lt _ (by decide)) (Nat.mod_lt _ (by decide))]
    by_cases hr : j % 8 = i % 8
    · have : j = i := by omega
      simp [hr, this]
    · have : j ≠ i := fun e => hr (by rw [e])
      simp [hr, this, Bool.and_comm]
  · rw [getD_set_ne _ _ _ hq]
    have : j ≠ i := fun e => hq (by rw [e])
    simp [this]

theorem IsReadable_RemoveAt (b : HashTableBucketPage K V) {i : Nat}
    (h : i / 8 < b.readable_.length) (j : Nat) :
    (b.RemoveAt i).IsReadable j = (decide (j ≠ i) && b.IsReadable j) := by
  unfold HashTableBucketPage.RemoveAt
  rw [IsReadable_SetReadable_false _ (by exact h), IsReadable_SetOccupied]

theorem IsOccupied_RemoveAt (b : HashTableBucketPage K V) {i : Nat}
    (h : i / 8 < b.occupied_.length) (j : Nat) :
    (b.RemoveAt i).IsOccupied j = (decide (j = i) || b.IsOccupied j) := by
  unfold HashTableBucketPage.RemoveAt
  rw [IsOccupied_SetReadable, IsOccupied_SetOccupied_true _ h]

theorem array_RemoveAt (b : HashTableBucketPage K V) (i : Nat) :
    (b.RemoveAt i).array_ = b.array_ := rfl

theorem IsReadable_Clear (N : Nat) (b : HashTableBucketPage K V) (i : Nat) :
    (b.Clear N).IsReadable i = false := by
  rw [IsReadable_eq_testBit]
  have : (List.replicate ((N - 1) / 8 + 1) 0).getD (i / 8) 0 = 0 := by
    rw [List.getD_eq_getElem?_getD]
    cases h : (List.replicate ((N - 1) / 8 + 1) 0)[i / 8]? with
    | none => rfl
    | some x =>
      have := List.getElem?_mem h
      rw [List.mem_replicate] at this
      simp [this.2]
  simp only [HashTableBucketPage.Clear, this, Nat.zero_testBit]

theorem slot_byte_lt {N i : Nat} (hi : i < N) : i / 8 < (N - 1) / 8 + 1 := by omega

end BucketBits

/-! ## Bucket page: Insert, Remove, NumReadable -/

section BucketOps

variable {K V : Type} [DecidableEq K] [DecidableEq V] [Inhabited K] [Inhabited V]

/-- `Insert` on a bucket that does not hold the pair and has no free slot. -/
theorem Insert_no_slot (N : Nat) (b : HashTableBucketPage K V) (key : K) (value : V)
    (h : ¬ b.Holds N (key, value)) (hfull : ¬ ∃ i, i < N ∧ b.IsReadable i = false) :
    b.Insert N key value = (false, b) := by
  have hscan := InsertScan_fresh b key value (List.range N) none (by
    intro i hi hr he
    apply h
    refine ⟨i, List.mem_range.mp hi, hr, ?_⟩
    simp only [HashTableBucketPage.KeyAt, HashTableBucketPage.ValueAt] at he
    exact Prod.ext he.1.symm he.2.symm)
  simp only at hscan
  have hf : (List.range N).find? (fun i => !b.IsReadable i) = none := by
    rw [List.find?_eq_none]
    intro i hi hr
    exact hfull ⟨i, List.mem_range.mp hi, by simpa using hr⟩
  unfold HashTableBucketPage.Insert
  rw [hscan, hf]

omit [DecidableEq K] [DecidableEq V] in
/-- The bucket after `Insert` has put the pair into slot `i0`. -/
theorem inserted_slot (N : Nat) (b : HashTableBucketPage K V) (hb : b.Sized N) (key : K)
    (value : V) {i0 : Nat} (hi0 : i0 < N) :
    (∀ j, (HashTableBucketPage.IsReadable
        { (b.SetOccupied i0 true).SetReadable i0 true with
          array_ := ((b.SetOccupied i0 true).SetReadable i0 true).array_.set i0 (key, value) } j)
        = (decide (j = i0) || b.IsReadable j)) ∧
    (∀ j, (HashTableBucketPage.IsOccupied
        { (b.SetOccupied i0 true).SetReadable i0 true with
          array_ := ((b.SetOccupied i0 true).SetReadable i0 true).array_.set i0 (key, value) } j)
        = (decide (j = i0) || b.IsOccupied j)) ∧
    (∀ j, (((b.SetOccupied i0 true).SetReadable i0 true).array_.set i0
        (key, value)).getD j default = if j = i0 then (key, value) else b.array_.getD j default) ∧
    HashTableBucketPage.Sized N
      { (b.SetOccupied i0 true).SetReadable i0 true with
        array_ := ((b.SetOccupied i0 true).SetReadable i0 true).array_.set i0 (key, value) } := by
  have hlen : i0 / 8 < (b.SetOccupied i0 true).readable_.length := by
    show i0 / 8 < b.readable_.length
    rw [hb.len_readable]
    exact slot_byte_lt hi0
  have hleno : i0 / 8 < b.occupied_.length := by
    rw [hb.len_occupied]
    exact slot_byte_lt hi0
  refine ⟨fun j => ?_, fun j => ?_, fun j => ?_, ?_, ?_, ?_⟩
  · have := IsReadable_SetReadable_true (b.SetOccupied i0 true) hlen j
    rw [IsReadable_SetOccupied] at this
    exact this
  · have := IsOccupied_SetOccupied_true b hleno j
    exact this
  · show (b.array_.set i0 (key, value)).getD j default = _
    by_cases hj : j = i0
    · subst hj
      rw [if_pos rfl, getD_set_self _ _ _ _ (by rw [hb.len_array]; exact hi0)]
    · rw [if_neg hj, getD_set_ne _ _ _ (Ne.symm hj)]
  · show (b.occupied_.set _ _).length = _
    rw [List.length_set, hb.len_occupied]
  · show (b.readable_.set _ _).length = _
    rw [List.length_set, hb.len_readable]
  · show (b.array_.set _ _).length = _
    rw [List.length_set, hb.len_array]

/-- The three ways `Insert` ends. -/
theorem Insert_cases (N : Nat) (b : HashTableBucketPage K V) (hb : b.Sized N) (key : K)
    (value : V) :
    ((b.Holds N (key, value) ∨ ¬ ∃ i, i < N ∧ b.IsReadable i = false) ∧
        b.Insert N key value = (false, b)) ∨
      (¬ b.Holds N (key, value) ∧ ∃ i0, i0 < N ∧ b.IsReadable i0 = false ∧
        (b.Insert N key value).1 = true ∧ (b.Insert N key value).2.Sized N ∧
        (∀ j, (b.Insert N key value).2.IsReadable j = (decide (j = i0) || b.IsReadable j)) ∧
        (∀ j, (b.Insert N key value).2.IsOccupied j = (decide (j = i0) || b.IsOccupied j)) ∧
        (∀ j, (b.Insert N key value).2.array_.getD j default
          = if j = i0 then (key, value) else b.array_.getD j default)) := by
  by_cases hh : b.Holds N (key, value)
  · exact Or.inl ⟨Or.inl hh, Insert_dup N b key value hh⟩
  · by_cases hfree : ∃ i, i < N ∧ b.IsReadable i = false
    · obtain ⟨i0, hi0, hr0, heq⟩ := Insert_fresh N b key value hh hfree
      obtain ⟨h1, h2, h3, h4⟩ := inserted_slot N b hb key value hi0
      refine Or.inr ⟨hh, i0, hi0, hr0, ?_, ?_, ?_, ?_, ?_⟩
      · rw [heq]
      · rw [heq]; exact h4
      · rw [heq]; exact h1
      · rw [heq]; exact h2
      · rw [heq]; exact h3
    · exact Or.inl ⟨Or.inr hfree, Insert_no_slot N b key value hh hfree⟩

omit [Inhabited K] [Inhabited V] in
/-- The loop of `Remove` stops at a readable slot holding the pair, if there is one. -/
theorem RemoveScan_some (b : HashTableBucketPage K V) [Inhabited K] [Inhabited V] (key : K)
    (value : V) :
    ∀ (l : List Nat) (i : Nat), b.RemoveScan key value l = some i →
      i ∈ l ∧ b.IsReadable i = true ∧ key = b.KeyAt i ∧ value = b.ValueAt i
  | [], i, h => by cases h
  | x :: rest, i, h => by
    unfold HashTableBucketPage.RemoveScan at h
    by_cases hx : b.IsReadable x = true ∧ key = b.KeyAt x ∧ value = b.ValueAt x
    · rw [if_pos hx] at h
      cases Option.some.inj h
      exact ⟨List.mem_cons_self _ _, hx⟩
    · rw [if_neg hx] at h
      obtain ⟨h1, h2⟩ := RemoveScan_some b key value rest i h
      exact ⟨List.mem_cons_of_mem _ h1, h2⟩

omit [Inhabited K] [Inhabited V] in
theorem RemoveScan_none (b : HashTableBucketPage K V) [Inhabited K] [Inhabited V] (key : K)
    (value : V) :
    ∀ (l : List Nat), b.RemoveScan key value l = none →
      ∀ i ∈ l, ¬ (b.IsReadable i = true ∧ key = b.KeyAt i ∧ value = b.ValueAt i)
  | [], _, i, hi => by cases hi
  | x :: rest, h, i, hi => by
    unfold HashTableBucketPage.RemoveScan at h
    by_cases hx : b.IsReadable x = true ∧ key = b.KeyAt x ∧ value = b.ValueAt x
    · rw [if_pos hx] at h
      cases h
    · rw [if_neg hx] at h
      rcases List.mem_cons.mp hi with rfl | hi
      · exact hx
      · exact RemoveScan_none b key value rest h i hi

/-- The two ways `Remove` ends. -/
theorem Remove_cases (N : Nat) (b : HashTableBucketPage K V) (key : K) (value : V) :
    (¬ b.Holds N (key, value) ∧ b.Remove N key value = (false, b)) ∨
      (∃ i, i < N ∧ b.IsReadable i = true ∧ b.array_.getD i default = (key, value) ∧
        b.Remove N key value = (true, b.RemoveAt i)) := by
  cases hs : b.RemoveScan key value (List.range N) with
  | none =>
    refine Or.inl ⟨?_, by unfold HashTableBucketPage.Remove; rw [hs]⟩
    rintro ⟨i, hi, hr, ha⟩
    refine RemoveScan_none b key value _ hs i (List.mem_range.mpr hi) ⟨hr, ?_⟩
    simp only [HashTableBucketPage.KeyAt, HashTableBucketPage.ValueAt, ha, and_self]
  | some i =>
    obtain ⟨h1, h2, h3, h4⟩ := RemoveScan_some b key value _ i hs
    refine Or.inr ⟨i, List.mem_range.mp h1, h2, ?_, by
      unfold HashTableBucketPage.Remove; rw [hs]⟩
    simp only [HashTableBucketPage.KeyAt, HashTableBucketPage.ValueAt] at h3 h4
    exact Prod.ext h3.symm h4.symm

omit [DecidableEq K] [DecidableEq V] [Inhabited K] [Inhabited V] in
theorem countLowBits_eq : ∀ (n ic : Nat),
    countLowBits n ic = ((List.range n).filter (fun j => ic.testBit j)).length
  | 0, _ => rfl
  | n + 1, ic => by
    unfold countLowBits
    rw [countLowBits_eq n (ic >>> 1), List.range_succ_eq_map]
    have h0 : (ic &&& 1 > 0) ↔ ic.testBit 0 = true := by
      rw [Nat.testBit_zero, Nat.and_one_is_mod]
      have : ic % 2 < 2 := Nat.mod_lt _ (by decide)
      constructor
      · intro h
        have : ic % 2 = 1 := by omega
        simp [this]
      · intro h
        have : ic % 2 = 1 := by simpa using h
        omega
    have hf : ((fun j => ic.testBit j) ∘ Nat.succ) = (fun j => (ic >>> 1).testBit j) := by
      funext j
      simp only [Function.comp, Nat.testBit_shiftRight, Nat.succ_eq_add_one]
      rw [Nat.add_comm]
    by_cases hb : ic.testBit 0 = true
    · rw [if_pos (h0.mpr hb), List.filter_cons_of_pos hb, List.length_cons, List.filter_map,
        List.length_map, hf]
      omega
    · rw [if_neg (fun h => hb (h0.mp h)), List.filter_cons_of_neg hb, List.filter_map,
        List.length_map, hf]
      omega

omit [DecidableEq K] [DecidableEq V] [Inhabited K] [Inhabited V] in
/-- The readable slots among the first `8 * t` slots, counted byte by byte. -/
theorem count_full_bytes (b : HashTableBucketPage K V) : ∀ t : Nat,
    (List.range t).foldl (fun n i => n + countLowBits 8 (b.readable_.getD i 0)) 0
      = ((List.range (8 * t)).filter (fun i => b.IsReadable i)).length
  | 0 => rfl
  | t + 1 => by
    rw [List.range_succ, List.foldl_append, count_full_bytes b t]
    have hsplit : List.range (8 * (t + 1)) = List.range (8 * t) ++ (List.range 8).map (8 * t + ·) := by
      rw [show 8 * (t + 1) = 8 * t + 8 by ring, List.range_add]
    simp only [List.foldl_cons, List.foldl_nil]
    rw [hsplit, List.filter_append, List.length_append, List.filter_map, List.length_map,
      countLowBits_eq]
    congr 1
    apply congrArg
    apply List.filter_congr
    intro j hj
    have hj8 : j < 8 := List.mem_range.mp hj
    simp only [Function.comp]
    rw [IsReadable_eq_testBit]
    have h1 : (8 * t + j) / 8 = t := by omega
    have h2 : (8 * t + j) % 8 = j := by omega
    rw [h1, h2]

omit [DecidableEq K] [DecidableEq V] [Inhabited K] [Inhabited V] in
/-- `NumReadable` is the number of readable slots. -/
theorem NumReadable_eq (N : Nat) (b : HashTableBucketPage K V) :
    b.NumReadable N = ((List.range N).filter (fun i => b.IsReadable i)).length := by
  unfold HashTableBucketPage.NumReadable
  simp only
  rw [count_full_bytes b (N / 8)]
  have hN : N = 8 * (N / 8) + N % 8 := (Nat.div_add_mod N 8).symm
  have hsplit : List.range N
      = List.range (8 * (N / 8)) ++ (List.range (N % 8)).map (8 * (N / 8) + ·) := by
    conv_lhs => rw [hN]
    rw [List.range_add]
  by_cases hr : N % 8 > 0
  · rw [if_pos hr, countLowBits_eq]
    conv_rhs => rw [hsplit]
    rw [List.filter_append, List.length_append, List.filter_map, List.length_map]
    congr 1
    apply congrArg
    apply List.filter_congr
    intro j hj
    have hj8 : j < N % 8 := List.mem_range.mp hj
    have hlt : N % 8 < 8 := Nat.mod_lt _ (by decide)
    simp only [Function.comp]
    rw [IsReadable_eq_testBit]
    have h1 : (8 * (N / 8) + j) / 8 = N / 8 := by omega
    have h2 : (8 * (N / 8) + j) % 8 = j := by omega
    rw [h1, h2]
  · rw [if_neg hr]
    have h0 : N % 8 = 0 := by omega
    conv_rhs => rw [hsplit, h0]
    simp

omit [DecidableEq K] [DecidableEq V] [Inhabited K] [Inhabited V] in
/-- Switching a predicate on at one member of a duplicate-free list adds that member to the
filtered list. -/
theorem filter_switch_on {l : List Nat} (hnd : l.Nodup) {i0 : Nat} (hmem : i0 ∈ l)
    (p q : Nat → Bool) (hp : p i0 = false) (hq : ∀ j, q j = (decide (j = i0) || p j)) :
    List.Perm (l.filter q) (i0 :: l.filter p) := by
  induction l with
  | nil => cases hmem
  | cons x rest ih =>
    have hnd' := List.nodup_cons.mp hnd
    by_cases hx : x = i0
    · subst hx
      have hq0 : q x = true := by rw [hq]; simp
      rw [List.filter_cons_of_pos hq0, List.filter_cons_of_neg (by simp [hp])]
      have : rest.filter q = rest.filter p := by
        apply List.filter_congr
        intro j hj
        have : j ≠ x := fun e => hnd'.1 (e ▸ hj)
        rw [hq]; simp [this]
      rw [this]
    · have hrest : i0 ∈ rest := (List.mem_cons.mp hmem).resolve_left (fun e => hx e.symm)
      have hqx : q x = p x := by rw [hq]; simp [hx]
      by_cases hpx : p x = true
      · rw [List.filter_cons_of_pos (hqx ▸ hpx), List.filter_cons_of_pos hpx]
        exact ((ih hnd'.2 hrest).cons x).trans (List.Perm.swap _ _ _)
      · rw [List.filter_cons_of_neg (hqx ▸ hpx), List.filter_cons_of_neg hpx]
        exact ih hnd'.2 hrest

end BucketOps

/-! ## Bucket page: the invariant of reachable pages -/

section BucketInv

variable {K V : Type} [DecidableEq K] [DecidableEq V] [Inhabited K] [Inhabited V]

omit [DecidableEq K] [DecidableEq V] in
theorem Sized_zero (N : Nat) : (HashTableBucketPage.zero N : HashTableBucketPage K V).Sized N :=
  ⟨List.length_replicate _ _, List.length_replicate _ _, List.length_replicate _ _⟩

omit [DecidableEq K] [DecidableEq V] [Inhabited K] [Inhabited V] in
theorem Sized_RemoveAt (N : Nat) (b : HashTableBucketPage K V) (hb : b.Sized N) (i : Nat) :
    (b.RemoveAt i).Sized N := by
  refine ⟨?_, ?_, hb.len_array⟩
  · show (b.occupied_.set _ _).length = _
    rw [List.length_set, hb.len_occupied]
  · show (b.readable_.set _ _).length = _
    rw [List.length_set, hb.len_readable]

omit [DecidableEq K] [DecidableEq V] [Inhabited K] [Inhabited V] in
theorem Sized_Clear (N : Nat) (b : HashTableBucketPage K V) (hb : b.Sized N) :
    (b.Clear N).Sized N :=
  ⟨List.length_replicate _ _, List.length_replicate _ _, hb.len_array⟩

omit [DecidableEq K] [DecidableEq V] in
/-- `RemoveAt` on a slot of the page keeps the bitmap invariant. -/
theorem BitmapInvariant_RemoveAt (N : Nat) (b : HashTableBucketPage K V) (hb : b.Sized N)
    (hinv : b.BitmapInvariant N) {i : Nat} (hi : i < N) : (b.RemoveAt i).BitmapInvariant N := by
  have hlr : i / 8 < b.readable_.length := by rw [hb.len_readable]; exact slot_byte_lt hi
  have hlo : i / 8 < b.occupied_.length := by rw [hb.len_occupied]; exact slot_byte_lt hi
  refine ⟨fun j hj hr => ?_, fun j k hj hk hrj hrk he => ?_⟩
  · rw [IsReadable_RemoveAt b hlr] at hr
    rw [IsOccupied_RemoveAt b hlo]
    have hr2 : b.IsReadable j = true := by
      simp only [Bool.and_eq_true] at hr
      exact hr.2
    rw [hinv.1 j hj hr2, Bool.or_true]
  · rw [IsReadable_RemoveAt b hlr] at hrj hrk
    simp only [Bool.and_eq_true] at hrj hrk
    rw [array_RemoveAt] at he
    exact hinv.2 j k hj hk hrj.2 hrk.2 he

/-- `Insert` keeps the page sized and the bitmap invariant. -/
theorem BitmapInvariant_Insert (N : Nat) (b : HashTableBucketPage K V) (hb : b.Sized N)
    (hinv : b.BitmapInvariant N) (key : K) (value : V) :
    (b.Insert N key value).2.Sized N ∧ (b.Insert N key value).2.BitmapInvariant N := by
  rcases Insert_cases N b hb key value with ⟨_, heq⟩ | ⟨hh, i0, hi0, hr0, _, hs, hr, ho, ha⟩
  · rw [heq]; exact ⟨hb, hinv⟩
  · refine ⟨hs, fun j hj hrj => ?_, fun j k hj hk hrj hrk he => ?_⟩
    · rw [hr] at hrj
      rw [ho]
      by_cases hji : j = i0
      · simp [hji]
      · have : b.IsReadable j = true := by simpa [hji] using hrj
        rw [hinv.1 j hj this, Bool.or_true]
    · rw [hr] at hrj hrk
      rw [ha, ha] at he
      by_cases hji : j = i0
      · by_cases hki : k = i0
        · rw [hji, hki]
        · exfalso
          rw [if_pos hji, if_neg hki] at he
          have : b.IsReadable k = true := by simpa [hki] using hrk
          exact hh ⟨k, hk, this, he.symm⟩
      · by_cases hki : k = i0
        · exfalso
          rw [if_neg hji, if_pos hki] at he
          have : b.IsReadable j = true := by simpa [hji] using hrj
          exact hh ⟨j, hj, this, he⟩
        · rw [if_neg hji, if_neg hki] at he
          have h1 : b.IsReadable j = true := by simpa [hji] using hrj
          have h2 : b.IsReadable k = true := by simpa [hki] using hrk
          exact hinv.2 j k hj hk h1 h2 he

/-- Every reachable bucket page has its arrays at full length and satisfies the bitmap
invariant. -/
theorem ReachablePage_sized_invariant {N : Nat} {b : HashTableBucketPage K V}
    (h : HashTableBucketPage.ReachablePage N b) : b.Sized N ∧ b.BitmapInvariant N := by
  induction h with
  | zero =>
    refine ⟨Sized_zero N, fun i _ hr => ?_, fun i _ _ _ hr => ?_⟩
    · rw [IsReadable_zero] at hr; cases hr
    · rw [IsReadable_zero] at hr; cases hr
  | insert key value _ ih => exact BitmapInvariant_Insert N _ ih.1 ih.2 key value
  | @remove b key value _ ih =>
    rcases Remove_cases N b key value with ⟨_, heq⟩ | ⟨i, hi, _, _, heq⟩
    · rw [heq]; exact ih
    · rw [heq]; exact ⟨Sized_RemoveAt N b ih.1 i, BitmapInvariant_RemoveAt N b ih.1 ih.2 hi⟩
  | @removeAt b i hi _ ih =>
    exact ⟨Sized_RemoveAt N b ih.1 i, BitmapInvariant_RemoveAt N b ih.1 ih.2 hi⟩
  | @clear b _ ih =>
    refine ⟨Sized_Clear N b ih.1, fun i _ hr => ?_, fun i _ _ _ hr => ?_⟩
    · rw [IsReadable_Clear] at hr; cases hr
    · rw [IsReadable_Clear] at hr; cases hr

end BucketInv

/-! ## Bucket page: Insert, Remove and the bitmap invariant (C24, C25, C26) -/

section BucketClaims

variable {K V : Type} [DecidableEq K] [DecidableEq V] [Inhabited K] [Inhabited V]

omit [DecidableEq V] in
/-- The slots `GetValue` reads for `key`, after a pair has been put into the free slot `i0`. -/
theorem GetValue_inserted (N : Nat) (b b1 : HashTableBucketPage K V) (key : K) (value : V)
    {i0 : Nat} (hi0 : i0 < N) (hr0 : b.IsReadable i0 = false)
    (hr : ∀ j, b1.IsReadable j = (decide (j = i0) || b.IsReadable j))
    (ha : ∀ j, b1.array_.getD j default
      = if j = i0 then (key, value) else b.array_.getD j default) :
    (b1.GetValue N key).1 = true ∧
      List.Perm (b1.GetValue N key).2 ((b.GetValue N key).2 ++ [value]) ∧
      ∀ k, k ≠ key → b1.GetValue N k = b.GetValue N k := by
  have hperm : List.Perm
      ((List.range N).filter (fun i => b1.IsReadable i && decide (key = b1.KeyAt i)))
      (i0 :: (List.range N).filter (fun i => b.IsReadable i && decide (key = b.KeyAt i))) := by
    apply filter_switch_on (List.nodup_range N) (List.mem_range.mpr hi0)
    · simp only [hr0, Bool.false_and]
    · intro j
      simp only [HashTableBucketPage.KeyAt, hr, ha]
      by_cases hj : j = i0
      · simp [hj]
      · simp [hj]
  have hval : ∀ j, j ≠ i0 → b1.ValueAt j = b.ValueAt j := by
    intro j hj
    simp only [HashTableBucketPage.ValueAt, ha, if_neg hj]
  have hmap : ∀ (p : Nat → Bool), (∀ j, p j = true → b.IsReadable j = true) →
      ((List.range N).filter p).map b1.ValueAt = ((List.range N).filter p).map b.ValueAt := by
    intro p hp
    apply List.map_congr_left
    intro j hj
    apply hval
    intro e
    have := hp j (List.mem_filter.mp hj).2
    rw [e, hr0] at this
    cases this
  refine ⟨?_, ?_, ?_⟩
  · rw [GetValue_eq]
    simp only [List.any_eq_true, and_true]
    exact ⟨i0, hperm.symm.subset (List.mem_cons_self _ _)⟩
  · rw [GetValue_eq, GetValue_eq]
    simp only
    refine ((hperm.map b1.ValueAt).trans ?_).trans (List.perm_append_singleton _ _).symm
    rw [List.map_cons, hmap _ (fun j hj => by
      simp only [Bool.and_eq_true] at hj
      exact hj.1)]
    have : b1.ValueAt i0 = value := by
      simp only [HashTableBucketPage.ValueAt, ha, if_true]
    rw [this]
  · intro k hk
    have hfil : (List.range N).filter (fun i => b1.IsReadable i && decide (k = b1.KeyAt i))
        = (List.range N).filter (fun i => b.IsReadable i && decide (k = b.KeyAt i)) := by
      apply List.filter_congr
      intro j _
      simp only [HashTableBucketPage.KeyAt, hr, ha]
      by_cases hj : j = i0
      · simp [hj, hr0, hk]
      · simp [hj]
    rw [GetValue_eq, GetValue_eq, hfil, hmap _ (fun j hj => by
      simp only [Bool.and_eq_true] at hj
      exact hj.1)]

/-- C24. Bucket insert, for a bucket page whose arrays have the declared lengths: `Insert(k, v)`
returns true if and only if no readable slot holds the pair (k, v) and at least one slot is not
readable. When it returns false the bucket is unchanged. When it returns true, `GetValue(k)`
afterwards finds values, and they are the previous values of `k` plus `v` (as a permutation: the
new value stands where its slot is, not necessarily last); `GetValue` of every other key is
unchanged; and `NumReadable` grows by exactly 1. -/
theorem bucket_insert_effect (N : Nat) (b : HashTableBucketPage K V) (hb : b.Sized N) (key : K)
    (value : V) :
    ((b.Insert N key value).1 = true ↔
        (¬ b.Holds N (key, value) ∧ ∃ i, i < N ∧ b.IsReadable i = false)) ∧
      ((b.Insert N key value).1 = false → (b.Insert N key value).2 = b) ∧
      ((b.Insert N key value).1 = true →
        ((b.Insert N key value).2.GetValue N key).1 = true ∧
        List.Perm ((b.Insert N key value).2.GetValue N key).2
          ((b.GetValue N key).2 ++ [value]) ∧
        (∀ k, k ≠ key → (b.Insert N key value).2.GetValue N k = b.GetValue N k) ∧
        (b.Insert N key value).2.NumReadable N = b.NumReadable N + 1) := by
  rcases Insert_cases N b hb key value with ⟨hno, heq⟩ | ⟨hh, i0, hi0, hr0, htrue, _, hr, _, ha⟩
  · refine ⟨?_, fun _ => by rw [heq], fun h => ?_⟩
    · rw [heq]
      constructor
      · intro h; cases h
      · rintro ⟨h1, h2⟩
        rcases hno with h | h
        · exact absurd h h1
        · exact absurd h2 h
    · rw [heq] at h; cases h
  · refine ⟨⟨fun _ => ⟨hh, i0, hi0, hr0⟩, fun _ => htrue⟩, fun h => ?_, fun _ => ?_⟩
    · rw [htrue] at h; cases h
    · obtain ⟨h1, h2, h3⟩ := GetValue_inserted N b _ key value hi0 hr0 hr ha
      refine ⟨h1, h2, h3, ?_⟩
      rw [NumReadable_eq, NumReadable_eq]
      have := (filter_switch_on (List.nodup_range N) (List.mem_range.mpr hi0)
        (fun i => b.IsReadable i) (fun i => (b.Insert N key value).2.IsReadable i) hr0 hr).length_eq
      rw [this, List.length_cons]

/-- C24, witness: Insert of (1, 12) into the four-slot bucket that holds (1, 10), (2, 20) and
(1, 11). The call returns true, `GetValue(1)` then gives 10, 11 and 12, and four slots are
readable. -/
theorem bucket_insert_effect_witness :
    bucketThreePairs.Sized 4 ∧ (bucketThreePairs.Insert 4 1 12).1 = true ∧
      List.Perm ((bucketThreePairs.Insert 4 1 12).2.GetValue 4 1).2
        ((bucketThreePairs.GetValue 4 1).2 ++ [12]) ∧
      (bucketThreePairs.Insert 4 1 12).2.NumReadable 4 = bucketThreePairs.NumReadable 4 + 1 :=
  have hs : bucketThreePairs.Sized 4 := ⟨by decide, by decide, by decide⟩
  have ht : (bucketThreePairs.Insert 4 1 12).1 = true := by decide
  ⟨hs, ht, ((bucket_insert_effect 4 bucketThreePairs hs 1 12).2.2 ht).2.1,
    ((bucket_insert_effect 4 bucketThreePairs hs 1 12).2.2 ht).2.2.2⟩

/-- C25. Bucket remove, for every reachable bucket page: `Remove(k, v)` returns true if and only
if some readable slot holds the pair (k, v). In that case there is such a slot whose readable bit
is cleared, whose occupied bit was set and is set afterwards, every other slot keeps both bits,
the slot array is the same, and `GetValue(k)` afterwards does not contain `v`. When it returns
false the bucket is unchanged. -/
theorem bucket_remove_effect (N : Nat) (b : HashTableBucketPage K V)
    (hb : HashTableBucketPage.ReachablePage N b) (key : K) (value : V) :
    ((b.Remove N key value).1 = true ↔ b.Holds N (key, value)) ∧
      ((b.Remove N key value).1 = false → (b.Remove N key value).2 = b) ∧
      ((b.Remove N key value).1 = true →
        ∃ i, i < N ∧ b.IsReadable i = true ∧ b.array_.getD i default = (key, value) ∧
          b.IsOccupied i = true ∧
          (b.Remove N key value).2.IsReadable i = false ∧
          (b.Remove N key value).2.IsOccupied i = true ∧
          (∀ j, j ≠ i → (b.Remove N key value).2.IsReadable j = b.IsReadable j ∧
            (b.Remove N key value).2.IsOccupied j = b.IsOccupied j) ∧
          (b.Remove N key value).2.array_ = b.array_ ∧
          value ∉ ((b.Remove N key value).2.GetValue N key).2) := by
  obtain ⟨hs, hinv⟩ := ReachablePage_sized_invariant hb
  rcases Remove_cases N b key value with ⟨hno, heq⟩ | ⟨i, hi, hri, hai, heq⟩
  · refine ⟨?_, fun _ => by rw [heq], fun h => ?_⟩
    · rw [heq]
      exact ⟨fun h => (by cases h), fun h => absurd h hno⟩
    · rw [heq] at h; cases h
  · have hlr : i / 8 < b.readable_.length := by rw [hs.len_readable]; exact slot_byte_lt hi
    have hlo : i / 8 < b.occupied_.length := by rw [hs.len_occupied]; exact slot_byte_lt hi
    refine ⟨?_, fun h => ?_, fun _ => ?_⟩
    · rw [heq]
      exact ⟨fun _ => ⟨i, hi, hri, hai⟩, fun _ => rfl⟩
    · rw [heq] at h; cases h
    · rw [heq]
      refine ⟨i, hi, hri, hai, hinv.1 i hi hri, ?_, ?_, fun j hj => ⟨?_, ?_⟩, rfl, ?_⟩
      · show (b.RemoveAt i).IsReadable i = false
        rw [IsReadable_RemoveAt b hlr]
        simp
      · show (b.RemoveAt i).IsOccupied i = true
        rw [IsOccupied_RemoveAt b hlo]
        simp
      · show (b.RemoveAt i).IsReadable j = _
        rw [IsReadable_RemoveAt b hlr]
        simp [hj]
      · show (b.RemoveAt i).IsOccupied j = _
        rw [IsOccupied_RemoveAt b hlo]
        simp [hj]
      · show value ∉ ((b.RemoveAt i).GetValue N key).2
        rw [GetValue_eq]
        simp only [List.mem_map, List.mem_filter, List.mem_range, Bool.and_eq_true,
          decide_eq_true_eq, not_exists, not_and]
        rintro j ⟨hj, hrj, hk⟩ hv
        rw [IsReadable_RemoveAt b hlr] at hrj
        simp only [Bool.and_eq_true, decide_eq_true_eq] at hrj
        apply hrj.1
        apply hinv.2 j i hj hi hrj.2 hri
        rw [hai]
        simp only [HashTableBucketPage.KeyAt, HashTableBucketPage.ValueAt, array_RemoveAt] at hk hv
        exact Prod.ext hk.symm hv

/-- C25, witness: Remove of (1, 10) from the four-slot bucket that holds (1, 10), (2, 20) and
(1, 11). The call returns true and `GetValue(1)` afterwards does not contain 10. -/
theorem bucket_remove_effect_witness :
    HashTableBucketPage.ReachablePage 4 bucketThreePairs ∧
      (bucketThreePairs.Remove 4 1 10).1 = true ∧
      ∃ i, i < 4 ∧ (bucketThreePairs.Remove 4 1 10).2.IsReadable i = false ∧
        (bucketThreePairs.Remove 4 1 10).2.IsOccupied i = true ∧
        10 ∉ ((bucketThreePairs.Remove 4 1 10).2.GetValue 4 1).2 :=
  have hr : HashTableBucketPage.ReachablePage 4 bucketThreePairs :=
    HashTableBucketPage.ReachablePage.insert 1 11
      (HashTableBucketPage.ReachablePage.insert 2 20
        (HashTableBucketPage.ReachablePage.insert 1 10 HashTableBucketPage.ReachablePage.zero))
  have ht : (bucketThreePairs.Remove 4 1 10).1 = true := by decide
  ⟨hr, ht, by
    obtain ⟨i, hi, _, _, _, h1, h2, _, _, h3⟩ :=
      (bucket_remove_effect 4 bucketThreePairs hr 1 10).2.2 ht
    exact ⟨i, hi, h1, h2, h3⟩⟩

/-- C26. Bucket bitmap invariant: in every bucket page reachable from an all-zero page through
`Insert`, `Remove`, `RemoveAt` on a slot of the page, and `Clear`, every readable slot below
`BUCKET_ARRAY_SIZE` is occupied, and no two readable slots hold the same (key, value) pair. -/
theorem bucket_bitmap_invariant (N : Nat) (b : HashTableBucketPage K V)
    (hb : HashTableBucketPage.ReachablePage N b) : b.BitmapInvariant N :=
  (ReachablePage_sized_invariant hb).2

/-- C26, witness: the four-slot bucket after Insert of (1, 10), (2, 20), (1, 11), RemoveAt(1) and
Insert of (3, 30). -/
theorem bucket_bitmap_invariant_witness :
    HashTableBucketPage.ReachablePage 4 ((bucketThreePairs.RemoveAt 1).Insert 4 3 30).2 ∧
      ((bucketThreePairs.RemoveAt 1).Insert 4 3 30).2.BitmapInvariant 4 :=
  have hr : HashTableBucketPage.ReachablePage 4 ((bucketThreePairs.RemoveAt 1).Insert 4 3 30).2 :=
    HashTableBucketPage.ReachablePage.insert 3 30
      (HashTableBucketPage.ReachablePage.removeAt 1 (by decide)
        (HashTableBucketPage.ReachablePage.insert 1 11
          (HashTableBucketPage.ReachablePage.insert 2 20
            (HashTableBucketPage.ReachablePage.insert 1 10
              HashTableBucketPage.ReachablePage.zero))))
  ⟨hr, bucket_bitmap_invariant 4 _ hr⟩

end BucketClaims

/-! ## Hash table: directory depth under Insert and Remove (C21, C22), duplicate inserts (C23) -/

/-- With the identity as hash function, two-slot buckets and maximal depth 4, the calls of
`depthWrapCalls` on a fresh table return true, true, false, true, true, false and leave global
depth 3 and local depth 255 at directory index 7; a further Remove(7, 0) reads, in `Merge`, the
local depth of index `7 ^ (1 << 254)`. -/
theorem depthFour_wrap_run :
    (tableDepthFour.calls 10 depthWrapCalls).map (fun r =>
        (r.1, r.2.MAX_BUCKET_DEPTH, r.2.directory.global_depth_, r.2.directory.GetLocalDepth 7,
          r.2.RemoveImageRead 7 0))
      = some ([true, true, false, true, true, false], 4, 3, 255, some (7 ^^^ (1 <<< 254))) := by
  decide!

/-- With the identity as hash function, two-slot buckets and maximal depth 4, after Insert of
(0, 0) and (1, 1) the global depth is 0 and the bucket of key 2 is page 1; Insert(2, 2) returns
false and leaves global depth 4; Remove(0, 0) and Remove(1, 1) then return true, page 1 is empty
and the global depth is still 4. -/
theorem depthFour_split_then_removes :
    (tableDepthFour.calls 10 [TableCall.insert 0 0, TableCall.insert 1 1]).bind (fun r =>
        (r.2.Insert 10 2 2).bind (fun s =>
          (s.2.calls 10 [TableCall.remove 0 0, TableCall.remove 1 1]).map (fun u =>
            ([r.2.directory.global_depth_, s.2.directory.global_depth_,
                u.2.directory.global_depth_],
              r.2.KeyToPageId 2 r.2.directory, r.2.BUCKET_ARRAY_SIZE,
              s.1 :: (u.2.buckets 1).IsEmpty 2 :: u.1))))
      = some ([0, 4, 4], (1 : Int), (2 : Nat), [false, true, true, true]) := by
  decide!

/-- With the identity as hash function, two-slot buckets and maximal depth 4, after Insert of
(0, 0) and (1, 1) the bucket of key 0 is page 1, it is full and its slot 0 is readable and holds
(0, 0); Insert(0, 0) returns false and raises the global depth from 0 to 4. -/
theorem depthFour_duplicate_insert :
    (tableDepthFour.calls 10 [TableCall.insert 0 0, TableCall.insert 1 1]).bind (fun r =>
        (r.2.Insert 10 0 0).map (fun s =>
          (r.2.KeyToPageId 0 r.2.directory, r.2.BUCKET_ARRAY_SIZE,
            [(r.2.buckets 1).IsReadable 0, (r.2.buckets 1).IsFull 2, s.1],
            (r.2.buckets 1).array_.getD 0 default,
            [r.2.directory.global_depth_, s.2.directory.global_depth_])))
      = some ((1 : Int), (2 : Nat), [true, true, false], ((0 : Nat), (0 : Nat)), [0, 4]) := by
  decide!

/-- C21, the code at the failing input. BUCKET_ARRAY_SIZE 2, MAX_BUCKET_DEPTH 4, identity hash,
fresh table, Insert(15, 0), Insert(7, 0), Insert(7, 0), Remove(15, 0), Remove(7, 0),
Remove(7, 0): the calls return, the global depth is then 3, and the local depth of the live
directory entry 7 is 255, because the last `Merge` decremented it three times from 2. A further
Remove(7, 0) finds its bucket empty and calls `Merge`, which reads the local depth of directory
index `7 ^ (1 << 254)`; with the shift taken as it is written that index is not below the
directory array size 16. -/
theorem merge_wraps_local_depth :
    ∃ flags t, tableDepthFour.calls 10 depthWrapCalls = some (flags, t) ∧
      t.directory.global_depth_ = 3 ∧ t.directory.GetLocalDepth 7 = 255 ∧
      t.RemoveImageRead 7 0 = some (7 ^^^ (1 <<< 254)) ∧
      2 ^ t.MAX_BUCKET_DEPTH ≤ 7 ^^^ (1 <<< 254) ∧ ¬ t.DepthInRange := by
  obtain ⟨r, h1, h2⟩ := Option.map_eq_some'.mp depthFour_wrap_run
  obtain ⟨_, hmax, hgd, hld, hread⟩ : r.1 = [true, true, false, true, true, false] ∧
      r.2.MAX_BUCKET_DEPTH = 4 ∧ r.2.directory.global_depth_ = 3 ∧
      r.2.directory.GetLocalDepth 7 = 255 ∧
      r.2.RemoveImageRead 7 0 = some (7 ^^^ (1 <<< 254)) := by
    simp only [Prod.mk.injEq] at h2
    exact h2
  have hbig : 2 ^ r.2.MAX_BUCKET_DEPTH ≤ 7 ^^^ (1 <<< 254) := by
    rw [hmax]
    decide
  refine ⟨r.1, r.2, h1, hgd, hld, hread, hbig, fun hC => ?_⟩
  exact absurd (hC.2 7 0 _ hread) (Nat.not_lt.mpr hbig)

/-- C22, the code at the failing input. BUCKET_ARRAY_SIZE 2, MAX_BUCKET_DEPTH 4, identity hash,
fresh table, Insert of (0, 0) and (1, 1): the global depth is 0 and the one bucket is full.
Insert(2, 2) splits it, returns false and leaves global depth 4. Remove(0, 0) and Remove(1, 1)
then return true and leave the split bucket empty, so the second Remove calls `Merge`; the global
depth is still 4, not 0. -/
theorem split_then_merge_keeps_depth :
    ∃ flags t t1 t2,
      tableDepthFour.calls 10 [TableCall.insert 0 0, TableCall.insert 1 1] = some (flags, t) ∧
      t.directory.global_depth_ = 0 ∧
      t.Insert 10 2 2 = some (false, t1) ∧ t1.directory.global_depth_ = 4 ∧
      t1.calls 10 [TableCall.remove 0 0, TableCall.remove 1 1] = some ([true, true], t2) ∧
      (t2.buckets (t.KeyToPageId 2 t.directory)).IsEmpty t.BUCKET_ARRAY_SIZE = true ∧
      t2.directory.global_depth_ = 4 ∧
      ¬ t.SplitMergeRestoresDepth 2 2 [(0, 0), (1, 1)] := by
  obtain ⟨r, h1, h2⟩ := Option.bind_eq_some.mp depthFour_split_then_removes
  obtain ⟨s, h3, h4⟩ := Option.bind_eq_some.mp h2
  obtain ⟨u, h5, h6⟩ := Option.map_eq_some'.mp h4
  obtain ⟨⟨hg0, hg1, hg2⟩, hpage, hN, hres, hemp, hfl⟩ : (r.2.directory.global_depth_ = 0 ∧
      s.2.directory.global_depth_ = 4 ∧ u.2.directory.global_depth_ = 4) ∧
      r.2.KeyToPageId 2 r.2.directory = 1 ∧ r.2.BUCKET_ARRAY_SIZE = 2 ∧ s.1 = false ∧
      (u.2.buckets 1).IsEmpty 2 = true ∧ u.1 = [true, true] := by
    simp only [Prod.mk.injEq, List.cons.injEq, and_true] at h6
    exact h6
  have hins : r.2.Insert 10 2 2 = some (false, s.2) := by rw [h3, ← hres]
  have hrem : s.2.calls 10 [TableCall.remove 0 0, TableCall.remove 1 1]
      = some ([true, true], u.2) := by rw [h5, ← hfl]
  have hempty : (u.2.buckets (r.2.KeyToPageId 2 r.2.directory)).IsEmpty r.2.BUCKET_ARRAY_SIZE
      = true := by rw [hpage, hN]; exact hemp
  refine ⟨r.1, r.2, s.2, u.2, h1, hg0, hins, hg1, hrem, hempty, hg2, fun hC => ?_⟩
  have := hC 10 false s.2 hins (by rw [hg0, hg1]; decide) [true, true] u.2 hrem hempty
  rw [hg2, hg0] at this
  cases this

/-- C23, counterexample. BUCKET_ARRAY_SIZE 2, MAX_BUCKET_DEPTH 4, identity hash, fresh table,
Insert of (0, 0) and (1, 1): the bucket of key 0 holds the pair (0, 0) and is full. Insert(0, 0)
finds the bucket full before it looks for the pair, splits, and returns false with the global
depth raised from 0 to 4: the directory is not the same after the call as before. -/
theorem duplicate_insert_splits_full_bucket :
    ∃ flags t t1,
      tableDepthFour.calls 10 [TableCall.insert 0 0, TableCall.insert 1 1] = some (flags, t) ∧
      (t.buckets (t.KeyToPageId 0 t.directory)).Holds t.BUCKET_ARRAY_SIZE (0, 0) ∧
      (t.buckets (t.KeyToPageId 0 t.directory)).IsFull t.BUCKET_ARRAY_SIZE = true ∧
      t.Insert 10 0 0 = some (false, t1) ∧
      t.directory.global_depth_ = 0 ∧ t1.directory.global_depth_ = 4 ∧
      ¬ t.DuplicateInsertHarmless 0 0 := by
  obtain ⟨r, h1, h2⟩ := Option.bind_eq_some.mp depthFour_duplicate_insert
  obtain ⟨s, h3, h4⟩ := Option.map_eq_some'.mp h2
  obtain ⟨hpage, hN, ⟨hr0, hfull, hres⟩, ha0, hg0, hg1⟩ : r.2.KeyToPageId 0 r.2.directory = 1 ∧
      r.2.BUCKET_ARRAY_SIZE = 2 ∧ ((r.2.buckets 1).IsReadable 0 = true ∧
      (r.2.buckets 1).IsFull 2 = true ∧ s.1 = false) ∧
      (r.2.buckets 1).array_.getD 0 default = (0, 0) ∧ r.2.directory.global_depth_ = 0 ∧
      s.2.directory.global_depth_ = 4 := by
    simp only [Prod.mk.injEq, List.cons.injEq, and_true] at h4
    exact h4
  have hins : r.2.Insert 10 0 0 = some (false, s.2) := by rw [h3, ← hres]
  have hholds : (r.2.buckets (r.2.KeyToPageId 0 r.2.directory)).Holds r.2.BUCKET_ARRAY_SIZE
      (0, 0) := by
    rw [hpage, hN]
    exact ⟨0, by decide, hr0, ha0⟩
  have hf : (r.2.buckets (r.2.KeyToPageId 0 r.2.directory)).IsFull r.2.BUCKET_ARRAY_SIZE
      = true := by rw [hpage, hN]; exact hfull
  refine ⟨r.1, r.2, s.2, h1, hholds, hf, hins, hg0, hg1, fun hC => ?_⟩
  have := (hC hholds 10 false s.2 hins).2.1
  have hgd : s.2.directory.global_depth_ = r.2.directory.global_depth_ := by rw [this]
  rw [hg0, hg1] at hgd
  cases hgd

section DuplicateInsert

variable {K V : Type} [DecidableEq K] [DecidableEq V] [Inhabited K] [Inhabited V]

/-- C23, amended. Duplicate insert into the hash table: for every table state whose directory
page exists, in which the bucket of `k` holds the pair (k, v) and is not full, `Insert(k, v)`
returns false, whatever the bound on the number of splits, and the table after the call is the
table before it: the bucket's occupied bitmap, readable bitmap and slots, and the directory, are
the same. -/
theorem duplicate_insert_unchanged (t : ExtendibleHashTable K V) (key : K) (value : V)
    (hdir : t.directory_page_id_ ≠ INVALID_PAGE_ID)
    (hh : (t.buckets (t.KeyToPageId key t.directory)).Holds t.BUCKET_ARRAY_SIZE (key, value))
    (hnf : (t.buckets (t.KeyToPageId key t.directory)).IsFull t.BUCKET_ARRAY_SIZE = false)
    (fuel : Nat) : t.Insert fuel key value = some (false, t) := by
  unfold ExtendibleHashTable.Insert
  rw [FetchDirectoryPage_created hdir]
  simp only [hnf, Bool.false_eq_true, not_false_eq_true, if_true]
  rw [Insert_dup _ _ key value hh]
  simp only [Function.update_eq_self]

end DuplicateInsert

/-- Witness of C23 (amended): Insert(0, 0) on the table that holds the pair (0, 0) only. -/
theorem duplicate_insert_unchanged_witness :
    tableOnePair.directory_page_id_ ≠ INVALID_PAGE_ID ∧
      (tableOnePair.buckets (tableOnePair.KeyToPageId 0 tableOnePair.directory)).Holds
        tableOnePair.BUCKET_ARRAY_SIZE (0, 0) ∧
      (tableOnePair.buckets (tableOnePair.KeyToPageId 0 tableOnePair.directory)).IsFull
        tableOnePair.BUCKET_ARRAY_SIZE = false ∧
      tableOnePair.Insert 0 0 0 = some (false, tableOnePair) :=
  have hdir : tableOnePair.directory_page_id_ ≠ INVALID_PAGE_ID := by decide
  have hh : (tableOnePair.buckets (tableOnePair.KeyToPageId 0 tableOnePair.directory)).Holds
      tableOnePair.BUCKET_ARRAY_SIZE (0, 0) := ⟨0, by decide, by decide, by decide⟩
  have hnf : (tableOnePair.buckets (tableOnePair.KeyToPageId 0 tableOnePair.directory)).IsFull
      tableOnePair.BUCKET_ARRAY_SIZE = false := by decide
  ⟨hdir, hh, hnf, duplicate_insert_unchanged tableOnePair 0 0 hdir hh hnf 0⟩

/-! ## Hash table: what a split step and a merge leave in the directory (C31, C32) -/

/-- With the identity as hash function, two-slot buckets and maximal depth 4, after Insert of
(0, 0) and (1, 1) the directory index of key 2 is 0 with local depth 0, page id 1, and the next
page id is 2; the split step for key 2 leaves global depth 1, page id 1 in the entries 0 and 1
and local depth 1 in both. -/
theorem depthFour_first_split :
    (tableDepthFour.calls 10 [TableCall.insert 0 0, TableCall.insert 1 1]).bind (fun r =>
        (r.2.SplitStep 2).map (fun s =>
          ([r.2.KeyToDirectoryIndex 2 r.2.directory, r.2.directory.GetLocalDepth 0,
              s.directory.Size, s.directory.GetLocalDepth 0, s.directory.GetLocalDepth 1],
            [r.2.directory_page_id_, r.2.directory.GetBucketPageId 0, r.2.next_page_id,
              s.directory.GetBucketPageId 0, s.directory.GetBucketPageId 1])))
      = some ([0, 0, 2, 1, 1], [(0 : Int), 1, 2, 1, 1]) := by
  decide!

/-- With the identity as hash function, two-slot buckets and maximal depth 4, after the calls of
`splitThenRemoveCalls` the directory index of key 2 is 2 with local depth 4 and its split image
is 10; Remove(2, 2) calls `Merge`, which is not skipped and leaves, before the shrink test, local
depth 2 at entry 2 and local depth 3 at entry 10. -/
theorem depthFour_first_merge :
    (tableDepthFour.calls 10 splitThenRemoveCalls).bind (fun r =>
        (r.2.RemoveMergeRepoint 2 2).map (fun dir =>
          ([r.2.KeyToDirectoryIndex 2 r.2.directory, r.2.directory.GetLocalDepth 2,
              r.2.directory.GetSplitImageIndex 2, r.2.directory.GetLocalDepth 10,
              dir.GetLocalDepth 2, dir.GetLocalDepth 10],
            r.2.directory_page_id_)))
      = some ([2, 4, 10, 4, 2, 3], (0 : Int)) := by
  decide!

/-- C31, the code at the failing input. BUCKET_ARRAY_SIZE 2, MAX_BUCKET_DEPTH 4, identity hash,
fresh table, Insert of (0, 0) and (1, 1), then one split step for key 2: the directory index is
0 with local depth 0, so the image index is 1; the step allocates page 2 and leaves global depth
1, but the entry 1 holds page id 1, the page of the old bucket, not the new page 2. The
re-pointing the claim describes does not hold. -/
theorem split_step_points_image_at_old_page :
    ∃ flags t t1,
      tableDepthFour.calls 10 [TableCall.insert 0 0, TableCall.insert 1 1] = some (flags, t) ∧
      t.SplitStep 2 = some t1 ∧ t.next_page_id = 2 ∧ t1.directory.Size = 2 ∧
      t1.directory.GetBucketPageId 0 = 1 ∧ t1.directory.GetBucketPageId 1 = 1 ∧
      ¬ t.SplitRepoints 2 := by
  obtain ⟨r, h1, h2⟩ := Option.bind_eq_some.mp depthFour_first_split
  obtain ⟨s, h3, h4⟩ := Option.map_eq_some'.mp h2
  obtain ⟨⟨hidx, hd, hsize, _, _⟩, hdir, hp0, hnext, hq0, hq1⟩ :
      (r.2.KeyToDirectoryIndex 2 r.2.directory = 0 ∧ r.2.directory.GetLocalDepth 0 = 0 ∧
        s.directory.Size = 2 ∧ s.directory.GetLocalDepth 0 = 1 ∧
        s.directory.GetLocalDepth 1 = 1) ∧
      r.2.directory_page_id_ = 0 ∧ r.2.directory.GetBucketPageId 0 = 1 ∧
      r.2.next_page_id = 2 ∧ s.directory.GetBucketPageId 0 = 1 ∧
      s.directory.GetBucketPageId 1 = 1 := by
    simp only [Prod.mk.injEq, List.cons.injEq, and_true] at h4
    exact h4
  refine ⟨r.1, r.2, s, h1, h3, hnext, hsize, hq0, hq1, fun hC => ?_⟩
  have hcreated : r.2.FetchDirectoryPage = r.2 :=
    FetchDirectoryPage_created (by rw [hdir]; decide)
  have h := (hC s h3).2.1 1 (by rw [hsize]; decide)
  simp only [hcreated, hidx, hd] at h
  have h5 := (h (by decide)).1
  rw [hq1, hnext] at h5
  cases h5

/-- C32, the code at the failing input. BUCKET_ARRAY_SIZE 2, MAX_BUCKET_DEPTH 4, identity hash,
fresh table, Insert of (0, 0), (1, 1), (2, 2), Remove(0, 0), Remove(1, 1): the entry 2 of key 2
has local depth 4, its split image 10 has local depth 4 and the bucket is empty. Remove(2, 2)
calls `Merge`, which is not skipped; before the shrink test the entry 10 has local depth 3 but
the entry 2 has local depth 2: it was decremented twice. -/
theorem merge_decrements_twice :
    ∃ flags t dir, tableDepthFour.calls 10 splitThenRemoveCalls = some (flags, t) ∧
      t.directory.GetLocalDepth 2 = 4 ∧ t.directory.GetSplitImageIndex 2 = 10 ∧
      t.directory.GetLocalDepth 10 = 4 ∧
      t.RemoveMergeRepoint 2 2 = some dir ∧
      dir.GetLocalDepth 2 = 2 ∧ dir.GetLocalDepth 10 = 3 ∧
      ¬ t.MergePostcondition 2 2 := by
  obtain ⟨r, h1, h2⟩ := Option.bind_eq_some.mp depthFour_first_merge
  obtain ⟨dir, h3, h4⟩ := Option.map_eq_some'.mp h2
  obtain ⟨⟨hidx, hd, himg, hdi, hl2, hl10⟩, hdir⟩ :
      (r.2.KeyToDirectoryIndex 2 r.2.directory = 2 ∧ r.2.directory.GetLocalDepth 2 = 4 ∧
        r.2.directory.GetSplitImageIndex 2 = 10 ∧ r.2.directory.GetLocalDepth 10 = 4 ∧
        dir.GetLocalDepth 2 = 2 ∧ dir.GetLocalDepth 10 = 3) ∧
      r.2.directory_page_id_ = 0 := by
    simp only [Prod.mk.injEq, List.cons.injEq, and_true] at h4
    exact h4
  refine ⟨r.1, r.2, dir, h1, hd, himg, hdi, h3, hl2, hl10, fun hC => ?_⟩
  have hcreated : r.2.FetchDirectoryPage = r.2 :=
    FetchDirectoryPage_created (by rw [hdir]; decide)
  have h := (hC dir h3).2.1
  simp only [hcreated, hidx, hd] at h
  rw [hl2] at h
  cases h

/-! ## Lock manager: the granted flag (C35), requests behind the caller (C40) -/

/-- C35, the code at the failing input. Fresh lock manager, LockShared by T1 on row 7: the call
enqueues a request and returns true, and T1 is GROWING, but the request in the queue of row 7
still has granted = false: the loop that sets the flag works on copies of the requests. The same
holds of LockExclusive by T1 on row 7 of the fresh lock manager, and of LockUpgrade by T1 after
its LockShared, which sets the flag on a local copy of the upgraded request. -/
theorem grant_is_not_recorded :
    7 ∉ (freshLockManager.txns 1).shared_lock_set ∧
      (freshLockManager.LockShared 1 7).1 = LockResult.returned true ∧
      (freshLockManager.LockShared 1 7).2.lock_table 7 = [⟨1, LockMode.SHARED, false⟩] ∧
      ((freshLockManager.LockShared 1 7).2.txns 1).state = TransactionState.GROWING ∧
      ¬ GrantRecordedShared freshLockManager 1 7 ∧
      (freshLockManager.LockExclusive 1 7).1 = LockResult.returned true ∧
      (freshLockManager.LockExclusive 1 7).2.lock_table 7 = [⟨1, LockMode.EXCLUSIVE, false⟩] ∧
      ((freshLockManager.LockShared 1 7).2.LockUpgrade 1 7).1 = LockResult.returned true ∧
      ((freshLockManager.LockShared 1 7).2.LockUpgrade 1 7).2.lock_table 7
        = [⟨1, LockMode.EXCLUSIVE, false⟩] := by
  refine ⟨by decide, by decide, by decide, by decide, fun h => ?_, by decide, by decide,
    by decide, by decide⟩
  obtain ⟨⟨e, he, _, hg⟩, _⟩ := h (by decide) (by decide)
  have hq : (freshLockManager.LockShared 1 7).2.lock_table 7 = [⟨1, LockMode.SHARED, false⟩] := by
    decide
  rw [hq, List.mem_singleton] at he
  rw [he] at hg
  cases hg

/-- C40, the code at the failing input. Row queue [T1 SHARED, T2 EXCLUSIVE]: NeedWait for T2
returns true (T1 is older). With a SHARED request of T3 appended behind the request of T2,
NeedWait for T2 takes the request of T3 as `self`, finds the first request SHARED and returns
false. -/
theorem need_wait_judges_last_request :
    (NeedWait growingTxns 2 queueT2WaitsForT1).need_wait = true ∧
      (NeedWait growingTxns 2
        (queueT2WaitsForT1 ++ [⟨3, LockMode.SHARED, false⟩])).need_wait = false ∧
      ¬ NeedWaitIgnoresBehind growingTxns 2 queueT2WaitsForT1 [⟨3, LockMode.SHARED, false⟩] := by
  refine ⟨by decide, by decide, fun h => ?_⟩
  have h1 := (h (by decide) ⟨⟨2, LockMode.EXCLUSIVE, false⟩, by decide, rfl⟩ (by decide)).1
  revert h1
  decide

/-! ## Buffer pool: bookkeeping of page table, free list and replacer (C37) -/

/-- Handing out frame `f` with pin count 1 under page id `id`, after erasing at most the page id
the frame carried, keeps every unpinned resident frame in the replacer. -/
theorem UnpinnedInReplacer.hand_out {s t : BufferPoolManagerInstance} (h : UnpinnedInReplacer s)
    (f : Nat) (id : Int) (page : Page) (hpin : page.pin_count = 1)
    (hpages : t.pages = Function.update s.pages f page)
    (hpt : ∀ p g, p ≠ id → ptFind t.page_table p = some g → ptFind s.page_table p = some g ∧ g ≠ f)
    (hid : ∀ g, ptFind t.page_table id = some g → g = f)
    (hrepl : ∀ g, g ≠ f → g ∈ s.replacer.lru_list → g ∈ t.replacer.lru_list) :
    UnpinnedInReplacer t := by
  intro p g hp hz
  rw [hpages] at hz
  by_cases hpid : p = id
  · subst hpid
    rw [hid g hp, Function.update_same, hpin] at hz
    cases hz
  · obtain ⟨hp1, hgf⟩ := hpt p g hpid hp
    rw [Function.update_noteq hgf] at hz
    exact hrepl g hgf (h p g hp1 hz)

theorem UnpinnedInReplacer_NewPgImp {s : BufferPoolManagerInstance} (hI : Inv s)
    (h : UnpinnedInReplacer s) : UnpinnedInReplacer s.NewPgImp.2 := by
  cases hfl : s.free_list with
  | cons f rest =>
    rw [NewPgImp_free hfl]
    refine h.hand_out f s.next_page_id ⟨_, s.next_page_id, 1, false⟩ rfl rfl ?_ ?_ ?_
    · intro p g hp hg
      have hg1 : ptFind s.page_table p = some g := by
        rwa [show ptFind (ptAssign s.page_table s.next_page_id f) p = ptFind s.page_table p from
          ptFind_assign_ne _ _ hp] at hg
      refine ⟨hg1, fun e => ?_⟩
      have := hI.pt_free p g hg1
      rw [hfl, e] at this
      exact this (List.mem_cons_self _ _)
    · intro g hg
      have : ptFind (ptAssign s.page_table s.next_page_id f) s.next_page_id = some g := hg
      rw [ptFind_assign_self] at this
      exact (Option.some.inj this).symm
    · intro g hgf hg
      exact (mem_Pin hI.repl_nodup).mpr ⟨hg, hgf⟩
  | nil =>
    cases hv : s.replacer.lru_list with
    | nil => rw [NewPgImp_none hfl hv]; exact h
    | cons f rest =>
      rw [NewPgImp_victim hfl hv]
      have hnd : (f :: rest).Nodup := hv ▸ hI.repl_nodup
      refine h.hand_out f s.next_page_id ⟨_, s.next_page_id, 1, false⟩ rfl rfl ?_ ?_ ?_
      · intro p g hp hg
        have hg0 : ptFind (ptErase s.page_table (s.pages f).page_id) p = some g := by
          rwa [show ptFind (ptAssign (ptErase s.page_table (s.pages f).page_id)
              s.next_page_id f) p = ptFind (ptErase s.page_table (s.pages f).page_id) p from
            ptFind_assign_ne _ _ hp] at hg
        obtain ⟨hne, hg1⟩ := ptFind_erase_some hg0
        refine ⟨hg1, fun e => ?_⟩
        have := hI.pt_pid p g hg1
        rw [e] at this
        exact hne this.symm
      · intro g hg
        have : ptFind (ptAssign (ptErase s.page_table (s.pages f).page_id) s.next_page_id f)
            s.next_page_id = some g := hg
        rw [ptFind_assign_self] at this
        exact (Option.some.inj this).symm
      · intro g hgf hg
        rw [hv] at hg
        have hgr : g ∈ rest := (List.mem_cons.mp hg).resolve_left hgf
        exact (mem_Pin (r := LRUReplacer.mk rest) (List.nodup_cons.mp hnd).2).mpr ⟨hgr, hgf⟩

theorem UnpinnedInReplacer_FetchPgImp {s : BufferPoolManagerInstance} (hI : Inv s)
    (h : UnpinnedInReplacer s) (p0 : Int) : UnpinnedInReplacer (s.FetchPgImp p0).2 := by
  cases hp0 : ptFind s.page_table p0 with
  | some f =>
    rw [FetchPgImp_hit hp0]
    intro p g hp hz
    have hp1 : ptFind s.page_table p = some g := hp
    have hz1 : (Function.update s.pages f
        { s.pages f with pin_count := (s.pages f).pin_count + 1 } g).pin_count = 0 := hz
    by_cases hgf : g = f
    · subst hgf
      rw [Function.update_same] at hz1
      have := hI.pin_nonneg g
      have hz2 : (s.pages g).pin_count + 1 = 0 := hz1
      omega
    · rw [Function.update_noteq hgf] at hz1
      exact (mem_Pin hI.repl_nodup).mpr ⟨h p g hp1 hz1, hgf⟩
  | none =>
    cases hfl : s.free_list with
    | cons f rest =>
      rw [FetchPgImp_free hp0 hfl]
      refine h.hand_out f p0 ⟨_, p0, 1, false⟩ rfl rfl ?_ ?_ ?_
      · intro p g hp hg
        have hg1 : ptFind s.page_table p = some g := by
          rwa [show ptFind (ptAssign s.page_table p0 f) p = ptFind s.page_table p from
            ptFind_assign_ne _ _ hp] at hg
        refine ⟨hg1, fun e => ?_⟩
        have := hI.pt_free p g hg1
        rw [hfl, e] at this
        exact this (List.mem_cons_self _ _)
      · intro g hg
        have : ptFind (ptAssign s.page_table p0 f) p0 = some g := hg
        rw [ptFind_assign_self] at this
        exact (Option.some.inj this).symm
      · intro g hgf hg
        exact (mem_Pin hI.repl_nodup).mpr ⟨hg, hgf⟩
    | nil =>
      cases hv : s.replacer.lru_list with
      | nil => rw [FetchPgImp_none hp0 hfl hv]; exact h
      | cons f rest =>
        rw [FetchPgImp_victim hp0 hfl hv]
        have hnd : (f :: rest).Nodup := hv ▸ hI.repl_nodup
        refine h.hand_out f p0 ⟨_, p0, 1, false⟩ rfl rfl ?_ ?_ ?_
        · intro p g hp hg
          have hg0 : ptFind (ptErase s.page_table (s.pages f).page_id) p = some g := by
            rwa [show ptFind (ptAssign (ptErase s.page_table (s.pages f).page_id) p0 f) p
                = ptFind (ptErase s.page_table (s.pages f).page_id) p from
              ptFind_assign_ne _ _ hp] at hg
          obtain ⟨hne, hg1⟩ := ptFind_erase_some hg0
          refine ⟨hg1, fun e => ?_⟩
          have := hI.pt_pid p g hg1
          rw [e] at this
          exact hne this.symm
        · intro g hg
          have : ptFind (ptAssign (ptErase s.page_table (s.pages f).page_id) p0 f) p0
              = some g := hg
          rw [ptFind_assign_self] at this
          exact (Option.some.inj this).symm
        · intro g hgf hg
          rw [hv] at hg
          have hgr : g ∈ rest := (List.mem_cons.mp hg).resolve_left hgf
          exact (mem_Pin (r := LRUReplacer.mk rest) (List.nodup_cons.mp hnd).2).mpr ⟨hgr, hgf⟩

theorem UnpinnedInReplacer_UnpinPgImp {s : BufferPoolManagerInstance}
    (h : UnpinnedInReplacer s) (p0 : Int) (d : Bool) :
    UnpinnedInReplacer (s.UnpinPgImp p0 d).2 := by
  cases hp0 : ptFind s.page_table p0 with
  | none => rw [UnpinPgImp_none d hp0]; exact h
  | some f =>
    by_cases h0 : 0 < (s.pages f).pin_count
    · rw [UnpinPgImp_pos d hp0 h0]
      intro p g hp hz
      have hp1 : ptFind s.page_table p = some g := hp
      have hz1 : (Function.update s.pages f
          { s.pages f with
            is_dirty := if d then d else (s.pages f).is_dirty
            pin_count := (s.pages f).pin_count - 1 } g).pin_count = 0 := hz
      show g ∈ (if (s.pages f).pin_count - 1 ≤ 0 then s.replacer.Unpin f
        else s.replacer).lru_list
      by_cases hgf : g = f
      · subst hgf
        rw [Function.update_same] at hz1
        have hz2 : (s.pages g).pin_count - 1 = 0 := hz1
        rw [if_pos (by omega)]
        exact mem_Unpin.mpr (Or.inr rfl)
      · rw [Function.update_noteq hgf] at hz1
        have hg := h p g hp1 hz1
        split
        · exact mem_Unpin.mpr (Or.inl hg)
        · exact hg
    · rw [UnpinPgImp_zero d hp0 (by omega)]; exact h

theorem UnpinnedInReplacer_DeletePgImp {s : BufferPoolManagerInstance} (hI : Inv s)
    (h : UnpinnedInReplacer s) (p0 : Int) : UnpinnedInReplacer (s.DeletePgImp p0).2 := by
  cases hp0 : ptFind s.page_table p0 with
  | none => rw [DeletePgImp_none hp0]; exact h
  | some f =>
    by_cases h0 : 0 < (s.pages f).pin_count
    · rw [DeletePgImp_pinned hp0 h0]; exact h
    · rw [DeletePgImp_free hp0 h0]
      intro p g hp hz
      have hp1 : ptFind (ptErase s.page_table p0) p = some g := hp
      obtain ⟨hne, hg1⟩ := ptFind_erase_some hp1
      have hgf : g ≠ f := by
        intro e
        have h1 := hI.pt_pid p g hg1
        have h2 := hI.pt_pid p0 f hp0
        rw [e] at h1
        exact hne (h1.symm.trans h2)
      have hz1 : (Function.update s.pages f
          { data := ResetMemory s.PAGE_SIZE, page_id := INVALID_PAGE_ID, pin_count := 0,
            is_dirty := false } g).pin_count = 0 := hz
      rw [Function.update_noteq hgf] at hz1
      exact (mem_Pin hI.repl_nodup).mpr ⟨h p g hg1 hz1, hgf⟩

theorem UnpinnedInReplacer_FlushPgImp {s : BufferPoolManagerInstance}
    (h : UnpinnedInReplacer s) (p0 : Int) : UnpinnedInReplacer (s.FlushPgImp p0).2 := by
  cases hp0 : ptFind s.page_table p0 with
  | none =>
    have : s.FlushPgImp p0 = (false, s) := by
      simp [BufferPoolManagerInstance.FlushPgImp, hp0]
    rw [this]; exact h
  | some f =>
    rw [FlushPgImp_some hp0]
    intro p g hp hz
    have hp1 : ptFind s.page_table p = some g := hp
    have hz1 : (Function.update s.pages f { s.pages f with is_dirty := false } g).pin_count
        = 0 := hz
    have hz2 : (s.pages g).pin_count = 0 := by
      by_cases hgf : g = f
      · subst hgf
        rw [Function.update_same] at hz1
        exact hz1
      · rwa [Function.update_noteq hgf] at hz1
    exact h p g hp1 hz2

/-- Every reachable pool state keeps its unpinned resident frames in the replacer. -/
theorem Reachable.unpinnedInReplacer {s : BufferPoolManagerInstance} (h : Reachable s) :
    UnpinnedInReplacer s := by
  induction h with
  | init PAGE_SIZE pool_size num_instances instance_index disk _ _ =>
    intro p f hp
    simp [BufferPoolManagerInstance.new, ptFind] at hp
  | newPage hr ih => exact UnpinnedInReplacer_NewPgImp hr.inv ih
  | fetchPage p hr ih => exact UnpinnedInReplacer_FetchPgImp hr.inv ih p
  | unpinPage p d _ ih => exact UnpinnedInReplacer_UnpinPgImp ih p d
  | flushPage p _ ih => exact UnpinnedInReplacer_FlushPgImp ih p
  | flushAllPages _ ih => exact ih
  | deletePage p hr ih => exact UnpinnedInReplacer_DeletePgImp hr.inv ih p
  | @writeData s f bytes _ _ ih =>
    intro p g hp hz
    have hp1 : ptFind s.page_table p = some g := hp
    have hz1 : (Function.update s.pages f { s.pages f with data := bytes } g).pin_count
        = 0 := hz
    have hz2 : (s.pages g).pin_count = 0 := by
      by_cases hgf : g = f
      · subst hgf
        rw [Function.update_same] at hz1
        exact hz1
      · rwa [Function.update_noteq hgf] at hz1
    exact ih p g hp1 hz2

/-- C37, counterexample. Pool size 2, FetchPage(0), UnpinPage(0, false), NewPage on the fresh
pool: frame 0 holds page id 0, is unpinned and in the replacer; NewPage takes frame 1 from the
free list and issues page id 0 again, so the page table maps page id 0 to frame 1. Frame 0 is in
the replacer but is not the image of a resident page. -/
theorem replacer_holds_frame_without_page :
    Reachable poolTwoFetchUnpinNew ∧ 0 ∈ poolTwoFetchUnpinNew.replacer.lru_list ∧
      poolTwoFetchUnpinNew.page_table = [(0, 1)] ∧
      ¬ BookkeepingInvariant poolTwoFetchUnpinNew := by
  have hr : Reachable poolTwoFetchUnpinNew :=
    Reachable.newPage (Reachable.unpinPage 0 false
      (Reachable.fetchPage 0 (Reachable.init 4 2 1 0 _ (by decide) (by decide))))
  have hpt : poolTwoFetchUnpinNew.page_table = [(0, 1)] := by decide
  refine ⟨hr, by decide, hpt, fun hC => ?_⟩
  obtain ⟨⟨p, hp⟩, _⟩ := (hC.2.2.1 0).mp (by decide)
  rw [hpt] at hp
  unfold ptFind at hp
  split at hp
  · cases hp
  · cases hp

/-- C37, amended. Buffer-pool bookkeeping invariant: in every state reachable from a freshly
constructed pool through the public operations, the page table is injective and maps only to
frame ids in [0, pool_size); every frame in the replacer has pin count 0, and every frame that is
the image of a resident page and has pin count 0 is in the replacer; no frame in the free list is
the image of a resident page; and the free list and the replacer contain no frame twice. -/
theorem bookkeeping_invariant (s : BufferPoolManagerInstance) (h : Reachable s) :
    BookkeepingInvariantOneSided s := by
  have hI := h.inv
  refine ⟨fun p q f hp hq => ?_, hI.pt_lt, hI.repl_pin, h.unpinnedInReplacer, hI.pt_free,
    hI.free_nodup, hI.repl_nodup⟩
  rw [← hI.pt_pid p f hp, ← hI.pt_pid q f hq]

/-- Witness of C37 (amended): the pool of two frames after FetchPage(0), UnpinPage(0, false) and
NewPage. -/
theorem bookkeeping_invariant_witness :
    Reachable poolTwoFetchUnpinNew ∧ BookkeepingInvariantOneSided poolTwoFetchUnpinNew :=
  have hr : Reachable poolTwoFetchUnpinNew :=
    Reachable.newPage (Reachable.unpinPage 0 false
      (Reachable.fetchPage 0 (Reachable.init 4 2 1 0 _ (by decide) (by decide))))
  ⟨hr, bookkeeping_invariant poolTwoFetchUnpinNew hr⟩

/-! ## Bucket page: IsFull, IsEmpty and NumReadable against the bitmap (C39) -/

section BucketOccupancy

variable {K V : Type}

theorem and_255_eq_iff (c : Nat) : c &&& 255 = 255 ↔ ∀ j, j < 8 → c.testBit j = true := by
  have h255 : ∀ j, (255 : Nat).testBit j = decide (j < 8) := by
    intro j
    exact Nat.testBit_two_pow_sub_one 8 j
  constructor
  · intro h j hj
    have h1 : (c &&& 255).testBit j = true := by
      rw [h, h255]
      exact decide_eq_true hj
    rw [Nat.testBit_and] at h1
    exact (Bool.and_eq_true _ _ ▸ h1).1
  · intro h
    apply Nat.eq_of_testBit_eq
    intro j
    rw [Nat.testBit_and, h255]
    by_cases hj : j < 8
    · rw [h j hj]
      simp [hj]
    · simp [hj]

theorem and_255_pos_iff (c : Nat) : c &&& 255 > 0 ↔ ∃ j, j < 8 ∧ c.testBit j = true := by
  have h255 : ∀ j, (255 : Nat).testBit j = decide (j < 8) := by
    intro j
    exact Nat.testBit_two_pow_sub_one 8 j
  constructor
  · intro h
    by_contra hno
    have hz : c &&& 255 = 0 := by
      apply Nat.zero_of_testBit_eq_false
      intro j
      rw [Nat.testBit_and, h255]
      by_cases hj : j < 8
      · have : c.testBit j = false := by
          by_contra hc
          exact hno ⟨j, hj, by simpa using hc⟩
        rw [this]
        rfl
      · simp [hj]
    omega
  · rintro ⟨j, hj, hc⟩
    have h1 : (c &&& 255).testBit j = true := by
      rw [Nat.testBit_and, h255, hc]
      simp [hj]
    by_contra hz
    have h0 : c &&& 255 = 0 := by omega
    rw [h0, Nat.zero_testBit] at h1
    cases h1

theorem lowBitsAllSet_of_testBit : ∀ (n c : Nat), (∀ m, m < n → c.testBit m = true) →
    lowBitsAllSet n c = true
  | 0, _, _ => rfl
  | n + 1, c, h => by
    unfold lowBitsAllSet
    have h0 := h 0 (by omega)
    rw [Nat.testBit_zero] at h0
    have hc : ¬ c &&& 1 ≠ 1 := by
      rw [Nat.and_one_is_mod]
      simpa using h0
    rw [if_neg hc]
    apply lowBitsAllSet_of_testBit n (c >>> 1)
    intro m hm
    rw [Nat.testBit_shiftRight, Nat.add_comm]
    exact h (m + 1) (by omega)

/-- `IsFull` answers true exactly when every slot is readable. -/
theorem IsFull_iff (N : Nat) (b : HashTableBucketPage K V) :
    b.IsFull N = true ↔ ∀ i, i < N → b.IsReadable i = true := by
  constructor
  · exact fun h i hi => IsFull_readable N b h i hi
  · intro h
    have hbit : ∀ i, i < N → (b.readable_.getD (i / 8) 0).testBit (i % 8) = true := by
      intro i hi
      rw [← IsReadable_eq_testBit]
      exact h i hi
    unfold HashTableBucketPage.IsFull
    have hany : ¬ (List.range (N / 8)).any
        (fun i => decide ((b.readable_.getD i 0) &&& 255 ≠ 255)) = true := by
      rw [List.any_eq_true]
      rintro ⟨k, hk, hne⟩
      have hk1 : k < N / 8 := List.mem_range.mp hk
      apply of_decide_eq_true hne
      rw [and_255_eq_iff]
      intro j hj
      have := hbit (8 * k + j) (by omega)
      have h1 : (8 * k + j) / 8 = k := by omega
      have h2 : (8 * k + j) % 8 = j := by omega
      rwa [h1, h2] at this
    rw [if_neg hany]
    simp only
    split
    · apply lowBitsAllSet_of_testBit
      intro m hm
      have := hbit (8 * (N / 8) + m) (by omega)
      have h1 : (8 * (N / 8) + m) / 8 = N / 8 := by omega
      have h2 : (8 * (N / 8) + m) % 8 = m := by omega
      rwa [h1, h2] at this
    · rfl

/-- `IsEmpty` answers true exactly when no bit of the readable bitmap is set, the bits behind the
last slot included. -/
theorem IsEmpty_iff (N : Nat) (b : HashTableBucketPage K V) :
    b.IsEmpty N = true ↔ ∀ i, i < 8 * ((N - 1) / 8 + 1) → b.IsReadable i = false := by
  unfold HashTableBucketPage.IsEmpty
  constructor
  · intro h i hi
    by_contra hr
    have hr1 : b.IsReadable i = true := by simpa using hr
    rw [IsReadable_eq_testBit] at hr1
    have hany : (List.range ((N - 1) / 8 + 1)).any
        (fun i => decide ((b.readable_.getD i 0) &&& 255 > 0)) = true := by
      rw [List.any_eq_true]
      refine ⟨i / 8, List.mem_range.mpr (by omega), decide_eq_true ?_⟩
      exact (and_255_pos_iff _).mpr ⟨i % 8, Nat.mod_lt _ (by decide), hr1⟩
    rw [if_pos hany] at h
    cases h
  · intro h
    have hany : ¬ (List.range ((N - 1) / 8 + 1)).any
        (fun i => decide ((b.readable_.getD i 0) &&& 255 > 0)) = true := by
      rw [List.any_eq_true]
      rintro ⟨k, hk, hpos⟩
      have hk1 : k < (N - 1) / 8 + 1 := List.mem_range.mp hk
      obtain ⟨j, hj, hc⟩ := (and_255_pos_iff _).mp (of_decide_eq_true hpos)
      have := h (8 * k + j) (by omega)
      rw [IsReadable_eq_testBit] at this
      have h1 : (8 * k + j) / 8 = k := by omega
      have h2 : (8 * k + j) % 8 = j := by omega
      rw [h1, h2, hc] at this
      cases this
    rw [if_neg hany]

end BucketOccupancy

section BucketOccupancyReachable

variable {K V : Type} [DecidableEq K] [DecidableEq V] [Inhabited K] [Inhabited V]

/-- In a reachable bucket page no bit of the readable bitmap behind the last slot is set. -/
theorem ReachablePage_no_bit_behind {N : Nat} {b : HashTableBucketPage K V}
    (h : HashTableBucketPage.ReachablePage N b) : ∀ i, N ≤ i → b.IsReadable i = false := by
  induction h with
  | zero => exact fun i _ => IsReadable_zero N i
  | @insert b key value hr ih =>
    intro i hi
    rcases Insert_cases N b (ReachablePage_sized_invariant hr).1 key value with
      ⟨_, heq⟩ | ⟨_, i0, hi0, _, _, _, hrd, _, _⟩
    · rw [heq]; exact ih i hi
    · rw [hrd, ih i hi]
      have : i ≠ i0 := by omega
      simp [this]
  | @remove b key value hr ih =>
    intro i hi
    rcases Remove_cases N b key value with ⟨_, heq⟩ | ⟨i0, hi0, _, _, heq⟩
    · rw [heq]; exact ih i hi
    · rw [heq]
      show (b.RemoveAt i0).IsReadable i = false
      have hs := (ReachablePage_sized_invariant hr).1
      rw [IsReadable_RemoveAt b (by rw [hs.len_readable]; exact slot_byte_lt hi0), ih i hi]
      simp
  | @removeAt b i0 hi0 hr ih =>
    intro i hi
    have hs := (ReachablePage_sized_invariant hr).1
    rw [IsReadable_RemoveAt b (by rw [hs.len_readable]; exact slot_byte_lt hi0), ih i hi]
    simp
  | clear _ _ => exact fun i _ => IsReadable_Clear N _ i

/-- C39. Bucket occupancy queries agree with the bitmap, for every BUCKET_ARRAY_SIZE and every
bucket page reachable from an all-zero page through Insert, Remove, RemoveAt on a slot of the
page, and Clear: NumReadable is the number of indices i < BUCKET_ARRAY_SIZE with IsReadable(i),
IsFull is true if and only if that number is BUCKET_ARRAY_SIZE, IsEmpty is true if and only if it
is 0, and for a slot i of the page SetReadable(i, b) makes IsReadable(i) = b and changes no other
readable bit, no occupied bit and no slot content. -/
theorem bucket_occupancy_queries (N : Nat) (b : HashTableBucketPage K V)
    (hb : HashTableBucketPage.ReachablePage N b) :
    b.NumReadable N = ((List.range N).filter (fun i => b.IsReadable i)).length ∧
      (b.IsFull N = true ↔ ((List.range N).filter (fun i => b.IsReadable i)).length = N) ∧
      (b.IsEmpty N = true ↔ ((List.range N).filter (fun i => b.IsReadable i)).length = 0) ∧
      ∀ i st, i < N →
        (∀ j, (b.SetReadable i st).IsReadable j = if j = i then st else b.IsReadable j) ∧
        (∀ j, (b.SetReadable i st).IsOccupied j = b.IsOccupied j) ∧
        (b.SetReadable i st).array_ = b.array_ := by
  have hs := (ReachablePage_sized_invariant hb).1
  refine ⟨NumReadable_eq N b, ?_, ?_, fun i st hi => ⟨fun j => ?_, fun j => rfl, rfl⟩⟩
  · rw [IsFull_iff]
    constructor
    · intro h
      rw [List.filter_eq_self.mpr (fun i hi => h i (List.mem_range.mp hi)), List.length_range]
    · intro h i hi
      have hlen : ((List.range N).filter (fun i => b.IsReadable i)).length
          = (List.range N).length := by rw [h, List.length_range]
      have hall := (List.filter_length_eq_length.mp hlen) i (List.mem_range.mpr hi)
      exact hall
  · rw [IsEmpty_iff]
    constructor
    · intro h
      rw [List.length_eq_zero, List.filter_eq_nil_iff]
      intro i hi
      have hi1 : i < N := List.mem_range.mp hi
      rw [h i (by omega)]
      simp
    · intro h i _
      by_cases hi : i < N
      · rw [List.length_eq_zero, List.filter_eq_nil_iff] at h
        have := h i (List.mem_range.mpr hi)
        simpa using this
      · exact ReachablePage_no_bit_behind hb i (by omega)
  · have hlen : i / 8 < b.readable_.length := by
      rw [hs.len_readable]; exact slot_byte_lt hi
    cases st with
    | true =>
      rw [IsReadable_SetReadable_true b hlen]
      by_cases hj : j = i <;> simp [hj]
    | false =>
      rw [IsReadable_SetReadable_false b hlen]
      by_cases hj : j = i <;> simp [hj]

end BucketOccupancyReachable

/-- Witness of C39: the bucket of four slots (not a multiple of 8) that holds (1, 10), (2, 20)
and (1, 11): three slots are readable, the bucket is neither full nor empty. -/
theorem bucket_occupancy_queries_witness :
    HashTableBucketPage.ReachablePage 4 bucketThreePairs ∧
      bucketThreePairs.NumReadable 4 = 3 ∧ bucketThreePairs.IsFull 4 = false ∧
      bucketThreePairs.IsEmpty 4 = false ∧
      bucketThreePairs.NumReadable 4
        = ((List.range 4).filter (fun i => bucketThreePairs.IsReadable i)).length :=
  have hr : HashTableBucketPage.ReachablePage 4 bucketThreePairs :=
    HashTableBucketPage.ReachablePage.insert 1 11
      (HashTableBucketPage.ReachablePage.insert 2 20
        (HashTableBucketPage.ReachablePage.insert 1 10 HashTableBucketPage.ReachablePage.zero))
  ⟨hr, by decide, by decide, by decide, (bucket_occupancy_queries 4 bucketThreePairs hr).1⟩

/-! ## Hash table: one split step, taken apart -/

section SplitParts

variable {K V : Type} [DecidableEq K] [DecidableEq V] [Inhabited K] [Inhabited V]

/-- One split step, written with its parts. -/
theorem SplitStep_eq (t0 : ExtendibleHashTable K V) (key : K) :
    t0.SplitStep key =
      if t0.FetchDirectoryPage.directory.GetLocalDepth
          (t0.FetchDirectoryPage.KeyToDirectoryIndex key t0.FetchDirectoryPage.directory)
          ≥ t0.FetchDirectoryPage.MAX_BUCKET_DEPTH then none
      else some { t0.FetchDirectoryPage with
        next_page_id := t0.FetchDirectoryPage.next_page_id + 1
        directory := t0.SplitDirectory key
        buckets := Function.update
          (Function.update t0.FetchDirectoryPage.buckets t0.FetchDirectoryPage.next_page_id
            (t0.SplitBuckets key).2)
          (t0.SplitBucketPageId key) (t0.SplitBuckets key).1 } := by
  by_cases h : t0.FetchDirectoryPage.directory.GetLocalDepth
      (t0.FetchDirectoryPage.KeyToDirectoryIndex key t0.FetchDirectoryPage.directory)
      ≥ t0.FetchDirectoryPage.MAX_BUCKET_DEPTH
  · simp only [ExtendibleHashTable.SplitStep, if_pos h]
  · simp only [ExtendibleHashTable.SplitStep, if_neg h]
    rfl

end SplitParts

/-! ## Hash table: a split keeps the pairs of the bucket (C34) -/

section SplitPairs

variable {K V : Type} [DecidableEq K] [DecidableEq V] [Inhabited K] [Inhabited V]

omit [DecidableEq K] [DecidableEq V] in
/-- `GetArrayCopy` reads the slots of the readable indices, in slot order. -/
theorem GetArrayCopy_eq_map (N : Nat) (b : HashTableBucketPage K V) :
    b.GetArrayCopy N
      = ((List.range N).filter (fun i => b.IsReadable i)).map
          (fun i => b.array_.getD i default) := by
  unfold HashTableBucketPage.GetArrayCopy
  induction List.range N with
  | nil => rfl
  | cons i rest ih =>
    by_cases h : b.IsReadable i = true
    · rw [List.filterMap_cons_some (by rw [if_pos h]), List.filter_cons_of_pos h, List.map_cons,
        ih]
    · rw [List.filterMap_cons_none (by rw [if_neg h]), List.filter_cons_of_neg h, ih]

omit [DecidableEq K] [DecidableEq V] in
theorem mem_GetArrayCopy (N : Nat) (b : HashTableBucketPage K V) (x : K × V) :
    x ∈ b.GetArrayCopy N ↔ b.Holds N x := by
  rw [GetArrayCopy_eq_map, List.mem_map]
  constructor
  · rintro ⟨i, hi, rfl⟩
    obtain ⟨h1, h2⟩ := List.mem_filter.mp hi
    exact ⟨i, List.mem_range.mp h1, h2, rfl⟩
  · rintro ⟨i, h1, h2, h3⟩
    exact ⟨i, List.mem_filter.mpr ⟨List.mem_range.mpr h1, h2⟩, h3⟩

omit [DecidableEq K] [DecidableEq V] in
theorem length_GetArrayCopy (N : Nat) (b : HashTableBucketPage K V) :
    (b.GetArrayCopy N).length = b.NumReadable N := by
  rw [GetArrayCopy_eq_map, List.length_map, NumReadable_eq]

omit [DecidableEq K] [DecidableEq V] in
theorem length_GetArrayCopy_le (N : Nat) (b : HashTableBucketPage K V) :
    (b.GetArrayCopy N).length ≤ N := by
  rw [GetArrayCopy_eq_map, List.length_map]
  exact (List.length_filter_le _ _).trans (by rw [List.length_range])

omit [DecidableEq K] [DecidableEq V] in
/-- When no two readable slots hold the same pair, `GetArrayCopy` has no pair twice. -/
theorem nodup_GetArrayCopy (N : Nat) (b : HashTableBucketPage K V)
    (hinj : ∀ i j, i < N → j < N → b.IsReadable i = true → b.IsReadable j = true →
      b.array_.getD i default = b.array_.getD j default → i = j) :
    (b.GetArrayCopy N).Nodup := by
  rw [GetArrayCopy_eq_map]
  apply List.Nodup.map_on _ ((List.nodup_range N).filter _)
  intro i hi j hj hij
  obtain ⟨h1, h2⟩ := List.mem_filter.mp hi
  obtain ⟨h3, h4⟩ := List.mem_filter.mp hj
  exact hinj i j (List.mem_range.mp h1) (List.mem_range.mp h3) h2 h4 hij

omit [DecidableEq K] [DecidableEq V] in
/-- A sized bucket page without a pair in two readable slots holds exactly the pairs of its
array copy. -/
theorem HoldsExactly_GetArrayCopy (N : Nat) (b : HashTableBucketPage K V) (hs : b.Sized N)
    (hinv : b.BitmapInvariant N) : b.HoldsExactly N (b.GetArrayCopy N) :=
  ⟨hs.len_readable, hs.len_array, hinv.2, fun x => (mem_GetArrayCopy N b x).symm⟩

omit [DecidableEq K] [DecidableEq V] in
theorem HoldsExactly_Clear (N : Nat) (b : HashTableBucketPage K V) (hs : b.Sized N) :
    (b.Clear N).HoldsExactly N [] := by
  refine ⟨List.length_replicate _ _, hs.len_array, ?_, ?_⟩
  · intro i j _ _ hi
    rw [IsReadable_Clear] at hi
    cases hi
  · intro x
    constructor
    · rintro ⟨i, _, hi, _⟩
      rw [IsReadable_Clear] at hi
      cases hi
    · intro h; cases h

omit [DecidableEq K] [DecidableEq V] in
/-- The array copy of a bucket that holds exactly the pairs of a duplicate-free list is a
permutation of that list. -/
theorem HoldsExactly_perm {N : Nat}
    {b : HashTableBucketPage K V} {p : List (K × V)}
    (h : b.HoldsExactly N p) (hp : p.Nodup) : List.Perm (b.GetArrayCopy N) p := by
  apply (List.perm_ext_iff_of_nodup (nodup_GetArrayCopy N b h.inj) hp).mpr
  intro x
  rw [mem_GetArrayCopy, h.mem]

/-- The rehash loop of a split: when both buckets have room for the pairs still to place, every
pair is placed, in one of the two buckets. -/
theorem rehash_places_all (N : Nat) (c : K × V → Prop) [DecidablePred c] :
    ∀ (l : List (K × V)) (acc : HashTableBucketPage K V × HashTableBucketPage K V)
      (p1 p2 : List (K × V)),
      acc.1.HoldsExactly N p1 → acc.2.HoldsExactly N p2 →
      p1.length + l.length ≤ N → p2.length + l.length ≤ N →
      ∃ q1 q2,
        (l.foldl (fun (acc : HashTableBucketPage K V × HashTableBucketPage K V) temp =>
            if c temp then ((acc.1.Insert N temp.1 temp.2).2, acc.2)
            else (acc.1, (acc.2.Insert N temp.1 temp.2).2)) acc).1.HoldsExactly N q1 ∧
        (l.foldl (fun (acc : HashTableBucketPage K V × HashTableBucketPage K V) temp =>
            if c temp then ((acc.1.Insert N temp.1 temp.2).2, acc.2)
            else (acc.1, (acc.2.Insert N temp.1 temp.2).2)) acc).2.HoldsExactly N q2 ∧
        List.Perm (q1 ++ q2) (p1 ++ p2 ++ l)
  | [], acc, p1, p2, h1, h2, _, _ => ⟨p1, p2, h1, h2, by simp⟩
  | x :: rest, acc, p1, p2, h1, h2, hl1, hl2 => by
    rw [List.foldl_cons]
    rw [List.length_cons] at hl1 hl2
    by_cases hc : c x
    · rw [if_pos hc]
      have hd : p1.dedup.length < N :=
        lt_of_le_of_lt (List.Sublist.length_le (List.dedup_sublist p1)) (by omega)
      have h1' := h1.insert hd x.1 x.2
      obtain ⟨q1, q2, e1, e2, e3⟩ := rehash_places_all N c rest
        ((acc.1.Insert N x.1 x.2).2, acc.2) (p1 ++ [(x.1, x.2)]) p2 h1' h2
        (by rw [List.length_append, List.length_singleton]; omega) (by omega)
      refine ⟨q1, q2, e1, e2, e3.trans ?_⟩
      rw [List.perm_iff_count]
      intro a
      simp only [Prod.mk.eta, List.count_append, List.count_cons, List.count_nil]
      omega
    · rw [if_neg hc]
      have hd : p2.dedup.length < N :=
        lt_of_le_of_lt (List.Sublist.length_le (List.dedup_sublist p2)) (by omega)
      have h2' := h2.insert hd x.1 x.2
      obtain ⟨q1, q2, e1, e2, e3⟩ := rehash_places_all N c rest
        (acc.1, (acc.2.Insert N x.1 x.2).2) p1 (p2 ++ [(x.1, x.2)]) h1 h2'
        (by omega) (by rw [List.length_append, List.length_singleton]; omega)
      refine ⟨q1, q2, e1, e2, e3.trans ?_⟩
      rw [List.perm_iff_count]
      intro a
      simp only [Prod.mk.eta, List.count_append, List.count_cons, List.count_nil]
      omega

/-- The two buckets a split step produces hold, together, the pairs of the bucket that was
split. -/
theorem SplitBuckets_perm (t : ExtendibleHashTable K V) (key : K)
    (hold : HashTableBucketPage.ReachablePage t.FetchDirectoryPage.BUCKET_ARRAY_SIZE
      (t.FetchDirectoryPage.buckets (t.SplitBucketPageId key))) :
    List.Perm
      ((t.SplitBuckets key).1.GetArrayCopy t.FetchDirectoryPage.BUCKET_ARRAY_SIZE ++
        (t.SplitBuckets key).2.GetArrayCopy t.FetchDirectoryPage.BUCKET_ARRAY_SIZE)
      ((t.FetchDirectoryPage.buckets (t.SplitBucketPageId key)).GetArrayCopy
        t.FetchDirectoryPage.BUCKET_ARRAY_SIZE) := by
  obtain ⟨hs, hinv⟩ := ReachablePage_sized_invariant hold
  have hnd := nodup_GetArrayCopy _ _ hinv.2
  have htake : ((t.FetchDirectoryPage.buckets (t.SplitBucketPageId key)).GetArrayCopy
      t.FetchDirectoryPage.BUCKET_ARRAY_SIZE).take
        ((t.FetchDirectoryPage.buckets (t.SplitBucketPageId key)).NumReadable
          t.FetchDirectoryPage.BUCKET_ARRAY_SIZE)
      = (t.FetchDirectoryPage.buckets (t.SplitBucketPageId key)).GetArrayCopy
        t.FetchDirectoryPage.BUCKET_ARRAY_SIZE := by
    rw [← length_GetArrayCopy, List.take_length]
  obtain ⟨q1, q2, e1, e2, e3⟩ := rehash_places_all t.FetchDirectoryPage.BUCKET_ARRAY_SIZE
    (fun temp => (t.SplitDirectory key).GetBucketPageId
      (t.FetchDirectoryPage.Hash temp.1 &&& (t.SplitDirectory key).GetLocalDepthMask
        (t.FetchDirectoryPage.KeyToDirectoryIndex key t.FetchDirectoryPage.directory))
      = t.SplitBucketPageId key)
    ((t.FetchDirectoryPage.buckets (t.SplitBucketPageId key)).GetArrayCopy
      t.FetchDirectoryPage.BUCKET_ARRAY_SIZE)
    ((t.FetchDirectoryPage.buckets (t.SplitBucketPageId key)).Clear
        t.FetchDirectoryPage.BUCKET_ARRAY_SIZE,
      HashTableBucketPage.zero t.FetchDirectoryPage.BUCKET_ARRAY_SIZE) [] []
    (HoldsExactly_Clear _ _ hs) (HoldsExactly_zero _)
    (by simpa using length_GetArrayCopy_le _ _) (by simpa using length_GetArrayCopy_le _ _)
  have hfold : t.SplitBuckets key
      = (((t.FetchDirectoryPage.buckets (t.SplitBucketPageId key)).GetArrayCopy
          t.FetchDirectoryPage.BUCKET_ARRAY_SIZE).foldl
        (fun (acc : HashTableBucketPage K V × HashTableBucketPage K V) temp =>
          if (t.SplitDirectory key).GetBucketPageId
              (t.FetchDirectoryPage.Hash temp.1 &&& (t.SplitDirectory key).GetLocalDepthMask
                (t.FetchDirectoryPage.KeyToDirectoryIndex key t.FetchDirectoryPage.directory))
              = t.SplitBucketPageId key
          then ((acc.1.Insert t.FetchDirectoryPage.BUCKET_ARRAY_SIZE temp.1 temp.2).2, acc.2)
          else (acc.1, (acc.2.Insert t.FetchDirectoryPage.BUCKET_ARRAY_SIZE temp.1 temp.2).2))
        ((t.FetchDirectoryPage.buckets (t.SplitBucketPageId key)).Clear
            t.FetchDirectoryPage.BUCKET_ARRAY_SIZE,
          HashTableBucketPage.zero t.FetchDirectoryPage.BUCKET_ARRAY_SIZE)) := by
    unfold ExtendibleHashTable.SplitBuckets
    simp only
    rw [htake]
  rw [hfold]
  simp only [List.nil_append] at e3
  have hq : (q1 ++ q2).Nodup := e3.nodup_iff.mpr hnd
  have hq1 : q1.Nodup := (List.nodup_append.mp hq).1
  have hq2 : q2.Nodup := (List.nodup_append.mp hq).2.1
  exact ((HoldsExactly_perm e1 hq1).append (HoldsExactly_perm e2 hq2)).trans e3

/-- C34. A split loses and duplicates nothing: for every table whose directory page exists and
every split step on it that performs a split, when the bucket that is split is a reachable bucket
page and the page id handed out for the new bucket is not the page id of the old one, the pairs
readable in the old bucket plus the pairs readable in the new bucket after the step are, as a
multiset, the pairs readable in the old bucket before the step. -/
theorem split_keeps_pairs (t t1 : ExtendibleHashTable K V) (key : K)
    (hdir : t.directory_page_id_ ≠ INVALID_PAGE_ID)
    (hstep : t.SplitStep key = some t1)
    (hold : HashTableBucketPage.ReachablePage t.BUCKET_ARRAY_SIZE
      (t.buckets (t.SplitBucketPageId key)))
    (hnew : t.SplitBucketPageId key ≠ t.next_page_id) :
    List.Perm
      ((t1.buckets (t.SplitBucketPageId key)).GetArrayCopy t.BUCKET_ARRAY_SIZE ++
        (t1.buckets t.next_page_id).GetArrayCopy t.BUCKET_ARRAY_SIZE)
      ((t.buckets (t.SplitBucketPageId key)).GetArrayCopy t.BUCKET_ARRAY_SIZE) := by
  have hc : t.FetchDirectoryPage = t := FetchDirectoryPage_created hdir
  have hperm := SplitBuckets_perm t key (by rw [hc]; exact hold)
  rw [hc] at hperm
  rw [SplitStep_eq, hc] at hstep
  split at hstep
  · cases hstep
  · have ht1 := Option.some.inj hstep
    rw [← ht1]
    simp only [Function.update_same, Function.update_noteq (Ne.symm hnew)]
    exact hperm

end SplitPairs

/-- Witness of C34: the split step for key 2 on the table that holds (0, 0) and (1, 1) in its
one bucket, page 1; the new bucket is page 2. -/
theorem split_keeps_pairs_witness :
    tableTwoPairs.directory_page_id_ ≠ INVALID_PAGE_ID ∧
      tableTwoPairs.SplitBucketPageId 2 ≠ tableTwoPairs.next_page_id ∧
      ∃ t1, tableTwoPairs.SplitStep 2 = some t1 ∧
        List.Perm
          ((t1.buckets (tableTwoPairs.SplitBucketPageId 2)).GetArrayCopy 2 ++
            (t1.buckets tableTwoPairs.next_page_id).GetArrayCopy 2)
          [(0, 0), (1, 1)] :=
  have hdir : tableTwoPairs.directory_page_id_ ≠ INVALID_PAGE_ID := by decide
  have hnew : tableTwoPairs.SplitBucketPageId 2 ≠ tableTwoPairs.next_page_id := by decide
  have hb : tableTwoPairs.buckets (tableTwoPairs.SplitBucketPageId 2)
      = (((HashTableBucketPage.zero 2).Insert 2 0 0).2.Insert 2 1 1).2 := by decide
  have hold : HashTableBucketPage.ReachablePage tableTwoPairs.BUCKET_ARRAY_SIZE
      (tableTwoPairs.buckets (tableTwoPairs.SplitBucketPageId 2)) := by
    rw [hb]
    exact HashTableBucketPage.ReachablePage.insert 1 1
      (HashTableBucketPage.ReachablePage.insert 0 0 HashTableBucketPage.ReachablePage.zero)
  have hs : (tableTwoPairs.SplitStep 2).isSome = true := by decide
  ⟨hdir, hnew, by
    obtain ⟨t1, ht1⟩ := Option.isSome_iff_exists.mp hs
    have h := split_keeps_pairs tableTwoPairs t1 2 hdir ht1 hold hnew
    have ha : (tableTwoPairs.buckets (tableTwoPairs.SplitBucketPageId 2)).GetArrayCopy
        tableTwoPairs.BUCKET_ARRAY_SIZE = [(0, 0), (1, 1)] := by decide
    rw [ha] at h
    exact ⟨t1, ht1, h⟩⟩

/-! ## Hash table: Insert terminates (C33) -/

theorem getD_set_of_eq {l : List Nat} {j a : Nat} (i : Nat) (h : l.getD j 0 = a) :
    (l.set i a).getD j 0 = a := by
  by_cases hij : i = j
  · subst hij
    by_cases hlt : i < l.length
    · exact getD_set_self _ _ _ _ hlt
    · rw [List.set_eq_of_length_le (by omega)]
      exact h
  · rw [getD_set_ne _ _ _ hij]
    exact h

/-- Setting an entry to the local depth the entries `a` and `b` have, and its page id to
anything, keeps `DepthsSet`. -/
theorem DepthsSet.set_entry {n g a b v : Nat} {dir : HashTableDirectoryPage}
    (h : DepthsSet n g a b v dir) (hv : v < 256) (i : Nat) (page_id : Int) :
    DepthsSet n g a b v ((dir.SetLocalDepth i v).SetBucketPageId i page_id) ∧
      DepthsSet n g a b v ((dir.SetBucketPageId i page_id).SetLocalDepth i v) := by
  have hmod : v % 256 = v := Nat.mod_eq_of_lt hv
  have ha : (dir.local_depths_.set i (v % 256)).getD a 0 = v := by
    rw [hmod]; exact getD_set_of_eq i h.at_a
  have hb : (dir.local_depths_.set i (v % 256)).getD b 0 = v := by
    rw [hmod]; exact getD_set_of_eq i h.at_b
  constructor
  · exact ⟨by
      show (dir.local_depths_.set i (v % 256)).length = n
      rw [List.length_set]; exact h.len_depths, by
      show (dir.bucket_page_ids_.set i page_id).length = n
      rw [List.length_set]; exact h.len_ids, h.depth, ha, hb⟩
  · exact ⟨by
      show (dir.local_depths_.set i (v % 256)).length = n
      rw [List.length_set]; exact h.len_depths, by
      show (dir.bucket_page_ids_.set i page_id).length = n
      rw [List.length_set]; exact h.len_ids, h.depth, ha, hb⟩

theorem DepthsSet.walk_down {n g a b v : Nat} (hv : v < 256) (distance depth_idx : Nat)
    (hd : depth_idx = a ∨ depth_idx = b) (page_id : Int) :
    ∀ (fuel i : Nat) (dir : HashTableDirectoryPage), DepthsSet n g a b v dir →
      DepthsSet n g a b v (splitWalkDown distance depth_idx page_id fuel i dir)
  | 0, _, _, h => h
  | fuel + 1, i, dir, h => by
    unfold splitWalkDown
    split
    · split
      · exact h
      · have hval : dir.GetLocalDepth depth_idx = v := by
          rcases hd with rfl | rfl
          · exact h.at_a
          · exact h.at_b
        rw [hval]
        exact DepthsSet.walk_down hv distance depth_idx hd page_id fuel _ _
          (h.set_entry hv i page_id).1
    · exact h

theorem DepthsSet.walk_up {n g a b v : Nat} (hv : v < 256) (distance depth_idx : Nat)
    (hd : depth_idx = a ∨ depth_idx = b) (page_id : Int) :
    ∀ (fuel i : Nat) (dir : HashTableDirectoryPage), DepthsSet n g a b v dir →
      DepthsSet n g a b v (splitWalkUp distance depth_idx page_id fuel i dir)
  | 0, _, _, h => h
  | fuel + 1, i, dir, h => by
    unfold splitWalkUp
    split
    · have hval : dir.GetLocalDepth depth_idx = v := by
        rcases hd with rfl | rfl
        · exact h.at_a
        · exact h.at_b
      rw [hval]
      exact DepthsSet.walk_up hv distance depth_idx hd page_id fuel _ _
        (h.set_entry hv i page_id).2
    · exact h

/-- The copy loop of `IncrGlobalDepth` keeps the length of both arrays and the entries below
`old`. -/
theorem incr_copy_loop (old : Nat) : ∀ (l : List Nat) (d : HashTableDirectoryPage),
    (l.foldl (fun (acc : HashTableDirectoryPage) i =>
        { acc with
          bucket_page_ids_ := acc.bucket_page_ids_.set (old + i) (acc.bucket_page_ids_.getD i 0)
          local_depths_ := acc.local_depths_.set (old + i) (acc.local_depths_.getD i 0) })
      d).global_depth_ = d.global_depth_ ∧
    (l.foldl (fun (acc : HashTableDirectoryPage) i =>
        { acc with
          bucket_page_ids_ := acc.bucket_page_ids_.set (old + i) (acc.bucket_page_ids_.getD i 0)
          local_depths_ := acc.local_depths_.set (old + i) (acc.local_depths_.getD i 0) })
      d).local_depths_.length = d.local_depths_.length ∧
    (l.foldl (fun (acc : HashTableDirectoryPage) i =>
        { acc with
          bucket_page_ids_ := acc.bucket_page_ids_.set (old + i) (acc.bucket_page_ids_.getD i 0)
          local_depths_ := acc.local_depths_.set (old + i) (acc.local_depths_.getD i 0) })
      d).bucket_page_ids_.length = d.bucket_page_ids_.length ∧
    ∀ j, j < old →
      (l.foldl (fun (acc : HashTableDirectoryPage) i =>
        { acc with
          bucket_page_ids_ := acc.bucket_page_ids_.set (old + i) (acc.bucket_page_ids_.getD i 0)
          local_depths_ := acc.local_depths_.set (old + i) (acc.local_depths_.getD i 0) })
      d).local_depths_.getD j 0 = d.local_depths_.getD j 0
  | [], _ => ⟨rfl, rfl, rfl, fun _ _ => rfl⟩
  | i :: rest, d => by
    rw [List.foldl_cons]
    obtain ⟨h1, h2, h3, h4⟩ := incr_copy_loop old rest
      { d with
        bucket_page_ids_ := d.bucket_page_ids_.set (old + i) (d.bucket_page_ids_.getD i 0)
        local_depths_ := d.local_depths_.set (old + i) (d.local_depths_.getD i 0) }
    refine ⟨h1, ?_, ?_, fun j hj => ?_⟩
    · rw [h2]; exact List.length_set _ _ _
    · rw [h3]; exact List.length_set _ _ _
    · rw [h4 j hj]
      exact getD_set_ne _ _ _ (by omega)

theorem IncrGlobalDepth_spec (d : HashTableDirectoryPage) :
    d.IncrGlobalDepth.global_depth_ = d.global_depth_ + 1 ∧
      d.IncrGlobalDepth.local_depths_.length = d.local_depths_.length ∧
      d.IncrGlobalDepth.bucket_page_ids_.length = d.bucket_page_ids_.length ∧
      ∀ j, j < 2 ^ d.global_depth_ → d.IncrGlobalDepth.GetLocalDepth j = d.GetLocalDepth j := by
  obtain ⟨h1, h2, h3, h4⟩ := incr_copy_loop (1 <<< d.global_depth_)
    (List.range (1 <<< d.global_depth_)) d
  refine ⟨?_, h2, h3, fun j hj => ?_⟩
  · show _ + 1 = _
    rw [h1]
  · exact h4 j (by rw [Nat.one_shiftLeft]; exact hj)

/-- The index of a hash under a mask of one more bit is the index under the shorter mask, or
that index with the new bit switched on. -/
theorem mask_index_succ (h g : Nat) :
    h &&& (1 <<< (g + 1) - 1) = h &&& (1 <<< g - 1) ∨
      h &&& (1 <<< (g + 1) - 1) = (h &&& (1 <<< g - 1)) ^^^ 2 ^ g := by
  rw [Nat.one_shiftLeft, Nat.one_shiftLeft]
  by_cases hb : h.testBit g = true
  · right
    apply Nat.eq_of_testBit_eq
    intro i
    rw [Nat.testBit_and, Nat.testBit_two_pow_sub_one, Nat.testBit_xor, Nat.testBit_and,
      Nat.testBit_two_pow_sub_one, Nat.testBit_two_pow]
    by_cases hi : i < g
    · have h1 : i < g + 1 := by omega
      have h2 : g ≠ i := by omega
      simp [hi, h1, h2]
    · by_cases hig : i = g
      · subst hig
        simp [hb]
      · have h1 : ¬ i < g + 1 := by omega
        have h2 : g ≠ i := fun e => hig e.symm
        simp [hi, h1, h2]
  · left
    have hb' : h.testBit g = false := by simpa using hb
    apply Nat.eq_of_testBit_eq
    intro i
    rw [Nat.testBit_and, Nat.testBit_two_pow_sub_one, Nat.testBit_and,
      Nat.testBit_two_pow_sub_one]
    by_cases hi : i < g
    · have h1 : i < g + 1 := by omega
      simp [hi, h1]
    · by_cases hig : i = g
      · subst hig
        simp [hb']
      · have h1 : ¬ i < g + 1 := by omega
        simp [hi, h1]

theorem mask_index_lt (h g : Nat) : h &&& (1 <<< g - 1) < 2 ^ g := by
  rw [Nat.one_shiftLeft, Nat.and_pow_two_sub_one_eq_mod]
  exact Nat.mod_lt _ (Nat.two_pow_pos g)

section InsertTerminates

variable {K V : Type} [DecidableEq K] [DecidableEq V] [Inhabited K] [Inhabited V]

omit [DecidableEq K] [DecidableEq V] in
/-- The directory after the test of the global depth in `SplitInsert`: both arrays keep their
length, the entry of the key keeps its local depth, and the global depth is as before or, when
the local depth of the entry equalled it, one more. -/
theorem SplitGrownDirectory_spec (t : ExtendibleHashTable K V) (key : K)
    (hdir : t.directory_page_id_ ≠ INVALID_PAGE_ID) :
    (t.SplitGrownDirectory key).local_depths_.length = t.directory.local_depths_.length ∧
      (t.SplitGrownDirectory key).bucket_page_ids_.length
        = t.directory.bucket_page_ids_.length ∧
      (t.SplitGrownDirectory key).GetLocalDepth (t.KeyToDirectoryIndex key t.directory)
        = t.directory.GetLocalDepth (t.KeyToDirectoryIndex key t.directory) ∧
      ((t.SplitGrownDirectory key).global_depth_ = t.directory.global_depth_ ∨
        (t.directory.GetLocalDepth (t.KeyToDirectoryIndex key t.directory)
            = t.directory.global_depth_ ∧
          (t.SplitGrownDirectory key).global_depth_ = t.directory.global_depth_ + 1)) := by
  have hc : t.FetchDirectoryPage = t := FetchDirectoryPage_created hdir
  unfold ExtendibleHashTable.SplitGrownDirectory
  rw [hc]
  simp only
  split
  · rename_i heq
    obtain ⟨h1, h2, h3, h4⟩ := IncrGlobalDepth_spec t.directory
    refine ⟨h2, h3, h4 _ ?_, Or.inr ⟨heq, h1⟩⟩
    exact mask_index_lt _ _
  · exact ⟨rfl, rfl, rfl, Or.inl rfl⟩

/-- One split step on a directory that lies within its arrays: the step is performed, the
directory still lies within its arrays, and the entry the key selects afterwards has the local
depth of the entry it selected before, plus 1. -/
theorem SplitStep_raises_depth (t : ExtendibleHashTable K V) (key : K)
    (hdir : t.directory_page_id_ ≠ INVALID_PAGE_ID) (hf : t.DirectoryFits)
    (hd : t.directory.GetLocalDepth (t.KeyToDirectoryIndex key t.directory)
      < t.MAX_BUCKET_DEPTH) :
    ∃ t1, t.SplitStep key = some t1 ∧ t1.directory_page_id_ ≠ INVALID_PAGE_ID ∧
      t1.DirectoryFits ∧ t1.MAX_BUCKET_DEPTH = t.MAX_BUCKET_DEPTH ∧
      t1.directory.GetLocalDepth (t1.KeyToDirectoryIndex key t1.directory)
        = t.directory.GetLocalDepth (t.KeyToDirectoryIndex key t.directory) + 1 := by
  have hc : t.FetchDirectoryPage = t := FetchDirectoryPage_created hdir
  obtain ⟨g1, g2, g3, g4⟩ := SplitGrownDirectory_spec t key hdir
  have hidx : t.KeyToDirectoryIndex key t.directory < 2 ^ t.directory.global_depth_ :=
    mask_index_lt _ _
  have hpow : 2 ^ t.directory.global_depth_ ≤ 2 ^ t.MAX_BUCKET_DEPTH :=
    Nat.pow_le_pow_right (by decide) hf.depth_le
  have hv : t.directory.GetLocalDepth (t.KeyToDirectoryIndex key t.directory) + 1 < 256 := by
    have := hf.max_byte
    omega
  have hmod : (t.directory.GetLocalDepth (t.KeyToDirectoryIndex key t.directory) + 1) % 256
      = t.directory.GetLocalDepth (t.KeyToDirectoryIndex key t.directory) + 1 :=
    Nat.mod_eq_of_lt hv
  -- the entry of the key after `IncrLocalDepth`
  have hlen1 : t.KeyToDirectoryIndex key t.directory
      < (t.SplitGrownDirectory key).local_depths_.length := by
    rw [g1, hf.len_depths]; omega
  have h1 : ((t.SplitGrownDirectory key).IncrLocalDepth
      (t.KeyToDirectoryIndex key t.directory)).GetLocalDepth
        (t.KeyToDirectoryIndex key t.directory)
      = t.directory.GetLocalDepth (t.KeyToDirectoryIndex key t.directory) + 1 := by
    show ((t.SplitGrownDirectory key).local_depths_.set _ _).getD _ 0 = _
    rw [getD_set_self _ _ _ _ hlen1]
    have : (t.SplitGrownDirectory key).local_depths_.getD
        (t.KeyToDirectoryIndex key t.directory) 0
        = t.directory.GetLocalDepth (t.KeyToDirectoryIndex key t.directory) := g3
    rw [this, hmod]
  -- the split image
  have himg : ((t.SplitGrownDirectory key).IncrLocalDepth
      (t.KeyToDirectoryIndex key t.directory)).GetSplitImageIndex
        (t.KeyToDirectoryIndex key t.directory)
      = t.KeyToDirectoryIndex key t.directory ^^^
        2 ^ t.directory.GetLocalDepth (t.KeyToDirectoryIndex key t.directory) := by
    have h1' : ((t.SplitGrownDirectory key).IncrLocalDepth
        (t.KeyToDirectoryIndex key t.directory)).local_depths_.getD
          (t.KeyToDirectoryIndex key t.directory) 0
        = t.directory.GetLocalDepth (t.KeyToDirectoryIndex key t.directory) + 1 := h1
    unfold HashTableDirectoryPage.GetSplitImageIndex
    rw [h1', Nat.add_sub_cancel, Nat.one_shiftLeft]
  have himg_lt : ((t.SplitGrownDirectory key).IncrLocalDepth
      (t.KeyToDirectoryIndex key t.directory)).GetSplitImageIndex
        (t.KeyToDirectoryIndex key t.directory) < 2 ^ t.MAX_BUCKET_DEPTH := by
    rw [himg]
    exact Nat.xor_lt_two_pow (by omega) (Nat.pow_lt_pow_right (by decide) hd)
  -- the directory before the four loops
  have h3 : DepthsSet (2 ^ t.MAX_BUCKET_DEPTH) (t.SplitGrownDirectory key).global_depth_
      (t.KeyToDirectoryIndex key t.directory)
      (((t.SplitGrownDirectory key).IncrLocalDepth
        (t.KeyToDirectoryIndex key t.directory)).GetSplitImageIndex
          (t.KeyToDirectoryIndex key t.directory))
      (t.directory.GetLocalDepth (t.KeyToDirectoryIndex key t.directory) + 1)
      ((((t.SplitGrownDirectory key).IncrLocalDepth
          (t.KeyToDirectoryIndex key t.directory)).SetLocalDepth
        (((t.SplitGrownDirectory key).IncrLocalDepth
          (t.KeyToDirectoryIndex key t.directory)).GetSplitImageIndex
            (t.KeyToDirectoryIndex key t.directory))
        (((t.SplitGrownDirectory key).IncrLocalDepth
          (t.KeyToDirectoryIndex key t.directory)).GetLocalDepth
            (t.KeyToDirectoryIndex key t.directory))).SetBucketPageId
        (((t.SplitGrownDirectory key).IncrLocalDepth
          (t.KeyToDirectoryIndex key t.directory)).GetSplitImageIndex
            (t.KeyToDirectoryIndex key t.directory))
        t.next_page_id) := by
    have hlenI : ((t.SplitGrownDirectory key).IncrLocalDepth
        (t.KeyToDirectoryIndex key t.directory)).local_depths_.length
        = 2 ^ t.MAX_BUCKET_DEPTH := by
      show ((t.SplitGrownDirectory key).local_depths_.set _ _).length = _
      rw [List.length_set, g1, hf.len_depths]
    rw [h1]
    refine ⟨?_, ?_, rfl, ?_, ?_⟩
    · show (((t.SplitGrownDirectory key).IncrLocalDepth
        (t.KeyToDirectoryIndex key t.directory)).local_depths_.set _ _).length = _
      rw [List.length_set, hlenI]
    · show ((t.SplitGrownDirectory key).bucket_page_ids_.set _ _).length = _
      rw [List.length_set, g2, hf.len_ids]
    · show (((t.SplitGrownDirectory key).IncrLocalDepth
        (t.KeyToDirectoryIndex key t.directory)).local_depths_.set _ _).getD _ 0 = _
      rw [hmod]
      exact getD_set_of_eq _ h1
    · show (((t.SplitGrownDirectory key).IncrLocalDepth
        (t.KeyToDirectoryIndex key t.directory)).local_depths_.set _ _).getD _ 0 = _
      rw [hmod]
      exact getD_set_self _ _ _ _ (by rw [hlenI]; exact himg_lt)
  -- the directory after the four loops
  have hfinal : DepthsSet (2 ^ t.MAX_BUCKET_DEPTH) (t.SplitGrownDirectory key).global_depth_
      (t.KeyToDirectoryIndex key t.directory)
      (((t.SplitGrownDirectory key).IncrLocalDepth
        (t.KeyToDirectoryIndex key t.directory)).GetSplitImageIndex
          (t.KeyToDirectoryIndex key t.directory))
      (t.directory.GetLocalDepth (t.KeyToDirectoryIndex key t.directory) + 1)
      (t.SplitDirectory key) := by
    unfold ExtendibleHashTable.SplitDirectory
    rw [hc]
    exact DepthsSet.walk_up hv _ _ (Or.inr rfl) _ _ _ _
      (DepthsSet.walk_down hv _ _ (Or.inl rfl) _ _ _ _
        (DepthsSet.walk_up hv _ _ (Or.inl rfl) _ _ _ _
          (DepthsSet.walk_down hv _ _ (Or.inl rfl) _ _ _ _ h3)))
  have hgle : (t.SplitGrownDirectory key).global_depth_ ≤ t.MAX_BUCKET_DEPTH := by
    rcases g4 with h | ⟨h, h'⟩
    · rw [h]; exact hf.depth_le
    · rw [h']; omega
  rw [SplitStep_eq, hc, if_neg (by omega)]
  refine ⟨_, rfl, hdir, ⟨?_, ?_, ?_, hf.max_byte⟩, rfl, ?_⟩
  · exact hfinal.len_depths
  · exact hfinal.len_ids
  · show (t.SplitDirectory key).global_depth_ ≤ t.MAX_BUCKET_DEPTH
    rw [hfinal.depth]; exact hgle
  · show (t.SplitDirectory key).GetLocalDepth
      (t.Hash key &&& (t.SplitDirectory key).GetGlobalDepthMask) = _
    unfold HashTableDirectoryPage.GetGlobalDepthMask
    rw [hfinal.depth]
    rcases g4 with h | ⟨h, h'⟩
    · rw [h]
      exact hfinal.at_a
    · rw [h']
      rcases mask_index_succ (t.Hash key) t.directory.global_depth_ with e | e
      · rw [e]
        exact hfinal.at_a
      · rw [e]
        have : (t.Hash key &&& (1 <<< t.directory.global_depth_ - 1)) ^^^
            2 ^ t.directory.global_depth_
            = ((t.SplitGrownDirectory key).IncrLocalDepth
              (t.KeyToDirectoryIndex key t.directory)).GetSplitImageIndex
                (t.KeyToDirectoryIndex key t.directory) := by
          rw [himg, h]
          rfl
        rw [this]
        exact hfinal.at_b

/-- `Insert` returns when the bound on the number of splits exceeds what the local depth of the
entry of the key lacks to `MAX_BUCKET_DEPTH`. -/
theorem Insert_returns : ∀ (fuel : Nat) (t : ExtendibleHashTable K V) (key : K) (value : V),
    t.directory_page_id_ ≠ INVALID_PAGE_ID → t.DirectoryFits →
    t.MAX_BUCKET_DEPTH - t.directory.GetLocalDepth (t.KeyToDirectoryIndex key t.directory)
      < fuel →
    ∃ r, t.Insert fuel key value = some r
  | 0, _, _, _, _, _, h => by omega
  | fuel + 1, t, key, value, hdir, hf, h => by
    have hc : t.FetchDirectoryPage = t := FetchDirectoryPage_created hdir
    unfold ExtendibleHashTable.Insert
    rw [hc]
    by_cases hfull : ¬ (t.buckets (t.KeyToPageId key t.directory)).IsFull
        t.BUCKET_ARRAY_SIZE = true
    · simp only [hfull, not_false_eq_true, if_true]
      exact ⟨_, rfl⟩
    · simp only [hfull, if_false]
      by_cases hd : t.directory.GetLocalDepth (t.KeyToDirectoryIndex key t.directory)
          < t.MAX_BUCKET_DEPTH
      · obtain ⟨t1, h1, h2, h3, h4, h5⟩ := SplitStep_raises_depth t key hdir hf hd
        rw [h1]
        simp only
        exact Insert_returns fuel t1 key value h2 h3 (by rw [h4, h5]; omega)
      · have hnone : t.SplitStep key = none := by
          rw [SplitStep_eq, hc, if_pos (by omega)]
        rw [hnone]
        exact ⟨_, rfl⟩

/-- C33. Insert terminates: for every table state whose directory lies within its arrays (both
arrays have `2 ^ MAX_BUCKET_DEPTH` entries, the global depth is at most `MAX_BUCKET_DEPTH`, which
fits the byte of a local depth), every hash function, key and value, `Insert` returns with the
bound `MAX_BUCKET_DEPTH + 1` on the number of times `SplitInsert` is entered, so after at most
`MAX_BUCKET_DEPTH` splits: each split step that is performed raises by one the local depth of the
directory entry the key selects on the retry, and `SplitInsert` returns false once that local
depth is at least `MAX_BUCKET_DEPTH`. -/
theorem insert_terminates (t : ExtendibleHashTable K V) (key : K) (value : V)
    (hdir : t.FetchDirectoryPage.directory_page_id_ ≠ INVALID_PAGE_ID)
    (hf : t.FetchDirectoryPage.DirectoryFits) :
    (∃ r, t.Insert (t.MAX_BUCKET_DEPTH + 1) key value = some r) ∧
      (∀ t1, t.FetchDirectoryPage.SplitStep key = some t1 →
        t1.directory.GetLocalDepth (t1.KeyToDirectoryIndex key t1.directory)
          = t.FetchDirectoryPage.directory.GetLocalDepth
              (t.FetchDirectoryPage.KeyToDirectoryIndex key t.FetchDirectoryPage.directory)
            + 1) ∧
      (t.FetchDirectoryPage.MAX_BUCKET_DEPTH
          ≤ t.FetchDirectoryPage.directory.GetLocalDepth
            (t.FetchDirectoryPage.KeyToDirectoryIndex key t.FetchDirectoryPage.directory) →
        t.FetchDirectoryPage.SplitStep key = none) := by
  have hc : t.FetchDirectoryPage.FetchDirectoryPage = t.FetchDirectoryPage :=
    FetchDirectoryPage_created hdir
  have hmax : t.FetchDirectoryPage.MAX_BUCKET_DEPTH = t.MAX_BUCKET_DEPTH := by
    unfold ExtendibleHashTable.FetchDirectoryPage
    split <;> rfl
  refine ⟨?_, fun t1 h1 => ?_, fun hge => ?_⟩
  · obtain ⟨r, hr⟩ := Insert_returns (t.MAX_BUCKET_DEPTH + 1) t.FetchDirectoryPage key value
      hdir hf (by rw [hmax]; omega)
    refine ⟨r, ?_⟩
    rw [← hr]
    unfold ExtendibleHashTable.Insert
    rw [hc]
  · by_cases hd : t.FetchDirectoryPage.directory.GetLocalDepth
        (t.FetchDirectoryPage.KeyToDirectoryIndex key t.FetchDirectoryPage.directory)
        < t.FetchDirectoryPage.MAX_BUCKET_DEPTH
    · obtain ⟨t2, h2, _, _, _, h5⟩ := SplitStep_raises_depth t.FetchDirectoryPage key hdir hf hd
      rw [h2] at h1
      rw [← Option.some.inj h1]
      exact h5
    · rw [SplitStep_eq, hc, if_pos (by omega)] at h1
      cases h1
  · rw [SplitStep_eq, hc, if_pos hge]

end InsertTerminates

/-- Witness of C33: the table with two slots per bucket, maximal depth 4 and the identity as hash
function, holding (0, 0) and (1, 1): Insert(2, 2) returns within five entries of `SplitInsert`. -/
theorem insert_terminates_witness :
    tableTwoPairs.FetchDirectoryPage.directory_page_id_ ≠ INVALID_PAGE_ID ∧
      tableTwoPairs.FetchDirectoryPage.DirectoryFits ∧
      ∃ r, tableTwoPairs.Insert (tableTwoPairs.MAX_BUCKET_DEPTH + 1) 2 2 = some r :=
  have hdir : tableTwoPairs.FetchDirectoryPage.directory_page_id_ ≠ INVALID_PAGE_ID := by decide
  have hf : tableTwoPairs.FetchDirectoryPage.DirectoryFits :=
    ⟨by decide, by decide, by decide, by decide⟩
  ⟨hdir, hf, (insert_terminates tableTwoPairs 2 2 hdir hf).1⟩

/-! ## Lock manager: mutual exclusion on sequences of calls that do not block (C36) -/

/-- `NeedWait` leaves every transaction as it was or sets its state to `ABORTED`. -/
theorem NeedWait_txns (txns : Nat → Transaction) (tid : Nat) (queue : List LockRequest)
    (t : Nat) :
    (NeedWait txns tid queue).txns t = txns t ∨
      (NeedWait txns tid queue).txns t = (txns t).SetState TransactionState.ABORTED := by
  have hscan : ∀ mode, (NeedWaitScan tid mode queue
        { need_wait := false, has_aborted := false, txns := txns }).txns t = txns t ∨
      (NeedWaitScan tid mode queue
        { need_wait := false, has_aborted := false, txns := txns }).txns t
        = (txns t).SetState TransactionState.ABORTED := by
    intro mode
    obtain ⟨h1, h2, _⟩ := NeedWaitScan_spec tid mode queue
      { need_wait := false, has_aborted := false, txns := txns }
    by_cases hw : ∃ e ∈ queue.takeWhile (fun e => decide (e.txn_id ≠ tid)),
        e.txn_id = t ∧ tid < t ∧ WoundConflict mode e
    · exact Or.inr (h1 t hw)
    · exact Or.inl (h2 t hw)
  unfold NeedWait
  split
  · split
    · split
      · exact Or.inl rfl
      · exact hscan _
    · split
      · exact Or.inl rfl
      · exact hscan _
  · exact Or.inl rfl

theorem NeedWait_lock_sets (txns : Nat → Transaction) (tid : Nat) (queue : List LockRequest)
    (t : Nat) :
    ((NeedWait txns tid queue).txns t).shared_lock_set = (txns t).shared_lock_set ∧
      ((NeedWait txns tid queue).txns t).exclusive_lock_set = (txns t).exclusive_lock_set := by
  rcases NeedWait_txns txns tid queue t with h | h <;> rw [h] <;> exact ⟨rfl, rfl⟩

/-- A request of another transaction at the head of the queue that conflicts with the last
request: `NeedWait` answers true when that transaction is older, and leaves it `ABORTED` when it
is younger. -/
theorem NeedWait_head_conflict (txns : Nat → Transaction) (tid : Nat)
    (first self : LockRequest) (rest : List LockRequest)
    (hlast : (first :: rest).getLast? = some self) (hne : first.txn_id ≠ tid)
    (hconf : self.lock_mode = LockMode.EXCLUSIVE ∨ first.lock_mode = LockMode.EXCLUSIVE) :
    (first.txn_id < tid → (NeedWait txns tid (first :: rest)).need_wait = true) ∧
      (tid < first.txn_id →
        ((NeedWait txns tid (first :: rest)).txns first.txn_id).state
          = TransactionState.ABORTED) := by
  have hfast : ¬ NoWaitFastPath tid self first := by
    unfold NoWaitFastPath
    rintro (⟨h1, h2⟩ | ⟨_, h2⟩)
    · rcases h2 with h2 | h2
      · exact hne h2
      · rcases hconf with h | h
        · rw [h1] at h; cases h
        · rw [h2] at h; cases h
    · exact hne h2
  rw [NeedWait_slow hlast rfl hfast]
  obtain ⟨h1, _, h3⟩ := NeedWaitScan_spec tid self.lock_mode (first :: rest)
    { need_wait := false, has_aborted := false, txns := txns }
  have hmem : first ∈ (first :: rest).takeWhile (fun e => decide (e.txn_id ≠ tid)) := by
    rw [List.takeWhile_cons_of_pos (by simpa using hne)]
    exact List.mem_cons_self _ _
  constructor
  · intro hlt
    refine h3.mpr (Or.inr ⟨first, hmem, hlt, ?_⟩)
    exact hconf
  · intro hgt
    rw [h1 first.txn_id ⟨first, hmem, rfl, hgt, ?_⟩]
    · rfl
    · unfold WoundConflict
      rcases hconf with h | h
      · exact Or.inl h
      · cases hm : self.lock_mode with
        | SHARED => exact Or.inr ⟨rfl, h⟩
        | EXCLUSIVE => exact Or.inl rfl

/-- `LockShared` past its four tests. -/
theorem LockShared_enqueue (s : LockManager) (tid rid : Nat)
    (hna : (s.txns tid).state ≠ TransactionState.ABORTED)
    (hiso : (s.txns tid).isolation_level ≠ IsolationLevel.READ_UNCOMMITTED)
    (hsh : (s.txns tid).state ≠ TransactionState.SHRINKING)
    (hnot : rid ∉ (s.txns tid).shared_lock_set) :
    s.LockShared tid rid =
      if (NeedWait (Function.update s.txns tid
            { s.txns tid with
              shared_lock_set := lockSetEmplace (s.txns tid).shared_lock_set rid }) tid
          (s.lock_table rid ++ [⟨tid, LockMode.SHARED, false⟩])).need_wait = true
      then (LockResult.blocked,
        ⟨Function.update s.lock_table rid (s.lock_table rid ++ [⟨tid, LockMode.SHARED, false⟩]),
          (NeedWait (Function.update s.txns tid
            { s.txns tid with
              shared_lock_set := lockSetEmplace (s.txns tid).shared_lock_set rid }) tid
            (s.lock_table rid ++ [⟨tid, LockMode.SHARED, false⟩])).txns⟩)
      else (LockResult.returned true,
        ⟨Function.update s.lock_table rid (s.lock_table rid ++ [⟨tid, LockMode.SHARED, false⟩]),
          Function.update (NeedWait (Function.update s.txns tid
            { s.txns tid with
              shared_lock_set := lockSetEmplace (s.txns tid).shared_lock_set rid }) tid
            (s.lock_table rid ++ [⟨tid, LockMode.SHARED, false⟩])).txns tid
            (((NeedWait (Function.update s.txns tid
              { s.txns tid with
                shared_lock_set := lockSetEmplace (s.txns tid).shared_lock_set rid }) tid
              (s.lock_table rid ++ [⟨tid, LockMode.SHARED, false⟩])).txns tid).SetState
              TransactionState.GROWING)⟩) := by
  unfold LockManager.LockShared
  simp only [if_neg hna, if_neg hiso, if_neg hsh, if_neg hnot]

/-- `LockExclusive` past its three tests. -/
theorem LockExclusive_enqueue (s : LockManager) (tid rid : Nat)
    (hg : (s.txns tid).state = TransactionState.GROWING)
    (hnot : rid ∉ (s.txns tid).exclusive_lock_set) :
    s.LockExclusive tid rid =
      if (NeedWait (Function.update s.txns tid
            { s.txns tid with
              exclusive_lock_set := lockSetEmplace (s.txns tid).exclusive_lock_set rid }) tid
          (s.lock_table rid ++ [⟨tid, LockMode.EXCLUSIVE, false⟩])).need_wait = true
      then (LockResult.blocked,
        ⟨Function.update s.lock_table rid
            (s.lock_table rid ++ [⟨tid, LockMode.EXCLUSIVE, false⟩]),
          (NeedWait (Function.update s.txns tid
            { s.txns tid with
              exclusive_lock_set := lockSetEmplace (s.txns tid).exclusive_lock_set rid }) tid
            (s.lock_table rid ++ [⟨tid, LockMode.EXCLUSIVE, false⟩])).txns⟩)
      else (LockResult.returned true,
        ⟨Function.update s.lock_table rid
            (s.lock_table rid ++ [⟨tid, LockMode.EXCLUSIVE, false⟩]),
          Function.update (NeedWait (Function.update s.txns tid
            { s.txns tid with
              exclusive_lock_set := lockSetEmplace (s.txns tid).exclusive_lock_set rid }) tid
            (s.lock_table rid ++ [⟨tid, LockMode.EXCLUSIVE, false⟩])).txns tid
            (((NeedWait (Function.update s.txns tid
              { s.txns tid with
                exclusive_lock_set := lockSetEmplace (s.txns tid).exclusive_lock_set rid }) tid
              (s.lock_table rid ++ [⟨tid, LockMode.EXCLUSIVE, false⟩])).txns tid).SetState
              TransactionState.GROWING)⟩) := by
  have hna : (s.txns tid).state ≠ TransactionState.ABORTED := by rw [hg]; decide
  unfold LockManager.LockExclusive
  simp only [if_neg hna, if_neg (not_not.mpr hg), if_neg hnot]

/-- A request of another transaction at the head of the queue that conflicts with the request
just appended: the call blocks or leaves that transaction `ABORTED`. -/
theorem enqueue_behind_conflict (txns1 : Nat → Transaction) (tid : Nat) (mode : LockMode)
    (first : LockRequest) (rest : List LockRequest) (hne : first.txn_id ≠ tid)
    (hconf : mode = LockMode.EXCLUSIVE ∨ first.lock_mode = LockMode.EXCLUSIVE)
    (hnw : ¬ (NeedWait txns1 tid (first :: rest ++ [⟨tid, mode, false⟩])).need_wait = true)
    (hna : ((NeedWait txns1 tid (first :: rest ++ [⟨tid, mode, false⟩])).txns
      first.txn_id).state ≠ TransactionState.ABORTED) : False := by
  have hlast : (first :: (rest ++ [⟨tid, mode, false⟩])).getLast?
      = some (⟨tid, mode, false⟩ : LockRequest) := by
    rw [← List.cons_append, List.getLast?_append]
    rfl
  obtain ⟨h1, h2⟩ := NeedWait_head_conflict txns1 tid first ⟨tid, mode, false⟩
    (rest ++ [⟨tid, mode, false⟩]) hlast hne hconf
  rcases Nat.lt_or_gt_of_ne hne with hlt | hgt
  · exact hnw (h1 hlt)
  · exact hna (h2 hgt)

/-- The lock sets after a request has been appended and granted are those the caller was given
before `NeedWait` ran. -/
theorem granted_lock_sets (txns1 : Nat → Transaction) (tid : Nat) (queue : List LockRequest)
    (t : Nat) :
    ((Function.update (NeedWait txns1 tid queue).txns tid
        (((NeedWait txns1 tid queue).txns tid).SetState TransactionState.GROWING)) t).shared_lock_set
        = (txns1 t).shared_lock_set ∧
      ((Function.update (NeedWait txns1 tid queue).txns tid
        (((NeedWait txns1 tid queue).txns tid).SetState
          TransactionState.GROWING)) t).exclusive_lock_set
        = (txns1 t).exclusive_lock_set := by
  by_cases ht : t = tid
  · subst ht
    rw [Function.update_same]
    exact NeedWait_lock_sets txns1 t queue t
  · rw [Function.update_noteq ht]
    exact NeedWait_lock_sets txns1 tid queue t

/-- `NeedWait` changes no transaction when no request of the queue is of a younger one. -/
theorem NeedWait_no_younger (txns : Nat → Transaction) (tid : Nat) (queue : List LockRequest)
    (hq : ∀ e ∈ queue, e.txn_id ≤ tid) (t : Nat) :
    (NeedWait txns tid queue).txns t = txns t := by
  have hscan : ∀ mode, (NeedWaitScan tid mode queue
        { need_wait := false, has_aborted := false, txns := txns }).txns t = txns t := by
    intro mode
    obtain ⟨_, h2, _⟩ := NeedWaitScan_spec tid mode queue
      { need_wait := false, has_aborted := false, txns := txns }
    apply h2 t
    rintro ⟨e, he, h1, h3, _⟩
    have := hq e (List.takeWhile_subset _ he)
    omega
  unfold NeedWait
  split
  · split
    · split
      · rfl
      · exact hscan _
    · split
      · rfl
      · exact hscan _
  · rfl

theorem freshLockManager_idle : freshLockManager.Idle :=
  ⟨fun _ => rfl, fun _ => ⟨rfl, rfl⟩⟩

/-- On a queue without a request of the caller, whose first request conflicts with the request
just appended, `NeedWait` judges every request of the queue that conflicts with the appended
one: it answers true when the transaction of that request is older, and leaves it `ABORTED`
when it is younger. -/
theorem NeedWait_judges_queue (txns : Nat → Transaction) (tid : Nat) (mode : LockMode)
    (first : LockRequest) (rest : List LockRequest)
    (hnone : ∀ x ∈ first :: rest, x.txn_id ≠ tid)
    (hconf : mode = LockMode.EXCLUSIVE ∨ first.lock_mode = LockMode.EXCLUSIVE)
    (e : LockRequest) (he : e ∈ first :: rest)
    (hce : mode = LockMode.EXCLUSIVE ∨ e.lock_mode = LockMode.EXCLUSIVE) :
    (e.txn_id < tid →
        (NeedWait txns tid (first :: rest ++ [⟨tid, mode, false⟩])).need_wait = true) ∧
      (tid < e.txn_id →
        ((NeedWait txns tid (first :: rest ++ [⟨tid, mode, false⟩])).txns e.txn_id).state
          = TransactionState.ABORTED) := by
  have hne : first.txn_id ≠ tid := hnone first (List.mem_cons_self _ _)
  have hlast : (first :: (rest ++ [⟨tid, mode, false⟩])).getLast?
      = some (⟨tid, mode, false⟩ : LockRequest) := by
    rw [← List.cons_append, List.getLast?_append]
    rfl
  have hfast : ¬ NoWaitFastPath tid ⟨tid, mode, false⟩ first := by
    unfold NoWaitFastPath
    rintro (⟨h1, h2⟩ | ⟨_, h2⟩)
    · rcases h2 with h2 | h2
      · exact hne h2
      · rcases hconf with h | h
        · rw [h] at h1; cases h1
        · rw [h2] at h; cases h
    · exact hne h2
  rw [List.cons_append, NeedWait_slow hlast rfl hfast]
  obtain ⟨h1, _, h3⟩ := NeedWaitScan_spec tid mode (first :: (rest ++ [⟨tid, mode, false⟩]))
    { need_wait := false, has_aborted := false, txns := txns }
  have htw : (first :: (rest ++ [(⟨tid, mode, false⟩ : LockRequest)])).takeWhile
      (fun x => decide (x.txn_id ≠ tid)) = first :: rest := by
    rw [← List.cons_append, List.takeWhile_append_of_pos (by simpa using hnone)]
    simp [List.takeWhile_cons]
  have hmem : e ∈ (first :: (rest ++ [(⟨tid, mode, false⟩ : LockRequest)])).takeWhile
      (fun x => decide (x.txn_id ≠ tid)) := by
    rw [htw]
    exact he
  constructor
  · intro hlt
    exact h3.mpr (Or.inr ⟨e, hmem, hlt, hce⟩)
  · intro hgt
    rw [h1 e.txn_id ⟨e, hmem, rfl, hgt, ?_⟩]
    · rfl
    · unfold WoundConflict
      rcases hce with h | h
      · exact Or.inl h
      · cases mode with
        | SHARED => exact Or.inr ⟨rfl, h⟩
        | EXCLUSIVE => exact Or.inl rfl

/-- A transaction that is not `ABORTED` after a request has been appended and granted was not
`ABORTED` before. -/
theorem granted_live (txns : Nat → Transaction) (tid : Nat) (txn1 : Transaction)
    (queue : List LockRequest) (hab : (txns tid).state ≠ TransactionState.ABORTED) (t : Nat)
    (hl : ((Function.update (NeedWait (Function.update txns tid txn1) tid queue).txns tid
        (((NeedWait (Function.update txns tid txn1) tid queue).txns tid).SetState
          TransactionState.GROWING)) t).state ≠ TransactionState.ABORTED) :
    (txns t).state ≠ TransactionState.ABORTED := by
  by_cases ht : t = tid
  · rw [ht]
    exact hab
  · rw [Function.update_noteq ht] at hl
    rcases NeedWait_txns (Function.update txns tid txn1) tid queue t with h | h
    · rw [h, Function.update_noteq ht] at hl
      exact hl
    · rw [h] at hl
      exact absurd rfl hl

/-- The invariant is kept when the queues stay as they are, the lock sets keep their members and
no transaction leaves the state `ABORTED`. -/
theorem ExclusionInvariant.same_queues {s s1 : LockManager} (h : ExclusionInvariant s)
    (hq : s1.lock_table = s.lock_table)
    (hsh : ∀ t r, r ∈ (s1.txns t).shared_lock_set ↔ r ∈ (s.txns t).shared_lock_set)
    (hex : ∀ t r, r ∈ (s1.txns t).exclusive_lock_set ↔ r ∈ (s.txns t).exclusive_lock_set)
    (hlive : ∀ t, (s1.txns t).state ≠ TransactionState.ABORTED →
      (s.txns t).state ≠ TransactionState.ABORTED) : ExclusionInvariant s1 := by
  refine ⟨fun t r => ?_, fun t r => ?_, fun r e he hx hl e2 he2 hl2 => ?_, fun r e he hx => ?_⟩
  · rw [hsh, hq]
    exact h.shared_iff t r
  · rw [hex, hq]
    exact h.exclusive_iff t r
  · rw [hq] at he he2
    exact h.writer_alone r e he hx (hlive _ hl) e2 he2 (hlive _ hl2)
  · rw [hq] at he ⊢
    exact h.writer_first r e he hx

/-- The invariant is kept when the state of a transaction is set to `ABORTED`. -/
theorem ExclusionInvariant.setAborted {s : LockManager} (h : ExclusionInvariant s) (tid : Nat) :
    ExclusionInvariant ⟨s.lock_table,
      Function.update s.txns tid ((s.txns tid).SetState TransactionState.ABORTED)⟩ := by
  refine h.same_queues rfl (fun t r => ?_) (fun t r => ?_) (fun t hl => ?_)
  · dsimp only
    by_cases ht : t = tid
    · rw [ht, Function.update_same]
      exact Iff.rfl
    · rw [Function.update_noteq ht]
  · dsimp only
    by_cases ht : t = tid
    · rw [ht, Function.update_same]
      exact Iff.rfl
    · rw [Function.update_noteq ht]
  · dsimp only at hl
    by_cases ht : t = tid
    · rw [ht, Function.update_same] at hl
      exact absurd rfl hl
    · rw [Function.update_noteq ht] at hl
      exact hl

/-- The invariant is kept when a request is appended to a queue and the row is added to the
matching lock set of its transaction, provided no transaction leaves the state `ABORTED`, every
`EXCLUSIVE` request of the queue is of the caller or of a transaction that is `ABORTED`
afterwards, and, for an `EXCLUSIVE` request, the queue has no request of the caller and only
requests of transactions that are `ABORTED` afterwards. -/
theorem ExclusionInvariant.grant {s : LockManager} (h : ExclusionInvariant s) (tid rid : Nat)
    (mode : LockMode) (txns2 : Nat → Transaction)
    (hlive : ∀ t, (txns2 t).state ≠ TransactionState.ABORTED →
      (s.txns t).state ≠ TransactionState.ABORTED)
    (hshared : ∀ t r, r ∈ (txns2 t).shared_lock_set ↔
      r ∈ (s.txns t).shared_lock_set ∨ (mode = LockMode.SHARED ∧ t = tid ∧ r = rid))
    (hexcl : ∀ t r, r ∈ (txns2 t).exclusive_lock_set ↔
      r ∈ (s.txns t).exclusive_lock_set ∨ (mode = LockMode.EXCLUSIVE ∧ t = tid ∧ r = rid))
    (hwriter : ∀ e ∈ s.lock_table rid, e.lock_mode = LockMode.EXCLUSIVE →
      (txns2 e.txn_id).state ≠ TransactionState.ABORTED → e.txn_id = tid)
    (hx : mode = LockMode.EXCLUSIVE → ∀ e ∈ s.lock_table rid,
      e.txn_id ≠ tid ∧ (txns2 e.txn_id).state = TransactionState.ABORTED) :
    ExclusionInvariant
      ⟨Function.update s.lock_table rid (s.lock_table rid ++ [⟨tid, mode, false⟩]), txns2⟩ := by
  refine ⟨fun t r => ?_, fun t r => ?_, fun r e he hm hl e2 he2 hl2 => ?_, fun r e he hm => ?_⟩
  · dsimp only
    rw [hshared, Function.update_apply, h.shared_iff]
    by_cases hr : r = rid
    · subst hr
      rw [if_pos rfl]
      constructor
      · rintro (⟨e, he, h1, h2⟩ | ⟨h1, h2, _⟩)
        · exact ⟨e, List.mem_append_left _ he, h1, h2⟩
        · exact ⟨⟨tid, mode, false⟩, List.mem_append_right _ (List.mem_singleton_self _),
            h2.symm, h1⟩
      · rintro ⟨e, he, h1, h2⟩
        rcases List.mem_append.mp he with he | he
        · exact Or.inl ⟨e, he, h1, h2⟩
        · rw [List.mem_singleton] at he
          subst he
          exact Or.inr ⟨h2, h1.symm, rfl⟩
    · rw [if_neg hr]
      exact ⟨fun hh => hh.resolve_right (fun h3 => hr h3.2.2), Or.inl⟩
  · dsimp only
    rw [hexcl, Function.update_apply, h.exclusive_iff]
    by_cases hr : r = rid
    · subst hr
      rw [if_pos rfl]
      constructor
      · rintro (⟨e, he, h1, h2⟩ | ⟨h1, h2, _⟩)
        · exact ⟨e, List.mem_append_left _ he, h1, h2⟩
        · exact ⟨⟨tid, mode, false⟩, List.mem_append_right _ (List.mem_singleton_self _),
            h2.symm, h1⟩
      · rintro ⟨e, he, h1, h2⟩
        rcases List.mem_append.mp he with he | he
        · exact Or.inl ⟨e, he, h1, h2⟩
        · rw [List.mem_singleton] at he
          subst he
          exact Or.inr ⟨h2, h1.symm, rfl⟩
    · rw [if_neg hr]
      exact ⟨fun hh => hh.resolve_right (fun h3 => hr h3.2.2), Or.inl⟩
  · dsimp only at he he2 hl hl2
    rw [Function.update_apply] at he he2
    by_cases hr : r = rid
    · subst hr
      rw [if_pos rfl] at he he2
      rcases List.mem_append.mp he with he | he
      · rcases List.mem_append.mp he2 with he2 | he2
        · exact h.writer_alone r e he hm (hlive _ hl) e2 he2 (hlive _ hl2)
        · rw [List.mem_singleton] at he2
          rw [he2]
          exact (hwriter e he hm hl).symm
      · rw [List.mem_singleton] at he
        rcases List.mem_append.mp he2 with he2 | he2
        · have hmode : mode = LockMode.EXCLUSIVE := by
            rw [he] at hm
            exact hm
          exact absurd (hx hmode e2 he2).2 hl2
        · rw [List.mem_singleton] at he2
          rw [he, he2]
    · rw [if_neg hr] at he he2
      exact h.writer_alone r e he hm (hlive _ hl) e2 he2 (hlive _ hl2)
  · dsimp only at he ⊢
    rw [Function.update_apply] at he ⊢
    by_cases hr : r = rid
    · subst hr
      rw [if_pos rfl] at he ⊢
      rcases List.mem_append.mp he with he | he
      · obtain ⟨f, hf, hfm⟩ := h.writer_first r e he hm
        refine ⟨f, ?_, hfm⟩
        rw [List.find?_append, hf]
        rfl
      · rw [List.mem_singleton] at he
        have hmode : mode = LockMode.EXCLUSIVE := by
          rw [he] at hm
          exact hm
        refine ⟨⟨tid, mode, false⟩, ?_, hmode⟩
        have hnone : (s.lock_table r).find? (fun x => decide (x.txn_id = e.txn_id)) = none := by
          rw [List.find?_eq_none]
          intro x hxq
          rw [he]
          simpa using (hx hmode x hxq).1
        rw [List.find?_append, hnone, he]
        simp
    · rw [if_neg hr] at he ⊢
      exact h.writer_first r e he hm

/-- `LockShared` that does not block, on a row whose first request is not a `SHARED` request of
an `ABORTED` transaction, keeps the invariant. -/
theorem ExclusionInvariant.lockShared {s : LockManager} (h : ExclusionInvariant s)
    (tid rid : Nat) (hhead : ¬ s.AbortedReaderAtHead rid)
    (hnb : (s.LockShared tid rid).1 ≠ LockResult.blocked) :
    ExclusionInvariant (s.LockShared tid rid).2 := by
  by_cases hab : (s.txns tid).state = TransactionState.ABORTED
  · have : s.LockShared tid rid = (LockResult.returned false, s) := by
      unfold LockManager.LockShared
      simp only [if_pos hab]
    rw [this]
    exact h
  by_cases hiso : (s.txns tid).isolation_level = IsolationLevel.READ_UNCOMMITTED
  · have : s.LockShared tid rid = (LockResult.threw AbortReason.LOCKSHARED_ON_READ_UNCOMMITTED,
        ⟨s.lock_table,
          Function.update s.txns tid ((s.txns tid).SetState TransactionState.ABORTED)⟩) := by
      unfold LockManager.LockShared
      simp only [if_neg hab, if_pos hiso]
    rw [this]
    exact h.setAborted tid
  by_cases hsh : (s.txns tid).state = TransactionState.SHRINKING
  · have : s.LockShared tid rid = (LockResult.threw AbortReason.LOCK_ON_SHRINKING,
        ⟨s.lock_table,
          Function.update s.txns tid ((s.txns tid).SetState TransactionState.ABORTED)⟩) := by
      unfold LockManager.LockShared
      simp only [if_neg hab, if_neg hiso, if_pos hsh]
    rw [this]
    exact h.setAborted tid
  by_cases hin : rid ∈ (s.txns tid).shared_lock_set
  · have : s.LockShared tid rid = (LockResult.returned true, s) := by
      unfold LockManager.LockShared
      simp only [if_neg hab, if_neg hiso, if_neg hsh, if_pos hin]
    rw [this]
    exact h
  have hpath := LockShared_enqueue s tid rid hab hiso hsh hin
  rw [hpath] at hnb ⊢
  split at hnb
  · exact absurd rfl hnb
  rename_i hnw
  rw [if_neg hnw]
  have hsets := granted_lock_sets (Function.update s.txns tid
      { s.txns tid with shared_lock_set := lockSetEmplace (s.txns tid).shared_lock_set rid })
    tid (s.lock_table rid ++ [⟨tid, LockMode.SHARED, false⟩])
  have hlive := granted_live s.txns tid
      { s.txns tid with shared_lock_set := lockSetEmplace (s.txns tid).shared_lock_set rid }
      (s.lock_table rid ++ [⟨tid, LockMode.SHARED, false⟩]) hab
  refine h.grant tid rid LockMode.SHARED _ hlive (fun t r => ?_) (fun t r => ?_)
    (fun e he hm hl => ?_) (fun hm => by cases hm)
  · rw [(hsets t).1, Function.update_apply]
    by_cases ht : t = tid
    · subst ht
      rw [if_pos rfl]
      show r ∈ lockSetEmplace _ rid ↔ _
      rw [mem_lockSetEmplace]
      exact ⟨fun hh => hh.imp id (fun h3 => ⟨rfl, rfl, h3⟩), fun hh => hh.imp id (fun h3 => h3.2.2)⟩
    · rw [if_neg ht]
      exact ⟨Or.inl, fun hh => hh.resolve_right (fun h3 => ht h3.2.1)⟩
  · rw [(hsets t).2, Function.update_apply]
    by_cases ht : t = tid
    · subst ht
      rw [if_pos rfl]
      exact ⟨Or.inl, fun hh => hh.resolve_right (fun h3 => by cases h3.1)⟩
    · rw [if_neg ht]
      exact ⟨Or.inl, fun hh => hh.resolve_right (fun h3 => by cases h3.1)⟩
  · by_contra hne
    have hle : (s.txns e.txn_id).state ≠ TransactionState.ABORTED := hlive _ hl
    have hnone : ∀ x ∈ s.lock_table rid, x.txn_id ≠ tid := by
      intro x hxq hxt
      have := h.writer_alone rid e he hm hle x hxq (by rw [hxt]; exact hab)
      exact hne (this.symm.trans hxt)
    obtain ⟨first, rest, hq⟩ : ∃ first rest, s.lock_table rid = first :: rest := by
      cases hl : s.lock_table rid with
      | nil => rw [hl] at he; cases he
      | cons a rest => exact ⟨a, rest, rfl⟩
    have hfx : first.lock_mode = LockMode.EXCLUSIVE := by
      cases hfm : first.lock_mode with
      | EXCLUSIVE => rfl
      | SHARED =>
        exfalso
        have hfl : (s.txns first.txn_id).state ≠ TransactionState.ABORTED :=
          fun hfa => hhead ⟨first, by rw [hq]; rfl, hfm, hfa⟩
        have hft : first.txn_id = e.txn_id :=
          h.writer_alone rid e he hm hle first (by rw [hq]; exact List.mem_cons_self _ _) hfl
        obtain ⟨f, hf, hfmode⟩ := h.writer_first rid e he hm
        rw [hq, List.find?_cons_of_pos _ (by simpa using hft)] at hf
        rw [← Option.some.inj hf, hfm] at hfmode
        cases hfmode
    rw [hq] at hnw hl hnone he
    obtain ⟨h1, h2⟩ := NeedWait_judges_queue (Function.update s.txns tid
        { s.txns tid with shared_lock_set := lockSetEmplace (s.txns tid).shared_lock_set rid })
      tid LockMode.SHARED first rest hnone (Or.inr hfx) e he (Or.inr hm)
    rcases Nat.lt_or_gt_of_ne hne with hlt | hgt
    · exact hnw (h1 hlt)
    · rw [Function.update_noteq hne] at hl
      exact hl (h2 hgt)

/-- `LockExclusive` that does not block, by a transaction that does not have the row in its
shared lock set, keeps the invariant. -/
theorem ExclusionInvariant.lockExclusive {s : LockManager} (h : ExclusionInvariant s)
    (tid rid : Nat) (hns : rid ∉ (s.txns tid).shared_lock_set)
    (hnb : (s.LockExclusive tid rid).1 ≠ LockResult.blocked) :
    ExclusionInvariant (s.LockExclusive tid rid).2 := by
  by_cases hab : (s.txns tid).state = TransactionState.ABORTED
  · have : s.LockExclusive tid rid = (LockResult.returned false, s) := by
      unfold LockManager.LockExclusive
      simp only [if_pos hab]
    rw [this]
    exact h
  by_cases hg : (s.txns tid).state = TransactionState.GROWING
  swap
  · have : s.LockExclusive tid rid = (LockResult.threw AbortReason.LOCK_ON_SHRINKING,
        ⟨s.lock_table,
          Function.update s.txns tid ((s.txns tid).SetState TransactionState.ABORTED)⟩) := by
      unfold LockManager.LockExclusive
      simp only [if_neg hab, if_pos hg]
    rw [this]
    exact h.setAborted tid
  by_cases hin : rid ∈ (s.txns tid).exclusive_lock_set
  · have : s.LockExclusive tid rid = (LockResult.returned true, s) := by
      unfold LockManager.LockExclusive
      simp only [if_neg hab, if_neg (not_not.mpr hg), if_pos hin]
    rw [this]
    exact h
  have hpath := LockExclusive_enqueue s tid rid hg hin
  rw [hpath] at hnb ⊢
  split at hnb
  · exact absurd rfl hnb
  rename_i hnw
  rw [if_neg hnw]
  have hsets := granted_lock_sets (Function.update s.txns tid
      { s.txns tid with
        exclusive_lock_set := lockSetEmplace (s.txns tid).exclusive_lock_set rid })
    tid (s.lock_table rid ++ [⟨tid, LockMode.EXCLUSIVE, false⟩])
  have hlive := granted_live s.txns tid
      { s.txns tid with
        exclusive_lock_set := lockSetEmplace (s.txns tid).exclusive_lock_set rid }
      (s.lock_table rid ++ [⟨tid, LockMode.EXCLUSIVE, false⟩]) hab
  have hnone : ∀ e ∈ s.lock_table rid, e.txn_id ≠ tid := by
    intro e he het
    cases hm : e.lock_mode with
    | SHARED => exact hns ((h.shared_iff tid rid).mpr ⟨e, he, het, hm⟩)
    | EXCLUSIVE => exact hin ((h.exclusive_iff tid rid).mpr ⟨e, he, het, hm⟩)
  have hothers : ∀ e ∈ s.lock_table rid,
      e.txn_id ≠ tid ∧ ((Function.update (NeedWait (Function.update s.txns tid
          { s.txns tid with
            exclusive_lock_set := lockSetEmplace (s.txns tid).exclusive_lock_set rid }) tid
          (s.lock_table rid ++ [⟨tid, LockMode.EXCLUSIVE, false⟩])).txns tid
        (((NeedWait (Function.update s.txns tid
          { s.txns tid with
            exclusive_lock_set := lockSetEmplace (s.txns tid).exclusive_lock_set rid }) tid
          (s.lock_table rid ++ [⟨tid, LockMode.EXCLUSIVE, false⟩])).txns tid).SetState
          TransactionState.GROWING)) e.txn_id).state = TransactionState.ABORTED := by
    intro e he
    have hne : e.txn_id ≠ tid := hnone e he
    refine ⟨hne, ?_⟩
    rw [Function.update_noteq hne]
    obtain ⟨first, rest, hq⟩ : ∃ first rest, s.lock_table rid = first :: rest := by
      cases hl : s.lock_table rid with
      | nil => rw [hl] at he; cases he
      | cons a rest => exact ⟨a, rest, rfl⟩
    rw [hq] at hnw hnone he ⊢
    obtain ⟨h1, h2⟩ := NeedWait_judges_queue (Function.update s.txns tid
        { s.txns tid with
          exclusive_lock_set := lockSetEmplace (s.txns tid).exclusive_lock_set rid })
      tid LockMode.EXCLUSIVE first rest hnone (Or.inl rfl) e he (Or.inl rfl)
    rcases Nat.lt_or_gt_of_ne hne with hlt | hgt
    · exact absurd (h1 hlt) hnw
    · exact h2 hgt
  refine h.grant tid rid LockMode.EXCLUSIVE _ hlive (fun t r => ?_) (fun t r => ?_)
    (fun e he _ hl => absurd (hothers e he).2 hl) (fun _ => hothers)
  · rw [(hsets t).1, Function.update_apply]
    by_cases ht : t = tid
    · subst ht
      rw [if_pos rfl]
      exact ⟨Or.inl, fun hh => hh.resolve_right (fun h3 => by cases h3.1)⟩
    · rw [if_neg ht]
      exact ⟨Or.inl, fun hh => hh.resolve_right (fun h3 => by cases h3.1)⟩
  · rw [(hsets t).2, Function.update_apply]
    by_cases ht : t = tid
    · subst ht
      rw [if_pos rfl]
      show r ∈ lockSetEmplace _ rid ↔ _
      rw [mem_lockSetEmplace]
      exact ⟨fun hh => hh.imp id (fun h3 => ⟨rfl, rfl, h3⟩), fun hh => hh.imp id (fun h3 => h3.2.2)⟩
    · rw [if_neg ht]
      exact ⟨Or.inl, fun hh => hh.resolve_right (fun h3 => ht h3.2.1)⟩

/-- `Unlock` that returns keeps the invariant. -/
theorem ExclusionInvariant.unlock {s s1 : LockManager} (h : ExclusionInvariant s)
    {tid rid : Nat} {mode0 : LockMode} {b : Bool}
    (hu : s.Unlock tid rid mode0 = some (b, s1)) : ExclusionInvariant s1 := by
  obtain ⟨hnone, _, hq, hother, hsh, hex, hst⟩ := Unlock_returns hu
  refine h.same_queues hq (fun t r => ?_) (fun t r => ?_) (fun t hl => ?_)
  · by_cases ht : t = tid
    · rw [ht, hsh, mem_lockSetErase]
      refine ⟨fun hh => hh.1, fun hh => ⟨hh, fun hr => ?_⟩⟩
      rw [hr] at hh
      obtain ⟨e, he, het, _⟩ := (h.shared_iff tid rid).mp hh
      exact hnone e he het
    · rw [hother t ht]
  · by_cases ht : t = tid
    · rw [ht, hex, mem_lockSetErase]
      refine ⟨fun hh => hh.1, fun hh => ⟨hh, fun hr => ?_⟩⟩
      rw [hr] at hh
      obtain ⟨e, he, het, _⟩ := (h.exclusive_iff tid rid).mp hh
      exact hnone e he het
    · rw [hother t ht]
  · by_cases ht : t = tid
    · rw [ht] at hl ⊢
      exact fun h1 => hl (hst.mpr h1)
    · rw [hother t ht] at hl
      exact hl

/-- A third sequence of calls none of which blocks: `LockShared` by T1, `LockExclusive` by T1 and
`LockShared` by T2 on row 7. T1 is alone on the row when it asks for the exclusive lock, which
it is granted; its `SHARED` request stays the first of the queue, so the call of T2 returns
true: T2 has row 7 in its shared lock set beside the exclusive lock of T1, both `GROWING`. -/
theorem shared_granted_beside_own_exclusive :
    ReachedWithoutBlocking sharedBehindOwnExclusive ∧
      (sharedBehindOwnExclusive.txns 1).state = TransactionState.GROWING ∧
      (sharedBehindOwnExclusive.txns 2).state = TransactionState.GROWING ∧
      7 ∈ (sharedBehindOwnExclusive.txns 1).exclusive_lock_set ∧
      7 ∈ (sharedBehindOwnExclusive.txns 2).shared_lock_set ∧
      ¬ MutualExclusion sharedBehindOwnExclusive := by
  refine ⟨?_, by decide, by decide, by decide, by decide, fun h => ?_⟩
  · exact ReachedWithoutBlocking.lockShared 2 7
      (ReachedWithoutBlocking.lockExclusive 1 7
        (ReachedWithoutBlocking.lockShared 1 7
          (ReachedWithoutBlocking.init _ freshLockManager_idle) (by decide)) (by decide))
      (by decide)
  · exact (h 1 2 7 (by decide) (by decide) (by decide) (by decide)).1 (by decide)

theorem pinCountOf_some {s : BufferPoolManagerInstance} {p : Int} {f : Nat}
    (h : ptFind s.page_table p = some f) : s.pinCountOf p = (s.pages f).pin_count.toNat := by
  unfold BufferPoolManagerInstance.pinCountOf
  rw [h]

theorem pinCountOf_none {s : BufferPoolManagerInstance} {p : Int}
    (h : ptFind s.page_table p = none) : s.pinCountOf p = 0 := by
  unfold BufferPoolManagerInstance.pinCountOf
  rw [h]

/-- The pin counts after the frame `f` of page `p` has been rewritten with pin count `c`, the
page table being as it was. -/
theorem pinCountOf_rewrite {s s1 : BufferPoolManagerInstance} (h : Inv s) {p : Int} {f : Nat}
    (hp : ptFind s.page_table p = some f) (page : Page)
    (hpt : s1.page_table = s.page_table) (hpages : s1.pages = Function.update s.pages f page) :
    s1.pinCountOf = Function.update s.pinCountOf p page.pin_count.toNat := by
  funext q
  unfold BufferPoolManagerInstance.pinCountOf
  rw [hpt, hpages, Function.update_apply]
  by_cases hq : q = p
  · subst hq
    rw [if_pos rfl, hp]
    simp only [Function.update_same]
  · rw [if_neg hq]
    cases hg : ptFind s.page_table q with
    | none => rfl
    | some g =>
      have hne : g ≠ f := by
        intro hgf
        subst hgf
        exact hq ((h.pt_pid q g hg).symm.trans (h.pt_pid p g hp))
      simp only [Function.update_noteq hne]

/-- The pin counts after page `p`, which was not in the pool, has been put into the free frame
`f` with pin count 1. -/
theorem pinCountOf_install {s s1 : BufferPoolManagerInstance} (h : Inv s) {p : Int} {f : Nat}
    (hp : ptFind s.page_table p = none) (hf : f ∈ s.free_list) (page : Page)
    (hpin : page.pin_count = 1)
    (hpt : s1.page_table = ptAssign s.page_table p f)
    (hpages : s1.pages = Function.update s.pages f page) :
    s1.pinCountOf = Function.update s.pinCountOf p 1 := by
  funext q
  unfold BufferPoolManagerInstance.pinCountOf
  rw [hpt, hpages, Function.update_apply]
  by_cases hq : q = p
  · subst hq
    rw [if_pos rfl, ptFind_assign_self]
    simp only [Function.update_same, hpin]
    rfl
  · rw [if_neg hq, ptFind_assign_ne _ _ hq]
    cases hg : ptFind s.page_table q with
    | none => rfl
    | some g =>
      have hne : g ≠ f := fun hgf => h.pt_free q g hg (hgf ▸ hf)
      simp only [Function.update_noteq hne]

/-- `UnpinPgImp` and `DeletePgImp` act on the pin counts per page id as `PinCall.run` says, the
`assert` around them failing exactly when they return false; so does `FetchPgImp` of a page in
the pool, and so do `FetchPgImp` of a page that is not in the pool and `NewPgImp` handing out an
id that is not in the pool, as long as the free list has a frame. -/
theorem pool_follows_pin_calls (s : BufferPoolManagerInstance) (h : Inv s) (p : Int) :
    (∀ d, PinCall.run s.pinCountOf (PinCall.unpinPage p)
      = if (s.UnpinPgImp p d).1 = true then some (s.UnpinPgImp p d).2.pinCountOf else none) ∧
    (PinCall.run s.pinCountOf (PinCall.deletePage p)
      = if (s.DeletePgImp p).1 = true then some (s.DeletePgImp p).2.pinCountOf else none) ∧
    ((ptFind s.page_table p ≠ none ∨ s.free_list ≠ []) →
      PinCall.run s.pinCountOf (PinCall.fetchPage p) = some (s.FetchPgImp p).2.pinCountOf) ∧
    (ptFind s.page_table s.next_page_id = none → s.free_list ≠ [] →
      PinCall.run s.pinCountOf (PinCall.newPage s.next_page_id)
        = some s.NewPgImp.2.pinCountOf) := by
  refine ⟨fun d => ?_, ?_, fun hroom => ?_, fun hfresh hroom => ?_⟩
  · cases hp : ptFind s.page_table p with
    | none =>
      rw [UnpinPgImp_none d hp]
      simp [PinCall.run, pinCountOf_none hp]
    | some f =>
      by_cases h0 : (s.pages f).pin_count ≤ 0
      · rw [UnpinPgImp_zero d hp h0]
        have : (s.pages f).pin_count.toNat = 0 := by omega
        simp [PinCall.run, pinCountOf_some hp, this]
      · rw [UnpinPgImp_pos d hp (by omega)]
        have hne : (s.pages f).pin_count.toNat ≠ 0 := by omega
        simp only [PinCall.run, pinCountOf_some hp, if_neg hne, if_true]
        refine congrArg some (Eq.symm ?_)
        refine Eq.trans (pinCountOf_rewrite h hp
          ⟨(s.pages f).data, (s.pages f).page_id, (s.pages f).pin_count - 1,
            if d then d else (s.pages f).is_dirty⟩ ?_ ?_) ?_
        · rfl
        · rfl
        · refine congrArg (Function.update s.pinCountOf p) ?_
          show ((s.pages f).pin_count - 1).toNat = (s.pages f).pin_count.toNat - 1
          omega
  · cases hp : ptFind s.page_table p with
    | none =>
      rw [DeletePgImp_none hp]
      simp [PinCall.run, pinCountOf_none hp]
    | some f =>
      by_cases h0 : 0 < (s.pages f).pin_count
      · rw [DeletePgImp_pinned hp h0]
        have : 0 < (s.pages f).pin_count.toNat := by omega
        simp [PinCall.run, pinCountOf_some hp, this]
      · rw [DeletePgImp_free hp h0]
        have h00 : (s.pages f).pin_count.toNat = 0 := by omega
        simp only [PinCall.run, pinCountOf_some hp, h00, gt_iff_lt, lt_self_iff_false, if_false,
          if_true]
        congr 1
        funext q
        unfold BufferPoolManagerInstance.pinCountOf
        simp only
        by_cases hq : q = p
        · subst hq
          rw [ptFind_erase_self, hp]
          exact h00
        · rw [ptFind_erase_ne _ hq]
          cases hg : ptFind s.page_table q with
          | none => rfl
          | some g =>
            have hne : g ≠ f := by
              intro hgf
              subst hgf
              exact hq ((h.pt_pid q g hg).symm.trans (h.pt_pid p g hp))
            simp only [Function.update_noteq hne]
  · cases hp : ptFind s.page_table p with
    | some f =>
      rw [FetchPgImp_hit hp]
      simp only [PinCall.run, pinCountOf_some hp]
      refine congrArg some (Eq.symm ?_)
      refine Eq.trans (pinCountOf_rewrite h hp
        ⟨(s.pages f).data, (s.pages f).page_id, (s.pages f).pin_count + 1,
          (s.pages f).is_dirty⟩ ?_ ?_) ?_
      · rfl
      · rfl
      · refine congrArg (Function.update s.pinCountOf p) ?_
        show ((s.pages f).pin_count + 1).toNat = (s.pages f).pin_count.toNat + 1
        have := h.pin_nonneg f
        omega
    | none =>
      rcases hroom with hres | hfree
      · exact absurd hp hres
      · cases hl : s.free_list with
        | nil => exact absurd hl hfree
        | cons f rest =>
          rw [FetchPgImp_free hp hl]
          simp only [PinCall.run, pinCountOf_none hp]
          refine congrArg some (Eq.symm ?_)
          refine pinCountOf_install h hp (by rw [hl]; exact List.mem_cons_self _ _)
            ⟨ReadPage s.disk p, p, 1, false⟩ ?_ ?_ ?_
          · rfl
          · rfl
          · rfl
  · cases hl : s.free_list with
    | nil => exact absurd hl hroom
    | cons f rest =>
      rw [NewPgImp_free hl]
      simp only [PinCall.run]
      refine congrArg some (Eq.symm ?_)
      refine pinCountOf_install h hfresh (by rw [hl]; exact List.mem_cons_self _ _)
        ⟨ResetMemory s.PAGE_SIZE, s.next_page_id, 1, false⟩ ?_ ?_ ?_
      · rfl
      · rfl
      · rfl

/-! ## Hash table: pin counts (C38) -/

theorem runPins_append (pins : Int → Nat) (a b : List PinCall) :
    runPins pins (a ++ b) = (runPins pins a).bind (fun pins1 => runPins pins1 b) := by
  induction a generalizing pins with
  | nil => rfl
  | cons c rest ih =>
    simp only [List.cons_append, runPins]
    cases c.run pins with
    | none => rfl
    | some pins1 => exact ih pins1

theorem createdPages_append (a b : List PinCall) :
    createdPages (a ++ b) = createdPages a ++ createdPages b := by
  induction a with
  | nil => rfl
  | cons c rest ih =>
    cases c <;> simp [createdPages, ih]

theorem PinsRestored.trans {pins pins1 pins2 : Int → Nat} {a b : List PinCall}
    (h1 : PinsRestored pins pins1 a) (h2 : PinsRestored pins1 pins2 b) :
    PinsRestored pins pins2 (a ++ b) := by
  intro p
  rw [h2 p, h1 p, createdPages_append]
  by_cases ha : p ∈ createdPages a <;> by_cases hb : p ∈ createdPages b <;>
    simp [ha, hb, List.mem_append]

/-- While page `d` is pinned: fetch a page, unpin it, unpin `d`. -/
theorem runPins_bracket (pins : Int → Nat) (d b : Int) (hd : 1 ≤ pins d) :
    runPins pins [PinCall.fetchPage b, PinCall.unpinPage b, PinCall.unpinPage d]
      = some (Function.update pins d (pins d - 1)) := by
  by_cases hbd : b = d
  · subst hbd
    have h2 : pins b ≠ 0 := by omega
    simp [runPins, PinCall.run, h2]
  · have h2 : pins d ≠ 0 := by omega
    simp [runPins, PinCall.run, Function.update_noteq (Ne.symm hbd), h2]

/-- While page `d` is pinned: fetch a page, unpin `d`, unpin the page. -/
theorem runPins_cross (pins : Int → Nat) (d m : Int) (hd : 1 ≤ pins d) :
    runPins pins [PinCall.fetchPage m, PinCall.unpinPage d, PinCall.unpinPage m]
      = some (Function.update pins d (pins d - 1)) := by
  by_cases hbd : m = d
  · subst hbd
    have h2 : pins m ≠ 0 := by omega
    simp [runPins, PinCall.run, h2]
  · have h2 : pins d ≠ 0 := by omega
    simp [runPins, PinCall.run, Function.update_noteq (Ne.symm hbd), Function.update_noteq hbd, h2]
    funext q
    by_cases h1 : q = m
    · subst h1; simp [Function.update_noteq hbd]
    · by_cases h3 : q = d
      · subst h3; simp [Function.update_noteq h1]
      · simp [Function.update_noteq h1, Function.update_noteq h3]

theorem runPins_release (pins : Int → Nat) (d : Int) (hd : 1 ≤ pins d) :
    runPins pins [PinCall.unpinPage d] = some (Function.update pins d (pins d - 1)) := by
  have h2 : pins d ≠ 0 := by omega
  simp [runPins, PinCall.run, h2]

/-- While page `d` is pinned, the calls of a split: fetch the split page, create the image page,
unpin `d`, the split page and the image page.  When no `assert` fails the image page is neither
`d` nor the split page, and the counts are as before without the pin of `d`, with 0 for the
image page. -/
theorem runPins_split (pins : Int → Nat) (d s i : Int) (hd : 1 ≤ pins d) :
    (∀ pins1, runPins pins [PinCall.fetchPage s, PinCall.newPage i, PinCall.unpinPage d,
        PinCall.unpinPage s, PinCall.unpinPage i] = some pins1 →
      pins1 = Function.update (Function.update pins d (pins d - 1)) i 0) ∧
    (i ≠ d → i ≠ s → ∃ pins1, runPins pins [PinCall.fetchPage s, PinCall.newPage i,
        PinCall.unpinPage d, PinCall.unpinPage s, PinCall.unpinPage i] = some pins1) := by
  have h2 : pins d ≠ 0 := by omega
  by_cases hid : i = d
  · subst hid
    refine ⟨fun pins1 h => ?_, fun h => absurd rfl h⟩
    exfalso
    by_cases hsd : s = i
    · subst hsd
      simp [runPins, PinCall.run] at h
    · simp [runPins, PinCall.run, Function.update_noteq hsd,
        Function.update_noteq (Ne.symm hsd)] at h
  · by_cases his : i = s
    · subst his
      refine ⟨fun pins1 h => ?_, fun _ h => absurd rfl h⟩
      exfalso
      simp [runPins, PinCall.run, Function.update_noteq hid,
        Function.update_noteq (Ne.symm hid), h2] at h
    · have key : runPins pins [PinCall.fetchPage s, PinCall.newPage i, PinCall.unpinPage d,
          PinCall.unpinPage s, PinCall.unpinPage i]
          = some (Function.update (Function.update pins d (pins d - 1)) i 0) := by
        by_cases hsd : s = d
        · subst hsd
          simp [runPins, PinCall.run, Function.update_noteq his,
            Function.update_noteq (Ne.symm his), h2]
          funext q
          simp only [Function.update_apply]
          split_ifs <;> omega
        · simp [runPins, PinCall.run, Function.update_noteq his,
            Function.update_noteq (Ne.symm his), Function.update_noteq hid,
            Function.update_noteq (Ne.symm hid), Function.update_noteq hsd,
            Function.update_noteq (Ne.symm hsd), h2]
          funext q
          simp only [Function.update_apply]
          split_ifs <;> first | rfl | omega | simp_all
      exact ⟨fun pins1 h => by rw [key] at h; exact (Option.some.inj h).symm, fun _ _ => ⟨_, key⟩⟩

/-- While page `d` is pinned, the calls of a merge that deletes page `m`: fetch `m`, unpin it,
delete it, unpin `d`.  When no `assert` fails the counts are as before without the pin of `d`;
no `assert` fails when `m` is not `d` and was not pinned. -/
theorem runPins_merge (pins : Int → Nat) (d m : Int) (hd : 1 ≤ pins d) :
    (∀ pins1, runPins pins [PinCall.fetchPage m, PinCall.unpinPage m, PinCall.deletePage m,
        PinCall.unpinPage d] = some pins1 →
      pins1 = Function.update pins d (pins d - 1)) ∧
    (m ≠ d → pins m = 0 → ∃ pins1, runPins pins [PinCall.fetchPage m, PinCall.unpinPage m,
        PinCall.deletePage m, PinCall.unpinPage d] = some pins1) := by
  have h2 : pins d ≠ 0 := by omega
  have hback : Function.update (Function.update pins m (pins m + 1)) m (pins m) = pins := by
    rw [Function.update_idem, Function.update_eq_self]
  by_cases hm : pins m = 0
  · have key : runPins pins [PinCall.fetchPage m, PinCall.unpinPage m, PinCall.deletePage m,
        PinCall.unpinPage d] = some (Function.update pins d (pins d - 1)) := by
      have h0 : Function.update pins m 0 = pins := by
        funext q
        rw [Function.update_apply]
        split
        · rename_i hq; rw [hq, hm]
        · rfl
      simp [runPins, PinCall.run, hm, h0, h2]
    exact ⟨fun pins1 h => by rw [key] at h; exact (Option.some.inj h).symm, fun _ _ => ⟨_, key⟩⟩
  · refine ⟨fun pins1 h => ?_, fun _ h => absurd h hm⟩
    exfalso
    simp [runPins, PinCall.run, hback, hm, Nat.pos_of_ne_zero hm] at h

theorem splitWalkDown_page_id (distance depth_idx : Nat) (page_id : Int) :
    ∀ (fuel i : Nat) (dir : HashTableDirectoryPage),
      (splitWalkDown distance depth_idx page_id fuel i dir).page_id_ = dir.page_id_
  | 0, _, _ => rfl
  | fuel + 1, i, dir => by
    unfold splitWalkDown
    split
    · split
      · rfl
      · rw [splitWalkDown_page_id distance depth_idx page_id fuel]
        rfl
    · rfl

theorem splitWalkUp_page_id (distance depth_idx : Nat) (page_id : Int) :
    ∀ (fuel i : Nat) (dir : HashTableDirectoryPage),
      (splitWalkUp distance depth_idx page_id fuel i dir).page_id_ = dir.page_id_
  | 0, _, _ => rfl
  | fuel + 1, i, dir => by
    unfold splitWalkUp
    split
    · rw [splitWalkUp_page_id distance depth_idx page_id fuel]
      rfl
    · rfl

theorem mergeWalkDown_page_id (distance : Nat) (page_id : Int) :
    ∀ (fuel i : Nat) (dir : HashTableDirectoryPage),
      (mergeWalkDown distance page_id fuel i dir).page_id_ = dir.page_id_
  | 0, _, _ => rfl
  | fuel + 1, i, dir => by
    unfold mergeWalkDown
    split
    · split
      · rfl
      · rw [mergeWalkDown_page_id distance page_id fuel]
        rfl
    · rfl

theorem mergeWalkUp_page_id (distance : Nat) (page_id : Int) :
    ∀ (fuel i : Nat) (dir : HashTableDirectoryPage),
      (mergeWalkUp distance page_id fuel i dir).page_id_ = dir.page_id_
  | 0, _, _ => rfl
  | fuel + 1, i, dir => by
    unfold mergeWalkUp
    split
    · rw [mergeWalkUp_page_id distance page_id fuel]
      rfl
    · rfl

theorem IncrGlobalDepth_page_id (d : HashTableDirectoryPage) :
    d.IncrGlobalDepth.page_id_ = d.page_id_ := by
  have hloop : ∀ (l : List Nat) (old : Nat) (acc : HashTableDirectoryPage),
      (l.foldl (fun (acc : HashTableDirectoryPage) i =>
        { acc with
          bucket_page_ids_ := acc.bucket_page_ids_.set (old + i) (acc.bucket_page_ids_.getD i 0)
          local_depths_ := acc.local_depths_.set (old + i) (acc.local_depths_.getD i 0) })
        acc).page_id_ = acc.page_id_ := by
    intro l old
    induction l with
    | nil => intro acc; rfl
    | cons x rest ih =>
      intro acc
      rw [List.foldl_cons, ih]
  unfold HashTableDirectoryPage.IncrGlobalDepth
  exact hloop _ _ _

section PinsOfTable

variable {K V : Type} [DecidableEq K] [DecidableEq V] [Inhabited K] [Inhabited V]

omit [DecidableEq K] [DecidableEq V] in
/-- The split leaves the page id the directory page carries as it is. -/
theorem SplitDirectory_page_id (t0 : ExtendibleHashTable K V) (key : K) :
    (t0.SplitDirectory key).page_id_ = t0.FetchDirectoryPage.directory.page_id_ := by
  unfold ExtendibleHashTable.SplitDirectory
  simp only
  rw [splitWalkUp_page_id, splitWalkDown_page_id, splitWalkUp_page_id, splitWalkDown_page_id]
  show (t0.SplitGrownDirectory key).page_id_ = _
  unfold ExtendibleHashTable.SplitGrownDirectory
  simp only
  split
  · exact IncrGlobalDepth_page_id _
  · rfl

theorem shrink_page_id (d : HashTableDirectoryPage) :
    (if d.CanShrink = true then d.DecrGlobalDepth else d).page_id_ = d.page_id_ := by
  by_cases hc : d.CanShrink = true
  · rw [if_pos hc]
    unfold HashTableDirectoryPage.DecrGlobalDepth
    exact rfl
  · rw [if_neg hc]

omit [DecidableEq K] [DecidableEq V] in
/-- The merge leaves the page id the directory page carries and the page id the table keeps as
they are. -/
theorem Merge_page_id (t0 : ExtendibleHashTable K V) (key : K) :
    (t0.Merge key).directory.page_id_ = t0.FetchDirectoryPage.directory.page_id_ ∧
      (t0.Merge key).directory_page_id_ = t0.FetchDirectoryPage.directory_page_id_ ∧
      (t0.Merge key).next_page_id = t0.FetchDirectoryPage.next_page_id := by
  unfold ExtendibleHashTable.Merge
  generalize t0.FetchDirectoryPage = t
  simp only
  split
  · exact ⟨rfl, rfl, rfl⟩
  · split
    · exact ⟨rfl, rfl, rfl⟩
    · split
      · exact ⟨rfl, rfl, rfl⟩
      · split
        · exact ⟨rfl, rfl, rfl⟩
        · refine ⟨?_, rfl, rfl⟩
          dsimp only
          refine (shrink_page_id _).trans ?_
          refine (mergeWalkUp_page_id _ _ _ _ _).trans ?_
          refine (mergeWalkDown_page_id _ _ _ _ _).trans ?_
          unfold HashTableDirectoryPage.DecrLocalDepth HashTableDirectoryPage.SetBucketPageId
          exact rfl

omit [DecidableEq K] [DecidableEq V] in
/-- After `FetchDirectoryPage` the directory page carries the page id the table keeps. -/
theorem FetchDirectoryPage_page_id (t : ExtendibleHashTable K V) (h : t.DirectoryIdKept) :
    t.FetchDirectoryPage.directory.GetPageId = t.FetchDirectoryPage.directory_page_id_ := by
  unfold ExtendibleHashTable.FetchDirectoryPage
  split
  · rfl
  · rename_i hdir
    exact h.page_id_eq hdir

omit [DecidableEq K] [DecidableEq V] in
/-- The calls of `FetchDirectoryPage` pass their `assert`s and leave the directory page pinned
once more than before; without that pin the counts are restored. -/
theorem FetchDirectoryPagePins_run (t : ExtendibleHashTable K V) (pins : Int → Nat) :
    ∃ pins1, runPins pins t.FetchDirectoryPagePins = some pins1 ∧
      1 ≤ pins1 t.FetchDirectoryPage.directory_page_id_ ∧
      PinsRestored pins
        (Function.update pins1 t.FetchDirectoryPage.directory_page_id_
          (pins1 t.FetchDirectoryPage.directory_page_id_ - 1))
        t.FetchDirectoryPagePins := by
  unfold ExtendibleHashTable.FetchDirectoryPagePins ExtendibleHashTable.FetchDirectoryPage
  by_cases hdir : t.directory_page_id_ = INVALID_PAGE_ID
  · simp only [if_pos hdir]
    have hne : t.next_page_id + 1 ≠ t.next_page_id := by omega
    refine ⟨Function.update (Function.update pins t.next_page_id 1) (t.next_page_id + 1) 0,
      ?_, ?_, ?_⟩
    · simp [runPins, PinCall.run, Function.update_noteq hne, Function.update_noteq (Ne.symm hne)]
    · simp [Function.update_noteq (Ne.symm hne)]
    · intro p
      simp only [List.cons_append, List.nil_append, createdPages, Function.update_apply,
        List.mem_cons, List.mem_singleton, List.not_mem_nil, or_false]
      split_ifs <;> first | rfl | omega
  · simp only [if_neg hdir]
    refine ⟨Function.update pins t.directory_page_id_ (pins t.directory_page_id_ + 1), ?_, ?_, ?_⟩
    · simp [runPins, PinCall.run]
    · simp
    · intro p
      simp only [List.nil_append, createdPages, Function.update_apply, List.not_mem_nil, if_false]
      split_ifs <;> first | rfl | omega | simp_all

end PinsOfTable

section PinsOfCalls

variable {K V : Type} [DecidableEq K] [DecidableEq V] [Inhabited K] [Inhabited V]

theorem PinsRestored.append_quiet {pins pins1 : Int → Nat} {a b : List PinCall}
    (h : PinsRestored pins pins1 a) (hb : createdPages b = []) :
    PinsRestored pins pins1 (a ++ b) := by
  intro p
  rw [createdPages_append, hb, List.append_nil]
  exact h p

omit [DecidableEq K] [DecidableEq V] in
/-- The calls common to `GetValue`, `Insert` and `Remove`: the directory page, then the page of
a bucket, both unpinned again.  No `assert` fails and the pin counts are restored. -/
theorem headPins_run (t : ExtendibleHashTable K V) (hk : t.DirectoryIdKept) (b : Int)
    (pins : Int → Nat) :
    ∃ pins1, runPins pins (t.FetchDirectoryPagePins ++
        [PinCall.fetchPage b, PinCall.unpinPage b,
          PinCall.unpinPage t.FetchDirectoryPage.directory.GetPageId]) = some pins1 ∧
      PinsRestored pins pins1 (t.FetchDirectoryPagePins ++
        [PinCall.fetchPage b, PinCall.unpinPage b,
          PinCall.unpinPage t.FetchDirectoryPage.directory.GetPageId]) ∧
      PinsRestored pins pins1 t.FetchDirectoryPagePins := by
  obtain ⟨p1, hrun, h1, hres⟩ := FetchDirectoryPagePins_run t pins
  refine ⟨_, ?_, hres.append_quiet rfl, hres⟩
  rw [runPins_append, hrun, FetchDirectoryPage_page_id t hk]
  exact runPins_bracket p1 _ b h1

omit [DecidableEq K] [DecidableEq V] in
theorem ExtendibleHashTable.DirectoryIdKept.fetched {t : ExtendibleHashTable K V} (hk : t.DirectoryIdKept) :
    t.FetchDirectoryPage.DirectoryIdKept ∧
      t.FetchDirectoryPage.FetchDirectoryPage = t.FetchDirectoryPage :=
  have hc : t.FetchDirectoryPage.FetchDirectoryPage = t.FetchDirectoryPage :=
    FetchDirectoryPage_created hk.fetched_valid
  ⟨⟨by rw [hc]; exact hk.fetched_valid, fun _ => FetchDirectoryPage_page_id t hk⟩, hc⟩

omit [DecidableEq K] [DecidableEq V] in
/-- The calls of one split step: when no `assert` fails the pin counts are restored, with 0 for
the image page; and no `assert` fails when `next_page_id` is neither the id of the directory page
nor that of the page that is split. -/
theorem SplitStepPins_run (t : ExtendibleHashTable K V) (hk : t.DirectoryIdKept) (key : K)
    (pins : Int → Nat) :
    (∀ pins1, runPins pins (t.SplitStepPins key) = some pins1 →
      PinsRestored pins pins1 (t.SplitStepPins key)) ∧
    (t.FetchDirectoryPage.next_page_id ≠ t.FetchDirectoryPage.directory_page_id_ →
      t.FetchDirectoryPage.next_page_id ≠ t.SplitBucketPageId key →
      ∃ pins1, runPins pins (t.SplitStepPins key) = some pins1) := by
  obtain ⟨p1, hrun, h1, hres⟩ := FetchDirectoryPagePins_run t pins
  unfold ExtendibleHashTable.SplitStepPins
  simp only
  split
  · have hr : runPins pins (t.FetchDirectoryPagePins ++
        [PinCall.unpinPage t.FetchDirectoryPage.directory.GetPageId])
        = some (Function.update p1 t.FetchDirectoryPage.directory_page_id_
          (p1 t.FetchDirectoryPage.directory_page_id_ - 1)) := by
      rw [runPins_append, hrun, FetchDirectoryPage_page_id t hk]
      exact runPins_release p1 _ h1
    refine ⟨fun pins1 h => ?_, fun _ _ => ⟨_, hr⟩⟩
    rw [hr] at h
    rw [← Option.some.inj h]
    exact hres.append_quiet rfl
  · have hpid : (t.SplitDirectory key).GetPageId = t.FetchDirectoryPage.directory_page_id_ := by
      rw [← FetchDirectoryPage_page_id t hk]
      exact SplitDirectory_page_id t key
    rw [hpid]
    obtain ⟨hs1, hs2⟩ := runPins_split p1 t.FetchDirectoryPage.directory_page_id_
      (t.SplitBucketPageId key) t.FetchDirectoryPage.next_page_id h1
    refine ⟨fun pins1 h => ?_, fun hn1 hn2 => ?_⟩
    · rw [runPins_append, hrun] at h
      have := hs1 pins1 h
      intro p
      rw [this, createdPages_append]
      have hp := hres p
      simp only [createdPages, List.mem_append, List.mem_singleton]
      rw [Function.update_apply]
      by_cases hpi : p = t.FetchDirectoryPage.next_page_id
      · simp [hpi]
      · rw [if_neg hpi, hp]
        simp [hpi]
    · obtain ⟨pins1, h⟩ := hs2 hn1 hn2
      exact ⟨pins1, by rw [runPins_append, hrun]; exact h⟩

end PinsOfCalls

section PinsOfInsert

variable {K V : Type} [DecidableEq K] [DecidableEq V] [Inhabited K] [Inhabited V]

/-- A split step keeps the page id of the directory page. -/
theorem SplitStep_keeps_directory_id {t t1 : ExtendibleHashTable K V} (hk : t.DirectoryIdKept)
    {key : K} (h : t.SplitStep key = some t1) :
    t1.DirectoryIdKept ∧ t1.directory_page_id_ = t.FetchDirectoryPage.directory_page_id_ ∧
      t1.next_page_id = t.FetchDirectoryPage.next_page_id + 1 ∧
      t1.directory = t.SplitDirectory key := by
  rw [SplitStep_eq] at h
  split at h
  · cases h
  · have h1 := Option.some.inj h
    subst h1
    have hid : t.FetchDirectoryPage.directory_page_id_ ≠ INVALID_PAGE_ID := hk.fetched_valid
    refine ⟨⟨?_, fun _ => ?_⟩, rfl, rfl, rfl⟩
    · rw [FetchDirectoryPage_created (by exact hid)]
      exact hid
    · show (t.SplitDirectory key).page_id_ = t.FetchDirectoryPage.directory_page_id_
      rw [SplitDirectory_page_id]
      exact FetchDirectoryPage_page_id t hk

/-- The calls of `Insert`: when no `assert` fails the pin counts are restored, with 0 for the
pages created. -/
theorem InsertPins_restored (key : K) (value : V) :
    ∀ (fuel : Nat) (t : ExtendibleHashTable K V) (calls : List PinCall) (pins pins1 : Int → Nat),
      t.DirectoryIdKept → t.InsertPins fuel key value = some calls →
      runPins pins calls = some pins1 → PinsRestored pins pins1 calls := by
  intro fuel
  induction fuel with
  | zero =>
    intro t calls pins pins1 hk hc hr
    obtain ⟨pA, hAr, hA, _⟩ := headPins_run t hk
      (t.FetchDirectoryPage.KeyToPageId key t.FetchDirectoryPage.directory) pins
    unfold ExtendibleHashTable.InsertPins at hc
    simp only at hc
    split at hc
    · cases Option.some.inj hc
      rw [hAr] at hr
      cases Option.some.inj hr
      exact hA
    · cases hc
  | succ fuel ih =>
    intro t calls pins pins1 hk hc hr
    obtain ⟨pA, hAr, hA, _⟩ := headPins_run t hk
      (t.FetchDirectoryPage.KeyToPageId key t.FetchDirectoryPage.directory) pins
    unfold ExtendibleHashTable.InsertPins at hc
    simp only at hc
    split at hc
    · cases Option.some.inj hc
      rw [hAr] at hr
      cases Option.some.inj hr
      exact hA
    · obtain ⟨hk1, hfix⟩ := hk.fetched
      split at hc
      · cases Option.some.inj hc
        rw [runPins_append, hAr] at hr
        exact hA.trans ((SplitStepPins_run _ hk1 key pA).1 pins1 hr)
      · rename_i t1 hs
        obtain ⟨rest, hrest, hcalls⟩ := Option.map_eq_some'.mp hc
        subst hcalls
        rw [runPins_append, runPins_append, hAr] at hr
        simp only [Option.some_bind] at hr
        obtain ⟨pB, hB, hr2⟩ := Option.bind_eq_some.mp hr
        have hsplit := (SplitStepPins_run _ hk1 key pA).1 pB hB
        have hlast := ih t1 rest pB pins1 (SplitStep_keeps_directory_id hk1 hs).1 hrest hr2
        exact (hA.trans hsplit).trans hlast

/-- The calls of `Insert` are there exactly when the bound on the number of splits suffices for
`Insert` to return. -/
theorem InsertPins_isSome (key : K) (value : V) :
    ∀ (fuel : Nat) (t : ExtendibleHashTable K V),
      (t.InsertPins fuel key value).isSome = (t.Insert fuel key value).isSome := by
  intro fuel
  induction fuel with
  | zero =>
    intro t
    unfold ExtendibleHashTable.InsertPins ExtendibleHashTable.Insert
    simp only
    split <;> rfl
  | succ fuel ih =>
    intro t
    unfold ExtendibleHashTable.InsertPins ExtendibleHashTable.Insert
    simp only
    split
    · rfl
    · cases hs : t.FetchDirectoryPage.SplitStep key with
      | none => rfl
      | some t1 =>
        simp only [Option.isSome_map']
        exact ih t1

end PinsOfInsert

section PinsOfRemove

variable {K V : Type} [DecidableEq K] [DecidableEq V] [Inhabited K] [Inhabited V]

omit [DecidableEq K] [DecidableEq V] [Inhabited K] [Inhabited V] in
/-- The directory index of a key lies below the size of the directory, so `Merge` never takes its
first return. -/
theorem KeyToDirectoryIndex_lt_Size (t : ExtendibleHashTable K V) (key : K)
    (dir : HashTableDirectoryPage) : t.KeyToDirectoryIndex key dir < dir.Size := by
  unfold ExtendibleHashTable.KeyToDirectoryIndex HashTableDirectoryPage.GetGlobalDepthMask
    HashTableDirectoryPage.Size
  exact lt_of_lt_of_eq (mask_index_lt (t.Hash key) dir.global_depth_)
    (Nat.one_shiftLeft dir.global_depth_).symm

omit [DecidableEq K] [DecidableEq V] in
/-- The calls of `Merge`: when no `assert` fails the pin counts are restored; and no `assert`
fails when the page of the bucket of the key is not the directory page and is not pinned. -/
theorem MergePins_run (t : ExtendibleHashTable K V) (hk : t.DirectoryIdKept) (key : K)
    (pins : Int → Nat) :
    (∀ pins1, runPins pins (t.MergePins key) = some pins1 →
      PinsRestored pins pins1 (t.MergePins key)) ∧
    (t.FetchDirectoryPage.KeyToPageId key t.FetchDirectoryPage.directory
        ≠ t.FetchDirectoryPage.directory_page_id_ →
      pins (t.FetchDirectoryPage.KeyToPageId key t.FetchDirectoryPage.directory) = 0 →
      ∃ pins1, runPins pins (t.MergePins key) = some pins1) := by
  obtain ⟨p1, hrun, h1, hres⟩ := FetchDirectoryPagePins_run t pins
  have hrel : runPins pins (t.FetchDirectoryPagePins ++
      [PinCall.unpinPage t.FetchDirectoryPage.directory.GetPageId])
      = some (Function.update p1 t.FetchDirectoryPage.directory_page_id_
        (p1 t.FetchDirectoryPage.directory_page_id_ - 1)) := by
    rw [runPins_append, hrun, FetchDirectoryPage_page_id t hk]
    exact runPins_release p1 _ h1
  unfold ExtendibleHashTable.MergePins
  simp only
  split
  · rename_i hge
    exact absurd (KeyToDirectoryIndex_lt_Size t.FetchDirectoryPage key
      t.FetchDirectoryPage.directory) (Nat.not_lt.mpr hge)
  · split
    · refine ⟨fun pins1 h => ?_, fun _ _ => ⟨_, hrel⟩⟩
      rw [hrel] at h
      rw [← Option.some.inj h]
      exact hres.append_quiet rfl
    · split
      · refine ⟨fun pins1 h => ?_, fun _ _ => ⟨_, hrel⟩⟩
        rw [hrel] at h
        rw [← Option.some.inj h]
        exact hres.append_quiet rfl
      · split
        · have hr : runPins pins (t.FetchDirectoryPagePins ++
              [PinCall.fetchPage (t.FetchDirectoryPage.directory.GetBucketPageId
                  (t.FetchDirectoryPage.KeyToDirectoryIndex key t.FetchDirectoryPage.directory)),
                PinCall.unpinPage t.FetchDirectoryPage.directory.GetPageId,
                PinCall.unpinPage (t.FetchDirectoryPage.directory.GetBucketPageId
                  (t.FetchDirectoryPage.KeyToDirectoryIndex key
                    t.FetchDirectoryPage.directory))])
              = some (Function.update p1 t.FetchDirectoryPage.directory_page_id_
                (p1 t.FetchDirectoryPage.directory_page_id_ - 1)) := by
            rw [runPins_append, hrun, FetchDirectoryPage_page_id t hk]
            exact runPins_cross p1 _ _ h1
          refine ⟨fun pins1 h => ?_, fun _ _ => ⟨_, hr⟩⟩
          rw [hr] at h
          rw [← Option.some.inj h]
          exact hres.append_quiet rfl
        · have hpid : (t.Merge key).directory.GetPageId
              = t.FetchDirectoryPage.directory_page_id_ := by
            rw [← FetchDirectoryPage_page_id t hk]
            exact (Merge_page_id t key).1
          rw [hpid]
          obtain ⟨hm1, hm2⟩ := runPins_merge p1 t.FetchDirectoryPage.directory_page_id_
            (t.FetchDirectoryPage.directory.GetBucketPageId
              (t.FetchDirectoryPage.KeyToDirectoryIndex key t.FetchDirectoryPage.directory)) h1
          refine ⟨fun pins1 h => ?_, fun hne h0 => ?_⟩
          · rw [runPins_append, hrun] at h
            rw [hm1 pins1 h]
            exact hres.append_quiet rfl
          · have hp1 : p1 (t.FetchDirectoryPage.directory.GetBucketPageId
                (t.FetchDirectoryPage.KeyToDirectoryIndex key t.FetchDirectoryPage.directory))
                = 0 := by
              have := hres (t.FetchDirectoryPage.directory.GetBucketPageId
                (t.FetchDirectoryPage.KeyToDirectoryIndex key t.FetchDirectoryPage.directory))
              have hne1 : t.FetchDirectoryPage.directory.GetBucketPageId
                  (t.FetchDirectoryPage.KeyToDirectoryIndex key t.FetchDirectoryPage.directory)
                  ≠ t.FetchDirectoryPage.directory_page_id_ := hne
              rw [Function.update_noteq hne1] at this
              rw [this]
              split
              · rfl
              · exact h0
            obtain ⟨pins1, h⟩ := hm2 hne hp1
            exact ⟨pins1, by rw [runPins_append, hrun]; exact h⟩

/-- The calls of `Remove`: when no `assert` fails the pin counts are restored; and no `assert`
fails when the page of the bucket of the key is not the directory page and is not pinned. -/
theorem RemovePins_run (t : ExtendibleHashTable K V) (hk : t.DirectoryIdKept) (key : K)
    (value : V) (pins : Int → Nat) :
    (∀ pins1, runPins pins (t.RemovePins key value) = some pins1 →
      PinsRestored pins pins1 (t.RemovePins key value)) ∧
    (t.FetchDirectoryPage.KeyToPageId key t.FetchDirectoryPage.directory
        ≠ t.FetchDirectoryPage.directory_page_id_ →
      pins (t.FetchDirectoryPage.KeyToPageId key t.FetchDirectoryPage.directory) = 0 →
      ∃ pins1, runPins pins (t.RemovePins key value) = some pins1) := by
  obtain ⟨pA, hAr, hA, hA0⟩ := headPins_run t hk
    (t.FetchDirectoryPage.KeyToPageId key t.FetchDirectoryPage.directory) pins
  obtain ⟨hk1, hfix⟩ := hk.fetched
  unfold ExtendibleHashTable.RemovePins
  simp only
  split
  · have hk2 : ExtendibleHashTable.DirectoryIdKept
        { t.FetchDirectoryPage with
          buckets := Function.update t.FetchDirectoryPage.buckets
            (t.FetchDirectoryPage.KeyToPageId key t.FetchDirectoryPage.directory)
            ((t.FetchDirectoryPage.buckets
              (t.FetchDirectoryPage.KeyToPageId key t.FetchDirectoryPage.directory)).Remove
              t.FetchDirectoryPage.BUCKET_ARRAY_SIZE key value).2 } := by
      constructor
      · rw [FetchDirectoryPage_created (by exact hk.fetched_valid)]
        exact hk.fetched_valid
      · intro _
        exact FetchDirectoryPage_page_id t hk
    have hc2 : ExtendibleHashTable.FetchDirectoryPage
        { t.FetchDirectoryPage with
          buckets := Function.update t.FetchDirectoryPage.buckets
            (t.FetchDirectoryPage.KeyToPageId key t.FetchDirectoryPage.directory)
            ((t.FetchDirectoryPage.buckets
              (t.FetchDirectoryPage.KeyToPageId key t.FetchDirectoryPage.directory)).Remove
              t.FetchDirectoryPage.BUCKET_ARRAY_SIZE key value).2 } = _ :=
      FetchDirectoryPage_created (by exact hk.fetched_valid)
    obtain ⟨hm1, hm2⟩ := MergePins_run _ hk2 key pA
    refine ⟨fun pins1 h => ?_, fun hne h0 => ?_⟩
    · rw [runPins_append, hAr] at h
      exact hA.trans (hm1 pins1 h)
    · rw [hc2] at hm2
      have hpA : pA (t.FetchDirectoryPage.KeyToPageId key t.FetchDirectoryPage.directory)
          = 0 := by
        rw [hA _]
        split
        · rfl
        · exact h0
      obtain ⟨pins1, h⟩ := hm2 hne hpA
      exact ⟨pins1, by rw [runPins_append, hAr]; exact h⟩
  · refine ⟨fun pins1 h => ?_, fun _ _ => ⟨_, hAr⟩⟩
    rw [hAr] at h
    rw [← Option.some.inj h]
    exact hA

end PinsOfRemove

theorem IdsBelow_SetBucketPageId {d : HashTableDirectoryPage} {n : Int} (h : d.IdsBelow n)
    (j : Nat) {p : Int} (hp : p < n) : (d.SetBucketPageId j p).IdsBelow n := by
  intro i
  show (d.bucket_page_ids_.set j p).getD i 0 < n
  by_cases hij : j = i
  · subst hij
    by_cases hlt : j < d.bucket_page_ids_.length
    · rw [getD_set_self _ _ _ _ hlt]
      exact hp
    · rw [List.set_eq_of_length_le (by omega)]
      exact h j
  · rw [getD_set_ne _ _ _ hij]
    exact h i

theorem IdsBelow_splitWalkDown {n : Int} (distance depth_idx : Nat) {page_id : Int}
    (hp : page_id < n) :
    ∀ (fuel i : Nat) (dir : HashTableDirectoryPage), dir.IdsBelow n →
      (splitWalkDown distance depth_idx page_id fuel i dir).IdsBelow n
  | 0, _, _, h => h
  | fuel + 1, i, dir, h => by
    unfold splitWalkDown
    split
    · split
      · exact h
      · exact IdsBelow_splitWalkDown distance depth_idx hp fuel _ _
          (IdsBelow_SetBucketPageId (fun k => h k) i hp)
    · exact h

theorem IdsBelow_splitWalkUp {n : Int} (distance depth_idx : Nat) {page_id : Int}
    (hp : page_id < n) :
    ∀ (fuel i : Nat) (dir : HashTableDirectoryPage), dir.IdsBelow n →
      (splitWalkUp distance depth_idx page_id fuel i dir).IdsBelow n
  | 0, _, _, h => h
  | fuel + 1, i, dir, h => by
    unfold splitWalkUp
    split
    · exact IdsBelow_splitWalkUp distance depth_idx hp fuel _ _
        (fun k => IdsBelow_SetBucketPageId h i hp k)
    · exact h

theorem IdsBelow_IncrGlobalDepth {d : HashTableDirectoryPage} {n : Int} (h : d.IdsBelow n) :
    d.IncrGlobalDepth.IdsBelow n := by
  have hloop : ∀ (l : List Nat) (old : Nat) (acc : HashTableDirectoryPage), acc.IdsBelow n →
      HashTableDirectoryPage.IdsBelow (l.foldl (fun (acc : HashTableDirectoryPage) i =>
        { acc with
          bucket_page_ids_ := acc.bucket_page_ids_.set (old + i) (acc.bucket_page_ids_.getD i 0)
          local_depths_ := acc.local_depths_.set (old + i) (acc.local_depths_.getD i 0) })
        acc) n := by
    intro l old
    induction l with
    | nil => intro acc hacc; exact hacc
    | cons x rest ih =>
      intro acc hacc
      rw [List.foldl_cons]
      exact ih _ (fun k => IdsBelow_SetBucketPageId hacc (old + x) (hacc x) k)
  unfold HashTableDirectoryPage.IncrGlobalDepth
  exact fun k => hloop _ _ _ h k

section PinsAllocated

variable {K V : Type} [DecidableEq K] [DecidableEq V] [Inhabited K] [Inhabited V]

omit [DecidableEq K] [DecidableEq V] in
theorem IdsBelow_SplitGrownDirectory (t : ExtendibleHashTable K V) (key : K) {n : Int}
    (h : t.FetchDirectoryPage.directory.IdsBelow n) : (t.SplitGrownDirectory key).IdsBelow n := by
  unfold ExtendibleHashTable.SplitGrownDirectory
  simp only
  split
  · exact IdsBelow_IncrGlobalDepth h
  · exact h

omit [DecidableEq K] [DecidableEq V] in
/-- The directory after a split has the page ids it had and that of the image page. -/
theorem IdsBelow_SplitDirectory (t : ExtendibleHashTable K V) (key : K) {n : Int}
    (h : t.FetchDirectoryPage.directory.IdsBelow n) (hn : t.FetchDirectoryPage.next_page_id < n) :
    (t.SplitDirectory key).IdsBelow n := by
  have hg := IdsBelow_SplitGrownDirectory t key h
  have hs : t.SplitBucketPageId key < n := hg _
  unfold ExtendibleHashTable.SplitDirectory
  simp only
  refine IdsBelow_splitWalkUp _ _ hs _ _ _ ?_
  refine IdsBelow_splitWalkDown _ _ hn _ _ _ ?_
  refine IdsBelow_splitWalkUp _ _ hs _ _ _ ?_
  refine IdsBelow_splitWalkDown _ _ hs _ _ _ ?_
  exact fun k => IdsBelow_SetBucketPageId (fun j => hg j) _ hn k

omit [DecidableEq K] [DecidableEq V] in
theorem Allocated_FetchDirectoryPage {t : ExtendibleHashTable K V} (h : t.Allocated) :
    t.FetchDirectoryPage.directory_page_id_ < t.FetchDirectoryPage.next_page_id ∧
      t.FetchDirectoryPage.directory.IdsBelow t.FetchDirectoryPage.next_page_id ∧
      t.FetchDirectoryPage.Allocated := by
  have key : t.FetchDirectoryPage.directory_page_id_ < t.FetchDirectoryPage.next_page_id ∧
      t.FetchDirectoryPage.directory.IdsBelow t.FetchDirectoryPage.next_page_id ∧
      0 ≤ t.FetchDirectoryPage.next_page_id := by
    have h0 := h.next_nonneg
    unfold ExtendibleHashTable.FetchDirectoryPage
    split
    · refine ⟨by show t.next_page_id < t.next_page_id + 2; omega, ?_,
        by show 0 ≤ t.next_page_id + 2; omega⟩
      refine fun k => IdsBelow_SetBucketPageId (n := t.next_page_id + 2) (fun i => ?_) 0
        (by omega) k
      show (List.replicate (2 ^ t.MAX_BUCKET_DEPTH) (0 : Int)).getD i 0 < t.next_page_id + 2
      have : (List.replicate (2 ^ t.MAX_BUCKET_DEPTH) (0 : Int)).getD i 0 = 0 := by
        simp [List.getD_eq_getElem?_getD, List.getElem?_replicate]
        split <;> rfl
      rw [this]
      omega
    · rename_i hdir
      exact ⟨h.dir_lt hdir, h.ids_lt hdir, h0⟩
  exact ⟨key.1, key.2.1, ⟨key.2.2, fun _ => key.1, fun _ => key.2.1⟩⟩

/-- The calls of `Insert` on a table all of whose page ids have been handed out: no `assert`
fails. -/
theorem InsertPins_runs (key : K) (value : V) :
    ∀ (fuel : Nat) (t : ExtendibleHashTable K V) (calls : List PinCall) (pins : Int → Nat),
      t.DirectoryIdKept → t.Allocated → t.InsertPins fuel key value = some calls →
      ∃ pins1, runPins pins calls = some pins1 := by
  intro fuel
  induction fuel with
  | zero =>
    intro t calls pins hk _ hc
    obtain ⟨pA, hAr, _, _⟩ := headPins_run t hk
      (t.FetchDirectoryPage.KeyToPageId key t.FetchDirectoryPage.directory) pins
    unfold ExtendibleHashTable.InsertPins at hc
    simp only at hc
    split at hc
    · cases Option.some.inj hc
      exact ⟨pA, hAr⟩
    · cases hc
  | succ fuel ih =>
    intro t calls pins hk ha hc
    obtain ⟨pA, hAr, _, _⟩ := headPins_run t hk
      (t.FetchDirectoryPage.KeyToPageId key t.FetchDirectoryPage.directory) pins
    unfold ExtendibleHashTable.InsertPins at hc
    simp only at hc
    split at hc
    · cases Option.some.inj hc
      exact ⟨pA, hAr⟩
    · obtain ⟨hk1, hfix⟩ := hk.fetched
      obtain ⟨hd1, hi1, ha1⟩ := Allocated_FetchDirectoryPage ha
      have hsplit : ∃ pB, runPins pA (t.FetchDirectoryPage.SplitStepPins key) = some pB := by
        refine (SplitStepPins_run _ hk1 key pA).2 ?_ ?_
        · rw [hfix]
          omega
        · have h2 : t.FetchDirectoryPage.SplitBucketPageId key
              < t.FetchDirectoryPage.next_page_id :=
            IdsBelow_SplitGrownDirectory t.FetchDirectoryPage key (by rw [hfix]; exact hi1) _
          rw [hfix]
          omega
      obtain ⟨pB, hB⟩ := hsplit
      split at hc
      · cases Option.some.inj hc
        exact ⟨pB, by rw [runPins_append, hAr]; exact hB⟩
      · rename_i t1 hs
        obtain ⟨rest, hrest, hcalls⟩ := Option.map_eq_some'.mp hc
        subst hcalls
        obtain ⟨hk2, hd2, hn2, hdir2⟩ := SplitStep_keeps_directory_id hk1 hs
        have ha2 : t1.Allocated := by
          refine ⟨by rw [hn2, hfix]; have := ha1.next_nonneg; omega,
            fun _ => by rw [hd2, hn2, hfix]; omega, fun _ => ?_⟩
          rw [hdir2, hn2]
          exact IdsBelow_SplitDirectory _ key
            (fun k => by
              have := hi1 k
              rw [hfix]
              omega)
            (by omega)
        obtain ⟨pC, hC⟩ := ih t1 rest pB hk2 ha2 hrest
        exact ⟨pC, by
          rw [runPins_append, runPins_append, hAr]
          simp only [Option.some_bind]
          rw [hB]
          exact hC⟩

end PinsAllocated

theorem IdsBelow_mergeWalkDown {n : Int} (distance : Nat) {page_id : Int} (hp : page_id < n) :
    ∀ (fuel i : Nat) (dir : HashTableDirectoryPage), dir.IdsBelow n →
      (mergeWalkDown distance page_id fuel i dir).IdsBelow n
  | 0, _, _, h => h
  | fuel + 1, i, dir, h => by
    unfold mergeWalkDown
    split
    · split
      · exact h
      · exact IdsBelow_mergeWalkDown distance hp fuel _ _
          (fun k => IdsBelow_SetBucketPageId h i hp k)
    · exact h

theorem IdsBelow_mergeWalkUp {n : Int} (distance : Nat) {page_id : Int} (hp : page_id < n) :
    ∀ (fuel i : Nat) (dir : HashTableDirectoryPage), dir.IdsBelow n →
      (mergeWalkUp distance page_id fuel i dir).IdsBelow n
  | 0, _, _, h => h
  | fuel + 1, i, dir, h => by
    unfold mergeWalkUp
    split
    · exact IdsBelow_mergeWalkUp distance hp fuel _ _
        (fun k => IdsBelow_SetBucketPageId h i hp k)
    · exact h

theorem DecrGlobalDepth_ids (d : HashTableDirectoryPage) :
    d.DecrGlobalDepth.bucket_page_ids_ = d.bucket_page_ids_ := by
  unfold HashTableDirectoryPage.DecrGlobalDepth
  exact rfl

theorem IdsBelow_shrink {d : HashTableDirectoryPage} {n : Int} (h : d.IdsBelow n) :
    HashTableDirectoryPage.IdsBelow (if d.CanShrink = true then d.DecrGlobalDepth else d) n := by
  by_cases hc : d.CanShrink = true
  · rw [if_pos hc]
    intro k
    unfold HashTableDirectoryPage.GetBucketPageId
    rw [DecrGlobalDepth_ids]
    exact h k
  · rw [if_neg hc]
    exact h

section TableInvariants

variable {K V : Type} [DecidableEq K] [DecidableEq V] [Inhabited K] [Inhabited V]

omit [DecidableEq K] [DecidableEq V] in
/-- The merge brings no new page id into the directory. -/
theorem IdsBelow_Merge (t0 : ExtendibleHashTable K V) (key : K) {n : Int}
    (h : t0.FetchDirectoryPage.directory.IdsBelow n) : (t0.Merge key).directory.IdsBelow n := by
  unfold ExtendibleHashTable.Merge
  generalize t0.FetchDirectoryPage = t at h
  simp only
  split
  · exact h
  · split
    · exact h
    · split
      · exact h
      · split
        · exact h
        · dsimp only
          refine IdsBelow_shrink ?_
          refine IdsBelow_mergeWalkUp _ (h _) _ _ _ ?_
          refine IdsBelow_mergeWalkDown _ (h _) _ _ _ ?_
          exact fun k => IdsBelow_SetBucketPageId h _ (h _) k

omit [DecidableEq K] [DecidableEq V] in
/-- A freshly constructed table satisfies both invariants. -/
theorem new_invariants (BUCKET_ARRAY_SIZE MAX_BUCKET_DEPTH : Nat) (hash_fn : K → Nat) :
    (ExtendibleHashTable.new BUCKET_ARRAY_SIZE MAX_BUCKET_DEPTH hash_fn :
        ExtendibleHashTable K V).DirectoryIdKept ∧
      (ExtendibleHashTable.new BUCKET_ARRAY_SIZE MAX_BUCKET_DEPTH hash_fn :
        ExtendibleHashTable K V).Allocated :=
  ⟨⟨show (0 : Int) ≠ -1 by decide, fun h => absurd rfl h⟩,
    ⟨show (0 : Int) ≤ 0 by decide, fun h => absurd rfl h, fun h => absurd rfl h⟩⟩

omit [DecidableEq K] [DecidableEq V] in
/-- Writing a bucket page keeps both invariants. -/
theorem invariants_buckets {t : ExtendibleHashTable K V} (hk : t.DirectoryIdKept)
    (ha : t.Allocated) (buckets : Int → HashTableBucketPage K V) :
    ExtendibleHashTable.DirectoryIdKept { t.FetchDirectoryPage with buckets := buckets } ∧
      ExtendibleHashTable.Allocated { t.FetchDirectoryPage with buckets := buckets } := by
  obtain ⟨hd1, hi1, ha1⟩ := Allocated_FetchDirectoryPage ha
  refine ⟨⟨?_, fun _ => FetchDirectoryPage_page_id t hk⟩,
    ⟨ha1.next_nonneg, fun _ => hd1, fun _ => hi1⟩⟩
  rw [FetchDirectoryPage_created (by exact hk.fetched_valid)]
  exact hk.fetched_valid

/-- `Insert` keeps both invariants. -/
theorem Insert_invariants (key : K) (value : V) :
    ∀ (fuel : Nat) (t : ExtendibleHashTable K V) (r : Bool × ExtendibleHashTable K V),
      t.DirectoryIdKept → t.Allocated → t.Insert fuel key value = some r →
      r.2.DirectoryIdKept ∧ r.2.Allocated := by
  intro fuel
  induction fuel with
  | zero =>
    intro t r hk ha h
    unfold ExtendibleHashTable.Insert at h
    simp only at h
    split at h
    · cases Option.some.inj h
      exact invariants_buckets hk ha _
    · cases h
  | succ fuel ih =>
    intro t r hk ha h
    unfold ExtendibleHashTable.Insert at h
    simp only at h
    split at h
    · cases Option.some.inj h
      exact invariants_buckets hk ha _
    · obtain ⟨hk1, hfix⟩ := hk.fetched
      obtain ⟨hd1, hi1, ha1⟩ := Allocated_FetchDirectoryPage ha
      split at h
      · cases Option.some.inj h
        exact ⟨hk1, ha1⟩
      · rename_i t1 hs
        obtain ⟨hk2, hd2, hn2, hdir2⟩ := SplitStep_keeps_directory_id hk1 hs
        have ha2 : t1.Allocated := by
          refine ⟨by rw [hn2, hfix]; have := ha1.next_nonneg; omega,
            fun _ => by rw [hd2, hn2, hfix]; omega, fun _ => ?_⟩
          rw [hdir2, hn2]
          exact IdsBelow_SplitDirectory _ key
            (fun k => by
              have := hi1 k
              rw [hfix]
              omega)
            (by omega)
        exact ih t1 r hk2 ha2 h

/-- `Remove` keeps both invariants. -/
theorem Remove_invariants (t : ExtendibleHashTable K V) (key : K) (value : V)
    (hk : t.DirectoryIdKept) (ha : t.Allocated) :
    (t.Remove key value).2.DirectoryIdKept ∧ (t.Remove key value).2.Allocated := by
  unfold ExtendibleHashTable.Remove
  simp only
  split
  · obtain ⟨hk2, ha2⟩ := invariants_buckets hk ha
      (Function.update t.FetchDirectoryPage.buckets
        (t.FetchDirectoryPage.KeyToPageId key t.FetchDirectoryPage.directory)
        ((t.FetchDirectoryPage.buckets
          (t.FetchDirectoryPage.KeyToPageId key t.FetchDirectoryPage.directory)).Remove
          t.FetchDirectoryPage.BUCKET_ARRAY_SIZE key value).2)
    obtain ⟨hk3, hfix3⟩ := hk2.fetched
    obtain ⟨hd3, hi3, ha3⟩ := Allocated_FetchDirectoryPage ha2
    obtain ⟨m1, m2, m3⟩ := Merge_page_id
      { t.FetchDirectoryPage with
        buckets := Function.update t.FetchDirectoryPage.buckets
          (t.FetchDirectoryPage.KeyToPageId key t.FetchDirectoryPage.directory)
          ((t.FetchDirectoryPage.buckets
            (t.FetchDirectoryPage.KeyToPageId key t.FetchDirectoryPage.directory)).Remove
            t.FetchDirectoryPage.BUCKET_ARRAY_SIZE key value).2 } key
    have hvalid := hk3.fetched_valid
    rw [hfix3] at hvalid
    have hpid := hk3.page_id_eq hvalid
    refine ⟨⟨?_, fun _ => ?_⟩, ⟨?_, fun _ => ?_, fun _ => ?_⟩⟩
    · rw [FetchDirectoryPage_created (by rw [m2]; exact hvalid), m2]
      exact hvalid
    · rw [m1, m2]
      exact hpid
    · rw [m3]
      exact ha3.next_nonneg
    · rw [m2, m3]
      exact hd3
    · rw [m3]
      exact IdsBelow_Merge _ key hi3
  · exact invariants_buckets hk ha _

/-- Every table reached from a freshly constructed one by calls of `Insert` and `Remove`
satisfies both invariants. -/
theorem calls_invariants (fuel : Nat) :
    ∀ (cs : List (TableCall K V)) (t : ExtendibleHashTable K V)
      (r : List Bool × ExtendibleHashTable K V),
      t.DirectoryIdKept → t.Allocated → t.calls fuel cs = some r →
      r.2.DirectoryIdKept ∧ r.2.Allocated
  | [], t, r, hk, ha, h => by
    unfold ExtendibleHashTable.calls at h
    cases Option.some.inj h
    exact ⟨hk, ha⟩
  | TableCall.insert key value :: rest, t, r, hk, ha, h => by
    unfold ExtendibleHashTable.calls at h
    split at h
    · cases h
    · rename_i res t1 hi
      obtain ⟨r1, hr1, hr⟩ := Option.map_eq_some'.mp h
      obtain ⟨hk1, ha1⟩ := Insert_invariants key value fuel t (res, t1) hk ha hi
      have := calls_invariants fuel rest t1 r1 hk1 ha1 hr1
      rw [← hr]
      exact this
  | TableCall.remove key value :: rest, t, r, hk, ha, h => by
    unfold ExtendibleHashTable.calls at h
    obtain ⟨r1, hr1, hr⟩ := Option.map_eq_some'.mp h
    obtain ⟨hk1, ha1⟩ := Remove_invariants t key value hk ha
    have := calls_invariants fuel rest _ r1 hk1 ha1 hr1
    rw [← hr]
    exact this

end TableInvariants

section NoPinLeak

variable {K V : Type} [DecidableEq K] [DecidableEq V] [Inhabited K] [Inhabited V]

/-- C38. No pin leak in the hash index: for every table state whose directory page, once
created, carries the page id the table keeps (which holds of every table reached from a fresh
one), every key and value and all pin counts before the call: the buffer pool calls of
`GetValue` pass their `assert`s and leave every pin count as it was, with 0 for the pages
created; whenever the buffer pool calls of `Insert` (with every `SplitInsert` it triggers) or of
`Remove` (with the `Merge` it triggers) pass their `assert`s, so that the call returns, the pin
count of every page is what it was before the call and every page created during the call has
pin count 0.  The calls of `Insert` are there exactly when `Insert` returns within the bound on
the number of splits; they pass their `assert`s when every page id of the table has been handed
out, and those of `Remove` do when the page of the bucket of the key is not the directory page
and is not pinned. -/
theorem no_pin_leak (t : ExtendibleHashTable K V) (hk : t.DirectoryIdKept) (key : K) (value : V)
    (pins : Int → Nat) :
    (∃ pins1, runPins pins (t.GetValuePins key) = some pins1 ∧
      PinsRestored pins pins1 (t.GetValuePins key)) ∧
    (∀ fuel calls pins1, t.InsertPins fuel key value = some calls →
      runPins pins calls = some pins1 → PinsRestored pins pins1 calls) ∧
    (∀ fuel, (t.InsertPins fuel key value).isSome = (t.Insert fuel key value).isSome) ∧
    (t.Allocated → ∀ fuel calls, t.InsertPins fuel key value = some calls →
      ∃ pins1, runPins pins calls = some pins1) ∧
    (∀ pins1, runPins pins (t.RemovePins key value) = some pins1 →
      PinsRestored pins pins1 (t.RemovePins key value)) ∧
    (t.FetchDirectoryPage.KeyToPageId key t.FetchDirectoryPage.directory
        ≠ t.FetchDirectoryPage.directory_page_id_ →
      pins (t.FetchDirectoryPage.KeyToPageId key t.FetchDirectoryPage.directory) = 0 →
      ∃ pins1, runPins pins (t.RemovePins key value) = some pins1) := by
  refine ⟨?_, fun fuel calls pins1 hc hr => InsertPins_restored key value fuel t calls pins pins1
      hk hc hr, fun fuel => InsertPins_isSome key value fuel t,
    fun ha fuel calls hc => InsertPins_runs key value fuel t calls pins hk ha hc,
    (RemovePins_run t hk key value pins).1, (RemovePins_run t hk key value pins).2⟩
  obtain ⟨pA, hAr, hA, _⟩ := headPins_run t hk
    (t.FetchDirectoryPage.KeyToPageId key t.FetchDirectoryPage.directory) pins
  exact ⟨pA, hAr, hA⟩

end NoPinLeak

/-- Witness of C38: the table with two slots per bucket, maximal depth 4 and the identity as
hash function, holding (0, 0) and (1, 1), with no page pinned; Insert(2, 2) enters `SplitInsert`
five times, creates the pages 2, 3, 4 and 5, and its 46 buffer pool calls pass their
`assert`s. -/
theorem no_pin_leak_witness :
    tableTwoPairs.DirectoryIdKept ∧
    ((tableTwoPairs.InsertPins 5 2 2).map (fun calls => (calls.length, createdPages calls))
      = some (46, [2, 3, 4, 5])) ∧
    ((∃ pins1, runPins (fun _ => 0) (tableTwoPairs.GetValuePins 2) = some pins1 ∧
      PinsRestored (fun _ => 0) pins1 (tableTwoPairs.GetValuePins 2)) ∧
    (∀ fuel calls pins1, tableTwoPairs.InsertPins fuel 2 2 = some calls →
      runPins (fun _ => 0) calls = some pins1 → PinsRestored (fun _ => 0) pins1 calls) ∧
    (∀ fuel, (tableTwoPairs.InsertPins fuel 2 2).isSome = (tableTwoPairs.Insert fuel 2 2).isSome) ∧
    (tableTwoPairs.Allocated → ∀ fuel calls, tableTwoPairs.InsertPins fuel 2 2 = some calls →
      ∃ pins1, runPins (fun _ => 0) calls = some pins1) ∧
    (∀ pins1, runPins (fun _ => 0) (tableTwoPairs.RemovePins 2 2) = some pins1 →
      PinsRestored (fun _ => 0) pins1 (tableTwoPairs.RemovePins 2 2)) ∧
    (tableTwoPairs.FetchDirectoryPage.KeyToPageId 2 tableTwoPairs.FetchDirectoryPage.directory
        ≠ tableTwoPairs.FetchDirectoryPage.directory_page_id_ →
      (fun _ => 0 : Int → Nat)
        (tableTwoPairs.FetchDirectoryPage.KeyToPageId 2
          tableTwoPairs.FetchDirectoryPage.directory) = 0 →
      ∃ pins1, runPins (fun _ => 0) (tableTwoPairs.RemovePins 2 2) = some pins1)) :=
  have hk : tableTwoPairs.DirectoryIdKept := ⟨by decide, fun _ => by decide⟩
  ⟨hk, by decide!, no_pin_leak tableTwoPairs hk 2 2 (fun _ => 0)⟩

end bustub
